import Mathlib

/-!
# wavemap: the hashed chunked wavelet octree block

A shallow embedding of `HashedChunkedWaveletOctreeBlock`
(`library/cpp/src/core/map/hashed_chunked_wavelet_octree_block.cc`)
and theorems about its operations.

Conventions of the embedding.

* Scalars (`FloatingPoint`) are rationals: the theorems are about exact
  arithmetic.  Where a statement fails once the results of `float`
  operations are rounded, the rounding is made explicit (`roundFloat32`,
  `haarFloat32`, `addToCellValueRounded`).
* Heights are natural numbers; a negative height is a precondition violation
  of every operation.  Comparisons that the source writes with a subtraction
  (`a - k < b`) are written with the addition on the other side
  (`a < b + k`), which is the same comparison over the integers.
* Arrays are total functions on the naturals; the entries beyond the array
  length are never read or written.
* A pointer to a chunk is the path that leads to it from the root chunk
  (the list of child slots to follow); dereferencing a null pointer makes the
  operation return `none`.
-/

namespace wavemap

/-! ## Coefficients and the wavelet transform -/

/-- The seven detail coefficients of a node (`Coefficients::Details`). -/
abbrev Details := Fin 7 → ℚ

/-- Eight child scale coefficients (`Coefficients::CoefficientsArray`). -/
abbrev CoefficientsArray := Fin 8 → ℚ

/-- A parent's coefficients (`Coefficients::Parent`): its scale and details. -/
abbrev Parent := ℚ × Details

/-- The wavelet transform used by the block (`Transform`), whose
implementation is not part of the block's translation unit: the four
operations the block calls. -/
structure HaarTransform where
  forward : CoefficientsArray → Parent
  backward : Parent → CoefficientsArray
  forwardSingleChild : ℚ → Fin 8 → Parent
  backwardSingleChild : Parent → Fin 8 → ℚ

/-- The laws of the transform (spec 4.1 and 8, exact arithmetic): `backward`
and `forward` are inverse to each other, `forward` is additive, the
single-child variants agree with the full transforms. -/
structure HaarLaws (T : HaarTransform) : Prop where
  backward_forward : ∀ x, T.backward (T.forward x) = x
  forward_backward : ∀ p, T.forward (T.backward p) = p
  forward_add : ∀ x y, T.forward (x + y) = T.forward x + T.forward y
  backwardSingleChild_eq : ∀ p i, T.backwardSingleChild p i = T.backward p i
  backward_forwardSingleChild :
    ∀ (delta : ℚ) (i : Fin 8), T.backward (T.forwardSingleChild delta i) = Pi.single i delta

/-- The scale coefficient is the average of the children (spec 3: "the value
stored at an octree node is the Haar-average over its cubic region"). -/
def ScaleIsAverage (T : HaarTransform) : Prop :=
  ∀ x : CoefficientsArray, (T.forward x).1 = (∑ i, x i) / 8

/-- Value of `std::clamp(v, lo, hi)` for numbers (a NaN argument, which
`std::clamp` returns unchanged, is outside the rational model). -/
def clamp (v lo hi : ℚ) : ℚ :=
  if v < lo then lo else if hi < v then hi else v

/-- Modelled from the spec: `data::is_nonzero(details)`, true when some
coefficient differs from zero. -/
def is_nonzero (d : Details) : Bool :=
  decide (∃ i, d i ≠ 0)

/-- Modelled from the spec: `data::is_nonzero(details, threshold)`; a
coefficient counts as zero when its magnitude is below the threshold
(spec 3: near-zero means `|detail| < ε`). -/
def is_nonzero_thr (d : Details) (threshold : ℚ) : Bool :=
  decide (∃ i, ¬ |d i| < threshold)

/-! ## Tree arithmetic and indices -/

/-- Number of nodes of a perfect octree with `tree_height` levels:
`tree_math::perfect_tree::num_total_nodes_fast<3>`, `(8^h - 1) / 7`. -/
def tree_size (tree_height : Nat) : Nat :=
  (8 ^ tree_height - 1) / 7

/-- Number of nodes on the lowest level of a perfect octree with
`level_height` levels: `tree_math::perfect_tree::num_leaf_nodes<3>`,
`8^(h-1)`. -/
def level_size (level_height : Nat) : Nat :=
  8 ^ (level_height - 1)

/-- An octree node index: its height and the Morton code of its position at
that height. -/
structure OctreeIndex where
  height : Nat
  position : Nat
deriving DecidableEq

/-- Modelled from the spec: `convert::nodeIndexToMorton`, the Morton code of
the node's first height-0 cell (the position shifted left by three bits per
level). -/
def nodeIndexToMorton (index : OctreeIndex) : Nat :=
  index.position * 8 ^ index.height

/-- Modelled from the spec: `OctreeIndex::computeChildIndex`, the index of the
child with the given relative index. -/
def OctreeIndex.computeChildIndex (index : OctreeIndex) (child_idx : Fin 8) : OctreeIndex :=
  { height := index.height - 1, position := 8 * index.position + child_idx.val }

/-- Modelled from the spec: `OctreeIndex::computeRelativeChildIndex`, the
octal digit of the Morton code that selects the child of the ancestor at
`parent_height`. -/
def computeRelativeChildIndex (morton : Nat) (parent_height : Nat) : Fin 8 :=
  ⟨(morton / 8 ^ (parent_height - 1)) % 8, Nat.mod_lt _ (by decide)⟩

/-- Modelled from the spec: `OctreeIndex::computeLevelTraversalDistance`, the
offset of the ancestor at `child_height` among the descendants at that height
of the ancestor at `parent_height`. -/
def computeLevelTraversalDistance (morton : Nat) (parent_height child_height : Nat) : Nat :=
  (morton / 8 ^ child_height) % 8 ^ (parent_height - child_height)

/-- Modelled from the spec: `OctreeIndex::computeTreeTraversalDistance`, the
linear (breadth-first) index, inside the chunk whose top is at
`parent_height`, of the ancestor at `child_height`. -/
def computeTreeTraversalDistance (morton : Nat) (parent_height child_height : Nat) : Nat :=
  tree_size (parent_height - child_height)
    + computeLevelTraversalDistance morton parent_height child_height

/-! ## Chunks -/

/-- Modelled from the spec: a chunk of the chunked octree (`ChunkType`): the
node data and the `hasAtLeastOneChild` bits of its inner nodes and, when the
children array is allocated, its child chunks.  Slot `i` of an allocated
children array holds a chunk exactly when `present i`; the content of an
absent slot is never read. -/
inductive Chunk where
  | leafChunk (node_data : Nat → Details) (node_has_at_least_one_child : Nat → Bool) : Chunk
  | innerChunk (node_data : Nat → Details) (node_has_at_least_one_child : Nat → Bool)
      (present : Nat → Bool) (child_chunks : Nat → Chunk) : Chunk

namespace Chunk

/-- A default-constructed chunk: zero data, no flags, no children array. -/
def fresh : Chunk :=
  leafChunk (fun _ => 0) (fun _ => false)

/-- Value of `chunk.nodeData(i)`. -/
def nodeData : Chunk → Nat → Details
  | leafChunk d _, i => d i
  | innerChunk d _ _ _, i => d i

/-- Value of `chunk.nodeHasAtLeastOneChild(i)`. -/
def nodeHasAtLeastOneChild : Chunk → Nat → Bool
  | leafChunk _ f, i => f i
  | innerChunk _ f _ _, i => f i

/-- The chunk after `chunk.nodeData(i) = d`. -/
def setNodeData : Chunk → Nat → Details → Chunk
  | leafChunk d f, i, v => leafChunk (Function.update d i v) f
  | innerChunk d f p cs, i, v => innerChunk (Function.update d i v) f p cs

/-- The chunk after `chunk.nodeHasAtLeastOneChild(i) = b`. -/
def setNodeHasAtLeastOneChild : Chunk → Nat → Bool → Chunk
  | leafChunk d f, i, b => leafChunk d (Function.update f i b)
  | innerChunk d f p cs, i, b => innerChunk d (Function.update f i b) p cs

/-- Value of `chunk.hasChildrenArray()`. -/
def hasChildrenArray : Chunk → Bool
  | leafChunk _ _ => false
  | innerChunk _ _ _ _ => true

/-- Value of `chunk.hasChild(i)`. -/
def hasChild : Chunk → Nat → Bool
  | leafChunk _ _, _ => false
  | innerChunk _ _ p _, i => p i

/-- Value of `chunk.getChild(i)`: `none` is the null pointer. -/
def getChild : Chunk → Nat → Option Chunk
  | leafChunk _ _, _ => none
  | innerChunk _ _ p cs, i => if p i then some (cs i) else none

/-- The chunk after `chunk.getOrAllocateChild(i)`: the children array is
allocated if needed and slot `i` gets a default-constructed chunk if it is
empty. -/
def getOrAllocateChild : Chunk → Nat → Chunk
  | leafChunk d f, i => innerChunk d f (fun j => decide (j = i)) (fun _ => fresh)
  | innerChunk d f p cs, i =>
    if p i then innerChunk d f p cs
    else innerChunk d f (Function.update p i true) (Function.update cs i fresh)

/-- The chunk after `chunk.eraseChild(i)`. -/
def eraseChild : Chunk → Nat → Chunk
  | leafChunk d f, _ => leafChunk d f
  | innerChunk d f p cs, i =>
    innerChunk d f (Function.update p i false) (Function.update cs i fresh)

/-- The chunk after `chunk.deleteChildrenArray()`. -/
def deleteChildrenArray : Chunk → Chunk
  | leafChunk d f => leafChunk d f
  | innerChunk d f _ _ => leafChunk d f

/-- The chunk with child slot `i` (which holds a chunk) replaced by `c`. -/
def setChild : Chunk → Nat → Chunk → Chunk
  | leafChunk d f, _, _ => leafChunk d f
  | innerChunk d f p cs, i, c => innerChunk d f p (Function.update cs i c)

/-- The chunk a pointer (a path of child slots) points to. -/
def deref : Chunk → List Nat → Option Chunk
  | c, [] => some c
  | leafChunk _ _, _ :: _ => none
  | innerChunk _ _ p cs, i :: rest => if p i then deref (cs i) rest else none

/-- The tree after the chunk a pointer points to is replaced by `f` of it. -/
def modify (f : Chunk → Chunk) : Chunk → List Nat → Chunk
  | c, [] => f c
  | leafChunk d fl, _ :: _ => leafChunk d fl
  | innerChunk d fl p cs, i :: rest =>
    if p i then innerChunk d fl p (Function.update cs i (modify f (cs i) rest))
    else innerChunk d fl p cs

end Chunk

/-- Number of inner nodes of a chunk: `ChunkType::kNumInnerNodes`. -/
def kNumInnerNodes (kChunkHeight : Nat) : Nat :=
  tree_size kChunkHeight

/-- Number of child slots of a chunk: `ChunkType::kNumChildren`. -/
def kNumChildren (kChunkHeight : Nat) : Nat :=
  level_size (kChunkHeight + 1)

/-- Modelled from the spec: `chunk.hasNonzeroData(threshold)`, true when some
node of the chunk has a detail coefficient that is not below the threshold. -/
def Chunk.hasNonzeroData (kChunkHeight : Nat) (c : Chunk) (threshold : ℚ) : Bool :=
  decide (∃ i, i < kNumInnerNodes kChunkHeight ∧ is_nonzero_thr (c.nodeData i) threshold = true)

/-! ## The block -/

/-- The state of a `HashedChunkedWaveletOctreeBlock`. -/
structure HashedChunkedWaveletOctreeBlock where
  tree_height : Nat
  min_log_odds : ℚ
  max_log_odds : ℚ
  root_scale_coefficient : ℚ
  chunked_ndtree : Chunk
  needs_thresholding : Bool
  needs_pruning : Bool
  last_updated_stamp : Nat

/-- A newly constructed block: root scale 0, an empty root chunk, both dirty
flags clear. -/
def HashedChunkedWaveletOctreeBlock.fresh (tree_height : Nat) (min_log_odds max_log_odds : ℚ) :
    HashedChunkedWaveletOctreeBlock :=
  { tree_height := tree_height, min_log_odds := min_log_odds, max_log_odds := max_log_odds,
    root_scale_coefficient := 0, chunked_ndtree := Chunk.fresh,
    needs_thresholding := false, needs_pruning := false, last_updated_stamp := 0 }

/-! ## Writing a cell -/

/-- The variables of the descent loops: the chunk tree, the cached chunk
pointers (`chunk_ptrs`, null when `none`) and the decompressed value. -/
structure DescentState where
  tree : Chunk
  chunk_ptrs : Nat → Option (List Nat)
  current_value : ℚ

/-- The inner loop of the descent of `setCellValue` (lines 52-67), which
decompresses level by level inside `current_chunk`: `n` is the number of
iterations the loop has left (it runs `kChunkHeight` times unless it breaks
at the requested resolution). -/
def decompressLevels (T : HaarTransform) (current_chunk : Chunk)
    (morton chunk_top_height index_height : Nat) : Nat → Nat → ℚ → ℚ
  | 0, _, current_value => current_value
  | n + 1, parent_height, current_value =>
    let relative_node_index := computeTreeTraversalDistance morton chunk_top_height parent_height
    let relative_child_index := computeRelativeChildIndex morton parent_height
    let value := T.backwardSingleChild
      (current_value, current_chunk.nodeData relative_node_index) relative_child_index
    if parent_height = index_height + 1 then value
    else decompressLevels T current_chunk morton chunk_top_height index_height n
      (parent_height - 1) value

/-- The outer loop of the descent of `setCellValue` (lines 46-82), from the
iteration with the given `chunk_top_height` on.  The result is `none` when a
null chunk pointer is dereferenced or the fuel runs out. -/
def setCellValueDescent (T : HaarTransform) (kChunkHeight tree_height index_height morton : Nat) :
    Nat → Nat → DescentState → Option DescentState
  | 0, chunk_top_height, st => if index_height < chunk_top_height then none else some st
  | fuel + 1, chunk_top_height, st =>
    if index_height < chunk_top_height then
      let chunk_depth := (tree_height - chunk_top_height) / kChunkHeight
      match st.chunk_ptrs chunk_depth with
      | none => none
      | some ptr =>
        match st.tree.deref ptr with
        | none => none
        | some current_chunk =>
          let current_value := decompressLevels T current_chunk morton chunk_top_height
            index_height kChunkHeight chunk_top_height st.current_value
          if chunk_top_height ≤ index_height + 1 + kChunkHeight then
            some { tree := st.tree, chunk_ptrs := st.chunk_ptrs, current_value := current_value }
          else
            let linear_child_index := computeLevelTraversalDistance morton chunk_top_height
              (chunk_top_height - kChunkHeight)
            let tree := if current_chunk.hasChild linear_child_index then st.tree
              else st.tree.modify (fun c => c.getOrAllocateChild linear_child_index) ptr
            setCellValueDescent T kChunkHeight tree_height index_height morton fuel
              (chunk_top_height - kChunkHeight)
              { tree := tree,
                chunk_ptrs := Function.update st.chunk_ptrs (chunk_depth + 1)
                  (some (ptr ++ [linear_child_index])),
                current_value := current_value }
    else some st

/-- The ascent loop shared by `setCellValue` (lines 85-103) and
`addToCellValue` (lines 134-152): `n` is the number of iterations left,
the loop runs for `parent_height` from `index.height + 1` to `tree_height`.
The result is `none` when a null chunk pointer is dereferenced. -/
def ascend (T : HaarTransform) (kChunkHeight tree_height morton : Nat)
    (chunk_ptrs : Nat → Option (List Nat)) : Nat → Nat → Parent → Chunk → Option (Parent × Chunk)
  | 0, _, coefficients, tree => some (coefficients, tree)
  | n + 1, parent_height, coefficients, tree =>
    let chunk_depth := (tree_height - parent_height) / kChunkHeight
    match chunk_ptrs chunk_depth with
    | none => none
    | some ptr =>
      match tree.deref ptr with
      | none => none
      | some _ =>
        let chunk_top_height := tree_height - chunk_depth * kChunkHeight
        let relative_node_index :=
          computeTreeTraversalDistance morton chunk_top_height parent_height
        let relative_child_index := computeRelativeChildIndex morton parent_height
        let coefficients := T.forwardSingleChild coefficients.1 relative_child_index
        let tree := tree.modify (fun c =>
          (c.setNodeData relative_node_index
            (c.nodeData relative_node_index + coefficients.2)).setNodeHasAtLeastOneChild
              relative_node_index true) ptr
        ascend T kChunkHeight tree_height morton chunk_ptrs n (parent_height + 1) coefficients tree

/-- The initial pointer cache: `chunk_ptrs[0]` points to the root chunk, the
other entries are null. -/
def initialChunkPtrs : Nat → Option (List Nat) :=
  Function.update (fun _ => none) 0 (some [])

/-- The block after `setCellValue(index, new_value)`; `none` when the call
dereferences a null chunk pointer. -/
def HashedChunkedWaveletOctreeBlock.setCellValue (T : HaarTransform) (kChunkHeight : Nat)
    (blk : HashedChunkedWaveletOctreeBlock) (index : OctreeIndex) (new_value : ℚ) :
    Option HashedChunkedWaveletOctreeBlock :=
  let morton_code := nodeIndexToMorton index
  match setCellValueDescent T kChunkHeight blk.tree_height index.height morton_code
      (blk.tree_height + 1) blk.tree_height
      { tree := blk.chunked_ndtree, chunk_ptrs := initialChunkPtrs,
        current_value := blk.root_scale_coefficient } with
  | none => none
  | some st =>
    match ascend T kChunkHeight blk.tree_height morton_code st.chunk_ptrs
        (blk.tree_height - index.height) (index.height + 1)
        (new_value - st.current_value, 0) st.tree with
    | none => none
    | some (coefficients, tree) =>
      some { tree_height := blk.tree_height, min_log_odds := blk.min_log_odds,
             max_log_odds := blk.max_log_odds,
             root_scale_coefficient := blk.root_scale_coefficient + coefficients.1,
             chunked_ndtree := tree, needs_thresholding := true, needs_pruning := true,
             last_updated_stamp := blk.last_updated_stamp + 1 }

/-- The descent loop of `addToCellValue` (lines 117-131), which only
allocates chunks: `n` is the number of iterations left, the loop runs for
`chunk_depth` from 1 to `last_chunk_depth`. -/
def addToCellValueDescent (kChunkHeight tree_height morton : Nat) :
    Nat → Nat → Chunk → (Nat → Option (List Nat)) → Option (Chunk × (Nat → Option (List Nat)))
  | 0, _, tree, chunk_ptrs => some (tree, chunk_ptrs)
  | n + 1, chunk_depth, tree, chunk_ptrs =>
    let parent_chunk_top_height := tree_height - (chunk_depth - 1) * kChunkHeight
    let chunk_top_height := tree_height - chunk_depth * kChunkHeight
    let linear_child_index :=
      computeLevelTraversalDistance morton parent_chunk_top_height chunk_top_height
    match chunk_ptrs (chunk_depth - 1) with
    | none => none
    | some ptr =>
      match tree.deref ptr with
      | none => none
      | some current_chunk =>
        let tree := if current_chunk.hasChild linear_child_index then tree
          else tree.modify (fun c => c.getOrAllocateChild linear_child_index) ptr
        addToCellValueDescent kChunkHeight tree_height morton n (chunk_depth + 1) tree
          (Function.update chunk_ptrs chunk_depth (some (ptr ++ [linear_child_index])))

/-- The block after `addToCellValue(index, update)`; `none` when the call
dereferences a null chunk pointer. -/
def HashedChunkedWaveletOctreeBlock.addToCellValue (T : HaarTransform) (kChunkHeight : Nat)
    (blk : HashedChunkedWaveletOctreeBlock) (index : OctreeIndex) (update : ℚ) :
    Option HashedChunkedWaveletOctreeBlock :=
  let morton_code := nodeIndexToMorton index
  let last_chunk_depth := (blk.tree_height - index.height - 1) / kChunkHeight
  match addToCellValueDescent kChunkHeight blk.tree_height morton_code last_chunk_depth 1
      blk.chunked_ndtree initialChunkPtrs with
  | none => none
  | some (tree, chunk_ptrs) =>
    match ascend T kChunkHeight blk.tree_height morton_code chunk_ptrs
        (blk.tree_height - index.height) (index.height + 1) (update, 0) tree with
    | none => none
    | some (coefficients, tree) =>
      some { tree_height := blk.tree_height, min_log_odds := blk.min_log_odds,
             max_log_odds := blk.max_log_odds,
             root_scale_coefficient := blk.root_scale_coefficient + coefficients.1,
             chunked_ndtree := tree, needs_thresholding := true, needs_pruning := true,
             last_updated_stamp := blk.last_updated_stamp + 1 }

/-! ## Thresholding -/

/-- What `recursiveThreshold` returns (`RecursiveThresholdReturnValue`). -/
structure RecursiveThresholdReturnValue where
  scale : ℚ
  is_nonzero_child : Bool

/-- The array after `std::move` of eight coefficients to the positions
`first_dest_idx, ..., first_dest_idx + 7`. -/
def moveEight (src : CoefficientsArray) (dst : Nat → ℚ) (first_dest_idx : Nat) : Nat → ℚ :=
  fun j => if h : first_dest_idx ≤ j ∧ j < first_dest_idx + 8
    then src ⟨j - first_dest_idx, by omega⟩ else dst j

/-- The eight coefficients at the positions `first_src_idx, ..., first_src_idx + 7`. -/
def takeEight (src : Nat → ℚ) (first_src_idx : Nat) : CoefficientsArray :=
  fun j => src (first_src_idx + j.val)

/-- The decompression loops of `recursiveThreshold` (lines 215-230): the
scratch array `chunk_scale_coefficients` after them. -/
def decompress (T : HaarTransform) (kChunkHeight : Nat) (node_data : Nat → Details)
    (scale_coefficient : ℚ) : Nat → ℚ :=
  (List.range kChunkHeight).foldl (fun chunk_scale_coefficients level_idx =>
    let first_idx := tree_size level_idx
    let last_idx := tree_size (level_idx + 1)
    (List.range (level_size (level_idx + 1))).foldl (fun chunk_scale_coefficients relative_idx =>
      let src_idx := first_idx + relative_idx
      let child_scale_coefficients :=
        T.backward (chunk_scale_coefficients src_idx, node_data src_idx)
      let first_dest_idx := last_idx + 8 * relative_idx
      moveEight child_scale_coefficients chunk_scale_coefficients first_dest_idx)
      chunk_scale_coefficients)
    (Function.update (fun _ => 0) 0 scale_coefficient)

/-- The variables of the threshold loop of `recursiveThreshold`: the scratch
array, the `is_nonzero_child` bits and the child chunks. -/
structure ThresholdState where
  chunk_scale_coefficients : Nat → ℚ
  is_nonzero_child : Nat → Bool
  child_chunks : Nat → Chunk

/-- The threshold loop of `recursiveThreshold` (lines 233-247).  `present`
tells which child slots hold a chunk and `recurse child_idx s` is what
`recursiveThreshold(*chunk.getChild(child_idx), s)` gives: the child chunk
after the call and the returned value. -/
def thresholdLoop (kChunkHeight : Nat) (min_log_odds max_log_odds : ℚ) (present : Nat → Bool)
    (recurse : Nat → ℚ → Chunk × RecursiveThresholdReturnValue) (st : ThresholdState) :
    ThresholdState :=
  let first_leaf_idx := tree_size kChunkHeight
  (List.range (kNumChildren kChunkHeight)).foldl (fun st child_idx =>
    let array_idx := first_leaf_idx + child_idx
    if present child_idx then
      let rv := recurse child_idx (st.chunk_scale_coefficients array_idx)
      { chunk_scale_coefficients :=
          Function.update st.chunk_scale_coefficients array_idx rv.2.scale,
        is_nonzero_child := Function.update st.is_nonzero_child array_idx rv.2.is_nonzero_child,
        child_chunks := Function.update st.child_chunks child_idx rv.1 }
    else
      { chunk_scale_coefficients := Function.update st.chunk_scale_coefficients array_idx
          (clamp (st.chunk_scale_coefficients array_idx) min_log_odds max_log_odds),
        is_nonzero_child := st.is_nonzero_child,
        child_chunks := st.child_chunks }) st

/-- The variables of the compression loops of `recursiveThreshold`: the
scratch array, the `is_nonzero_child` bits, and the chunk's node data and
`hasAtLeastOneChild` bits. -/
structure CompressState where
  chunk_scale_coefficients : Nat → ℚ
  is_nonzero_child : Nat → Bool
  node_data : Nat → Details
  node_has_at_least_one_child : Nat → Bool

/-- The body of the compression loops of `recursiveThreshold` (lines 255-273). -/
def compressStep (T : HaarTransform) (first_idx last_idx : Nat) (st : CompressState)
    (relative_idx : Nat) : CompressState :=
  let first_src_idx := last_idx + 8 * relative_idx
  let scale_coefficients_subset := takeEight st.chunk_scale_coefficients first_src_idx
  let has_nonzero_child := (List.range 8).foldl
    (fun has_nonzero_child j => has_nonzero_child || st.is_nonzero_child (first_src_idx + j)) false
  let dst_idx := first_idx + relative_idx
  let new_coefficients := T.forward scale_coefficients_subset
  { chunk_scale_coefficients :=
      Function.update st.chunk_scale_coefficients dst_idx new_coefficients.1,
    is_nonzero_child := Function.update st.is_nonzero_child dst_idx
      (has_nonzero_child || is_nonzero new_coefficients.2),
    node_data := Function.update st.node_data dst_idx new_coefficients.2,
    node_has_at_least_one_child :=
      Function.update st.node_has_at_least_one_child dst_idx has_nonzero_child }

/-- The compression loops of `recursiveThreshold` (lines 250-275): the levels
from `kChunkHeight - 1` down to 0, each from its last node down to its
first. -/
def compress (T : HaarTransform) (kChunkHeight : Nat) (st : CompressState) : CompressState :=
  (List.range kChunkHeight).reverse.foldl (fun st level_idx =>
    let first_idx := tree_size level_idx
    let last_idx := tree_size (level_idx + 1)
    (List.range (level_size (level_idx + 1))).reverse.foldl
      (compressStep T first_idx last_idx) st) st

/-- The body of `recursiveThreshold` (lines 211-277) on the fields of the
chunk: the decompression loops, the threshold loop and the compression
loops.  The result is the scratch state after compression (with the chunk's
new node data and `hasAtLeastOneChild` bits) and the child chunks. -/
def thresholdBody (T : HaarTransform) (kChunkHeight : Nat) (min_log_odds max_log_odds : ℚ)
    (node_data : Nat → Details) (flags : Nat → Bool) (present : Nat → Bool)
    (child_chunks : Nat → Chunk) (recurse : Nat → ℚ → Chunk × RecursiveThresholdReturnValue)
    (scale_coefficient : ℚ) : CompressState × (Nat → Chunk) :=
  let st := thresholdLoop kChunkHeight min_log_odds max_log_odds present recurse
    { chunk_scale_coefficients := decompress T kChunkHeight node_data scale_coefficient,
      is_nonzero_child := fun _ => false,
      child_chunks := child_chunks }
  (compress T kChunkHeight
    { chunk_scale_coefficients := st.chunk_scale_coefficients,
      is_nonzero_child := st.is_nonzero_child,
      node_data := node_data, node_has_at_least_one_child := flags }, st.child_chunks)

/-- The chunk after `recursiveThreshold(chunk, scale_coefficient)` and the
value the call returns.  The threshold loop reads the child slots of the
chunk as they were on entry: each slot is visited once and is only written
by its own iteration. -/
def recursiveThreshold (T : HaarTransform) (kChunkHeight : Nat) (min_log_odds max_log_odds : ℚ) :
    Chunk → ℚ → Chunk × RecursiveThresholdReturnValue
  | Chunk.leafChunk node_data flags, scale_coefficient =>
    let r := thresholdBody T kChunkHeight min_log_odds max_log_odds node_data flags
      (fun _ => false) (fun _ => Chunk.fresh)
      (fun _ s => (Chunk.fresh, { scale := s, is_nonzero_child := false })) scale_coefficient
    (Chunk.leafChunk r.1.node_data r.1.node_has_at_least_one_child,
      { scale := r.1.chunk_scale_coefficients 0, is_nonzero_child := r.1.is_nonzero_child 0 })
  | Chunk.innerChunk node_data flags present child_chunks, scale_coefficient =>
    let r := thresholdBody T kChunkHeight min_log_odds max_log_odds node_data flags
      present child_chunks
      (fun child_idx s =>
        recursiveThreshold T kChunkHeight min_log_odds max_log_odds (child_chunks child_idx) s)
      scale_coefficient
    (Chunk.innerChunk r.1.node_data r.1.node_has_at_least_one_child present r.2,
      { scale := r.1.chunk_scale_coefficients 0, is_nonzero_child := r.1.is_nonzero_child 0 })

/-- The block after `threshold()`. -/
def HashedChunkedWaveletOctreeBlock.threshold (T : HaarTransform) (kChunkHeight : Nat)
    (blk : HashedChunkedWaveletOctreeBlock) : HashedChunkedWaveletOctreeBlock :=
  if blk.needs_thresholding then
    let r := recursiveThreshold T kChunkHeight blk.min_log_odds blk.max_log_odds
      blk.chunked_ndtree blk.root_scale_coefficient
    { blk with root_scale_coefficient := r.2.scale, chunked_ndtree := r.1,
               needs_thresholding := false }
  else blk

/-! ## Pruning -/

/-- The constant `kNonzeroCoefficientThreshold` of `recursivePrune`. -/
def kNonzeroCoefficientThreshold : ℚ := 1 / 1000

/-- The variables of the loop of `recursivePrune`: the chunk's child slots
and `has_at_least_one_child`. -/
structure PruneState where
  present : Nat → Bool
  child_chunks : Nat → Chunk
  has_at_least_one_child : Bool

/-- The chunk after `recursivePrune(chunk)`.  The loop reads the child slots
of the chunk as they were on entry: each slot is visited once and is only
written by its own iteration. -/
def recursivePrune (kChunkHeight : Nat) : Chunk → Chunk
  | Chunk.leafChunk node_data flags => Chunk.leafChunk node_data flags
  | Chunk.innerChunk node_data flags present child_chunks =>
    let st := (List.range (kNumChildren kChunkHeight)).foldl (fun (st : PruneState)
        linear_child_idx =>
      if present linear_child_idx then
        let child_chunk := recursivePrune kChunkHeight (child_chunks linear_child_idx)
        if (!child_chunk.hasChildrenArray
            && !child_chunk.hasNonzeroData kChunkHeight kNonzeroCoefficientThreshold) then
          { present := Function.update st.present linear_child_idx false,
            child_chunks := Function.update st.child_chunks linear_child_idx Chunk.fresh,
            has_at_least_one_child := st.has_at_least_one_child }
        else
          { present := st.present,
            child_chunks := Function.update st.child_chunks linear_child_idx child_chunk,
            has_at_least_one_child := true }
      else st)
      { present := present, child_chunks := child_chunks, has_at_least_one_child := false }
    if !st.has_at_least_one_child then Chunk.leafChunk node_data flags
    else Chunk.innerChunk node_data flags st.present st.child_chunks

/-- The block after `prune()`. -/
def HashedChunkedWaveletOctreeBlock.prune (T : HaarTransform) (kChunkHeight : Nat)
    (blk : HashedChunkedWaveletOctreeBlock) : HashedChunkedWaveletOctreeBlock :=
  if blk.needs_pruning then
    let blk := blk.threshold T kChunkHeight
    { blk with chunked_ndtree := recursivePrune kChunkHeight blk.chunked_ndtree,
               needs_pruning := false }
  else blk

/-! ## Clearing -/

/-- Modelled from the spec: `chunked_ndtree.clear()`, which clears all chunks:
the root chunk is left as a default-constructed chunk. -/
def Chunk.clear (_ : Chunk) : Chunk :=
  Chunk.fresh

/-- The block after `clear()`. -/
def HashedChunkedWaveletOctreeBlock.clear (blk : HashedChunkedWaveletOctreeBlock) :
    HashedChunkedWaveletOctreeBlock :=
  { blk with root_scale_coefficient := 0, chunked_ndtree := blk.chunked_ndtree.clear,
             last_updated_stamp := blk.last_updated_stamp + 1 }

/-! ## Visiting the leaves -/

/-- Modelled from the spec: `chunk.hasNonzeroData()`, true when some node of
the chunk has a nonzero detail coefficient. -/
def Chunk.hasNonzeroDataExact (kChunkHeight : Nat) (c : Chunk) : Bool :=
  decide (∃ i, i < kNumInnerNodes kChunkHeight ∧ is_nonzero (c.nodeData i) = true)

/-- Modelled from the spec: `chunk.empty()`, true for a chunk without
children array and without nonzero data. -/
def Chunk.empty (kChunkHeight : Nat) (c : Chunk) : Bool :=
  (!c.hasChildrenArray && !c.hasNonzeroDataExact kChunkHeight)

/-- Value of `empty()` for the block: whether its root chunk is empty. -/
def HashedChunkedWaveletOctreeBlock.empty (kChunkHeight : Nat)
    (blk : HashedChunkedWaveletOctreeBlock) : Bool :=
  blk.chunked_ndtree.empty kChunkHeight

/-- Modelled from the spec: a reference to a node of the chunked octree
(`NodeConstRefType`): the chunk that stores the node, the depth of the node
below the top of the chunk and its offset among the nodes of that depth. -/
structure NodeRef where
  chunk : Chunk
  relative_node_depth : Nat
  level_traversal_distance : Nat

/-- Modelled from the spec: the index of the node's data in its chunk. -/
def NodeRef.computeRelativeNodeIndex (node : NodeRef) : Nat :=
  tree_size node.relative_node_depth + node.level_traversal_distance

/-- Modelled from the spec: `node.data()`, the detail coefficients of the
node. -/
def NodeRef.data (node : NodeRef) : Details :=
  node.chunk.nodeData node.computeRelativeNodeIndex

/-- Modelled from the spec: `node.hasAtLeastOneChild()`. -/
def NodeRef.hasAtLeastOneChild (node : NodeRef) : Bool :=
  node.chunk.nodeHasAtLeastOneChild node.computeRelativeNodeIndex

/-- Modelled from the spec: `node.getChild(child_idx)`, the child node when it
exists in the chunk child structure (spec 4.2): the node has its
`hasAtLeastOneChild` bit set and the child lies in the same chunk, or at the
top of an allocated child chunk. -/
def NodeRef.getChild (kChunkHeight : Nat) (node : NodeRef) (child_idx : Fin 8) : Option NodeRef :=
  if node.hasAtLeastOneChild then
    let child_depth := node.relative_node_depth + 1
    let child_level_traversal_distance := 8 * node.level_traversal_distance + child_idx.val
    if child_depth % kChunkHeight = 0 then
      match node.chunk.getChild child_level_traversal_distance with
      | some child_chunk =>
        some { chunk := child_chunk, relative_node_depth := 0, level_traversal_distance := 0 }
      | none => none
    else
      some { chunk := node.chunk, relative_node_depth := child_depth,
             level_traversal_distance := child_level_traversal_distance }
  else none

/-- The elements of the stack of `forEachLeaf`. -/
structure StackElement where
  node_index : OctreeIndex
  node : NodeRef
  scale_coefficient : ℚ

/-- The body of the loop of `forEachLeaf` (lines 175-194) for the popped
element `top`: the stack and the list of the visitor's calls (the latest call
last) after it. -/
def forEachLeafStep (T : HaarTransform) (kChunkHeight termination_height : Nat)
    (top : StackElement) (stack : List StackElement) (visited : List (OctreeIndex × ℚ)) :
    List StackElement × List (OctreeIndex × ℚ) :=
  let child_scale_coefficients := T.backward (top.scale_coefficient, top.node.data)
  (List.finRange 8).foldl (fun (st : List StackElement × List (OctreeIndex × ℚ)) child_idx =>
    let child_node_index := top.node_index.computeChildIndex child_idx
    let child_scale_coefficient := child_scale_coefficients child_idx
    match top.node.getChild kChunkHeight child_idx with
    | some child_node =>
      if termination_height < child_node_index.height then
        ({ node_index := child_node_index, node := child_node,
           scale_coefficient := child_scale_coefficient } :: st.1, st.2)
      else (st.1, st.2 ++ [(child_node_index, child_scale_coefficient)])
    | none => (st.1, st.2 ++ [(child_node_index, child_scale_coefficient)]))
    (stack, visited)

/-- The loop of `forEachLeaf` (lines 174-195); the head of the list is the top
of the stack.  The result is `none` when the fuel runs out. -/
def forEachLeafLoop (T : HaarTransform) (kChunkHeight termination_height : Nat) :
    Nat → List StackElement → List (OctreeIndex × ℚ) → Option (List (OctreeIndex × ℚ))
  | _, [], visited => some visited
  | 0, _ :: _, _ => none
  | fuel + 1, top :: stack, visited =>
    forEachLeafLoop T kChunkHeight termination_height fuel
      (forEachLeafStep T kChunkHeight termination_height top stack visited).1
      (forEachLeafStep T kChunkHeight termination_height top stack visited).2

/-- The calls `forEachLeaf(block_index, visitor_fn, termination_height)` makes
to the visitor, in order.  The fuel is the number of nodes of a full octree
of the block's height, which bounds the number of iterations. -/
def HashedChunkedWaveletOctreeBlock.forEachLeaf (T : HaarTransform) (kChunkHeight : Nat)
    (blk : HashedChunkedWaveletOctreeBlock) (block_index : Nat) (termination_height : Nat) :
    Option (List (OctreeIndex × ℚ)) :=
  if blk.empty kChunkHeight then some []
  else
    forEachLeafLoop T kChunkHeight termination_height (tree_size (blk.tree_height + 1))
      [{ node_index := { height := blk.tree_height, position := block_index },
         node := { chunk := blk.chunked_ndtree, relative_node_depth := 0,
                   level_traversal_distance := 0 },
         scale_coefficient := blk.root_scale_coefficient }] []


/-! # wavemap_2d: the coarse-to-fine scan integrator

A shallow embedding of `CoarseToFineIntegrator`
(`wavemap_2d/src/integrator/scan_integrator/coarse_to_fine/coarse_to_fine_integrator.cc`).

Conventions of the embedding.

* The point type, the pose type and the bounding-box type are parameters; the
  geometry the integrator calls (norms, bearings, bounding boxes), the
  intersector and the beam model are not part of the integrator's translation
  unit and are fields of a structure of functions.
* The map is a quadtree-based data structure: the `dynamic_cast` of line 30
  succeeds.
* The height of a quadtree index is an integer, as in the source.
-/

/-- A quadtree node index (`QuadtreeIndex`): its height and the Morton code of
its position at that height. -/
structure QuadtreeIndex where
  height : Int
  position : Nat
deriving DecidableEq

/-- Number of children of a quadtree node: `QuadtreeIndex::kNumChildren`. -/
abbrev QuadtreeIndex.kNumChildren : Nat := 4

/-- Modelled from the spec: `QuadtreeIndex::computeChildIndex`, the index of
the child with the given relative index. -/
def QuadtreeIndex.computeChildIndex (index : QuadtreeIndex)
    (relative_child_idx : Fin QuadtreeIndex.kNumChildren) : QuadtreeIndex :=
  { height := index.height - 1, position := 4 * index.position + relative_child_idx.val }

/-- Modelled from the spec: the result of the intersector
(`RangeImageIntersector::IntersectionType`, spec 4.4). -/
inductive IntersectionType where
  | kFullyUnknown : IntersectionType
  | kFree : IntersectionType
  | kPossiblyOccupied : IntersectionType
  | kFullyOccupied : IntersectionType
deriving DecidableEq

/-- Modelled from the spec: a range image (`RangeImage`), the measured range
per bearing index; `none` is the sentinel of a cell without beam (spec 4.4). -/
structure RangeImage where
  min_angle : ℚ
  max_angle : ℚ
  num_beams : Nat
  data : Nat → Option ℚ

/-- Modelled from the spec: the range image that the constructor
`RangeImage(min_angle, max_angle, num_beams)` makes: no cell has a beam. -/
def RangeImage.new (min_angle max_angle : ℚ) (num_beams : Nat) : RangeImage :=
  { min_angle := min_angle, max_angle := max_angle, num_beams := num_beams,
    data := fun _ => none }

/-- The range image after `range_image[range_image_index] = range`. -/
def RangeImage.set (range_image : RangeImage) (range_image_index : Nat) (range : ℚ) :
    RangeImage :=
  { range_image with data := Function.update range_image.data range_image_index (some range) }

/-- A pointcloud with the pose of the sensor (`PosedPointcloud`): the points
are in the sensor frame (`getPointsLocal()`). -/
structure PosedPointcloud (P Pose : Type) where
  pose : Pose
  points_local : List P

/-- Number of points of the cloud: `pointcloud.size()`. -/
def PosedPointcloud.size {P Pose : Type} (pointcloud : PosedPointcloud P Pose) : Nat :=
  pointcloud.points_local.length

/-- The functions on points that `computeRangeImage` calls and whose code is
not part of the integrator: `C_point.hasNaN()`, `C_point.norm()` and
`range_image.bearingToNearestIndex(C_point)` (which depends on the angular
window and the number of beams of the image). -/
structure PointGeometry (P : Type) where
  hasNaN : P → Bool
  norm : P → ℚ
  bearingToNearestIndex : ℚ → ℚ → Nat → P → Nat

/-- The loop body of `computeRangeImage` (lines 91-108) for one point. -/
def computeRangeImageStep {P : Type} (G : PointGeometry P) (range_image : RangeImage)
    (C_point : P) : RangeImage :=
  if G.hasNaN C_point then range_image
  else
    let range := G.norm C_point
    if 1000 < range then range_image
    else
      let range_image_index := G.bearingToNearestIndex range_image.min_angle
        range_image.max_angle range_image.num_beams C_point
      range_image.set range_image_index range

/-- The range image that `computeRangeImage(pointcloud, min_angle, max_angle,
num_beams)` returns. -/
def computeRangeImage {P Pose : Type} (G : PointGeometry P) (pointcloud : PosedPointcloud P Pose)
    (min_angle max_angle : ℚ) (num_beams : Nat) : RangeImage :=
  pointcloud.points_local.foldl (computeRangeImageStep G)
    (RangeImage.new min_angle max_angle num_beams)

/-- Modelled from the spec: the occupancy map behind
`VolumetricQuadtreeInterface`, whose implementation is not part of the
integrator: what the integrator reads from it (`getMinCellWidth()`,
`getFirstChildIndices()`) and the `addToCellValue` calls made on it so far,
the latest last. -/
structure VolumetricQuadtree where
  min_cell_width : ℚ
  first_child_indices : List QuadtreeIndex
  updates : List (QuadtreeIndex × ℚ)

/-- The map after `occupancy_map->addToCellValue(index, update)`. -/
def VolumetricQuadtree.addToCellValue (occupancy_map : VolumetricQuadtree)
    (index : QuadtreeIndex) (update : ℚ) : VolumetricQuadtree :=
  { occupancy_map with updates := occupancy_map.updates ++ [(index, update)] }

/-- The functions that `integratePointcloud` calls and whose code is not part
of the integrator's translation unit: the validity check, the geometry of a
node (its bounding box, the distance and the angle of its center in the sensor
frame, the radius of its bounding sphere), the intersector, the error test and
the beam model. -/
structure CoarseToFineIntegrator (P Pose AABB : Type) where
  geometry : PointGeometry P
  isPointcloudValid : PosedPointcloud P Pose → Bool
  nodeIndexToAABB : QuadtreeIndex → ℚ → AABB
  determineIntersectionType : RangeImage → Pose → AABB → IntersectionType
  nodeCenterDistance : Pose → AABB → ℚ
  boundingSphereRadius : AABB → ℚ
  isApproximationErrorAcceptable : IntersectionType → ℚ → ℚ → Bool
  nodeCenterAngle : Pose → AABB → ℚ
  computeUpdateForCell : RangeImage → ℚ → ℚ → ℚ

/-- The body of the work-stack loop of `integratePointcloud` (lines 47-82) for
the popped node `current_node`: the stack (its top is the head of the list)
and the map after it. -/
def integrateStep {P Pose AABB : Type} (I : CoarseToFineIntegrator P Pose AABB)
    (pointcloud : PosedPointcloud P Pose) (range_image : RangeImage) (min_cell_width : ℚ)
    (current_node : QuadtreeIndex) (stack : List QuadtreeIndex)
    (occupancy_map : VolumetricQuadtree) : List QuadtreeIndex × VolumetricQuadtree :=
  let W_cell_aabb := I.nodeIndexToAABB current_node min_cell_width
  let intersection_type := I.determineIntersectionType range_image pointcloud.pose W_cell_aabb
  if intersection_type = IntersectionType.kFullyUnknown then (stack, occupancy_map)
  else
    let d_C_cell := I.nodeCenterDistance pointcloud.pose W_cell_aabb
    let bounding_sphere_radius := I.boundingSphereRadius W_cell_aabb
    if current_node.height = 0
        ∨ I.isApproximationErrorAcceptable intersection_type d_C_cell bounding_sphere_radius
          = true then
      let angle_C_cell := I.nodeCenterAngle pointcloud.pose W_cell_aabb
      let sample := I.computeUpdateForCell range_image d_C_cell angle_C_cell
      (stack, occupancy_map.addToCellValue current_node sample)
    else
      ((List.finRange QuadtreeIndex.kNumChildren).foldl
        (fun stack relative_child_idx => current_node.computeChildIndex relative_child_idx :: stack)
        stack, occupancy_map)

/-- The work-stack loop of `integratePointcloud` (lines 46-83).  The result is
`none` when the fuel runs out. -/
def integrateLoop {P Pose AABB : Type} (I : CoarseToFineIntegrator P Pose AABB)
    (pointcloud : PosedPointcloud P Pose) (range_image : RangeImage) (min_cell_width : ℚ) :
    Nat → List QuadtreeIndex → VolumetricQuadtree → Option VolumetricQuadtree
  | _, [], occupancy_map => some occupancy_map
  | 0, _ :: _, _ => none
  | fuel + 1, current_node :: stack, occupancy_map =>
    integrateLoop I pointcloud range_image min_cell_width fuel
      (integrateStep I pointcloud range_image min_cell_width current_node stack occupancy_map).1
      (integrateStep I pointcloud range_image min_cell_width current_node stack occupancy_map).2

/-- Number of nodes of a full quadtree whose root has the given height. -/
def quadtreeSize (height : Int) : Nat :=
  (4 ^ (height.toNat + 1) - 1) / 3

/-- The map after `integratePointcloud(pointcloud)`.  `kHalfPi` is a
parameter.  The fuel of the loop is the number of nodes of the full quadtrees
below the start indices, which bounds the number of iterations when no start
index has a negative height; the result is `none` when the fuel runs out. -/
def integratePointcloud {P Pose AABB : Type} (I : CoarseToFineIntegrator P Pose AABB)
    (kHalfPi : ℚ) (pointcloud : PosedPointcloud P Pose) (occupancy_map : VolumetricQuadtree) :
    Option VolumetricQuadtree :=
  if !I.isPointcloudValid pointcloud then some occupancy_map
  else
    let range_image := computeRangeImage I.geometry pointcloud (-kHalfPi) kHalfPi pointcloud.size
    let min_cell_width := occupancy_map.min_cell_width
    let stack := occupancy_map.first_child_indices.foldl
      (fun (stack : List QuadtreeIndex) node_index => node_index :: stack) []
    integrateLoop I pointcloud range_image min_cell_width
      ((stack.map (fun node_index => quadtreeSize node_index.height)).sum) stack occupancy_map
/-! ## Auxiliary definitions for the proofs -/

/-- The scale coefficient of the node at depth `l` and offset `r` of a chunk,
decompressed from the chunk's incoming scale coefficient `s`. -/
def nodeValue (T : HaarTransform) (data : Nat → Details) (s : ℚ) : Nat → Nat → ℚ
  | 0, _ => s
  | l + 1, r =>
    T.backward (nodeValue T data s l (r / 8), data (tree_size l + r / 8))
      ⟨r % 8, Nat.mod_lt _ (by decide)⟩

/-- One level of the decompression loops. -/
def decompressLevel (T : HaarTransform) (node_data : Nat → Details) (first_idx last_idx : Nat)
    (scr : Nat → ℚ) (n : Nat) : Nat → ℚ :=
  (List.range n).foldl (fun chunk_scale_coefficients relative_idx =>
      moveEight (T.backward (chunk_scale_coefficients (first_idx + relative_idx),
        node_data (first_idx + relative_idx))) chunk_scale_coefficients
        (last_idx + 8 * relative_idx)) scr

/-- The decompression loops, level by level. -/
def decompressUpTo (T : HaarTransform) (node_data : Nat → Details) (s : ℚ) (n : Nat) : Nat → ℚ :=
  (List.range n).foldl (fun scr level_idx =>
    decompressLevel T node_data (tree_size level_idx) (tree_size (level_idx + 1)) scr
      (level_size (level_idx + 1))) (Function.update (fun _ => 0) 0 s)

/-- The disjunction of the eight `is_nonzero_child` bits from `first_src_idx` on. -/
def orEight (nz : Nat → Bool) (first_src_idx : Nat) : Bool :=
  (List.range 8).foldl (fun has_nonzero_child j => has_nonzero_child || nz (first_src_idx + j)) false

/-- One level of the compression loops. -/
def compressLevel (T : HaarTransform) (first_idx last_idx : Nat) (st : CompressState) (n : Nat) :
    CompressState :=
  (List.range n).reverse.foldl (compressStep T first_idx last_idx) st

/-- What one level of the compression loops computes. -/
def compressLevelSpec (T : HaarTransform) (first last : Nat) (st : CompressState) (n : Nat) :
    CompressState :=
  { chunk_scale_coefficients := fun j =>
      if first ≤ j ∧ j < first + n then
        (T.forward (takeEight st.chunk_scale_coefficients (last + 8 * (j - first)))).1
      else st.chunk_scale_coefficients j,
    is_nonzero_child := fun j =>
      if first ≤ j ∧ j < first + n then
        (orEight st.is_nonzero_child (last + 8 * (j - first))
          || is_nonzero (T.forward
              (takeEight st.chunk_scale_coefficients (last + 8 * (j - first)))).2)
      else st.is_nonzero_child j,
    node_data := fun j =>
      if first ≤ j ∧ j < first + n then
        (T.forward (takeEight st.chunk_scale_coefficients (last + 8 * (j - first)))).2
      else st.node_data j,
    node_has_at_least_one_child := fun j =>
      if first ≤ j ∧ j < first + n then orEight st.is_nonzero_child (last + 8 * (j - first))
      else st.node_has_at_least_one_child j }

/-- The compression loops, level by level. -/
def compressUpTo (T : HaarTransform) (st : CompressState) (n : Nat) : CompressState :=
  (List.range n).reverse.foldl (fun st level_idx =>
    compressLevel T (tree_size level_idx) (tree_size (level_idx + 1)) st
      (level_size (level_idx + 1))) st

/-- What the compression loops leave behind: every entry from `tree_size n` on
is untouched, and every node below that index holds the forward transform of
its eight children. -/
structure Compressed (T : HaarTransform) (n : Nat) (st cs : CompressState) : Prop where
  scale_outside : ∀ j, tree_size n ≤ j → cs.chunk_scale_coefficients j = st.chunk_scale_coefficients j
  nonzero_outside : ∀ j, tree_size n ≤ j → cs.is_nonzero_child j = st.is_nonzero_child j
  data_outside : ∀ j, tree_size n ≤ j → cs.node_data j = st.node_data j
  flag_outside : ∀ j, tree_size n ≤ j →
    cs.node_has_at_least_one_child j = st.node_has_at_least_one_child j
  coefficients : ∀ j, j < tree_size n →
    (cs.chunk_scale_coefficients j, cs.node_data j)
      = T.forward (takeEight cs.chunk_scale_coefficients (8 * j + 1))
  flag : ∀ j, j < tree_size n →
    cs.node_has_at_least_one_child j = orEight cs.is_nonzero_child (8 * j + 1)
  nonzero : ∀ j, j < tree_size n →
    cs.is_nonzero_child j = (cs.node_has_at_least_one_child j || is_nonzero (cs.node_data j))

/-! ## Reading a cell -/

/-- Modelled from the spec: the value of the node with Morton code `morton`
at height `index_height`, reconstructed from the scale coefficient `s` that
enters the chunk (whose top is at `chunk_top_height`) and the detail
coefficients of the node's ancestors (spec 3).  The descent is the one of
`setCellValue`, without allocation: it stops at the node, or at the chunk
boundary above it when there is no child chunk to descend into. -/
def reconstructChunk (T : HaarTransform) (kChunkHeight morton index_height : Nat) :
    Chunk → Nat → ℚ → ℚ
  | Chunk.leafChunk node_data flags, chunk_top_height, s =>
    if index_height < chunk_top_height then
      decompressLevels T (Chunk.leafChunk node_data flags) morton chunk_top_height index_height
        kChunkHeight chunk_top_height s
    else s
  | Chunk.innerChunk node_data flags present child_chunks, chunk_top_height, s =>
    if index_height < chunk_top_height then
      let value := decompressLevels T (Chunk.innerChunk node_data flags present child_chunks)
        morton chunk_top_height index_height kChunkHeight chunk_top_height s
      if chunk_top_height ≤ index_height + kChunkHeight then value
      else
        let linear_child_index := computeLevelTraversalDistance morton chunk_top_height
          (chunk_top_height - kChunkHeight)
        if present linear_child_index then
          reconstructChunk T kChunkHeight morton index_height (child_chunks linear_child_index)
            (chunk_top_height - kChunkHeight) value
        else value
    else s

/-- Modelled from the spec: the value of the node `index` of the block,
reconstructed from `root_scale_coefficient` and the detail coefficients of
the node's ancestors. -/
def HashedChunkedWaveletOctreeBlock.reconstruct (T : HaarTransform) (kChunkHeight : Nat)
    (blk : HashedChunkedWaveletOctreeBlock) (index : OctreeIndex) : ℚ :=
  reconstructChunk T kChunkHeight (nodeIndexToMorton index) index.height blk.chunked_ndtree
    blk.tree_height blk.root_scale_coefficient

/-- The chunk tree fits a block whose root chunk spans `levels` chunk heights:
a chunk has child chunks only when there is room for them below it. -/
def Chunk.fitsHeight : Chunk → Nat → Prop
  | Chunk.leafChunk _ _, _ => True
  | Chunk.innerChunk _ _ present child_chunks, levels =>
    ∀ i, present i = true → 2 ≤ levels ∧ (child_chunks i).fitsHeight (levels - 1)

/-- The block is well formed for chunk height `kChunkHeight`: the tree height
is a positive multiple of the chunk height and the chunk tree is no deeper
than the tree height allows. -/
def HashedChunkedWaveletOctreeBlock.WellFormed (kChunkHeight : Nat)
    (blk : HashedChunkedWaveletOctreeBlock) : Prop :=
  0 < kChunkHeight ∧ ∃ levels, 0 < levels ∧ blk.tree_height = kChunkHeight * levels
    ∧ blk.chunked_ndtree.fitsHeight levels

/-- What the threshold loop computes. -/
def thresholdLoopSpec (kChunkHeight : Nat) (min_log_odds max_log_odds : ℚ) (present : Nat → Bool)
    (recurse : Nat → ℚ → Chunk × RecursiveThresholdReturnValue) (st : ThresholdState) (n : Nat) :
    ThresholdState :=
  { chunk_scale_coefficients := fun j =>
      if tree_size kChunkHeight ≤ j ∧ j < tree_size kChunkHeight + n then
        if present (j - tree_size kChunkHeight) then
          (recurse (j - tree_size kChunkHeight) (st.chunk_scale_coefficients j)).2.scale
        else clamp (st.chunk_scale_coefficients j) min_log_odds max_log_odds
      else st.chunk_scale_coefficients j,
    is_nonzero_child := fun j =>
      if tree_size kChunkHeight ≤ j ∧ j < tree_size kChunkHeight + n then
        if present (j - tree_size kChunkHeight) then
          (recurse (j - tree_size kChunkHeight)
            (st.chunk_scale_coefficients j)).2.is_nonzero_child
        else st.is_nonzero_child j
      else st.is_nonzero_child j,
    child_chunks := fun i =>
      if i < n then
        if present i then
          (recurse i (st.chunk_scale_coefficients (tree_size kChunkHeight + i))).1
        else st.child_chunks i
      else st.child_chunks i }

/-- The threshold loop, stopped after `n` iterations. -/
def thresholdLoopUpTo (kChunkHeight : Nat) (min_log_odds max_log_odds : ℚ) (present : Nat → Bool)
    (recurse : Nat → ℚ → Chunk × RecursiveThresholdReturnValue) (st : ThresholdState) (n : Nat) :
    ThresholdState :=
  (List.range n).foldl (fun st child_idx =>
    if present child_idx then
      { chunk_scale_coefficients :=
          Function.update st.chunk_scale_coefficients (tree_size kChunkHeight + child_idx)
            (recurse child_idx
              (st.chunk_scale_coefficients (tree_size kChunkHeight + child_idx))).2.scale,
        is_nonzero_child :=
          Function.update st.is_nonzero_child (tree_size kChunkHeight + child_idx)
            (recurse child_idx
              (st.chunk_scale_coefficients (tree_size kChunkHeight + child_idx))).2.is_nonzero_child,
        child_chunks := Function.update st.child_chunks child_idx
          (recurse child_idx
            (st.chunk_scale_coefficients (tree_size kChunkHeight + child_idx))).1 }
    else
      { chunk_scale_coefficients :=
          Function.update st.chunk_scale_coefficients (tree_size kChunkHeight + child_idx)
            (clamp (st.chunk_scale_coefficients (tree_size kChunkHeight + child_idx))
              min_log_odds max_log_odds),
        is_nonzero_child := st.is_nonzero_child,
        child_chunks := st.child_chunks }) st

/-! ## Example states -/

/-- A block of height 1 (a single chunk of height 1) whose eight cells all
hold the value 10, beyond the saturation bounds `[-2, 4]`, and which still
needs thresholding. -/
def saturatedBlock : HashedChunkedWaveletOctreeBlock :=
  { tree_height := 1, min_log_odds := -2, max_log_odds := 4, root_scale_coefficient := 10,
    chunked_ndtree := Chunk.fresh, needs_thresholding := true, needs_pruning := true,
    last_updated_stamp := 1 }

/-- A block of height 1 whose eight cells all hold the value 3, inside the
saturation bounds `[-2, 4]`, and which still needs thresholding. -/
def inRangeBlock : HashedChunkedWaveletOctreeBlock :=
  { tree_height := 1, min_log_odds := -2, max_log_odds := 4, root_scale_coefficient := 3,
    chunked_ndtree := Chunk.fresh, needs_thresholding := true, needs_pruning := true,
    last_updated_stamp := 1 }

/-! ## Auxiliary definitions for pruning -/

/-- Whether `recursivePrune` erases a child chunk: it is left without a
children array and without nonzero data. -/
def erasedByPrune (kChunkHeight : Nat) (child_chunk : Chunk) : Bool :=
  (!child_chunk.hasChildrenArray
    && !child_chunk.hasNonzeroData kChunkHeight kNonzeroCoefficientThreshold)

/-- The loop of `recursivePrune`, stopped after `n` iterations. -/
def pruneLoopUpTo (kChunkHeight : Nat) (present : Nat → Bool) (pruned : Nat → Chunk)
    (st : PruneState) (n : Nat) : PruneState :=
  (List.range n).foldl (fun (st : PruneState) linear_child_idx =>
      if present linear_child_idx then
        if (!(pruned linear_child_idx).hasChildrenArray
            && !(pruned linear_child_idx).hasNonzeroData kChunkHeight
                kNonzeroCoefficientThreshold) then
          { present := Function.update st.present linear_child_idx false,
            child_chunks := Function.update st.child_chunks linear_child_idx Chunk.fresh,
            has_at_least_one_child := st.has_at_least_one_child }
        else
          { present := st.present,
            child_chunks := Function.update st.child_chunks linear_child_idx
              (pruned linear_child_idx),
            has_at_least_one_child := true }
      else st) st

/-- What the loop of `recursivePrune` computes. -/
def pruneLoopSpec (kChunkHeight : Nat) (present : Nat → Bool) (pruned : Nat → Chunk)
    (st : PruneState) (n : Nat) : PruneState :=
  { present := fun i =>
      if i < n ∧ present i = true ∧ erasedByPrune kChunkHeight (pruned i) = true then false
      else st.present i,
    child_chunks := fun i =>
      if i < n ∧ present i = true then
        if erasedByPrune kChunkHeight (pruned i) = true then Chunk.fresh else pruned i
      else st.child_chunks i,
    has_at_least_one_child :=
      (st.has_at_least_one_child
        || decide (∃ i, i < n ∧ present i = true ∧ erasedByPrune kChunkHeight (pruned i) = false)) }

/-- A chunk is not empty in the sense of `recursivePrune`: it has a child
chunk or some detail coefficient that `hasNonzeroData(1e-3)` counts as
nonzero. -/
def Chunk.keptByPrune (kChunkHeight : Nat) (c : Chunk) : Prop :=
  (∃ i, i < kNumChildren kChunkHeight ∧ c.hasChild i = true)
    ∨ c.hasNonzeroData kChunkHeight kNonzeroCoefficientThreshold = true

/-- A block whose root chunk is empty and which needs pruning but no
thresholding (the state after a `threshold()` that follows a write of 0 to
the root of a new block). -/
def emptyDirtyBlock : HashedChunkedWaveletOctreeBlock :=
  { tree_height := 1, min_log_odds := -2, max_log_odds := 4, root_scale_coefficient := 0,
    chunked_ndtree := Chunk.fresh, needs_thresholding := false, needs_pruning := true,
    last_updated_stamp := 1 }

/-- A block of height 2 with chunks of height 1 that needs pruning but no
thresholding: the root chunk has one child chunk, in slot 0, whose node has
detail coefficients equal to 1. -/
def oneChildBlock : HashedChunkedWaveletOctreeBlock :=
  { tree_height := 2, min_log_odds := -2, max_log_odds := 4, root_scale_coefficient := 0,
    chunked_ndtree := Chunk.innerChunk (fun _ => 0) (fun _ => false) (fun i => decide (i = 0))
      (fun _ => Chunk.leafChunk (fun _ _ => 1) (fun _ => false)),
    needs_thresholding := false, needs_pruning := true, last_updated_stamp := 1 }

/-! ## Auxiliary definitions for the write path -/

/-- The child slot that the path to the cell with Morton code `morton` takes
in the chunk at depth `chunk_depth` of a block of height `tree_height`. -/
def pathSlot (kChunkHeight tree_height morton chunk_depth : Nat) : Nat :=
  computeLevelTraversalDistance morton (tree_height - chunk_depth * kChunkHeight)
    (tree_height - (chunk_depth + 1) * kChunkHeight)

/-- The pointer to the chunk at depth `chunk_depth` on the path to the cell
with Morton code `morton`. -/
def chunkPtr (kChunkHeight tree_height morton chunk_depth : Nat) : List Nat :=
  (List.range chunk_depth).map (pathSlot kChunkHeight tree_height morton)

/-- The chunk tree after the chunks at depths `1, ..., chunk_depth` on the
path to the cell with Morton code `morton` have been allocated where they
were missing. -/
def allocChain (kChunkHeight tree_height morton : Nat) (tree : Chunk) : Nat → Chunk
  | 0 => tree
  | chunk_depth + 1 =>
    (allocChain kChunkHeight tree_height morton tree chunk_depth).modify
      (fun c => c.getOrAllocateChild (pathSlot kChunkHeight tree_height morton chunk_depth))
      (chunkPtr kChunkHeight tree_height morton chunk_depth)

/-- The pointer cache once the chunks at depths `0, ..., chunk_depth` on the
path to the cell with Morton code `morton` have been visited. -/
def chainPtrs (kChunkHeight tree_height morton chunk_depth : Nat) : Nat → Option (List Nat) :=
  fun d => if d ≤ chunk_depth then some (chunkPtr kChunkHeight tree_height morton d) else none

/-- The node data of the chunk at depth `chunk_depth` on the path to the cell
with Morton code `morton`; zero when the chunk is not allocated. -/
def chunkDataAt (kChunkHeight tree_height morton : Nat) (tree : Chunk) (chunk_depth : Nat) :
    Nat → Details :=
  match tree.deref (chunkPtr kChunkHeight tree_height morton chunk_depth) with
  | some c => c.nodeData
  | none => fun _ => 0

/-- The chunks at depths `0, ..., chunk_depth` on the path to the cell with
Morton code `morton` are allocated. -/
def ChainAllocated (kChunkHeight tree_height morton : Nat) (tree : Chunk) (chunk_depth : Nat) :
    Prop :=
  ∀ d, d ≤ chunk_depth → (tree.deref (chunkPtr kChunkHeight tree_height morton d)).isSome = true

/-- The update that the ascent applies to the chunk of an ancestor: the
details are added to the node's data and its `hasAtLeastOneChild` bit is
set. -/
def Chunk.addDetails (relative_node_index : Nat) (details : Details) (c : Chunk) : Chunk :=
  (c.setNodeData relative_node_index
    (c.nodeData relative_node_index + details)).setNodeHasAtLeastOneChild relative_node_index true

/-- The depth of the chunk that holds the ancestor at `parent_height`. -/
def pathDepth (kChunkHeight tree_height parent_height : Nat) : Nat :=
  (tree_height - parent_height) / kChunkHeight

/-- The index, inside its chunk, of the ancestor at `parent_height` of the
cell with Morton code `morton`. -/
def pathNodeIndex (kChunkHeight tree_height morton parent_height : Nat) : Nat :=
  computeTreeTraversalDistance morton
    (tree_height - pathDepth kChunkHeight tree_height parent_height * kChunkHeight) parent_height

/-- The detail coefficients stored for the ancestor at `parent_height` of the
cell with Morton code `morton`; zero when its chunk is not allocated. -/
def pathData (kChunkHeight tree_height morton : Nat) (tree : Chunk) (parent_height : Nat) :
    Details :=
  chunkDataAt kChunkHeight tree_height morton tree
    (pathDepth kChunkHeight tree_height parent_height)
    (pathNodeIndex kChunkHeight tree_height morton parent_height)

/-- The coefficients that the ascent carries after `n` more iterations, the
next of which is for `parent_height`. -/
def ascendCoefficients (T : HaarTransform) (morton : Nat) : Nat → Nat → Parent → Parent
  | 0, _, coefficients => coefficients
  | n + 1, parent_height, coefficients =>
    ascendCoefficients T morton n (parent_height + 1)
      (T.forwardSingleChild coefficients.1 (computeRelativeChildIndex morton parent_height))

/-- The value at height `tree_height - j` on the path to the cell with Morton
code `morton`, decompressed from the root scale coefficient with the given
detail coefficients of the ancestors. -/
def pathValue (T : HaarTransform) (morton tree_height : Nat) (details : Nat → Details)
    (root_scale_coefficient : ℚ) : Nat → ℚ
  | 0 => root_scale_coefficient
  | j + 1 =>
    T.backwardSingleChild
      (pathValue T morton tree_height details root_scale_coefficient j, details (tree_height - j))
      (computeRelativeChildIndex morton (tree_height - j))

/-- The block after `addToCellValue(index, u)` for each `u` of a list of
updates, in order; `none` when one of the calls dereferences a null chunk
pointer. -/
def HashedChunkedWaveletOctreeBlock.addToCellValueAll (T : HaarTransform) (kChunkHeight : Nat)
    (index : OctreeIndex) : List ℚ → HashedChunkedWaveletOctreeBlock →
      Option HashedChunkedWaveletOctreeBlock
  | [], blk => some blk
  | u :: updates, blk =>
    match blk.addToCellValue T kChunkHeight index u with
    | none => none
    | some blk' => addToCellValueAll T kChunkHeight index updates blk'

/-- A block of height 6 (two levels of chunks of height 3) with an empty root
chunk and root scale 10. -/
def saturatedDeepBlock : HashedChunkedWaveletOctreeBlock :=
  { tree_height := 6, min_log_odds := -2, max_log_odds := 4, root_scale_coefficient := 10,
    chunked_ndtree := Chunk.fresh, needs_thresholding := true, needs_pruning := true,
    last_updated_stamp := 1 }

/-- Every node of the chunk, and of the child chunks below it, has zero
detail coefficients. -/
def Chunk.allZero : Chunk → Prop
  | Chunk.leafChunk node_data _ => ∀ j, node_data j = 0
  | Chunk.innerChunk node_data _ present child_chunks =>
    (∀ j, node_data j = 0) ∧ ∀ i, present i = true → (child_chunks i).allZero

/-- The transform of a constant region: the scale is the constant and the
details are zero (spec 3 and 4.1: the scale is the average of the children,
the details are their differences). -/
def ForwardOfConstant (T : HaarTransform) : Prop :=
  ∀ c : ℚ, T.forward (fun _ => c) = (c, 0)

/-! ## Auxiliary definitions for the traversal -/

/-- The stack element that the loop body of `forEachLeaf` pushes for the child
`child_idx` of the popped node, if it pushes one. -/
def pushedChild (T : HaarTransform) (kChunkHeight termination_height : Nat) (top : StackElement)
    (child_idx : Fin 8) : Option StackElement :=
  match top.node.getChild kChunkHeight child_idx with
  | some child_node =>
    if termination_height < (top.node_index.computeChildIndex child_idx).height then
      some { node_index := top.node_index.computeChildIndex child_idx, node := child_node,
             scale_coefficient := T.backward (top.scale_coefficient, top.node.data) child_idx }
    else none
  | none => none

/-- The call to the visitor that the loop body of `forEachLeaf` makes for the
child `child_idx` of the popped node, if it makes one. -/
def emittedChild (T : HaarTransform) (kChunkHeight termination_height : Nat) (top : StackElement)
    (child_idx : Fin 8) : Option (OctreeIndex × ℚ) :=
  match top.node.getChild kChunkHeight child_idx with
  | some _ =>
    if termination_height < (top.node_index.computeChildIndex child_idx).height then none
    else some (top.node_index.computeChildIndex child_idx,
      T.backward (top.scale_coefficient, top.node.data) child_idx)
  | none => some (top.node_index.computeChildIndex child_idx,
      T.backward (top.scale_coefficient, top.node.data) child_idx)

/-- The node `a` covers the height-0 cell with Morton code `q`: the cell is the
node itself or one of its descendants. -/
def OctreeIndex.covers (q : Nat) (a : OctreeIndex) : Bool :=
  decide (q / 8 ^ a.height = a.position)

/-- The node `a` is the node `b` or an ancestor of it. -/
def OctreeIndex.isAncestorOrSelf (a b : OctreeIndex) : Prop :=
  b.height ≤ a.height ∧ b.position / 8 ^ (a.height - b.height) = a.position

/-- The node `a` lies inside the block `block_index` of height `tree_height`. -/
def OctreeIndex.insideBlock (tree_height block_index : Nat) (a : OctreeIndex) : Prop :=
  a.height ≤ tree_height ∧ a.position / 8 ^ (tree_height - a.height) = block_index

/-- The bound on the number of iterations that the loop of `forEachLeaf` still
makes: for every stack element, the number of nodes of a full octree below
it. -/
def stackMeasure : List StackElement → Nat
  | [] => 0
  | e :: stack => tree_size (e.node_index.height + 1) + stackMeasure stack

/-- The invariant of the loop of `forEachLeaf` in a block of height
`tree_height` with index `block_index`: every stack element has a positive
height, every stack element and every visited node lies inside the block, and
every height-0 cell of the block is covered by exactly one node that is on
the stack or has been visited. -/
def LeafCover (tree_height block_index : Nat) (stack : List StackElement)
    (visited : List (OctreeIndex × ℚ)) : Prop :=
  (∀ e, e ∈ stack → 1 ≤ e.node_index.height)
    ∧ (∀ e, e ∈ stack → e.node_index.insideBlock tree_height block_index)
    ∧ (∀ v, v ∈ visited → v.1.insideBlock tree_height block_index)
    ∧ ∀ q, q / 8 ^ tree_height = block_index →
        (stack.map (fun e => e.node_index)).countP (OctreeIndex.covers q)
          + (visited.map Prod.fst).countP (OctreeIndex.covers q) = 1

/-- Every node value of the chunk, decompressed from the scale coefficient
`s` that enters it, and every node value of the child chunks below it, lies
in `[lo, hi]`. -/
def Chunk.valuesInRange (T : HaarTransform) (kChunkHeight : Nat) (lo hi : ℚ) : Chunk → ℚ → Prop
  | Chunk.leafChunk node_data _, s =>
    ∀ l r, l ≤ kChunkHeight → r < 8 ^ l →
      lo ≤ nodeValue T node_data s l r ∧ nodeValue T node_data s l r ≤ hi
  | Chunk.innerChunk node_data _ present child_chunks, s =>
    (∀ l r, l ≤ kChunkHeight → r < 8 ^ l →
      lo ≤ nodeValue T node_data s l r ∧ nodeValue T node_data s l r ≤ hi)
    ∧ ∀ i, i < 8 ^ kChunkHeight → present i = true →
        (child_chunks i).valuesInRange T kChunkHeight lo hi
          (nodeValue T node_data s kChunkHeight i)

/-- The stack element refers to an inner node of a chunk whose node values
all lie in `[lo, hi]`, and carries the value of that node. -/
def StackElement.inRange (T : HaarTransform) (kChunkHeight : Nat) (lo hi : ℚ)
    (e : StackElement) : Prop :=
  ∃ s, e.node.chunk.valuesInRange T kChunkHeight lo hi s
    ∧ e.node.relative_node_depth < kChunkHeight
    ∧ e.node.level_traversal_distance < 8 ^ e.node.relative_node_depth
    ∧ e.scale_coefficient
        = nodeValue T e.node.chunk.nodeData s e.node.relative_node_depth
            e.node.level_traversal_distance

/-! ## Auxiliary definitions for the nodes that the traversal visits -/

/-- The node that is reached from the node `root` by descending `depth`
levels along the octal digits of `position` (the last digit selects the last
child); `none` when the tree holds no such node. -/
def NodeRef.findNode (kChunkHeight : Nat) (root : NodeRef) : Nat → Nat → Option NodeRef
  | 0, _ => some root
  | depth + 1, position =>
    match NodeRef.findNode kChunkHeight root depth (position / 8) with
    | some node => node.getChild kChunkHeight ⟨position % 8, Nat.mod_lt _ (by decide)⟩
    | none => none

/-- The node of the block's tree with the given index; `none` when the tree
holds no node for the index. -/
def HashedChunkedWaveletOctreeBlock.getNode (kChunkHeight : Nat)
    (blk : HashedChunkedWaveletOctreeBlock) (index : OctreeIndex) : Option NodeRef :=
  NodeRef.findNode kChunkHeight
    { chunk := blk.chunked_ndtree, relative_node_depth := 0, level_traversal_distance := 0 }
    (blk.tree_height - index.height) index.position

/-- The invariant of the loop of `forEachLeaf` about heights: every stack
element is a node of the tree above `termination_height`, and every visited
index has a height from `termination_height` to `tree_height - 1` and, when it
is above `termination_height`, no node in the tree. -/
def VisitedHeights (kChunkHeight termination_height : Nat)
    (blk : HashedChunkedWaveletOctreeBlock) (stack : List StackElement)
    (visited : List (OctreeIndex × ℚ)) : Prop :=
  (∀ e, e ∈ stack → termination_height < e.node_index.height
      ∧ e.node_index.height ≤ blk.tree_height
      ∧ blk.getNode kChunkHeight e.node_index = some e.node)
    ∧ ∀ v, v ∈ visited → termination_height ≤ v.1.height ∧ v.1.height < blk.tree_height
      ∧ (termination_height < v.1.height → blk.getNode kChunkHeight v.1 = none)

/-! ## Auxiliary definitions for the order of writes -/

/-- The chunk with its node data and its `hasAtLeastOneChild` bits replaced
by `u` and `v` of them; the child chunks are left as they are. -/
def Chunk.mapData (u : (Nat → Details) → (Nat → Details)) (v : (Nat → Bool) → (Nat → Bool)) :
    Chunk → Chunk
  | Chunk.leafChunk d fl => Chunk.leafChunk (u d) (v fl)
  | Chunk.innerChunk d fl p cs => Chunk.innerChunk (u d) (v fl) p cs

/-- The tree after the chunks along a pointer have been allocated where they
were missing and the chunk the pointer points to has been replaced by `f` of
it. -/
def Chunk.modifyAlloc (f : Chunk → Chunk) : Chunk → List Nat → Chunk
  | c, [] => f c
  | Chunk.leafChunk d fl, a :: rest =>
    Chunk.innerChunk d fl (fun j => decide (j = a))
      (Function.update (fun _ => Chunk.fresh) a (Chunk.modifyAlloc f Chunk.fresh rest))
  | Chunk.innerChunk d fl p cs, a :: rest =>
    if p a then Chunk.innerChunk d fl p (Function.update cs a (Chunk.modifyAlloc f (cs a) rest))
    else Chunk.innerChunk d fl (Function.update p a true)
      (Function.update cs a (Chunk.modifyAlloc f Chunk.fresh rest))

/-- The chunk tree after the ascent loop of `setCellValue` and
`addToCellValue`: `n` is the number of iterations left, the next of which is
for `parent_height`. -/
def ascendTree (T : HaarTransform) (kChunkHeight tree_height morton : Nat) :
    Nat → Nat → Parent → Chunk → Chunk
  | 0, _, _, tree => tree
  | n + 1, parent_height, coefficients, tree =>
    ascendTree T kChunkHeight tree_height morton n (parent_height + 1)
      (T.forwardSingleChild coefficients.1 (computeRelativeChildIndex morton parent_height))
      (tree.modify (Chunk.addDetails (pathNodeIndex kChunkHeight tree_height morton parent_height)
        (T.forwardSingleChild coefficients.1
          (computeRelativeChildIndex morton parent_height)).2)
        (chunkPtr kChunkHeight tree_height morton
          (pathDepth kChunkHeight tree_height parent_height)))

/-- A change of the chunk tree that allocates the chunks along a pointer where
they are missing and then changes only the node data and the
`hasAtLeastOneChild` bits of the chunk the pointer points to. -/
def IsPathWrite (w : Chunk → Chunk) : Prop :=
  ∃ (idx : Nat) (det : Details) (set_flag : Bool) (ptr : List Nat),
    w = fun t => t.modifyAlloc
      (Chunk.mapData (fun d => Function.update d idx (d idx + det))
        (fun fl => if set_flag then Function.update fl idx true else fl)) ptr

/-- The writes that allocate the chunks at depths `1, ..., chunk_depth` on
the path to the cell with Morton code `morton`, in the order in which the
descent makes them. -/
def allocWrites (kChunkHeight tree_height morton : Nat) : Nat → List (Chunk → Chunk)
  | 0 => []
  | chunk_depth + 1 =>
    allocWrites kChunkHeight tree_height morton chunk_depth
      ++ [fun t => t.modifyAlloc id (chunkPtr kChunkHeight tree_height morton (chunk_depth + 1))]

/-- The writes of the ascent loop, in the order in which the loop makes them:
`n` is the number of iterations left, the next of which is for
`parent_height`. -/
def ascendWrites (T : HaarTransform) (kChunkHeight tree_height morton : Nat) :
    Nat → Nat → Parent → List (Chunk → Chunk)
  | 0, _, _ => []
  | n + 1, parent_height, coefficients =>
    (fun t => t.modifyAlloc
        (Chunk.addDetails (pathNodeIndex kChunkHeight tree_height morton parent_height)
          (T.forwardSingleChild coefficients.1
            (computeRelativeChildIndex morton parent_height)).2)
        (chunkPtr kChunkHeight tree_height morton
          (pathDepth kChunkHeight tree_height parent_height)))
      :: ascendWrites T kChunkHeight tree_height morton n (parent_height + 1)
          (T.forwardSingleChild coefficients.1 (computeRelativeChildIndex morton parent_height))

/-- The tree after a list of writes, the head of the list first. -/
def applyWrites (writes : List (Chunk → Chunk)) (tree : Chunk) : Chunk :=
  writes.foldl (fun t w => w t) tree

/-! ## Auxiliary definitions for the dirty flags -/

/-- A call of one of the operations that change a block. -/
inductive BlockOperation where
  | setCellValue (index : OctreeIndex) (new_value : ℚ) : BlockOperation
  | addToCellValue (index : OctreeIndex) (update : ℚ) : BlockOperation
  | threshold : BlockOperation
  | prune : BlockOperation
  | clear : BlockOperation

/-- The block after one operation; `none` when the operation dereferences a
null chunk pointer. -/
def HashedChunkedWaveletOctreeBlock.apply (T : HaarTransform) (kChunkHeight : Nat)
    (blk : HashedChunkedWaveletOctreeBlock) : BlockOperation →
      Option HashedChunkedWaveletOctreeBlock
  | BlockOperation.setCellValue index new_value => blk.setCellValue T kChunkHeight index new_value
  | BlockOperation.addToCellValue index update => blk.addToCellValue T kChunkHeight index update
  | BlockOperation.threshold => some (blk.threshold T kChunkHeight)
  | BlockOperation.prune => some (blk.prune T kChunkHeight)
  | BlockOperation.clear => some blk.clear

/-- The block after a sequence of operations, the head of the list first. -/
def HashedChunkedWaveletOctreeBlock.applyAll (T : HaarTransform) (kChunkHeight : Nat) :
    List BlockOperation → HashedChunkedWaveletOctreeBlock →
      Option HashedChunkedWaveletOctreeBlock
  | [], blk => some blk
  | op :: ops, blk =>
    match blk.apply T kChunkHeight op with
    | none => none
    | some blk' => HashedChunkedWaveletOctreeBlock.applyAll T kChunkHeight ops blk'

/-! ## Auxiliary definitions for the range image -/

/-- Whether `computeRangeImage` accepts a point: no coordinate is NaN and the
norm is not above `1e3`. -/
def PointGeometry.accepts {P : Type} (G : PointGeometry P) (C_point : P) : Bool :=
  (!G.hasNaN C_point && !decide (1000 < G.norm C_point))

/-- A point of a scan, given by what `computeRangeImage` uses of it: whether
one of its coordinates is NaN, its norm, and the index of the beam nearest to
its bearing. -/
structure BeamPoint where
  has_nan : Bool
  range : ℚ
  beam : Nat

/-- The geometry of points given by range and beam. -/
def beamGeometry : PointGeometry BeamPoint :=
  { hasNaN := fun p => p.has_nan, norm := fun p => p.range,
    bearingToNearestIndex := fun _ _ _ p => p.beam }

/-- A scan of two points on the same beam, the nearer one first: in the
sensor frame, the points `(1, 0)` and `(2, 0)`. -/
def twoPointsOnOneBeam : PosedPointcloud BeamPoint Unit :=
  { pose := (), points_local := [{ has_nan := false, range := 1, beam := 0 },
                                 { has_nan := false, range := 2, beam := 0 }] }

/-- A scan with a point at range exactly `1e3`, a point beyond it and a point
with a NaN coordinate. -/
def scanWithRejectedPoints : PosedPointcloud BeamPoint Unit :=
  { pose := (), points_local := [{ has_nan := false, range := 1000, beam := 0 },
                                 { has_nan := false, range := 1001, beam := 1 },
                                 { has_nan := true, range := 5, beam := 2 }] }

/-- The range that the closest-surface policy of the spec keeps for a cell
(spec 4.4: "retaining the smaller value on collisions"): the smallest range
among the accepted points whose nearest beam is the cell. -/
def closestSurfaceRange {P : Type} (G : PointGeometry P) (points : List P)
    (min_angle max_angle : ℚ) (num_beams : Nat) (range_image_index : Nat) : Option ℚ :=
  ((points.filter (fun p => G.accepts p
      && decide (G.bearingToNearestIndex min_angle max_angle num_beams p = range_image_index))).map
    G.norm).foldl
    (fun (kept : Option ℚ) range =>
      match kept with
      | none => some range
      | some r => some (min r range)) none

/-! ## Auxiliary definitions for the integrator -/

/-- The classification of a node by the intersector (lines 50-54). -/
def CoarseToFineIntegrator.intersectionTypeOf {P Pose AABB : Type}
    (I : CoarseToFineIntegrator P Pose AABB) (pointcloud : PosedPointcloud P Pose)
    (range_image : RangeImage) (min_cell_width : ℚ) (node : QuadtreeIndex) : IntersectionType :=
  I.determineIntersectionType range_image pointcloud.pose (I.nodeIndexToAABB node min_cell_width)

/-- The test of lines 68-70: the node has height 0 or its approximation error
is acceptable. -/
abbrev CoarseToFineIntegrator.updatesNode {P Pose AABB : Type}
    (I : CoarseToFineIntegrator P Pose AABB) (pointcloud : PosedPointcloud P Pose)
    (range_image : RangeImage) (min_cell_width : ℚ) (node : QuadtreeIndex) : Prop :=
  node.height = 0
    ∨ I.isApproximationErrorAcceptable
        (I.intersectionTypeOf pointcloud range_image min_cell_width node)
        (I.nodeCenterDistance pointcloud.pose (I.nodeIndexToAABB node min_cell_width))
        (I.boundingSphereRadius (I.nodeIndexToAABB node min_cell_width)) = true

/-- The update that the beam model gives for a node (lines 71-73). -/
def CoarseToFineIntegrator.sampleOf {P Pose AABB : Type}
    (I : CoarseToFineIntegrator P Pose AABB) (pointcloud : PosedPointcloud P Pose)
    (range_image : RangeImage) (min_cell_width : ℚ) (node : QuadtreeIndex) : ℚ :=
  I.computeUpdateForCell range_image
    (I.nodeCenterDistance pointcloud.pose (I.nodeIndexToAABB node min_cell_width))
    (I.nodeCenterAngle pointcloud.pose (I.nodeIndexToAABB node min_cell_width))

/-- The updates that the algorithm of the spec (4.5) makes below a node whose
height is `depth`, in the order of the work stack: none for a fully unknown
node, one for a node of height 0 or with an acceptable approximation error,
and otherwise those of its four children, the last child first. -/
def expectedUpdates {P Pose AABB : Type} (I : CoarseToFineIntegrator P Pose AABB)
    (pointcloud : PosedPointcloud P Pose) (range_image : RangeImage) (min_cell_width : ℚ) :
    Nat → QuadtreeIndex → List (QuadtreeIndex × ℚ)
  | 0, node =>
    if I.intersectionTypeOf pointcloud range_image min_cell_width node
        = IntersectionType.kFullyUnknown then []
    else if I.updatesNode pointcloud range_image min_cell_width node then
      [(node, I.sampleOf pointcloud range_image min_cell_width node)]
    else []
  | depth + 1, node =>
    if I.intersectionTypeOf pointcloud range_image min_cell_width node
        = IntersectionType.kFullyUnknown then []
    else if I.updatesNode pointcloud range_image min_cell_width node then
      [(node, I.sampleOf pointcloud range_image min_cell_width node)]
    else
      expectedUpdates I pointcloud range_image min_cell_width depth (node.computeChildIndex 3)
        ++ expectedUpdates I pointcloud range_image min_cell_width depth (node.computeChildIndex 2)
        ++ expectedUpdates I pointcloud range_image min_cell_width depth (node.computeChildIndex 1)
        ++ expectedUpdates I pointcloud range_image min_cell_width depth (node.computeChildIndex 0)

/-- The updates that the algorithm of the spec makes for the nodes of a work
stack, the top of the stack first. -/
def expectedUpdatesOfStack {P Pose AABB : Type} (I : CoarseToFineIntegrator P Pose AABB)
    (pointcloud : PosedPointcloud P Pose) (range_image : RangeImage) (min_cell_width : ℚ) :
    List QuadtreeIndex → List (QuadtreeIndex × ℚ)
  | [] => []
  | node :: stack =>
    expectedUpdates I pointcloud range_image min_cell_width node.height.toNat node
      ++ expectedUpdatesOfStack I pointcloud range_image min_cell_width stack

/-- The quadtree node `a` is the node `b` or an ancestor of it. -/
def QuadtreeIndex.isAncestorOrSelf (a b : QuadtreeIndex) : Prop :=
  b.height ≤ a.height ∧ b.position / 4 ^ (a.height - b.height).toNat = a.position

/-- An integrator for scans given by range and beam, with a small intersector
and beam model: a cloud is valid when it is not empty; a node is fully
unknown when the beam with the parity of its position has no return; the
approximation error of a node is acceptable when its height is at most 1; the
update of a node is the range of its beam. -/
def beamIntegrator : CoarseToFineIntegrator BeamPoint Unit QuadtreeIndex :=
  { geometry := beamGeometry,
    isPointcloudValid := fun pointcloud => !pointcloud.points_local.isEmpty,
    nodeIndexToAABB := fun node _ => node,
    determineIntersectionType := fun range_image _ node =>
      match range_image.data (node.position % 2) with
      | none => IntersectionType.kFullyUnknown
      | some _ => IntersectionType.kPossiblyOccupied,
    nodeCenterDistance := fun _ node => node.position,
    boundingSphereRadius := fun node => node.height,
    isApproximationErrorAcceptable := fun _ _ radius => decide (radius ≤ 1),
    nodeCenterAngle := fun _ _ => 0,
    computeUpdateForCell := fun range_image d_C_cell _ =>
      match range_image.data (d_C_cell.num.toNat % 2) with
      | none => 0
      | some range => range }

/-- A map without updates whose root cover has two first-child nodes of
height 2. -/
def twoRootsMap : VolumetricQuadtree :=
  { min_cell_width := 1 / 10,
    first_child_indices := [{ height := 2, position := 0 }, { height := 2, position := 1 }],
    updates := [] }

/-- A scan without points. -/
def emptyScan : PosedPointcloud BeamPoint Unit :=
  { pose := (), points_local := [] }

/-- A range image with two beams in which beam 0 has a return at range 2 and
beam 1 has none. -/
def oneReturnImage : RangeImage :=
  (RangeImage.new (-2) 2 2).set 0 2

/-- Two quadtree nodes overlap: one of them is the other or an ancestor of
it. -/
def QuadtreeIndex.overlaps (a b : QuadtreeIndex) : Prop :=
  a.isAncestorOrSelf b ∨ b.isAncestorOrSelf a

/-- The quadtree node `a` covers the height-0 cell with Morton code `q`. -/
def QuadtreeIndex.coversCell (q : Nat) (a : QuadtreeIndex) : Bool :=
  decide (0 ≤ a.height ∧ q / 4 ^ a.height.toNat = a.position)

/-! ## The array accesses of `recursiveThreshold` -/

/-- An access to one of the arrays of `recursiveThreshold`: the scratch array
`chunk_scale_coefficients`, the bitset `is_nonzero_child`, the chunk's node
data (`chunk.nodeData`), the chunk's `hasAtLeastOneChild` bits
(`chunk.nodeHasAtLeastOneChild`) and the chunk's child slots (`chunk.hasChild`,
`chunk.getChild`), each with the index used. -/
inductive ArrayAccess where
  | scratch (idx : Nat) : ArrayAccess
  | nonzeroBit (idx : Nat) : ArrayAccess
  | nodeData (idx : Nat) : ArrayAccess
  | nodeFlag (idx : Nat) : ArrayAccess
  | childSlot (idx : Nat) : ArrayAccess

/-- The access is inside its array: the scratch array and the bitset have
`tree_size(kChunkHeight + 1)` entries, the node data and the node flags have
`kNumInnerNodes` entries, the chunk has `kNumChildren` child slots. -/
def ArrayAccess.inBounds (kChunkHeight : Nat) : ArrayAccess → Prop
  | ArrayAccess.scratch idx => idx < tree_size (kChunkHeight + 1)
  | ArrayAccess.nonzeroBit idx => idx < tree_size (kChunkHeight + 1)
  | ArrayAccess.nodeData idx => idx < kNumInnerNodes kChunkHeight
  | ArrayAccess.nodeFlag idx => idx < kNumInnerNodes kChunkHeight
  | ArrayAccess.childSlot idx => idx < kNumChildren kChunkHeight

/-- The accesses of the decompression loops of `recursiveThreshold`
(lines 216-230). -/
def decompressAccesses (kChunkHeight : Nat) : List ArrayAccess :=
  (List.range kChunkHeight).flatMap (fun level_idx =>
    let first_idx := tree_size level_idx
    let last_idx := tree_size (level_idx + 1)
    (List.range (level_size (level_idx + 1))).flatMap (fun relative_idx =>
      let src_idx := first_idx + relative_idx
      let first_dest_idx := last_idx + 8 * relative_idx
      [ArrayAccess.scratch src_idx, ArrayAccess.nodeData src_idx]
        ++ (List.range 8).map (fun j => ArrayAccess.scratch (first_dest_idx + j))))

/-- The accesses of the threshold loop of `recursiveThreshold`
(lines 233-247). -/
def thresholdAccesses (kChunkHeight : Nat) : List ArrayAccess :=
  let first_leaf_idx := tree_size kChunkHeight
  (List.range (kNumChildren kChunkHeight)).flatMap (fun child_idx =>
    let array_idx := first_leaf_idx + child_idx
    [ArrayAccess.childSlot child_idx, ArrayAccess.scratch array_idx,
      ArrayAccess.nonzeroBit array_idx])

/-- The accesses of the compression loops of `recursiveThreshold`
(lines 250-275). -/
def compressAccesses (kChunkHeight : Nat) : List ArrayAccess :=
  (List.range kChunkHeight).reverse.flatMap (fun level_idx =>
    let first_idx := tree_size level_idx
    let last_idx := tree_size (level_idx + 1)
    (List.range (level_size (level_idx + 1))).reverse.flatMap (fun relative_idx =>
      let first_src_idx := last_idx + 8 * relative_idx
      let dst_idx := first_idx + relative_idx
      (List.range 8).map (fun j => ArrayAccess.scratch (first_src_idx + j))
        ++ (List.range 8).map (fun j => ArrayAccess.nonzeroBit (first_src_idx + j))
        ++ [ArrayAccess.scratch dst_idx, ArrayAccess.nodeData dst_idx,
            ArrayAccess.nodeFlag dst_idx, ArrayAccess.nonzeroBit dst_idx]))

/-- The array accesses of one call of `recursiveThreshold`, recursive calls
apart, in the order of the source: line 214, the three groups of loops and
the return statement. -/
def recursiveThresholdAccesses (kChunkHeight : Nat) : List ArrayAccess :=
  [ArrayAccess.scratch 0] ++ decompressAccesses kChunkHeight ++ thresholdAccesses kChunkHeight
    ++ compressAccesses kChunkHeight ++ [ArrayAccess.scratch 0, ArrayAccess.nonzeroBit 0]

/-! ## Auxiliary definitions for the `hasAtLeastOneChild` flags -/

/-- Some node of the chunk, or of a chunk below it, has detail coefficients
that `data::is_nonzero` reports as nonzero. -/
def Chunk.hasNonzeroBelow (kChunkHeight : Nat) : Chunk → Prop
  | Chunk.leafChunk node_data _ =>
    ∃ j, j < kNumInnerNodes kChunkHeight ∧ is_nonzero (node_data j) = true
  | Chunk.innerChunk node_data _ present child_chunks =>
    (∃ j, j < kNumInnerNodes kChunkHeight ∧ is_nonzero (node_data j) = true)
      ∨ ∃ i, i < kNumChildren kChunkHeight ∧ present i = true
          ∧ (child_chunks i).hasNonzeroBelow kChunkHeight

/-- Some strict descendant of the node at depth `l` and offset `r` of the
chunk has nonzero detail coefficients: a node at a depth `l' > l` of the same
chunk whose ancestor at depth `l` is the node, or a node of a child chunk
(or of a chunk below it) in a child slot below the node. -/
def Chunk.strictDescendantNonzero (kChunkHeight : Nat) (c : Chunk) (l r : Nat) : Prop :=
  (∃ l' r', l < l' ∧ l' < kChunkHeight ∧ r' < 8 ^ l' ∧ r' / 8 ^ (l' - l) = r
      ∧ is_nonzero (c.nodeData (tree_size l' + r')) = true)
    ∨ ∃ i child, i < 8 ^ kChunkHeight ∧ i / 8 ^ (kChunkHeight - l) = r
        ∧ c.getChild i = some child ∧ child.hasNonzeroBelow kChunkHeight

/-- The `hasAtLeastOneChild` flag of every node of the chunk, and of the
chunks below it, tells whether a strict descendant of the node has nonzero
detail coefficients. -/
def Chunk.flagsConsistent (kChunkHeight : Nat) : Chunk → Prop
  | Chunk.leafChunk node_data flags =>
    ∀ l r, l < kChunkHeight → r < 8 ^ l →
      (flags (tree_size l + r) = true
        ↔ (Chunk.leafChunk node_data flags).strictDescendantNonzero kChunkHeight l r)
  | Chunk.innerChunk node_data flags present child_chunks =>
    (∀ l r, l < kChunkHeight → r < 8 ^ l →
      (flags (tree_size l + r) = true
        ↔ (Chunk.innerChunk node_data flags present child_chunks).strictDescendantNonzero
            kChunkHeight l r))
    ∧ ∀ i, i < 8 ^ kChunkHeight → present i = true →
        (child_chunks i).flagsConsistent kChunkHeight

/-- A block of height 2 with chunks of height 1 that needs thresholding: the
root chunk has one child chunk, in slot 0, whose node has detail coefficients
equal to 1. -/
def oneChildBlockDirty : HashedChunkedWaveletOctreeBlock :=
  { oneChildBlock with needs_thresholding := true }

/-! ## Auxiliary definitions for the cells that a write changes -/

/-- The node data of the chunk a pointer points to; zero when the chunk is not
allocated. -/
def Chunk.dataAt (tree : Chunk) (ptr : List Nat) : Nat → Details :=
  match tree.deref ptr with
  | some c => c.nodeData
  | none => fun _ => 0

/-- The paths to the cells with Morton codes `a` and `b` pass through the same
node at height `height` of a block of height `tree_height`. -/
abbrev sameAncestor (tree_height height a b : Nat) : Prop :=
  (a / 8 ^ height) % 8 ^ (tree_height - height) = (b / 8 ^ height) % 8 ^ (tree_height - height)

/-! ## A concrete transform: the Haar wavelet on eight children -/

/-- The forward Haar transform: the average of the eight children and their
seven differences. -/
def haarForward (x : CoefficientsArray) : Parent :=
  ((x 0 + x 1 + x 2 + x 3 + x 4 + x 5 + x 6 + x 7) / 8,
    fun i => match i with
      | 0 => (-x 0 + x 1 - x 2 + x 3 - x 4 + x 5 - x 6 + x 7) / 8
      | 1 => (-x 0 - x 1 + x 2 + x 3 - x 4 - x 5 + x 6 + x 7) / 8
      | 2 => (x 0 - x 1 - x 2 + x 3 + x 4 - x 5 - x 6 + x 7) / 8
      | 3 => (-x 0 - x 1 - x 2 - x 3 + x 4 + x 5 + x 6 + x 7) / 8
      | 4 => (x 0 - x 1 + x 2 - x 3 - x 4 + x 5 - x 6 + x 7) / 8
      | 5 => (x 0 + x 1 - x 2 - x 3 - x 4 - x 5 + x 6 + x 7) / 8
      | 6 => (-x 0 + x 1 + x 2 - x 3 + x 4 - x 5 - x 6 + x 7) / 8)

/-- The backward Haar transform. -/
def haarBackward (p : Parent) : CoefficientsArray :=
  fun i => match i with
    | 0 => p.1 - p.2 0 - p.2 1 + p.2 2 - p.2 3 + p.2 4 + p.2 5 - p.2 6
    | 1 => p.1 + p.2 0 - p.2 1 - p.2 2 - p.2 3 - p.2 4 + p.2 5 + p.2 6
    | 2 => p.1 - p.2 0 + p.2 1 - p.2 2 - p.2 3 + p.2 4 - p.2 5 + p.2 6
    | 3 => p.1 + p.2 0 + p.2 1 + p.2 2 - p.2 3 - p.2 4 - p.2 5 - p.2 6
    | 4 => p.1 - p.2 0 - p.2 1 + p.2 2 + p.2 3 - p.2 4 - p.2 5 + p.2 6
    | 5 => p.1 + p.2 0 - p.2 1 - p.2 2 + p.2 3 + p.2 4 - p.2 5 - p.2 6
    | 6 => p.1 - p.2 0 + p.2 1 - p.2 2 + p.2 3 - p.2 4 + p.2 5 - p.2 6
    | 7 => p.1 + p.2 0 + p.2 1 + p.2 2 + p.2 3 + p.2 4 + p.2 5 + p.2 6

/-- The Haar transform as the block's `Transform`. -/
def haar : HaarTransform :=
  { forward := haarForward,
    backward := haarBackward,
    forwardSingleChild := fun delta i => haarForward (Pi.single i delta),
    backwardSingleChild := fun p i => haarBackward p i }

/-- The block of height 1 (one chunk of height 1, bounds `[-2, 4]`) after
`addToCellValue` added 10 to its cell 0: the cell holds 10, beyond
`max_log_odds`, and the block still needs thresholding. -/
def overflowBlock : HashedChunkedWaveletOctreeBlock :=
  { tree_height := 1, min_log_odds := -2, max_log_odds := 4,
    root_scale_coefficient := 0 + (haar.forwardSingleChild 10 0).1,
    chunked_ndtree := Chunk.leafChunk
      (Function.update (fun _ => 0) 0 (0 + (haar.forwardSingleChild 10 0).2))
      (Function.update (fun _ => false) 0 true),
    needs_thresholding := true, needs_pruning := true, last_updated_stamp := 1 }

/-- The block of height 6 with chunks of height 3 (bounds `[-2, 4]`) after
`addToCellValue` added 1 to the node of height 2 at position 0 of a new
block: the writes of the call applied to the empty root chunk. -/
def chunkTopBlock : HashedChunkedWaveletOctreeBlock :=
  { tree_height := 6, min_log_odds := -2, max_log_odds := 4,
    root_scale_coefficient :=
      0 + (ascendCoefficients haar (nodeIndexToMorton (OctreeIndex.mk 2 0)) (6 - 2) (2 + 1)
        (1, 0)).1,
    chunked_ndtree :=
      applyWrites
        (allocWrites 3 6 (nodeIndexToMorton (OctreeIndex.mk 2 0)) ((6 - 2 - 1) / 3)
          ++ ascendWrites haar 3 6 (nodeIndexToMorton (OctreeIndex.mk 2 0)) (6 - 2) (2 + 1)
              (1, 0))
        Chunk.fresh,
    needs_thresholding := true, needs_pruning := true, last_updated_stamp := 0 + 1 }

/-! ## Single-precision arithmetic

`FloatingPoint` is `float`.  The theorems about exact arithmetic take the
scalars as rationals; the definitions below model the rounding of `float`
arithmetic on the rationals, for the finite values (overflow to infinity and
NaN are outside this model). -/

/-- The power of two `2^e` as a rational. -/
def pow2 (e : Int) : ℚ :=
  if 0 ≤ e then ((2 ^ e.toNat : Nat) : ℚ) else 1 / ((2 ^ (-e).toNat : Nat) : ℚ)

/-- The number of halvings that take `n` below 2, at most `fuel` of them. -/
def halvings : Nat → Nat → Nat
  | 0, _ => 0
  | fuel + 1, n => if n < 2 then 0 else halvings fuel (n / 2) + 1

/-- The binary logarithm of a natural number, rounded down (0 for 0). -/
def binaryLog (n : Nat) : Nat :=
  halvings n n

/-- The binary exponent of a nonzero rational `x`: the integer `e` with
`2^e ≤ |x| < 2^(e+1)`. -/
def binaryExponent (x : ℚ) : Int :=
  let e : Int := (binaryLog x.num.natAbs : Int) - (binaryLog x.den : Int)
  if pow2 e ≤ (if x < 0 then -x else x) then e else e - 1

/-- The integer nearest to `y`, the even one of the two when `y` lies halfway
between two integers. -/
def roundHalfEven (y : ℚ) : Int :=
  let f : Int := Rat.floor y
  if y - f < 1 / 2 then f
  else if 1 / 2 < y - f then f + 1
  else if f % 2 = 0 then f else f + 1

/-- The `float` (IEEE 754 binary32: 24 significant bits, least exponent -126)
that stores the real number `x`, rounded to nearest, ties to even. -/
def roundFloat32 (x : ℚ) : ℚ :=
  if x = 0 then 0
  else
    let quantum := pow2 (max (binaryExponent x) (-126) - 23)
    (roundHalfEven (x / quantum) : ℚ) * quantum

/-- The sum of the terms, added from left to right, each partial sum rounded
by `rnd`. -/
def roundedSum (rnd : ℚ → ℚ) : List ℚ → ℚ
  | [] => 0
  | first :: rest => rest.foldl (fun acc term => rnd (acc + term)) first

/-- Modelled from the spec: the forward Haar transform (spec 4.1) in
arithmetic that rounds the result of every operation by `rnd`; the
operations are those of `haarForward`, from left to right. -/
def haarForwardRounded (rnd : ℚ → ℚ) (x : CoefficientsArray) : Parent :=
  (rnd (roundedSum rnd [x 0, x 1, x 2, x 3, x 4, x 5, x 6, x 7] / 8),
    fun i => match i with
      | 0 => rnd (roundedSum rnd [-x 0, x 1, -x 2, x 3, -x 4, x 5, -x 6, x 7] / 8)
      | 1 => rnd (roundedSum rnd [-x 0, -x 1, x 2, x 3, -x 4, -x 5, x 6, x 7] / 8)
      | 2 => rnd (roundedSum rnd [x 0, -x 1, -x 2, x 3, x 4, -x 5, -x 6, x 7] / 8)
      | 3 => rnd (roundedSum rnd [-x 0, -x 1, -x 2, -x 3, x 4, x 5, x 6, x 7] / 8)
      | 4 => rnd (roundedSum rnd [x 0, -x 1, x 2, -x 3, -x 4, x 5, -x 6, x 7] / 8)
      | 5 => rnd (roundedSum rnd [x 0, x 1, -x 2, -x 3, -x 4, -x 5, x 6, x 7] / 8)
      | 6 => rnd (roundedSum rnd [-x 0, x 1, x 2, -x 3, x 4, -x 5, -x 6, x 7] / 8))

/-- Modelled from the spec: the backward Haar transform in arithmetic that
rounds the result of every operation by `rnd`; the operations are those of
`haarBackward`, from left to right. -/
def haarBackwardRounded (rnd : ℚ → ℚ) (p : Parent) : CoefficientsArray :=
  fun i => match i with
    | 0 => roundedSum rnd [p.1, -p.2 0, -p.2 1, p.2 2, -p.2 3, p.2 4, p.2 5, -p.2 6]
    | 1 => roundedSum rnd [p.1, p.2 0, -p.2 1, -p.2 2, -p.2 3, -p.2 4, p.2 5, p.2 6]
    | 2 => roundedSum rnd [p.1, -p.2 0, p.2 1, -p.2 2, -p.2 3, p.2 4, -p.2 5, p.2 6]
    | 3 => roundedSum rnd [p.1, p.2 0, p.2 1, p.2 2, -p.2 3, -p.2 4, -p.2 5, -p.2 6]
    | 4 => roundedSum rnd [p.1, -p.2 0, -p.2 1, p.2 2, p.2 3, -p.2 4, -p.2 5, p.2 6]
    | 5 => roundedSum rnd [p.1, p.2 0, -p.2 1, -p.2 2, p.2 3, p.2 4, -p.2 5, -p.2 6]
    | 6 => roundedSum rnd [p.1, -p.2 0, p.2 1, -p.2 2, p.2 3, -p.2 4, p.2 5, -p.2 6]
    | 7 => roundedSum rnd [p.1, p.2 0, p.2 1, p.2 2, p.2 3, p.2 4, p.2 5, p.2 6]

/-- The Haar transform in arithmetic that rounds by `rnd`, as the block's
`Transform`. -/
def haarRounded (rnd : ℚ → ℚ) : HaarTransform :=
  { forward := haarForwardRounded rnd,
    backward := haarBackwardRounded rnd,
    forwardSingleChild := fun delta i => haarForwardRounded rnd (Pi.single i delta),
    backwardSingleChild := fun p i => haarBackwardRounded rnd p i }

/-- The Haar transform in `float` arithmetic. -/
def haarFloat32 : HaarTransform :=
  haarRounded roundFloat32

/-- The ascent loop of `addToCellValue` (lines 134-152) in arithmetic that
rounds by `rnd`: the `+=` of line 149 rounds every sum. -/
def ascendRounded (rnd : ℚ → ℚ) (T : HaarTransform) (kChunkHeight tree_height morton : Nat)
    (chunk_ptrs : Nat → Option (List Nat)) : Nat → Nat → Parent → Chunk → Option (Parent × Chunk)
  | 0, _, coefficients, tree => some (coefficients, tree)
  | n + 1, parent_height, coefficients, tree =>
    let chunk_depth := (tree_height - parent_height) / kChunkHeight
    match chunk_ptrs chunk_depth with
    | none => none
    | some ptr =>
      match tree.deref ptr with
      | none => none
      | some _ =>
        let chunk_top_height := tree_height - chunk_depth * kChunkHeight
        let relative_node_index :=
          computeTreeTraversalDistance morton chunk_top_height parent_height
        let relative_child_index := computeRelativeChildIndex morton parent_height
        let coefficients := T.forwardSingleChild coefficients.1 relative_child_index
        let tree := tree.modify (fun c =>
          (c.setNodeData relative_node_index
            (fun j => rnd (c.nodeData relative_node_index j
              + coefficients.2 j))).setNodeHasAtLeastOneChild relative_node_index true) ptr
        ascendRounded rnd T kChunkHeight tree_height morton chunk_ptrs n (parent_height + 1)
          coefficients tree

/-- The block after `addToCellValue(index, update)` in arithmetic that rounds
by `rnd` (the `+=` of lines 149 and 153 round); `none` when the call
dereferences a null chunk pointer. -/
def HashedChunkedWaveletOctreeBlock.addToCellValueRounded (rnd : ℚ → ℚ) (T : HaarTransform)
    (kChunkHeight : Nat) (blk : HashedChunkedWaveletOctreeBlock) (index : OctreeIndex)
    (update : ℚ) : Option HashedChunkedWaveletOctreeBlock :=
  let morton_code := nodeIndexToMorton index
  let last_chunk_depth := (blk.tree_height - index.height - 1) / kChunkHeight
  match addToCellValueDescent kChunkHeight blk.tree_height morton_code last_chunk_depth 1
      blk.chunked_ndtree initialChunkPtrs with
  | none => none
  | some (tree, chunk_ptrs) =>
    match ascendRounded rnd T kChunkHeight blk.tree_height morton_code chunk_ptrs
        (blk.tree_height - index.height) (index.height + 1) (update, 0) tree with
    | none => none
    | some (coefficients, tree) =>
      some { tree_height := blk.tree_height, min_log_odds := blk.min_log_odds,
             max_log_odds := blk.max_log_odds,
             root_scale_coefficient := rnd (blk.root_scale_coefficient + coefficients.1),
             chunked_ndtree := tree, needs_thresholding := true, needs_pruning := true,
             last_updated_stamp := blk.last_updated_stamp + 1 }

/-- The block after `addToCellValue(index, u)` in arithmetic that rounds by
`rnd`, for each `u` of a list of updates, in order. -/
def HashedChunkedWaveletOctreeBlock.addToCellValueAllRounded (rnd : ℚ → ℚ) (T : HaarTransform)
    (kChunkHeight : Nat) (index : OctreeIndex) : List ℚ → HashedChunkedWaveletOctreeBlock →
    Option HashedChunkedWaveletOctreeBlock
  | [], blk => some blk
  | u :: us, blk =>
    match blk.addToCellValueRounded rnd T kChunkHeight index u with
    | none => none
    | some blk' =>
      HashedChunkedWaveletOctreeBlock.addToCellValueAllRounded rnd T kChunkHeight index us blk'

/-- A block of height 1 (a single chunk of height 1, bounds `[-2, 4]`) whose
coefficients are `float` values, as `addToCellValue` leaves them in `float`
arithmetic after the updates 10 to cell 0, `0.1f` to cell 1 and `float(1/3)`
to cell 2 of a new block; the block still needs thresholding. -/
def roundedBlock : HashedChunkedWaveletOctreeBlock :=
  { tree_height := 1, min_log_odds := -2, max_log_odds := 4,
    root_scale_coefficient := 10940143 / 8388608,
    chunked_ndtree := Chunk.leafChunk
      (fun i => if i = 0 then
          (fun j => match j with
            | 0 => -10730427 / 8388608
            | 1 => -10241093 / 8388608
            | 2 => 10031377 / 8388608
            | 3 => -10940143 / 8388608
            | 4 => 10730427 / 8388608
            | 5 => 10241093 / 8388608
            | 6 => -10031377 / 8388608)
        else 0)
      (fun i => decide (i = 0)),
    needs_thresholding := true, needs_pruning := true, last_updated_stamp := 3 }

/-! ## Tree arithmetic and the loops inside a chunk -/

theorem tree_size_spec (h : Nat) : 7 * tree_size h + 1 = 8 ^ h := by
  unfold tree_size
  have h7 : ∃ q, 8 ^ h = 7 * q + 1 := by
    induction h with
    | zero => exact ⟨0, by simp⟩
    | succ n ih =>
      obtain ⟨q, hq⟩ := ih
      exact ⟨8 * q + 1, by rw [pow_succ, hq]; ring⟩
  obtain ⟨q, hq⟩ := h7
  rw [hq]
  have : (7 * q + 1 - 1) / 7 = q := by
    rw [Nat.add_sub_cancel]
    exact Nat.mul_div_cancel_left q (by decide)
  rw [this]

theorem tree_size_zero : tree_size 0 = 0 := by
  have := tree_size_spec 0
  simp at this
  omega

theorem tree_size_succ (h : Nat) : tree_size (h + 1) = tree_size h + 8 ^ h := by
  have h1 := tree_size_spec h
  have h2 := tree_size_spec (h + 1)
  rw [pow_succ] at h2
  omega

theorem level_size_succ (h : Nat) : level_size (h + 1) = 8 ^ h := by
  simp [level_size]

theorem kNumChildren_eq (k : Nat) : kNumChildren k = 8 ^ k := by
  simp [kNumChildren, level_size]

theorem foldl_range_succ {α : Type} (f : α → Nat → α) (init : α) (n : Nat) :
    (List.range (n + 1)).foldl f init = f ((List.range n).foldl f init) n := by
  rw [List.range_succ, List.foldl_append]
  rfl

theorem foldl_range_reverse_succ {α : Type} (f : α → Nat → α) (init : α) (n : Nat) :
    (List.range (n + 1)).reverse.foldl f init = (List.range n).reverse.foldl f (f init n) := by
  rw [List.range_succ, List.reverse_append]
  rfl

theorem decompressLevel_apply (T : HaarTransform) (data : Nat → Details) (first last : Nat)
    (scr : Nat → ℚ) (n : Nat) (hn : first + n ≤ last) (j : Nat) :
    decompressLevel T data first last scr n j =
      if last ≤ j ∧ j < last + 8 * n then
        T.backward (scr (first + (j - last) / 8), data (first + (j - last) / 8))
          ⟨(j - last) % 8, Nat.mod_lt _ (by decide)⟩
      else scr j := by
  induction n generalizing j with
  | zero =>
    rw [if_neg (by omega)]
    rfl
  | succ n ih =>
    have ih' := fun j => ih (by omega) j
    unfold decompressLevel at ih' ⊢
    rw [foldl_range_succ]
    simp only [moveEight]
    by_cases h1 : last + 8 * n ≤ j ∧ j < last + 8 * n + 8
    · rw [dif_pos h1, if_pos (by omega)]
      rw [ih' (first + n), if_neg (by omega)]
      have e1 : (j - last) / 8 = n := by omega
      have e2 : (j - last) % 8 = j - (last + 8 * n) := by omega
      rw [e1]
      congr 1
      exact Fin.ext e2.symm
    · rw [dif_neg h1, ih' j]
      by_cases h2 : last ≤ j ∧ j < last + 8 * n
      · rw [if_pos h2, if_pos (by omega)]
      · rw [if_neg h2, if_neg (by omega)]

theorem decompress_eq (T : HaarTransform) (k : Nat) (data : Nat → Details) (s : ℚ) :
    decompress T k data s = decompressUpTo T data s k := rfl

theorem decompressUpTo_apply (T : HaarTransform) (data : Nat → Details) (s : ℚ) (n : Nat) :
    ∀ l r, l ≤ n → r < 8 ^ l →
      decompressUpTo T data s n (tree_size l + r) = nodeValue T data s l r := by
  induction n with
  | zero =>
    intro l r hl hr
    have hl0 : l = 0 := by omega
    subst hl0
    have hr0 : r = 0 := by simpa using hr
    subst hr0
    simp [decompressUpTo, tree_size_zero, nodeValue]
  | succ n ih =>
    intro l r hl hr
    unfold decompressUpTo
    rw [foldl_range_succ]
    change decompressLevel T data (tree_size n) (tree_size (n + 1)) (decompressUpTo T data s n)
      (level_size (n + 1)) (tree_size l + r) = _
    rw [decompressLevel_apply _ _ _ _ _ _ (by rw [level_size_succ, tree_size_succ])]
    rw [level_size_succ]
    by_cases hln : l ≤ n
    · have hlt : tree_size l + r < tree_size (n + 1) := by
        have h1 : tree_size (l + 1) ≤ tree_size (n + 1) := by
          have a := tree_size_spec (l + 1)
          have b := tree_size_spec (n + 1)
          have c : 8 ^ (l + 1) ≤ 8 ^ (n + 1) := Nat.pow_le_pow_right (by decide) (by omega)
          omega
        rw [tree_size_succ] at h1
        omega
      rw [if_neg (by omega)]
      exact ih l r hln hr
    · have hl1 : l = n + 1 := by omega
      subst hl1
      rw [pow_succ] at hr
      rw [if_pos (by omega)]
      have e : tree_size (n + 1) + r - tree_size (n + 1) = r := by omega
      simp only [e]
      rw [ih n (r / 8) (le_refl _) (by omega)]
      rfl

theorem orEight_congr (nz nz' : Nat → Bool) (a : Nat)
    (h : ∀ j, j < 8 → nz (a + j) = nz' (a + j)) : orEight nz a = orEight nz' a := by
  simp only [orEight, List.range, List.range.loop, List.foldl]
  rw [h 0 (by omega), h 1 (by omega), h 2 (by omega), h 3 (by omega), h 4 (by omega),
    h 5 (by omega), h 6 (by omega), h 7 (by omega)]

theorem orEight_eq_true (nz : Nat → Bool) (a : Nat) :
    orEight nz a = true ↔ ∃ j, j < 8 ∧ nz (a + j) = true := by
  simp only [orEight, List.range, List.range.loop, List.foldl]
  constructor
  · intro h
    simp only [Bool.or_eq_true, Bool.false_eq_true, false_or] at h
    rcases h with ((((((h | h) | h) | h) | h) | h) | h) | h
    · exact ⟨0, by omega, h⟩
    · exact ⟨1, by omega, h⟩
    · exact ⟨2, by omega, h⟩
    · exact ⟨3, by omega, h⟩
    · exact ⟨4, by omega, h⟩
    · exact ⟨5, by omega, h⟩
    · exact ⟨6, by omega, h⟩
    · exact ⟨7, by omega, h⟩
  · rintro ⟨j, hj, h⟩
    have : j = 0 ∨ j = 1 ∨ j = 2 ∨ j = 3 ∨ j = 4 ∨ j = 5 ∨ j = 6 ∨ j = 7 := by omega
    rcases this with e | e | e | e | e | e | e | e <;> subst e <;> simp_all

theorem takeEight_congr (s s' : Nat → ℚ) (a : Nat)
    (h : ∀ j, j < 8 → s (a + j) = s' (a + j)) : takeEight s a = takeEight s' a := by
  funext c
  exact h c.val c.isLt

theorem compressStep_eq (T : HaarTransform) (first last : Nat) (st : CompressState) (r : Nat) :
    compressStep T first last st r =
      { chunk_scale_coefficients := Function.update st.chunk_scale_coefficients (first + r)
          (T.forward (takeEight st.chunk_scale_coefficients (last + 8 * r))).1,
        is_nonzero_child := Function.update st.is_nonzero_child (first + r)
          (orEight st.is_nonzero_child (last + 8 * r)
            || is_nonzero (T.forward (takeEight st.chunk_scale_coefficients (last + 8 * r))).2),
        node_data := Function.update st.node_data (first + r)
          (T.forward (takeEight st.chunk_scale_coefficients (last + 8 * r))).2,
        node_has_at_least_one_child := Function.update st.node_has_at_least_one_child (first + r)
          (orEight st.is_nonzero_child (last + 8 * r)) } := rfl

theorem compressLevel_eq_spec (T : HaarTransform) (first last : Nat) (n : Nat)
    (hn : first + n ≤ last) (st : CompressState) :
    compressLevel T first last st n = compressLevelSpec T first last st n := by
  induction n generalizing st with
  | zero =>
    simp only [compressLevel, compressLevelSpec, List.range_zero, List.reverse_nil, List.foldl_nil]
    cases st
    simp only [CompressState.mk.injEq]
    refine ⟨?_, ?_, ?_, ?_⟩ <;> funext j <;> rw [if_neg (by omega)]
  | succ n ih =>
    have ih' := ih (by omega) (compressStep T first last st n)
    unfold compressLevel at ih' ⊢
    rw [foldl_range_reverse_succ, ih', compressStep_eq]
    have hs : ∀ r, r < n →
        takeEight (Function.update st.chunk_scale_coefficients (first + n)
          (T.forward (takeEight st.chunk_scale_coefficients (last + 8 * n))).1) (last + 8 * r)
        = takeEight st.chunk_scale_coefficients (last + 8 * r) := by
      intro r _
      apply takeEight_congr
      intro j _
      rw [Function.update_noteq (by omega)]
    have hz : ∀ r, r < n →
        orEight (Function.update st.is_nonzero_child (first + n)
          (orEight st.is_nonzero_child (last + 8 * n)
            || is_nonzero (T.forward (takeEight st.chunk_scale_coefficients (last + 8 * n))).2))
          (last + 8 * r)
        = orEight st.is_nonzero_child (last + 8 * r) := by
      intro r _
      apply orEight_congr
      intro j _
      rw [Function.update_noteq (by omega)]
    simp only [compressLevelSpec, CompressState.mk.injEq]
    refine ⟨?_, ?_, ?_, ?_⟩ <;> funext j
    all_goals
      by_cases h1 : first ≤ j ∧ j < first + n
      · rw [if_pos h1, if_pos (by omega)]
        first
          | rw [hs _ (by omega), hz _ (by omega)]
          | rw [hs _ (by omega)]
          | rw [hz _ (by omega)]
      · rw [if_neg h1]
        by_cases h2 : j = first + n
        · subst h2
          rw [if_pos (by omega), Function.update_same]
          simp only [Nat.add_sub_cancel_left]
        · rw [if_neg (by omega), Function.update_noteq h2]

theorem compress_eq (T : HaarTransform) (k : Nat) (st : CompressState) :
    compress T k st = compressUpTo T st k := rfl

theorem compressUpTo_spec (T : HaarTransform) (n : Nat) (st : CompressState) :
    Compressed T n st (compressUpTo T st n) := by
  induction n generalizing st with
  | zero =>
    simp only [compressUpTo, List.range_zero, List.reverse_nil, List.foldl_nil]
    exact ⟨fun _ _ => rfl, fun _ _ => rfl, fun _ _ => rfl, fun _ _ => rfl,
      fun j hj => by rw [tree_size_zero] at hj; omega,
      fun j hj => by rw [tree_size_zero] at hj; omega,
      fun j hj => by rw [tree_size_zero] at hj; omega⟩
  | succ n ih =>
    have hstep : compressUpTo T st (n + 1) = compressUpTo T
        (compressLevel T (tree_size n) (tree_size (n + 1)) st (level_size (n + 1))) n := by
      unfold compressUpTo
      rw [foldl_range_reverse_succ]
    rw [hstep, compressLevel_eq_spec _ _ _ _ (by rw [level_size_succ, tree_size_succ]),
      level_size_succ]
    have hts := tree_size_succ n
    have hts8 : tree_size (n + 1) = 8 * tree_size n + 1 := by
      have := tree_size_spec n
      omega
    have I := ih (compressLevelSpec T (tree_size n) (tree_size (n + 1)) st (8 ^ n))
    refine ⟨?_, ?_, ?_, ?_, ?_, ?_, ?_⟩
    · intro j hj
      rw [I.scale_outside j (by omega)]
      simp only [compressLevelSpec]
      rw [if_neg (by omega)]
    · intro j hj
      rw [I.nonzero_outside j (by omega)]
      simp only [compressLevelSpec]
      rw [if_neg (by omega)]
    · intro j hj
      rw [I.data_outside j (by omega)]
      simp only [compressLevelSpec]
      rw [if_neg (by omega)]
    · intro j hj
      rw [I.flag_outside j (by omega)]
      simp only [compressLevelSpec]
      rw [if_neg (by omega)]
    · intro j hj
      by_cases hlt : j < tree_size n
      · exact I.coefficients j hlt
      · rw [I.scale_outside j (by omega), I.data_outside j (by omega)]
        have e : takeEight (compressUpTo T (compressLevelSpec T (tree_size n) (tree_size (n + 1))
            st (8 ^ n)) n).chunk_scale_coefficients (8 * j + 1)
            = takeEight st.chunk_scale_coefficients (8 * j + 1) := by
          apply takeEight_congr
          intro c _
          rw [I.scale_outside _ (by omega)]
          simp only [compressLevelSpec]
          rw [if_neg (by omega)]
        rw [e]
        simp only [compressLevelSpec]
        rw [if_pos (by omega), if_pos (by omega)]
        have e2 : tree_size (n + 1) + 8 * (j - tree_size n) = 8 * j + 1 := by omega
        rw [e2]
    · intro j hj
      by_cases hlt : j < tree_size n
      · exact I.flag j hlt
      · rw [I.flag_outside j (by omega)]
        have e : orEight (compressUpTo T (compressLevelSpec T (tree_size n) (tree_size (n + 1))
            st (8 ^ n)) n).is_nonzero_child (8 * j + 1)
            = orEight st.is_nonzero_child (8 * j + 1) := by
          apply orEight_congr
          intro c _
          rw [I.nonzero_outside _ (by omega)]
          simp only [compressLevelSpec]
          rw [if_neg (by omega)]
        rw [e]
        simp only [compressLevelSpec]
        rw [if_pos (by omega)]
        have e2 : tree_size (n + 1) + 8 * (j - tree_size n) = 8 * j + 1 := by omega
        rw [e2]
    · intro j hj
      by_cases hlt : j < tree_size n
      · exact I.nonzero j hlt
      · rw [I.nonzero_outside j (by omega), I.flag_outside j (by omega),
          I.data_outside j (by omega)]
        simp only [compressLevelSpec]
        rw [if_pos (by omega), if_pos (by omega), if_pos (by omega)]
theorem thresholdLoop_eq (k : Nat) (lo hi : ℚ) (present : Nat → Bool)
    (recurse : Nat → ℚ → Chunk × RecursiveThresholdReturnValue) (st : ThresholdState) :
    thresholdLoop k lo hi present recurse st
      = thresholdLoopUpTo k lo hi present recurse st (kNumChildren k) := rfl

theorem thresholdLoopUpTo_eq_spec (k : Nat) (lo hi : ℚ) (present : Nat → Bool)
    (recurse : Nat → ℚ → Chunk × RecursiveThresholdReturnValue) (st : ThresholdState) (n : Nat) :
    thresholdLoopUpTo k lo hi present recurse st n
      = thresholdLoopSpec k lo hi present recurse st n := by
  induction n with
  | zero =>
    simp only [thresholdLoopUpTo, thresholdLoopSpec, List.range_zero, List.foldl_nil]
    cases st
    simp only [ThresholdState.mk.injEq]
    refine ⟨?_, ?_, ?_⟩ <;> funext j
    · have h : ¬ (tree_size k ≤ j ∧ j < tree_size k + 0) := by omega
      rw [if_neg h]
    · have h : ¬ (tree_size k ≤ j ∧ j < tree_size k + 0) := by omega
      rw [if_neg h]
    · have h : ¬ j < 0 := by omega
      rw [if_neg h]
  | succ n ih =>
    unfold thresholdLoopUpTo at ih ⊢
    rw [foldl_range_succ, ih]
    have hread : (thresholdLoopSpec k lo hi present recurse st n).chunk_scale_coefficients
        (tree_size k + n) = st.chunk_scale_coefficients (tree_size k + n) := by
      simp only [thresholdLoopSpec]
      rw [if_neg (by omega)]
    by_cases hp : present n = true
    · rw [if_pos hp, hread]
      simp only [thresholdLoopSpec, ThresholdState.mk.injEq]
      refine ⟨?_, ?_, ?_⟩ <;> funext j
      · by_cases h2 : j = tree_size k + n
        · subst h2
          have h1' : tree_size k ≤ tree_size k + n ∧ tree_size k + n < tree_size k + (n + 1) := by
            omega
          rw [Function.update_same, if_pos h1']
          simp only [Nat.add_sub_cancel_left]
          rw [if_pos hp]
        · rw [Function.update_noteq h2]
          by_cases h1 : tree_size k ≤ j ∧ j < tree_size k + n
          · have h1' : tree_size k ≤ j ∧ j < tree_size k + (n + 1) := by omega
            rw [if_pos h1, if_pos h1']
          · have h1' : ¬ (tree_size k ≤ j ∧ j < tree_size k + (n + 1)) := by omega
            rw [if_neg h1, if_neg h1']
      · by_cases h2 : j = tree_size k + n
        · subst h2
          have h1' : tree_size k ≤ tree_size k + n ∧ tree_size k + n < tree_size k + (n + 1) := by
            omega
          rw [Function.update_same, if_pos h1']
          simp only [Nat.add_sub_cancel_left]
          rw [if_pos hp]
        · rw [Function.update_noteq h2]
          by_cases h1 : tree_size k ≤ j ∧ j < tree_size k + n
          · have h1' : tree_size k ≤ j ∧ j < tree_size k + (n + 1) := by omega
            rw [if_pos h1, if_pos h1']
          · have h1' : ¬ (tree_size k ≤ j ∧ j < tree_size k + (n + 1)) := by omega
            rw [if_neg h1, if_neg h1']
      · by_cases h2 : j = n
        · subst h2
          have h1' : j < j + 1 := by omega
          rw [Function.update_same, if_pos h1', if_pos hp]
        · rw [Function.update_noteq h2]
          by_cases h1 : j < n
          · have h1' : j < n + 1 := by omega
            rw [if_pos h1, if_pos h1']
          · have h1' : ¬ j < n + 1 := by omega
            rw [if_neg h1, if_neg h1']
    · rw [if_neg hp, hread]
      simp only [thresholdLoopSpec, ThresholdState.mk.injEq]
      refine ⟨?_, ?_, ?_⟩ <;> funext j
      · by_cases h2 : j = tree_size k + n
        · subst h2
          have h1' : tree_size k ≤ tree_size k + n ∧ tree_size k + n < tree_size k + (n + 1) := by
            omega
          rw [Function.update_same, if_pos h1']
          simp only [Nat.add_sub_cancel_left]
          rw [if_neg hp]
        · rw [Function.update_noteq h2]
          by_cases h1 : tree_size k ≤ j ∧ j < tree_size k + n
          · have h1' : tree_size k ≤ j ∧ j < tree_size k + (n + 1) := by omega
            rw [if_pos h1, if_pos h1']
          · have h1' : ¬ (tree_size k ≤ j ∧ j < tree_size k + (n + 1)) := by omega
            rw [if_neg h1, if_neg h1']
      · by_cases h2 : j = tree_size k + n
        · subst h2
          have h1 : ¬ (tree_size k ≤ tree_size k + n ∧ tree_size k + n < tree_size k + n) := by
            omega
          have h1' : tree_size k ≤ tree_size k + n ∧ tree_size k + n < tree_size k + (n + 1) := by
            omega
          rw [if_neg h1, if_pos h1']
          simp only [Nat.add_sub_cancel_left]
          rw [if_neg hp]
        · by_cases h1 : tree_size k ≤ j ∧ j < tree_size k + n
          · have h1' : tree_size k ≤ j ∧ j < tree_size k + (n + 1) := by omega
            rw [if_pos h1, if_pos h1']
          · have h1' : ¬ (tree_size k ≤ j ∧ j < tree_size k + (n + 1)) := by omega
            rw [if_neg h1, if_neg h1']
      · by_cases h2 : j = n
        · subst h2
          have h1 : ¬ j < j := by omega
          have h1' : j < j + 1 := by omega
          rw [if_neg h1, if_pos h1', if_neg hp]
        · by_cases h1 : j < n
          · have h1' : j < n + 1 := by omega
            rw [if_pos h1, if_pos h1']
          · have h1' : ¬ j < n + 1 := by omega
            rw [if_neg h1, if_neg h1']

theorem thresholdLoop_spec (k : Nat) (lo hi : ℚ) (present : Nat → Bool)
    (recurse : Nat → ℚ → Chunk × RecursiveThresholdReturnValue) (st : ThresholdState) :
    thresholdLoop k lo hi present recurse st
      = thresholdLoopSpec k lo hi present recurse st (8 ^ k) := by
  rw [thresholdLoop_eq, thresholdLoopUpTo_eq_spec, kNumChildren_eq]
theorem tree_size_mono {a b : Nat} (h : a ≤ b) : tree_size a ≤ tree_size b := by
  have ha := tree_size_spec a
  have hb := tree_size_spec b
  have c : 8 ^ a ≤ 8 ^ b := Nat.pow_le_pow_right (by decide) h
  omega

theorem tree_size_succ_mul (h : Nat) : tree_size (h + 1) = 8 * tree_size h + 1 := by
  have h1 := tree_size_spec h
  have h2 := tree_size_succ h
  omega

/-- The offset, among the nodes `j` levels below the top of the chunk with top
at `top`, of the ancestor of the cell with Morton code `morton`. -/
theorem pathOffset_div (morton top j : Nat) (hj : j + 1 ≤ top) :
    ((morton / 8 ^ (top - (j + 1))) % 8 ^ (j + 1)) / 8 = (morton / 8 ^ (top - j)) % 8 ^ j := by
  have e : top - j = (top - (j + 1)) + 1 := by omega
  rw [e, pow_succ, pow_succ, ← Nat.div_div_eq_div_mul]
  rw [Nat.mul_comm (8 ^ j) 8, Nat.mod_mul_right_div_self]

theorem pathOffset_mod (morton top j : Nat) :
    ((morton / 8 ^ (top - (j + 1))) % 8 ^ (j + 1)) % 8 = (morton / 8 ^ (top - (j + 1))) % 8 := by
  rw [pow_succ]
  exact Nat.mod_mul_left_mod _ _ _

theorem pathOffset_lt (morton top j : Nat) : (morton / 8 ^ (top - j)) % 8 ^ j < 8 ^ j :=
  Nat.mod_lt _ (Nat.pos_pow_of_pos _ (by decide))

theorem decompressLevels_eq_nodeValue (T : HaarTransform) (hT : HaarLaws T) (c : Chunk)
    (morton top ih : Nat) (s : ℚ) :
    ∀ n j, j + n ≤ top - ih → ih < top →
      decompressLevels T c morton top ih n (top - j)
          (nodeValue T c.nodeData s j ((morton / 8 ^ (top - j)) % 8 ^ j))
        = nodeValue T c.nodeData s (j + n) ((morton / 8 ^ (top - (j + n))) % 8 ^ (j + n)) := by
  intro n
  induction n with
  | zero => intro j _ _; rfl
  | succ n ih' =>
    intro j hj hlt
    have hstep : T.backwardSingleChild
        (nodeValue T c.nodeData s j ((morton / 8 ^ (top - j)) % 8 ^ j),
          c.nodeData (computeTreeTraversalDistance morton top (top - j)))
        (computeRelativeChildIndex morton (top - j))
        = nodeValue T c.nodeData s (j + 1)
            ((morton / 8 ^ (top - (j + 1))) % 8 ^ (j + 1)) := by
      rw [hT.backwardSingleChild_eq]
      simp only [nodeValue]
      rw [pathOffset_div morton top j (by omega)]
      have e1 : computeTreeTraversalDistance morton top (top - j)
          = tree_size j + (morton / 8 ^ (top - j)) % 8 ^ j := by
        simp only [computeTreeTraversalDistance, computeLevelTraversalDistance]
        have : top - (top - j) = j := by omega
        rw [this]
      have e2 : computeRelativeChildIndex morton (top - j)
          = ⟨((morton / 8 ^ (top - (j + 1))) % 8 ^ (j + 1)) % 8, Nat.mod_lt _ (by decide)⟩ := by
        apply Fin.ext
        simp only [computeRelativeChildIndex]
        rw [pathOffset_mod]
        have : top - j - 1 = top - (j + 1) := by omega
        rw [this]
      rw [e1, e2]
    simp only [decompressLevels]
    rw [hstep]
    by_cases hb : top - j = ih + 1
    · rw [if_pos hb]
      have hn : n = 0 := by omega
      subst hn
      rfl
    · rw [if_neg hb]
      have e : top - j - 1 = top - (j + 1) := by omega
      rw [e, ih' (j + 1) (by omega) hlt]
      have e3 : j + 1 + n = j + (n + 1) := by omega
      rw [e3]

theorem decompressLevels_chunk (T : HaarTransform) (hT : HaarLaws T) (c : Chunk)
    (morton top ih k : Nat) (s : ℚ) (hk : ih + k ≤ top) (hlt : ih < top) :
    decompressLevels T c morton top ih k top s
      = nodeValue T c.nodeData s k ((morton / 8 ^ (top - k)) % 8 ^ k) := by
  have h := decompressLevels_eq_nodeValue T hT c morton top ih s k 0 (by omega) hlt
  simpa [nodeValue] using h

theorem nodeValue_compressed (T : HaarTransform) (hT : HaarLaws T) (k : Nat)
    (st cs : CompressState) (hc : Compressed T k st cs) :
    ∀ l r, l ≤ k → r < 8 ^ l →
      nodeValue T cs.node_data (cs.chunk_scale_coefficients 0) l r
        = cs.chunk_scale_coefficients (tree_size l + r) := by
  intro l
  induction l with
  | zero =>
    intro r _ hr
    have hr0 : r = 0 := by simpa using hr
    subst hr0
    simp [nodeValue, tree_size_zero]
  | succ l ih =>
    intro r hl hr
    rw [pow_succ] at hr
    simp only [nodeValue]
    rw [ih (r / 8) (by omega) (by omega)]
    have hj : tree_size l + r / 8 < tree_size k := by
      have h1 : tree_size (l + 1) ≤ tree_size k := tree_size_mono hl
      rw [tree_size_succ] at h1
      omega
    rw [hc.coefficients _ hj, hT.backward_forward]
    simp only [takeEight]
    congr 1
    rw [tree_size_succ_mul]
    omega
theorem thresholdLoop_boundary (T : HaarTransform) (k : Nat) (lo hi : ℚ) (present : Nat → Bool)
    (recurse : Nat → ℚ → Chunk × RecursiveThresholdReturnValue) (d : Nat → Details) (s : ℚ)
    (nz : Nat → Bool) (children : Nat → Chunk) (i : Nat) (hi' : i < 8 ^ k) :
    (thresholdLoop k lo hi present recurse
        { chunk_scale_coefficients := decompress T k d s, is_nonzero_child := nz,
          child_chunks := children }).chunk_scale_coefficients (tree_size k + i)
      = if present i then (recurse i (nodeValue T d s k i)).2.scale
        else clamp (nodeValue T d s k i) lo hi := by
  rw [thresholdLoop_spec]
  simp only [thresholdLoopSpec]
  have h1 : tree_size k ≤ tree_size k + i ∧ tree_size k + i < tree_size k + 8 ^ k := by omega
  rw [if_pos h1, decompress_eq, decompressUpTo_apply T d s k k i (le_refl _) hi']
  simp only [Nat.add_sub_cancel_left]

theorem thresholdBody_compressed (T : HaarTransform) (k : Nat) (lo hi : ℚ)
    (d : Nat → Details) (f : Nat → Bool) (present : Nat → Bool) (children : Nat → Chunk)
    (recurse : Nat → ℚ → Chunk × RecursiveThresholdReturnValue) (s : ℚ) :
    Compressed T k
      { chunk_scale_coefficients := (thresholdLoop k lo hi present recurse
          { chunk_scale_coefficients := decompress T k d s, is_nonzero_child := fun _ => false,
            child_chunks := children }).chunk_scale_coefficients,
        is_nonzero_child := (thresholdLoop k lo hi present recurse
          { chunk_scale_coefficients := decompress T k d s, is_nonzero_child := fun _ => false,
            child_chunks := children }).is_nonzero_child,
        node_data := d, node_has_at_least_one_child := f }
      (thresholdBody T k lo hi d f present children recurse s).1 :=
  compressUpTo_spec T k _

/-- The node data and the scale coefficient that the body of
`recursiveThreshold` produces decompress, at a boundary position of the
chunk, to the value the threshold loop left there: the scale returned by the
recursive call, or the clamped value. -/
theorem thresholdBody_boundary (T : HaarTransform) (hT : HaarLaws T) (k : Nat) (lo hi : ℚ)
    (d : Nat → Details) (f : Nat → Bool) (present : Nat → Bool) (children : Nat → Chunk)
    (recurse : Nat → ℚ → Chunk × RecursiveThresholdReturnValue) (s : ℚ) (i : Nat)
    (hi' : i < 8 ^ k) :
    nodeValue T (thresholdBody T k lo hi d f present children recurse s).1.node_data
        ((thresholdBody T k lo hi d f present children recurse s).1.chunk_scale_coefficients 0) k i
      = if present i then (recurse i (nodeValue T d s k i)).2.scale
        else clamp (nodeValue T d s k i) lo hi := by
  have hc := thresholdBody_compressed T k lo hi d f present children recurse s
  rw [nodeValue_compressed T hT k _ _ hc k i (le_refl _) hi', hc.scale_outside _ (by omega)]
  exact thresholdLoop_boundary T k lo hi present recurse d s _ children i hi'

theorem thresholdBody_child (T : HaarTransform) (k : Nat) (lo hi : ℚ)
    (d : Nat → Details) (f : Nat → Bool) (present : Nat → Bool) (children : Nat → Chunk)
    (recurse : Nat → ℚ → Chunk × RecursiveThresholdReturnValue) (s : ℚ) (i : Nat) :
    (thresholdBody T k lo hi d f present children recurse s).2 i
      = if i < 8 ^ k then
          if present i then (recurse i (nodeValue T d s k i)).1 else children i
        else children i := by
  simp only [thresholdBody]
  rw [thresholdLoop_spec]
  simp only [thresholdLoopSpec]
  by_cases h : i < 8 ^ k
  · rw [if_pos h, if_pos h, decompress_eq, decompressUpTo_apply T d s k k i (le_refl _) h]
  · rw [if_neg h, if_neg h]
theorem Chunk.nodeData_leafChunk (d : Nat → Details) (f : Nat → Bool) :
    (Chunk.leafChunk d f).nodeData = d := by
  funext i; rfl

theorem Chunk.nodeData_innerChunk (d : Nat → Details) (f p : Nat → Bool) (cs : Nat → Chunk) :
    (Chunk.innerChunk d f p cs).nodeData = d := by
  funext i; rfl

/-- Thresholding clamps every height-0 cell: the value reconstructed for a
cell after `recursiveThreshold` is the clamped value reconstructed before. -/
theorem reconstructChunk_recursiveThreshold (T : HaarTransform) (hT : HaarLaws T) (k : Nat)
    (hk : 0 < k) (lo hi : ℚ) (morton : Nat) :
    ∀ (c : Chunk) (levels : Nat) (s : ℚ), c.fitsHeight levels → 1 ≤ levels →
      reconstructChunk T k morton 0 (recursiveThreshold T k lo hi c s).1 (k * levels)
          (recursiveThreshold T k lo hi c s).2.scale
        = clamp (reconstructChunk T k morton 0 c (k * levels) s) lo hi := by
  intro c
  induction c with
  | leafChunk d f =>
    intro levels s _ hl
    have hpos : 0 < k * levels := Nat.mul_pos hk (by omega)
    have hle : 0 + k ≤ k * levels := by
      have := Nat.mul_le_mul_left k hl
      omega
    simp only [recursiveThreshold, reconstructChunk]
    rw [if_pos hpos, if_pos hpos, decompressLevels_chunk T hT _ _ _ _ _ _ hle hpos,
      decompressLevels_chunk T hT _ _ _ _ _ _ hle hpos]
    simp only [Chunk.nodeData_leafChunk]
    rw [thresholdBody_boundary T hT k lo hi d f _ _ _ s _ (pathOffset_lt morton (k * levels) k)]
    simp
  | innerChunk d f p cs ih =>
    intro levels s hfit hl
    have hpos : 0 < k * levels := Nat.mul_pos hk (by omega)
    have hle : 0 + k ≤ k * levels := by
      have := Nat.mul_le_mul_left k hl
      omega
    simp only [recursiveThreshold, reconstructChunk]
    rw [if_pos hpos, if_pos hpos, decompressLevels_chunk T hT _ _ _ _ _ _ hle hpos,
      decompressLevels_chunk T hT _ _ _ _ _ _ hle hpos]
    simp only [Chunk.nodeData_innerChunk, computeLevelTraversalDistance]
    have hsub : k * levels - (k * levels - k) = k := by omega
    rw [hsub]
    have hlt := pathOffset_lt morton (k * levels) k
    rw [thresholdBody_boundary T hT k lo hi d f _ _ _ s _ hlt]
    by_cases hp : p (morton / 8 ^ (k * levels - k) % 8 ^ k) = true
    · have hf := hfit _ hp
      have hnle : ¬ (k * levels ≤ 0 + k) := by
        have : k * 2 ≤ k * levels := Nat.mul_le_mul_left k hf.1
        omega
      rw [if_neg hnle, if_neg hnle, if_pos hp, if_pos hp, if_pos hp]
      rw [thresholdBody_child, if_pos hlt, if_pos hp]
      have htop : k * levels - k = k * (levels - 1) := by
        rw [Nat.mul_sub_one]
      have := ih (morton / 8 ^ (k * levels - k) % 8 ^ k) (levels - 1)
        (nodeValue T d s k (morton / 8 ^ (k * levels - k) % 8 ^ k)) hf.2 (by omega)
      rw [← htop] at this
      exact this
    · rw [if_neg hp]
      by_cases hb : k * levels ≤ 0 + k
      · rw [if_pos hb, if_pos hb]
      · rw [if_neg hb, if_neg hb, if_neg hp, if_neg hp]

/-- For a well-formed block that needs thresholding, `threshold()` clamps the
reconstructed value of every height-0 cell. -/
theorem reconstruct_threshold (T : HaarTransform) (hT : HaarLaws T) (k : Nat)
    (blk : HashedChunkedWaveletOctreeBlock) (hwf : blk.WellFormed k)
    (hflag : blk.needs_thresholding = true) (index : OctreeIndex) (h0 : index.height = 0) :
    (blk.threshold T k).reconstruct T k index
      = clamp (blk.reconstruct T k index) blk.min_log_odds blk.max_log_odds := by
  obtain ⟨hk, levels, hl, hth, hfit⟩ := hwf
  simp only [HashedChunkedWaveletOctreeBlock.threshold,
    HashedChunkedWaveletOctreeBlock.reconstruct, hflag, if_true, h0, hth]
  exact reconstructChunk_recursiveThreshold T hT k hk _ _ _ _ levels _ hfit hl
theorem clamp_clamp (v lo hi : ℚ) (hle : lo ≤ hi) : clamp (clamp v lo hi) lo hi = clamp v lo hi := by
  unfold clamp
  split_ifs <;> first | rfl | (exfalso; linarith)

theorem clamp_mem (v lo hi : ℚ) (hle : lo ≤ hi) : lo ≤ clamp v lo hi ∧ clamp v lo hi ≤ hi := by
  unfold clamp
  split_ifs <;> constructor <;> linarith

theorem clamp_of_mem (v lo hi : ℚ) (h1 : lo ≤ v) (h2 : v ≤ hi) : clamp v lo hi = v := by
  unfold clamp
  split_ifs <;> first | rfl | (exfalso; linarith)

/-- The result of the compression loops is determined by the boundary values
they start from. -/
theorem compressed_unique (T : HaarTransform) (k : Nat) (st cs st' cs' : CompressState)
    (hc : Compressed T k st cs) (hc' : Compressed T k st' cs')
    (hs : ∀ j, tree_size k ≤ j → j < tree_size (k + 1) →
      st.chunk_scale_coefficients j = st'.chunk_scale_coefficients j)
    (hz : ∀ j, tree_size k ≤ j → j < tree_size (k + 1) →
      st.is_nonzero_child j = st'.is_nonzero_child j) :
    ∀ m j, j < tree_size (k + 1) → tree_size (k + 1) - j ≤ m →
      cs.chunk_scale_coefficients j = cs'.chunk_scale_coefficients j
      ∧ cs.is_nonzero_child j = cs'.is_nonzero_child j
      ∧ (j < tree_size k → cs.node_data j = cs'.node_data j
          ∧ cs.node_has_at_least_one_child j = cs'.node_has_at_least_one_child j) := by
  intro m
  induction m with
  | zero => intro j h1 h2; omega
  | succ m ih =>
    intro j h1 h2
    have hts := tree_size_succ_mul k
    by_cases hj : j < tree_size k
    · have hch : ∀ c, c < 8 →
          cs.chunk_scale_coefficients (8 * j + 1 + c) = cs'.chunk_scale_coefficients (8 * j + 1 + c)
          ∧ cs.is_nonzero_child (8 * j + 1 + c) = cs'.is_nonzero_child (8 * j + 1 + c) := by
        intro c hc8
        have := ih (8 * j + 1 + c) (by omega) (by omega)
        exact ⟨this.1, this.2.1⟩
      have e1 : takeEight cs.chunk_scale_coefficients (8 * j + 1)
          = takeEight cs'.chunk_scale_coefficients (8 * j + 1) :=
        takeEight_congr _ _ _ (fun c hc8 => (hch c hc8).1)
      have e2 : orEight cs.is_nonzero_child (8 * j + 1) = orEight cs'.is_nonzero_child (8 * j + 1) :=
        orEight_congr _ _ _ (fun c hc8 => (hch c hc8).2)
      have a := hc.coefficients j hj
      have a' := hc'.coefficients j hj
      rw [e1, ← a'] at a
      have a1 := congrArg Prod.fst a
      have a2 := congrArg Prod.snd a
      simp only at a1 a2
      have b : cs.node_has_at_least_one_child j = cs'.node_has_at_least_one_child j := by
        rw [hc.flag j hj, hc'.flag j hj, e2]
      refine ⟨a1, ?_, fun _ => ⟨a2, b⟩⟩
      rw [hc.nonzero j hj, hc'.nonzero j hj, a2, b]
    · refine ⟨?_, ?_, fun h => absurd h hj⟩
      · rw [hc.scale_outside j (by omega), hc'.scale_outside j (by omega)]
        exact hs j (by omega) h1
      · rw [hc.nonzero_outside j (by omega), hc'.nonzero_outside j (by omega)]
        exact hz j (by omega) h1

theorem thresholdLoop_nonzero (T : HaarTransform) (k : Nat) (lo hi : ℚ) (present : Nat → Bool)
    (recurse : Nat → ℚ → Chunk × RecursiveThresholdReturnValue) (d : Nat → Details) (s : ℚ)
    (nz : Nat → Bool) (children : Nat → Chunk) (i : Nat) (hi' : i < 8 ^ k) :
    (thresholdLoop k lo hi present recurse
        { chunk_scale_coefficients := decompress T k d s, is_nonzero_child := nz,
          child_chunks := children }).is_nonzero_child (tree_size k + i)
      = if present i then (recurse i (nodeValue T d s k i)).2.is_nonzero_child
        else nz (tree_size k + i) := by
  rw [thresholdLoop_spec]
  simp only [thresholdLoopSpec]
  have h1 : tree_size k ≤ tree_size k + i ∧ tree_size k + i < tree_size k + 8 ^ k := by omega
  rw [if_pos h1, decompress_eq, decompressUpTo_apply T d s k k i (le_refl _) hi']
  simp only [Nat.add_sub_cancel_left]

/-- A second pass of the body of `recursiveThreshold` over its own result
changes nothing, when the recursive calls are idempotent on the child chunks
that are present. -/
theorem thresholdBody_idempotent (T : HaarTransform) (hT : HaarLaws T) (k : Nat) (lo hi : ℚ)
    (hle : lo ≤ hi) (d : Nat → Details) (f : Nat → Bool) (present : Nat → Bool)
    (children : Nat → Chunk) (recurse recurse' : Nat → ℚ → Chunk × RecursiveThresholdReturnValue)
    (s : ℚ) (B B' : CompressState × (Nat → Chunk)) (children' : Nat → Chunk)
    (hB : B = thresholdBody T k lo hi d f present children recurse s)
    (hB' : B' = thresholdBody T k lo hi B.1.node_data B.1.node_has_at_least_one_child present
      children' recurse' (B.1.chunk_scale_coefficients 0))
    (hchildren : children' = B.2)
    (hrec : ∀ i, i < 8 ^ k → present i = true →
      recurse' i (recurse i (nodeValue T d s k i)).2.scale = recurse i (nodeValue T d s k i))
    (hchild : ∀ i, i < 8 ^ k → present i = true →
      (recurse i (nodeValue T d s k i)).1 = B.2 i) :
    B'.1.node_data = B.1.node_data
      ∧ B'.1.node_has_at_least_one_child = B.1.node_has_at_least_one_child
      ∧ B'.2 = B.2
      ∧ B'.1.chunk_scale_coefficients 0 = B.1.chunk_scale_coefficients 0
      ∧ B'.1.is_nonzero_child 0 = B.1.is_nonzero_child 0 := by
  have hc := thresholdBody_compressed T k lo hi d f present children recurse s
  rw [← hB] at hc
  subst hchildren
  have hc' := thresholdBody_compressed T k lo hi B.1.node_data B.1.node_has_at_least_one_child
    present B.2 recurse' (B.1.chunk_scale_coefficients 0)
  rw [← hB'] at hc'
  have hval : ∀ i, i < 8 ^ k →
      nodeValue T B.1.node_data (B.1.chunk_scale_coefficients 0) k i
        = if present i then (recurse i (nodeValue T d s k i)).2.scale
          else clamp (nodeValue T d s k i) lo hi := by
    intro i hi'
    rw [hB]
    exact thresholdBody_boundary T hT k lo hi d f present children recurse s i hi'
  have hts := tree_size_succ k
  have hu := compressed_unique T k _ _ _ _ hc' hc
    (by
      intro j h1 h2
      obtain ⟨i, rfl⟩ : ∃ i, j = tree_size k + i := ⟨j - tree_size k, by omega⟩
      have hi' : i < 8 ^ k := by omega
      simp only
      rw [thresholdLoop_boundary T k lo hi _ _ _ _ _ _ i hi',
        thresholdLoop_boundary T k lo hi _ _ _ _ _ _ i hi', hval i hi']
      by_cases hp : present i = true
      · simp only [if_pos hp]
        rw [hrec i hi' hp]
      · simp only [if_neg hp]
        rw [clamp_clamp _ _ _ hle])
    (by
      intro j h1 h2
      obtain ⟨i, rfl⟩ : ∃ i, j = tree_size k + i := ⟨j - tree_size k, by omega⟩
      have hi' : i < 8 ^ k := by omega
      simp only
      rw [thresholdLoop_nonzero T k lo hi _ _ _ _ _ _ i hi',
        thresholdLoop_nonzero T k lo hi _ _ _ _ _ _ i hi', hval i hi']
      by_cases hp : present i = true
      · simp only [if_pos hp]
        rw [hrec i hi' hp]
      · simp only [if_neg hp])
  have h8 : 0 < 8 ^ k := Nat.pos_pow_of_pos k (show 0 < 8 by decide)
  have hpos : 0 < tree_size (k + 1) := by omega
  have h0 := hu (tree_size (k + 1)) 0 hpos (by omega)
  refine ⟨?_, ?_, ?_, h0.1, h0.2.1⟩
  · funext j
    by_cases hj : j < tree_size k
    · exact ((hu (tree_size (k + 1)) j (by omega) (by omega)).2.2 hj).1
    · rw [hc'.data_outside j (by omega)]
  · funext j
    by_cases hj : j < tree_size k
    · exact ((hu (tree_size (k + 1)) j (by omega) (by omega)).2.2 hj).2
    · rw [hc'.flag_outside j (by omega)]
  · funext i
    rw [hB', thresholdBody_child]
    by_cases hi' : i < 8 ^ k
    · rw [if_pos hi']
      by_cases hp : present i = true
      · rw [hval i hi']
        simp only [if_pos hp]
        rw [hrec i hi' hp, hchild i hi' hp]
      · simp only [if_neg hp]
    · rw [if_neg hi']

/-- Thresholding a chunk tree that has just been thresholded, with the scale
coefficient the first pass returned, returns the same value and leaves the
tree as it is. -/
theorem recursiveThreshold_twice (T : HaarTransform) (hT : HaarLaws T) (k : Nat) (lo hi : ℚ)
    (hle : lo ≤ hi) :
    ∀ (c : Chunk) (s : ℚ),
      recursiveThreshold T k lo hi (recursiveThreshold T k lo hi c s).1
          (recursiveThreshold T k lo hi c s).2.scale
        = recursiveThreshold T k lo hi c s := by
  intro c
  induction c with
  | leafChunk d f =>
    intro s
    simp only [recursiveThreshold]
    have hch : (fun _ => Chunk.fresh) = (thresholdBody T k lo hi d f (fun _ => false)
        (fun _ => Chunk.fresh)
        (fun _ s => (Chunk.fresh, { scale := s, is_nonzero_child := false })) s).2 := by
      funext i
      rw [thresholdBody_child]
      simp
    obtain ⟨h1, h2, _, h4, h5⟩ := thresholdBody_idempotent T hT k lo hi hle d f (fun _ => false)
      (fun _ => Chunk.fresh)
      (fun _ s => (Chunk.fresh, { scale := s, is_nonzero_child := false }))
      (fun _ s => (Chunk.fresh, { scale := s, is_nonzero_child := false })) s _ _
      (fun _ => Chunk.fresh) rfl rfl hch
      (fun i _ hp => by simp at hp) (fun i _ hp => by simp at hp)
    rw [h1, h2, h4, h5]
  | innerChunk d f p cs ih =>
    intro s
    simp only [recursiveThreshold]
    obtain ⟨h1, h2, h3, h4, h5⟩ := thresholdBody_idempotent T hT k lo hi hle d f p cs
      (fun child_idx s => recursiveThreshold T k lo hi (cs child_idx) s)
      (fun child_idx s' => recursiveThreshold T k lo hi
        ((thresholdBody T k lo hi d f p cs
          (fun child_idx s => recursiveThreshold T k lo hi (cs child_idx) s) s).2 child_idx) s')
      s _ _ _ rfl rfl rfl
      (by
        intro i hi' hp
        simp only
        rw [thresholdBody_child, if_pos hi', if_pos hp]
        exact ih i _)
      (by
        intro i hi' hp
        simp only
        rw [thresholdBody_child, if_pos hi', if_pos hp])
    rw [h1, h2, h3, h4, h5]
theorem pruneLoopUpTo_eq_spec (k : Nat) (present : Nat → Bool) (pruned : Nat → Chunk)
    (st : PruneState) (n : Nat) :
    pruneLoopUpTo k present pruned st n = pruneLoopSpec k present pruned st n := by
  induction n with
  | zero =>
    simp only [pruneLoopUpTo, pruneLoopSpec, List.range_zero, List.foldl_nil]
    cases st
    simp
  | succ n ih =>
    unfold pruneLoopUpTo at ih ⊢
    rw [foldl_range_succ, ih]
    have hlt : ∀ i, i ≠ n → (i < n + 1 ↔ i < n) := fun i h => by omega
    have hex : ∀ (q : Nat → Prop), (∃ i, i < n + 1 ∧ q i) ↔ ((∃ i, i < n ∧ q i) ∨ q n) := by
      intro q
      constructor
      · rintro ⟨i, h1, h2⟩
        by_cases h : i = n
        · subst h; exact Or.inr h2
        · exact Or.inl ⟨i, by omega, h2⟩
      · rintro (⟨i, h1, h2⟩ | h)
        · exact ⟨i, by omega, h2⟩
        · exact ⟨n, by omega, h⟩
    by_cases hp : present n = true
    · rw [if_pos hp]
      by_cases he : erasedByPrune k (pruned n) = true
      · have he' := he
        unfold erasedByPrune at he'
        rw [if_pos he']
        simp only [pruneLoopSpec, PruneState.mk.injEq]
        refine ⟨?_, ?_, ?_⟩
        · funext i
          by_cases h2 : i = n
          · subst h2
            simp [hp, he]
          · simp only [Function.update_noteq h2, hlt i h2]
        · funext i
          by_cases h2 : i = n
          · subst h2
            simp [hp, he]
          · simp only [Function.update_noteq h2, hlt i h2]
        · congr 1
          apply decide_eq_decide.mpr
          rw [hex (fun i => present i = true ∧ erasedByPrune k (pruned i) = false)]
          simp [he]
      · have he' := he
        unfold erasedByPrune at he'
        rw [if_neg he']
        have hef : erasedByPrune k (pruned n) = false := by simpa using he
        simp only [pruneLoopSpec, PruneState.mk.injEq]
        refine ⟨?_, ?_, ?_⟩
        · funext i
          by_cases h2 : i = n
          · subst h2
            simp [hp, hef]
          · simp only [hlt i h2]
        · funext i
          by_cases h2 : i = n
          · subst h2
            simp [hp, hef]
          · simp only [Function.update_noteq h2, hlt i h2]
        · have : decide (∃ i, i < n + 1 ∧ present i = true ∧ erasedByPrune k (pruned i) = false)
              = true := decide_eq_true ⟨n, by omega, hp, hef⟩
          rw [this]
          simp
    · rw [if_neg hp]
      simp only [pruneLoopSpec, PruneState.mk.injEq]
      refine ⟨?_, ?_, ?_⟩
      · funext i
        by_cases h2 : i = n
        · subst h2
          simp [hp]
        · simp only [hlt i h2]
      · funext i
        by_cases h2 : i = n
        · subst h2
          simp [hp]
        · simp only [hlt i h2]
      · congr 1
        apply decide_eq_decide.mpr
        rw [hex (fun i => present i = true ∧ erasedByPrune k (pruned i) = false)]
        simp [hp]

theorem recursivePrune_innerChunk (k : Nat) (d : Nat → Details) (f p : Nat → Bool)
    (cs : Nat → Chunk) :
    recursivePrune k (Chunk.innerChunk d f p cs)
      = if !(pruneLoopSpec k p (fun i => recursivePrune k (cs i))
            { present := p, child_chunks := cs, has_at_least_one_child := false }
            (kNumChildren k)).has_at_least_one_child
        then Chunk.leafChunk d f
        else Chunk.innerChunk d f
          (pruneLoopSpec k p (fun i => recursivePrune k (cs i))
            { present := p, child_chunks := cs, has_at_least_one_child := false }
            (kNumChildren k)).present
          (pruneLoopSpec k p (fun i => recursivePrune k (cs i))
            { present := p, child_chunks := cs, has_at_least_one_child := false }
            (kNumChildren k)).child_chunks := by
  rw [← pruneLoopUpTo_eq_spec k p _ _]
  rfl
theorem recursivePrune_hasChildrenArray (k : Nat) (c : Chunk)
    (h : (recursivePrune k c).hasChildrenArray = true) :
    ∃ i, i < kNumChildren k ∧ (recursivePrune k c).hasChild i = true := by
  cases c with
  | leafChunk d f => simp [recursivePrune, Chunk.hasChildrenArray] at h
  | innerChunk d f p cs =>
    rw [recursivePrune_innerChunk] at h ⊢
    by_cases hflag : (pruneLoopSpec k p (fun i => recursivePrune k (cs i))
        { present := p, child_chunks := cs, has_at_least_one_child := false }
        (kNumChildren k)).has_at_least_one_child = true
    · simp only [hflag, Bool.not_true, Bool.false_eq_true, if_false]
      have hflag' := hflag
      simp only [pruneLoopSpec, Bool.false_or, decide_eq_true_eq] at hflag'
      obtain ⟨i, h1, h2, h3⟩ := hflag'
      refine ⟨i, h1, ?_⟩
      simp only [Chunk.hasChild, pruneLoopSpec]
      rw [if_neg]
      · exact h2
      · rintro ⟨_, _, h4⟩
        rw [h3] at h4
        cases h4
    · have hf : (pruneLoopSpec k p (fun i => recursivePrune k (cs i))
          { present := p, child_chunks := cs, has_at_least_one_child := false }
          (kNumChildren k)).has_at_least_one_child = false := by simpa using hflag
      simp [hf, Chunk.hasChildrenArray] at h

/-- After `recursivePrune`, every chunk below the pruned one that is still
reachable through allocated child slots has a child chunk or nonzero data. -/
theorem recursivePrune_survivors (k : Nat) :
    ∀ (c : Chunk) (path : List Nat) (c' : Chunk), path ≠ [] →
      (∀ i, i ∈ path → i < kNumChildren k) →
      (recursivePrune k c).deref path = some c' → c'.keptByPrune k := by
  intro c
  induction c with
  | leafChunk d f =>
    intro path c' hne _ h
    cases path with
    | nil => exact absurd rfl hne
    | cons i rest => simp [recursivePrune, Chunk.deref] at h
  | innerChunk d f p cs ih =>
    intro path c' hne hvalid h
    cases path with
    | nil => exact absurd rfl hne
    | cons i rest =>
      rw [recursivePrune_innerChunk] at h
      by_cases hflag : (pruneLoopSpec k p (fun i => recursivePrune k (cs i))
          { present := p, child_chunks := cs, has_at_least_one_child := false }
          (kNumChildren k)).has_at_least_one_child = true
      · simp only [hflag, Bool.not_true, Bool.false_eq_true, if_false, Chunk.deref] at h
        have hi : i < kNumChildren k := hvalid i (List.mem_cons_self _ _)
        by_cases hP : (pruneLoopSpec k p (fun i => recursivePrune k (cs i))
            { present := p, child_chunks := cs, has_at_least_one_child := false }
            (kNumChildren k)).present i = true
        · rw [if_pos hP] at h
          simp only [pruneLoopSpec] at hP h
          by_cases he : erasedByPrune k (recursivePrune k (cs i)) = true
          · by_cases hp : p i = true
            · rw [if_pos ⟨hi, hp, he⟩] at hP
              cases hP
            · rw [if_neg (fun hh => hp hh.2.1)] at hP
              exact absurd hP hp
          · have hp : p i = true := by
              rw [if_neg (fun hh => he hh.2.2)] at hP
              exact hP
            rw [if_pos ⟨hi, hp⟩, if_neg he] at h
            cases rest with
            | nil =>
              simp only [Chunk.deref, Option.some.injEq] at h
              subst h
              have hne' : ¬ ((!(recursivePrune k (cs i)).hasChildrenArray
                  && !(recursivePrune k (cs i)).hasNonzeroData k kNonzeroCoefficientThreshold)
                    = true) := he
              by_cases ha : (recursivePrune k (cs i)).hasChildrenArray = true
              · exact Or.inl (recursivePrune_hasChildrenArray k (cs i) ha)
              · right
                simp only [Bool.and_eq_true, Bool.not_eq_true', not_and, Bool.not_eq_false] at hne'
                exact hne' (by simpa using ha)
            | cons j rest' =>
              exact ih i (j :: rest') c' (by simp)
                (fun a ha => hvalid a (List.mem_cons_of_mem _ ha)) h
        · rw [if_neg hP] at h
          cases h
      · have hf : (pruneLoopSpec k p (fun i => recursivePrune k (cs i))
            { present := p, child_chunks := cs, has_at_least_one_child := false }
            (kNumChildren k)).has_at_least_one_child = false := by simpa using hflag
        simp [hf, Chunk.deref] at h
/-! ## Pointers into the chunk tree -/

theorem Chunk.deref_nil (t : Chunk) : t.deref [] = some t := by
  cases t <;> rfl

theorem Chunk.modify_nil (f : Chunk → Chunk) (t : Chunk) : t.modify f [] = f t := by
  cases t <;> rfl

theorem Chunk.deref_append (t : Chunk) (p q : List Nat) :
    t.deref (p ++ q) = (t.deref p).bind (fun c => c.deref q) := by
  induction p generalizing t with
  | nil => simp [Chunk.deref_nil]
  | cons i p ih =>
    cases t with
    | leafChunk d f => simp [Chunk.deref]
    | innerChunk d f pr cs =>
      simp only [List.cons_append, Chunk.deref]
      by_cases h : pr i = true
      · simp only [h, if_true]
        exact ih (cs i)
      · simp [h]

/-- Dereferencing a pointer to an ancestor of the modified chunk gives the
ancestor, modified below. -/
theorem Chunk.deref_modify_append (f : Chunk → Chunk) (t : Chunk) (q r : List Nat) :
    (t.modify f (q ++ r)).deref q = (t.deref q).map (fun c => c.modify f r) := by
  induction q generalizing t with
  | nil => simp [Chunk.deref_nil]
  | cons i q ih =>
    cases t with
    | leafChunk d fl => simp [Chunk.deref, Chunk.modify]
    | innerChunk d fl pr cs =>
      simp only [List.cons_append, Chunk.deref, Chunk.modify]
      by_cases h : pr i = true
      · simp only [h, if_true, Chunk.deref, Function.update_same]
        exact ih (cs i)
      · simp [h, Chunk.deref]

theorem Chunk.deref_modify_same (f : Chunk → Chunk) (t : Chunk) (p : List Nat) :
    (t.modify f p).deref p = (t.deref p).map f := by
  have := Chunk.deref_modify_append f t p []
  simpa [Chunk.modify_nil] using this

theorem Chunk.nodeData_modify_cons (f : Chunk → Chunk) (t : Chunk) (i : Nat) (r : List Nat) :
    (t.modify f (i :: r)).nodeData = t.nodeData := by
  cases t with
  | leafChunk d fl => rfl
  | innerChunk d fl pr cs =>
    simp only [Chunk.modify]
    by_cases h : pr i = true
    · simp [h, Chunk.nodeData_innerChunk]
    · simp [h]

theorem Chunk.deref_modify_cons_ne_nil (f : Chunk → Chunk) (i : Nat) (q : List Nat)
    (hf : ∀ c j, (f c).getChild j = c.getChild j) :
    ∀ (t : Chunk) (r : List Nat), (t.modify f r).deref (r ++ i :: q) = t.deref (r ++ i :: q) := by
  intro t r
  induction r generalizing t with
  | nil =>
    simp only [Chunk.modify_nil, List.nil_append]
    have h1 : ∀ c : Chunk, c.deref (i :: q) = (c.getChild i).bind (fun c' => c'.deref q) := by
      intro c
      cases c with
      | leafChunk d fl => simp [Chunk.deref, Chunk.getChild]
      | innerChunk d fl pr cs =>
        simp only [Chunk.deref, Chunk.getChild]
        by_cases h : pr i = true
        · simp [h]
        · simp [h]
    rw [h1, h1, hf]
  | cons j r ih =>
    cases t with
    | leafChunk d fl => simp [Chunk.deref, Chunk.modify]
    | innerChunk d fl pr cs =>
      simp only [List.cons_append, Chunk.deref, Chunk.modify]
      by_cases h : pr j = true
      · simp only [h, if_true, Chunk.deref, Function.update_same]
        exact ih (cs j)
      · simp [h, Chunk.deref]

theorem Chunk.modify_eq_self (f : Chunk → Chunk) :
    ∀ (t : Chunk) (p : List Nat), (∀ c, t.deref p = some c → f c = c) → t.modify f p = t := by
  intro t p
  induction p generalizing t with
  | nil =>
    intro h
    rw [Chunk.modify_nil]
    exact h t (Chunk.deref_nil t)
  | cons i p ih =>
    intro h
    cases t with
    | leafChunk d fl => rfl
    | innerChunk d fl pr cs =>
      simp only [Chunk.modify]
      by_cases hp : pr i = true
      · simp only [hp, if_true]
        have := ih (cs i) (fun c hc => h c (by simp [Chunk.deref, hp, hc]))
        rw [this, Function.update_eq_self]
      · simp [hp]

theorem chunkPtr_zero (k n M : Nat) : chunkPtr k n M 0 = [] := rfl

theorem chunkPtr_succ (k n M d : Nat) :
    chunkPtr k n M (d + 1) = chunkPtr k n M d ++ [pathSlot k n M d] := by
  simp [chunkPtr, List.range_succ]

theorem chunkPtr_add (k n M d e : Nat) :
    chunkPtr k n M (d + e)
      = chunkPtr k n M d ++ (List.range' d e).map (pathSlot k n M) := by
  induction e with
  | zero => simp
  | succ e ih =>
    rw [← Nat.add_assoc, chunkPtr_succ, ih, List.range'_concat, List.map_append]
    simp [Nat.add_comm]
theorem Chunk.getChild_getOrAllocateChild_same (c : Chunk) (i : Nat) :
    ((c.getOrAllocateChild i).getChild i).isSome = true := by
  cases c with
  | leafChunk d f => simp [Chunk.getOrAllocateChild, Chunk.getChild]
  | innerChunk d f p cs =>
    simp only [Chunk.getOrAllocateChild]
    by_cases h : p i = true
    · simp [h, Chunk.getChild]
    · simp [h, Chunk.getChild]

theorem Chunk.nodeData_getOrAllocateChild (c : Chunk) (i : Nat) :
    (c.getOrAllocateChild i).nodeData = c.nodeData := by
  cases c with
  | leafChunk d f => rfl
  | innerChunk d f p cs =>
    simp only [Chunk.getOrAllocateChild]
    by_cases h : p i = true
    · simp [h]
    · simp [h, Chunk.nodeData_innerChunk]

theorem Chunk.getOrAllocateChild_of_hasChild (c : Chunk) (i : Nat) (h : c.hasChild i = true) :
    c.getOrAllocateChild i = c := by
  cases c with
  | leafChunk d f => simp [Chunk.hasChild] at h
  | innerChunk d f p cs =>
    simp only [Chunk.hasChild] at h
    simp [Chunk.getOrAllocateChild, h]

theorem Chunk.deref_cons (c : Chunk) (i : Nat) (q : List Nat) :
    c.deref (i :: q) = (c.getChild i).bind (fun c' => c'.deref q) := by
  cases c with
  | leafChunk d fl => simp [Chunk.deref, Chunk.getChild]
  | innerChunk d fl pr cs =>
    simp only [Chunk.deref, Chunk.getChild]
    by_cases h : pr i = true
    · simp [h]
    · simp [h]

/-- Below a newly allocated child there is nothing but the child itself, with
zero data. -/
theorem Chunk.deref_getOrAllocateChild_data (c : Chunk) (i : Nat) (q : List Nat) :
    (match (c.getOrAllocateChild i).deref (i :: q) with
      | some c' => c'.nodeData
      | none => fun _ => 0)
    = (match c.deref (i :: q) with
      | some c' => c'.nodeData
      | none => fun _ => 0) := by
  by_cases h : c.hasChild i = true
  · rw [Chunk.getOrAllocateChild_of_hasChild c i h]
  · cases c with
    | leafChunk d f =>
      cases q with
      | nil => simp [Chunk.getOrAllocateChild, Chunk.deref, Chunk.fresh, Chunk.nodeData_leafChunk]
      | cons j q => simp [Chunk.getOrAllocateChild, Chunk.deref, Chunk.fresh]
    | innerChunk d f p cs =>
      simp only [Chunk.hasChild] at h
      cases q with
      | nil =>
        simp [Chunk.getOrAllocateChild, Chunk.deref, Chunk.fresh, Chunk.nodeData_leafChunk, h]
      | cons j q => simp [Chunk.getOrAllocateChild, Chunk.deref, Chunk.fresh, h]

theorem allocChain_allocated (k n M : Nat) (t : Chunk) :
    ∀ j, ChainAllocated k n M (allocChain k n M t j) j := by
  intro j
  induction j with
  | zero =>
    intro d hd
    have : d = 0 := by omega
    subst this
    simp [allocChain, chunkPtr_zero, Chunk.deref_nil]
  | succ j ih =>
    intro d hd
    simp only [allocChain]
    by_cases hdj : d ≤ j
    · obtain ⟨e, rfl⟩ : ∃ e, j = d + e := ⟨j - d, by omega⟩
      rw [chunkPtr_add k n M d e, Chunk.deref_modify_append]
      have := ih d (by omega)
      rw [Option.isSome_iff_exists] at this
      obtain ⟨c, hc⟩ := this
      simp [hc]
    · have : d = j + 1 := by omega
      subst this
      rw [chunkPtr_succ, Chunk.deref_append, Chunk.deref_modify_same]
      have := ih j (le_refl _)
      rw [Option.isSome_iff_exists] at this
      obtain ⟨c, hc⟩ := this
      simp only [hc, Option.map_some', Option.some_bind]
      rw [Chunk.deref_cons]
      have h2 := Chunk.getChild_getOrAllocateChild_same c (pathSlot k n M j)
      rw [Option.isSome_iff_exists] at h2
      obtain ⟨c', hc'⟩ := h2
      simp [hc', Chunk.deref_nil]

/-- Allocating the chunks on the path does not change the node data found on
the path (a missing chunk counts as zero data). -/
theorem allocChain_chunkDataAt (k n M : Nat) (t : Chunk) :
    ∀ j d, chunkDataAt k n M (allocChain k n M t j) d = chunkDataAt k n M t d := by
  intro j
  induction j with
  | zero => intro d; rfl
  | succ j ih =>
    intro d
    rw [← ih d]
    simp only [allocChain, chunkDataAt]
    by_cases hdj : d ≤ j
    · obtain ⟨e, rfl⟩ : ∃ e, j = d + e := ⟨j - d, by omega⟩
      rw [chunkPtr_add k n M d e, Chunk.deref_modify_append]
      cases hc : (allocChain k n M t (d + e)).deref (chunkPtr k n M d) with
      | none => simp
      | some c =>
        simp only [Option.map_some']
        cases hl : List.map (pathSlot k n M) (List.range' d e) with
        | nil => simp [Chunk.modify_nil, Chunk.nodeData_getOrAllocateChild]
        | cons i r => simp [Chunk.nodeData_modify_cons]
    · obtain ⟨e, rfl⟩ : ∃ e, d = j + 1 + e := ⟨d - (j + 1), by omega⟩
      rw [Nat.add_assoc, chunkPtr_add k n M j (1 + e), Chunk.deref_append,
        Chunk.deref_modify_same, Chunk.deref_append]
      have hr : List.map (pathSlot k n M) (List.range' j (1 + e))
          = pathSlot k n M j :: List.map (pathSlot k n M) (List.range' (j + 1) e) := by
        rw [Nat.add_comm 1 e, List.range'_succ, List.map_cons]
      rw [hr]
      cases hc : (allocChain k n M t j).deref (chunkPtr k n M j) with
      | none => simp
      | some c =>
        simp only [Option.map_some', Option.some_bind]
        exact Chunk.deref_getOrAllocateChild_data c _ _

theorem initialChunkPtrs_eq (k n M : Nat) : initialChunkPtrs = chainPtrs k n M 0 := by
  funext d
  simp only [initialChunkPtrs, chainPtrs]
  by_cases h : d = 0
  · subst h
    simp [chunkPtr_zero]
  · rw [Function.update_noteq h, if_neg (by omega)]

theorem chainPtrs_succ (k n M j : Nat) :
    Function.update (chainPtrs k n M j) (j + 1)
        (some (chunkPtr k n M j ++ [pathSlot k n M j]))
      = chainPtrs k n M (j + 1) := by
  funext d
  simp only [chainPtrs]
  by_cases h : d = j + 1
  · subst h
    simp [chunkPtr_succ]
  · rw [Function.update_noteq h]
    have : d ≤ j + 1 ↔ d ≤ j := by omega
    simp only [chainPtrs, this]

theorem allocChain_step (k n M : Nat) (t : Chunk) (j : Nat) (c : Chunk)
    (hc : (allocChain k n M t j).deref (chunkPtr k n M j) = some c) :
    (if c.hasChild (pathSlot k n M j) = true then allocChain k n M t j
      else (allocChain k n M t j).modify (fun c => c.getOrAllocateChild (pathSlot k n M j))
        (chunkPtr k n M j))
      = allocChain k n M t (j + 1) := by
  by_cases h : c.hasChild (pathSlot k n M j) = true
  · rw [if_pos h]
    simp only [allocChain]
    rw [Chunk.modify_eq_self]
    intro c' hc'
    rw [hc] at hc'
    cases hc'
    exact Chunk.getOrAllocateChild_of_hasChild c _ h
  · rw [if_neg h]
    rfl

/-- The descent of `addToCellValue` allocates the chunks on the path and
caches the pointers to them. -/
theorem addToCellValueDescent_eq (k n M : Nat) (t : Chunk) :
    ∀ cnt j, addToCellValueDescent k n M cnt (j + 1) (allocChain k n M t j) (chainPtrs k n M j)
      = some (allocChain k n M t (j + cnt), chainPtrs k n M (j + cnt)) := by
  intro cnt
  induction cnt with
  | zero => intro j; rfl
  | succ cnt ih =>
    intro j
    have ha := allocChain_allocated k n M t j j (le_refl _)
    rw [Option.isSome_iff_exists] at ha
    obtain ⟨c, hc⟩ := ha
    have hp : chainPtrs k n M j (j + 1 - 1) = some (chunkPtr k n M j) := by
      simp [chainPtrs]
    simp only [addToCellValueDescent]
    rw [hp]
    simp only [Nat.add_sub_cancel, hc]
    have hs : computeLevelTraversalDistance M (n - j * k) (n - (j + 1) * k) = pathSlot k n M j :=
      rfl
    rw [hs, allocChain_step k n M t j c hc, chainPtrs_succ, ih (j + 1)]
    have : j + 1 + cnt = j + (cnt + 1) := by omega
    rw [this]
/-! ## The ascent -/

theorem Chunk.getChild_addDetails (i : Nat) (det : Details) (c : Chunk) (j : Nat) :
    (c.addDetails i det).getChild j = c.getChild j := by
  cases c <;> rfl

theorem Chunk.nodeData_addDetails (i : Nat) (det : Details) (c : Chunk) :
    (c.addDetails i det).nodeData = Function.update c.nodeData i (c.nodeData i + det) := by
  cases c <;> rfl

theorem range'_map_ne_nil (f : Nat → Nat) (a e : Nat) (he : 0 < e) :
    ∃ i r, List.map f (List.range' a e) = i :: r := by
  obtain ⟨e', rfl⟩ : ∃ e', e = e' + 1 := ⟨e - 1, by omega⟩
  exact ⟨f a, List.map f (List.range' (a + 1) e'), by simp [List.range'_succ]⟩

/-- Modifying the data of the chunk at depth `d` of the path leaves every
chunk of the path in place, and changes the node data of that chunk alone. -/
theorem deref_modify_addDetails (k n M : Nat) (t : Chunk) (d i : Nat) (det : Details)
    (d' : Nat) :
    (t.modify (Chunk.addDetails i det) (chunkPtr k n M d)).deref (chunkPtr k n M d')
      = (t.deref (chunkPtr k n M d')).map
          (fun c => if d' = d then c.addDetails i det
            else if d' < d then
              c.modify (Chunk.addDetails i det)
                ((List.range' d' (d - d')).map (pathSlot k n M))
            else c) := by
  by_cases h1 : d' = d
  · subst h1
    rw [Chunk.deref_modify_same]
    simp
  · by_cases h2 : d' < d
    · obtain ⟨e, rfl⟩ : ∃ e, d = d' + e := ⟨d - d', by omega⟩
      rw [chunkPtr_add k n M d' e, Chunk.deref_modify_append]
      simp only [h1, h2, if_true, if_false, Nat.add_sub_cancel_left]
    · obtain ⟨e, rfl⟩ : ∃ e, d' = d + e := ⟨d' - d, by omega⟩
      obtain ⟨i0, r, hr⟩ := range'_map_ne_nil (pathSlot k n M) d e (by omega)
      rw [chunkPtr_add k n M d e, hr,
        Chunk.deref_modify_cons_ne_nil _ i0 r (Chunk.getChild_addDetails i det)]
      simp only [h1, h2, if_false]
      simp

theorem chainAllocated_modify_addDetails (k n M : Nat) (t : Chunk) (d i : Nat) (det : Details)
    (L : Nat) (h : ChainAllocated k n M t L) :
    ChainAllocated k n M (t.modify (Chunk.addDetails i det) (chunkPtr k n M d)) L := by
  intro d' hd'
  rw [deref_modify_addDetails]
  have := h d' hd'
  rw [Option.isSome_iff_exists] at this
  obtain ⟨c, hc⟩ := this
  simp [hc]

theorem chunkDataAt_modify_addDetails (k n M : Nat) (t : Chunk) (d i : Nat) (det : Details)
    (d' : Nat) (hd : (t.deref (chunkPtr k n M d)).isSome = true) :
    chunkDataAt k n M (t.modify (Chunk.addDetails i det) (chunkPtr k n M d)) d'
      = if d' = d then
          Function.update (chunkDataAt k n M t d) i (chunkDataAt k n M t d i + det)
        else chunkDataAt k n M t d' := by
  simp only [chunkDataAt]
  rw [deref_modify_addDetails]
  by_cases h1 : d' = d
  · subst h1
    rw [Option.isSome_iff_exists] at hd
    obtain ⟨c, hc⟩ := hd
    simp [hc, Chunk.nodeData_addDetails]
  · simp only [h1, if_false]
    cases hc : t.deref (chunkPtr k n M d') with
    | none => simp
    | some c =>
      simp only [Option.map_some']
      by_cases h2 : d' < d
      · obtain ⟨i0, r, hr⟩ := range'_map_ne_nil (pathSlot k n M) d' (d - d') (by omega)
        simp only [h2, if_true, hr, Chunk.nodeData_modify_cons]
      · simp only [h2, if_false]
theorem pathNodeIndex_bounds (k n M h : Nat) :
    tree_size (n - pathDepth k n h * k - h) ≤ pathNodeIndex k n M h
      ∧ pathNodeIndex k n M h < tree_size (n - pathDepth k n h * k - h + 1) := by
  simp only [pathNodeIndex, computeTreeTraversalDistance, computeLevelTraversalDistance]
  have h1 : M / 8 ^ h % 8 ^ (n - pathDepth k n h * k - h) < 8 ^ (n - pathDepth k n h * k - h) :=
    Nat.mod_lt _ (Nat.pos_pow_of_pos _ (by decide))
  rw [tree_size_succ]
  omega

theorem pathDepth_mul_le (k n h : Nat) : pathDepth k n h * k + h ≤ n ∨ n < h := by
  have := Nat.div_mul_le_self (n - h) k
  simp only [pathDepth]
  omega

/-- Two different ancestors of a cell are stored at different places. -/
theorem pathNodeIndex_injective (k n M h h' : Nat) (hn : h ≤ n) (hn' : h' ≤ n)
    (hd : pathDepth k n h' = pathDepth k n h)
    (hi : pathNodeIndex k n M h' = pathNodeIndex k n M h) : h' = h := by
  have b := pathNodeIndex_bounds k n M h
  have b' := pathNodeIndex_bounds k n M h'
  rw [hd, hi] at b'
  have e1 := pathDepth_mul_le k n h
  have e2 := pathDepth_mul_le k n h'
  rw [hd] at e2
  by_contra hne
  rcases Nat.lt_or_gt_of_ne hne with hlt | hgt
  · have : tree_size (n - pathDepth k n h * k - h + 1)
        ≤ tree_size (n - pathDepth k n h * k - h') := tree_size_mono (by omega)
    omega
  · have : tree_size (n - pathDepth k n h * k - h' + 1)
        ≤ tree_size (n - pathDepth k n h * k - h) := tree_size_mono (by omega)
    omega

theorem pathData_modify_addDetails (k n M : Nat) (t : Chunk) (h : Nat) (det : Details)
    (h' : Nat) (hn : h ≤ n) (hn' : h' ≤ n)
    (hd : (t.deref (chunkPtr k n M (pathDepth k n h))).isSome = true) :
    pathData k n M (t.modify (Chunk.addDetails (pathNodeIndex k n M h) det)
        (chunkPtr k n M (pathDepth k n h))) h'
      = if h' = h then pathData k n M t h + det else pathData k n M t h' := by
  simp only [pathData]
  rw [chunkDataAt_modify_addDetails k n M t _ _ det _ hd]
  by_cases h1 : h' = h
  · subst h1
    simp
  · rw [if_neg h1]
    by_cases h2 : pathDepth k n h' = pathDepth k n h
    · rw [if_pos h2, Function.update_noteq, h2]
      intro h3
      exact h1 (pathNodeIndex_injective k n M h h' hn hn' h2 h3)
    · rw [if_neg h2]

theorem ascendCoefficients_succ (T : HaarTransform) (M : Nat) :
    ∀ c ph co, ascendCoefficients T M (c + 1) ph co
      = T.forwardSingleChild (ascendCoefficients T M c ph co).1
          (computeRelativeChildIndex M (ph + c)) := by
  intro c
  induction c with
  | zero => intro ph co; rfl
  | succ c ih =>
    intro ph co
    have e : ascendCoefficients T M (c + 1 + 1) ph co
        = ascendCoefficients T M (c + 1) (ph + 1)
            (T.forwardSingleChild co.1 (computeRelativeChildIndex M ph)) := rfl
    rw [e, ih]
    have e2 : ph + 1 + c = ph + (c + 1) := by omega
    rw [e2]
    rfl

/-- The ascent never dereferences a null pointer when the chunks of the path
are allocated; it adds to the details of each ancestor the details of the
coefficients it carries. -/
theorem ascend_spec (T : HaarTransform) (k n M L : Nat) :
    ∀ cnt ph co tree, ChainAllocated k n M tree L → pathDepth k n ph ≤ L → ph + cnt ≤ n + 1 →
      ∃ tree', ascend T k n M (chainPtrs k n M L) cnt ph co tree
          = some (ascendCoefficients T M cnt ph co, tree')
        ∧ ChainAllocated k n M tree' L
        ∧ ∀ h', h' ≤ n → pathData k n M tree' h'
            = pathData k n M tree h'
              + (if ph ≤ h' ∧ h' < ph + cnt
                  then (ascendCoefficients T M (h' - ph + 1) ph co).2 else 0) := by
  intro cnt
  induction cnt with
  | zero =>
    intro ph co tree ha _ _
    refine ⟨tree, rfl, ha, ?_⟩
    intro h' _
    rw [if_neg (by omega)]
    simp
  | succ cnt ih =>
    intro ph co tree ha hd hle
    have hp : chainPtrs k n M L ((n - ph) / k) = some (chunkPtr k n M (pathDepth k n ph)) := by
      simp only [chainPtrs, pathDepth] at hd ⊢
      rw [if_pos hd]
    have hs := ha _ hd
    have hs' := hs
    rw [Option.isSome_iff_exists] at hs'
    obtain ⟨c, hc⟩ := hs'
    have hd' : pathDepth k n (ph + 1) ≤ L := by
      have : pathDepth k n (ph + 1) ≤ pathDepth k n ph := by
        simp only [pathDepth]
        exact Nat.div_le_div_right (by omega)
      omega
    obtain ⟨tree', h1, h2, h3⟩ := ih (ph + 1)
      (T.forwardSingleChild co.1 (computeRelativeChildIndex M ph))
      (tree.modify (Chunk.addDetails (pathNodeIndex k n M ph)
        (T.forwardSingleChild co.1 (computeRelativeChildIndex M ph)).2)
        (chunkPtr k n M (pathDepth k n ph)))
      (chainAllocated_modify_addDetails k n M tree _ _ _ L ha) hd' (by omega)
    refine ⟨tree', ?_, h2, ?_⟩
    · simp only [ascend]
      rw [hp]
      simp only [hc]
      exact h1
    · intro h' hn'
      rw [h3 h' hn', pathData_modify_addDetails k n M tree ph _ h' (by omega) hn' hs]
      by_cases e1 : h' = ph
      · subst e1
        rw [if_pos rfl, if_neg (by omega), if_pos (by omega)]
        simp [ascendCoefficients]
      · rw [if_neg e1]
        by_cases e2 : ph + 1 ≤ h' ∧ h' < ph + 1 + cnt
        · rw [if_pos e2, if_pos (by omega)]
          have e3 : h' - ph + 1 = (h' - (ph + 1) + 1) + 1 := by omega
          rw [e3]
          rfl
        · rw [if_neg e2, if_neg (by omega)]
theorem HaarLaws.backward_add {T : HaarTransform} (hT : HaarLaws T) (p q : Parent) :
    T.backward (p + q) = T.backward p + T.backward q := by
  have h := hT.forward_add (T.backward p) (T.backward q)
  rw [hT.forward_backward, hT.forward_backward] at h
  rw [← h, hT.backward_forward]

theorem HaarLaws.backward_zero {T : HaarTransform} (hT : HaarLaws T) :
    T.backward 0 = 0 := by
  have h := hT.backward_add 0 0
  simp only [add_zero] at h
  have h2 : T.backward 0 + T.backward 0 = T.backward 0 + 0 := by rw [← h, add_zero]
  exact add_left_cancel h2

/-- The value the path reconstructs after the ascent has injected `u` at
height `ih`: at every height of the path it is the value before plus the
scale the ascent carries at that height. -/
theorem pathValue_add (T : HaarTransform) (hT : HaarLaws T) (M n : Nat) (D D' : Nat → Details)
    (root : ℚ) (ih : Nat) (u : ℚ)
    (hD : ∀ h, ih + 1 ≤ h → h ≤ n →
      D' h = D h + (ascendCoefficients T M (h - ih) (ih + 1) (u, 0)).2) :
    ∀ j, j ≤ n - ih →
      pathValue T M n D' (root + (ascendCoefficients T M (n - ih) (ih + 1) (u, 0)).1) j
        = pathValue T M n D root j + (ascendCoefficients T M (n - j - ih) (ih + 1) (u, 0)).1 := by
  intro j
  induction j with
  | zero => intro _; rfl
  | succ j ih' =>
    intro hj
    simp only [pathValue]
    rw [ih' (by omega), hD (n - j) (by omega) (by omega)]
    have e1 : n - j - ih = (n - (j + 1) - ih) + 1 := by omega
    rw [e1, ascendCoefficients_succ]
    have e2 : ih + 1 + (n - (j + 1) - ih) = n - j := by omega
    rw [e2]
    have e3 : (pathValue T M n D root j
          + (T.forwardSingleChild (ascendCoefficients T M (n - (j + 1) - ih) (ih + 1) (u, 0)).1
              (computeRelativeChildIndex M (n - j))).1,
        D (n - j) + (T.forwardSingleChild
            (ascendCoefficients T M (n - (j + 1) - ih) (ih + 1) (u, 0)).1
              (computeRelativeChildIndex M (n - j))).2)
        = (pathValue T M n D root j, D (n - j))
          + T.forwardSingleChild (ascendCoefficients T M (n - (j + 1) - ih) (ih + 1) (u, 0)).1
              (computeRelativeChildIndex M (n - j)) := rfl
    rw [e3, hT.backwardSingleChild_eq, hT.backward_add, hT.backward_forwardSingleChild,
      hT.backwardSingleChild_eq]
    simp

theorem Chunk.fitsHeight_modify_addDetails (i : Nat) (det : Details) :
    ∀ (p : List Nat) (t : Chunk) (levels : Nat), t.fitsHeight levels →
      (t.modify (Chunk.addDetails i det) p).fitsHeight levels := by
  intro p
  induction p with
  | nil =>
    intro t levels h
    rw [Chunk.modify_nil]
    cases t with
    | leafChunk d f => trivial
    | innerChunk d f pr cs => exact h
  | cons j p ih =>
    intro t levels h
    cases t with
    | leafChunk d f => trivial
    | innerChunk d f pr cs =>
      simp only [Chunk.modify]
      by_cases hp : pr j = true
      · simp only [hp, if_true]
        intro a ha
        refine ⟨(h a ha).1, ?_⟩
        by_cases e : a = j
        · subst e
          rw [Function.update_same]
          exact ih (cs a) _ (h a ha).2
        · rw [Function.update_noteq e]
          exact (h a ha).2
      · simp only [hp]
        exact h

theorem Chunk.fitsHeight_modify_getOrAllocateChild (s : Nat) :
    ∀ (p : List Nat) (t : Chunk) (levels : Nat), t.fitsHeight levels → p.length + 2 ≤ levels →
      (t.modify (fun c => c.getOrAllocateChild s) p).fitsHeight levels := by
  intro p
  induction p with
  | nil =>
    intro t levels h hl
    rw [Chunk.modify_nil]
    cases t with
    | leafChunk d f =>
      intro a _
      exact ⟨by simpa using hl, trivial⟩
    | innerChunk d f pr cs =>
      simp only [Chunk.getOrAllocateChild]
      by_cases hp : pr s = true
      · simp only [hp, if_true]
        exact h
      · simp only [hp]
        intro a ha
        by_cases e : a = s
        · subst e
          rw [Function.update_same]
          exact ⟨by simpa using hl, trivial⟩
        · rw [Function.update_noteq e] at ha ⊢
          exact h a ha
  | cons j p ih =>
    intro t levels h hl
    cases t with
    | leafChunk d f => trivial
    | innerChunk d f pr cs =>
      simp only [Chunk.modify]
      by_cases hp : pr j = true
      · simp only [hp, if_true]
        intro a ha
        refine ⟨(h a ha).1, ?_⟩
        by_cases e : a = j
        · subst e
          rw [Function.update_same]
          exact ih (cs a) _ (h a ha).2 (by simp only [List.length_cons] at hl; omega)
        · rw [Function.update_noteq e]
          exact (h a ha).2
      · simp only [hp]
        exact h

theorem chunkPtr_length (k n M d : Nat) : (chunkPtr k n M d).length = d := by
  simp [chunkPtr]

theorem allocChain_fitsHeight (k n M : Nat) (t : Chunk) (m : Nat) (h : t.fitsHeight m) :
    ∀ j, j + 1 ≤ m → (allocChain k n M t j).fitsHeight m := by
  intro j
  induction j with
  | zero => intro _; exact h
  | succ j ih =>
    intro hj
    simp only [allocChain]
    exact Chunk.fitsHeight_modify_getOrAllocateChild _ _ _ _ (ih (by omega))
      (by rw [chunkPtr_length]; omega)

theorem ascend_fitsHeight (T : HaarTransform) (k n M : Nat) (ptrs : Nat → Option (List Nat))
    (m : Nat) :
    ∀ cnt ph co tree r, tree.fitsHeight m → ascend T k n M ptrs cnt ph co tree = some r →
      r.2.fitsHeight m := by
  intro cnt
  induction cnt with
  | zero =>
    intro ph co tree r h hr
    simp only [ascend, Option.some.injEq] at hr
    subst hr
    exact h
  | succ cnt ih =>
    intro ph co tree r h hr
    simp only [ascend] at hr
    cases hp : ptrs ((n - ph) / k) with
    | none => simp [hp] at hr
    | some ptr =>
      simp only [hp] at hr
      cases hc : tree.deref ptr with
      | none => simp [hc] at hr
      | some c =>
        simp only [hc] at hr
        exact ih _ _ _ r (Chunk.fitsHeight_modify_addDetails _ _ ptr tree m h) hr
theorem pathDepth_eq (k n h d i : Nat) (hi : i < k) (hn : n - h = d * k + i) :
    pathDepth k n h = d := by
  simp only [pathDepth]
  rw [hn, Nat.add_comm, Nat.mul_comm, Nat.add_mul_div_left _ _ (by omega : 0 < k),
    Nat.div_eq_of_lt hi]
  omega

/-- Inside the chunk at depth `d` of the path, the inner loop of the descent
decompresses along the path. -/
theorem decompressLevels_eq_pathValue (T : HaarTransform) (k n M : Nat) (t : Chunk) (root : ℚ)
    (d : Nat) (c : Chunk) (hc : t.deref (chunkPtr k n M d) = some c) :
    ∀ cnt j, (∀ i, i < cnt → pathDepth k n (n - j - i) = d ∧ 1 ≤ n - j - i) →
      decompressLevels T c M (n - d * k) 0 cnt (n - j)
          (pathValue T M n (pathData k n M t) root j)
        = pathValue T M n (pathData k n M t) root (j + cnt) := by
  intro cnt
  induction cnt with
  | zero => intro j _; rfl
  | succ cnt ih =>
    intro j h
    have h0 := h 0 (by omega)
    simp only [Nat.sub_zero] at h0
    have hstep : T.backwardSingleChild
        (pathValue T M n (pathData k n M t) root j,
          c.nodeData (computeTreeTraversalDistance M (n - d * k) (n - j)))
        (computeRelativeChildIndex M (n - j))
        = pathValue T M n (pathData k n M t) root (j + 1) := by
      simp only [pathValue, pathData, chunkDataAt, pathNodeIndex]
      rw [h0.1, hc]
    simp only [decompressLevels]
    rw [hstep]
    by_cases hb : n - j = 0 + 1
    · rw [if_pos hb]
      have hcnt : cnt = 0 := by
        by_contra hne
        have := (h 1 (by omega)).2
        omega
      subst hcnt
      rfl
    · rw [if_neg hb]
      have e : n - j - 1 = n - (j + 1) := by omega
      rw [e, ih (j + 1)]
      · have : j + 1 + cnt = j + (cnt + 1) := by omega
        rw [this]
      · intro i hi
        have := h (i + 1) (by omega)
        have e2 : n - (j + 1) - i = n - j - (i + 1) := by omega
        rw [e2]
        exact this

/-- When the chunks on the path to a height-0 cell are allocated, the value
reconstructed for the cell is the value decompressed along the path. -/
theorem reconstructChunk_eq_pathValue (T : HaarTransform) (k m M : Nat) (hk : 0 < k)
    (t : Chunk) (root : ℚ) (ha : ChainAllocated k (k * m) M t (m - 1)) :
    ∀ r d c, r + d = m → 1 ≤ r → t.deref (chunkPtr k (k * m) M d) = some c →
      reconstructChunk T k M 0 c (k * m - d * k)
          (pathValue T M (k * m) (pathData k (k * m) M t) root (d * k))
        = pathValue T M (k * m) (pathData k (k * m) M t) root (k * m) := by
  intro r
  induction r with
  | zero => intro d c _ h; omega
  | succ r ih =>
    intro d c hrd hr hc
    have hm : k * m = d * k + (r + 1) * k := by
      rw [← hrd]
      ring
    have hrk : (r + 1) * k = r * k + k := by ring
    have htop : k * m - d * k = r * k + k := by omega
    have hdl := decompressLevels_eq_pathValue T k (k * m) M t root d c hc k (d * k)
      (by
        intro i hi
        constructor
        · exact pathDepth_eq k (k * m) _ d i hi (by omega)
        · omega)
    have htopsub : k * m - d * k = k * m - d * k := rfl
    have hpos : 0 < k * m - d * k := by omega
    have hval : decompressLevels T c M (k * m - d * k) 0 k (k * m - d * k)
        (pathValue T M (k * m) (pathData k (k * m) M t) root (d * k))
        = pathValue T M (k * m) (pathData k (k * m) M t) root (d * k + k) := hdl
    by_cases hr1 : r = 0
    · subst hr1
      have hend : d * k + k = k * m := by omega
      cases c with
      | leafChunk dt fl =>
        simp only [reconstructChunk]
        rw [if_pos hpos, hval, hend]
      | innerChunk dt fl pr cs =>
        simp only [reconstructChunk]
        rw [if_pos hpos, hval, hend, if_pos (by omega)]
    · have hrpos : 0 < r * k := Nat.mul_pos (by omega) hk
      have hslot : computeLevelTraversalDistance M (k * m - d * k) (k * m - d * k - k)
          = pathSlot k (k * m) M d := by
        simp only [pathSlot]
        have : k * m - d * k - k = k * m - (d + 1) * k := by
          rw [Nat.succ_mul]
          omega
        rw [this]
      have hnext := ha (d + 1) (by omega)
      rw [chunkPtr_succ, Chunk.deref_append, hc] at hnext
      simp only [Option.some_bind] at hnext
      cases c with
      | leafChunk dt fl => simp [Chunk.deref] at hnext
      | innerChunk dt fl pr cs =>
        simp only [Chunk.deref] at hnext
        have hpr : pr (pathSlot k (k * m) M d) = true := by
          by_contra hne
          simp [hne] at hnext
        simp only [reconstructChunk]
        rw [if_pos hpos, hval, if_neg (by omega), hslot, if_pos hpr]
        have hcn : t.deref (chunkPtr k (k * m) M (d + 1))
            = some (cs (pathSlot k (k * m) M d)) := by
          rw [chunkPtr_succ, Chunk.deref_append, hc]
          simp [Chunk.deref, hpr, Chunk.deref_nil]
        have := ih (d + 1) (cs (pathSlot k (k * m) M d)) (by omega) (by omega) hcn
        have e1 : k * m - d * k - k = k * m - (d + 1) * k := by
          rw [Nat.succ_mul]
          omega
        have e2 : d * k + k = (d + 1) * k := by rw [Nat.succ_mul]
        rw [e1, e2]
        exact this
theorem mul_sub_one_div (k m : Nat) (hk : 0 < k) (hm : 0 < m) : (k * m - 1) / k = m - 1 := by
  obtain ⟨m', rfl⟩ : ∃ m', m = m' + 1 := ⟨m - 1, by omega⟩
  have e : k * (m' + 1) - 1 = (k - 1) + k * m' := by
    rw [Nat.mul_succ]
    omega
  rw [e, Nat.add_mul_div_left _ _ hk, Nat.div_eq_of_lt (by omega)]
  omega

/-- What `addToCellValue` does for a height-0 cell: it never dereferences a
null pointer, it leaves the chunks on the path to the cell allocated, and the
value decompressed along the path grows by the update. -/
theorem addToCellValue_spec (T : HaarTransform) (hT : HaarLaws T) (k m : Nat) (hk : 0 < k)
    (hm : 0 < m) (blk : HashedChunkedWaveletOctreeBlock) (hn : blk.tree_height = k * m)
    (hfit : blk.chunked_ndtree.fitsHeight m) (index : OctreeIndex) (h0 : index.height = 0)
    (u : ℚ) :
    ∃ blk', blk.addToCellValue T k index u = some blk'
      ∧ blk'.tree_height = blk.tree_height
      ∧ blk'.min_log_odds = blk.min_log_odds
      ∧ blk'.max_log_odds = blk.max_log_odds
      ∧ blk'.needs_thresholding = true
      ∧ blk'.chunked_ndtree.fitsHeight m
      ∧ ChainAllocated k (k * m) (nodeIndexToMorton index) blk'.chunked_ndtree (m - 1)
      ∧ pathValue T (nodeIndexToMorton index) (k * m)
          (pathData k (k * m) (nodeIndexToMorton index) blk'.chunked_ndtree)
          blk'.root_scale_coefficient (k * m)
        = pathValue T (nodeIndexToMorton index) (k * m)
            (pathData k (k * m) (nodeIndexToMorton index) blk.chunked_ndtree)
            blk.root_scale_coefficient (k * m) + u := by
  have hkm : 0 < k * m := Nat.mul_pos hk hm
  have hdesc := addToCellValueDescent_eq k (k * m) (nodeIndexToMorton index) blk.chunked_ndtree
    (m - 1) 0
  simp only [Nat.zero_add, allocChain] at hdesc
  rw [← initialChunkPtrs_eq] at hdesc
  obtain ⟨tree', h1, h2, h3⟩ := ascend_spec T k (k * m) (nodeIndexToMorton index) (m - 1) (k * m)
    1 (u, 0) (allocChain k (k * m) (nodeIndexToMorton index) blk.chunked_ndtree (m - 1))
    (allocChain_allocated k (k * m) _ _ (m - 1))
    (by simp only [pathDepth]; rw [mul_sub_one_div k m hk hm]) (by omega)
  have hfit' : tree'.fitsHeight m :=
    ascend_fitsHeight T k (k * m) _ _ m _ _ _ _ _
      (allocChain_fitsHeight k (k * m) _ _ m hfit (m - 1) (by omega)) h1
  refine ⟨HashedChunkedWaveletOctreeBlock.mk blk.tree_height blk.min_log_odds blk.max_log_odds
      (blk.root_scale_coefficient
        + (ascendCoefficients T (nodeIndexToMorton index) (k * m) 1 (u, 0)).1)
      tree' true true (blk.last_updated_stamp + 1),
    ?_, rfl, rfl, rfl, rfl, hfit', h2, ?_⟩
  · simp only [HashedChunkedWaveletOctreeBlock.addToCellValue, hn, h0, Nat.sub_zero,
      mul_sub_one_div k m hk hm, hdesc, Nat.zero_add, h1]
  · have hv := pathValue_add T hT (nodeIndexToMorton index) (k * m)
      (pathData k (k * m) (nodeIndexToMorton index) blk.chunked_ndtree)
      (pathData k (k * m) (nodeIndexToMorton index) tree') blk.root_scale_coefficient 0 u
      (by
        intro h hh1 hh2
        rw [h3 h hh2, if_pos (by omega)]
        simp only [pathData]
        rw [allocChain_chunkDataAt]
        have : h - 1 + 1 = h - 0 := by omega
        rw [this])
      (k * m) (by omega)
    simp only [Nat.sub_zero, Nat.sub_self, Nat.zero_add] at hv
    exact hv

theorem pathData_fresh (k n M h : Nat) : pathData k n M Chunk.fresh h = 0 := by
  simp only [pathData, chunkDataAt]
  cases hd : chunkPtr k n M (pathDepth k n h) with
  | nil => simp [Chunk.deref_nil, Chunk.fresh, Chunk.nodeData]
  | cons i r => simp [Chunk.fresh, Chunk.deref]

theorem pathValue_zero (T : HaarTransform) (hT : HaarLaws T) (M n : Nat) :
    ∀ j, pathValue T M n (fun _ => 0) 0 j = 0 := by
  intro j
  induction j with
  | zero => rfl
  | succ j ih =>
    simp only [pathValue]
    rw [ih, hT.backwardSingleChild_eq]
    have : ((0 : ℚ), (0 : Details)) = (0 : Parent) := rfl
    rw [this, hT.backward_zero]
    rfl

/-- After a sequence of updates of one height-0 cell, the value reconstructed
for the cell has grown by the sum of the updates. -/
theorem addToCellValueAll_spec (T : HaarTransform) (hT : HaarLaws T) (k m : Nat) (hk : 0 < k)
    (hm : 0 < m) (index : OctreeIndex) (h0 : index.height = 0) :
    ∀ (updates : List ℚ) (blk : HashedChunkedWaveletOctreeBlock), blk.tree_height = k * m →
      blk.chunked_ndtree.fitsHeight m →
      (updates ≠ [] ∨ (blk.needs_thresholding = true
        ∧ ChainAllocated k (k * m) (nodeIndexToMorton index) blk.chunked_ndtree (m - 1))) →
      ∃ blk', blk.addToCellValueAll T k index updates = some blk'
        ∧ blk'.tree_height = blk.tree_height
        ∧ blk'.min_log_odds = blk.min_log_odds
        ∧ blk'.max_log_odds = blk.max_log_odds
        ∧ blk'.needs_thresholding = true
        ∧ blk'.chunked_ndtree.fitsHeight m
        ∧ ChainAllocated k (k * m) (nodeIndexToMorton index) blk'.chunked_ndtree (m - 1)
        ∧ pathValue T (nodeIndexToMorton index) (k * m)
            (pathData k (k * m) (nodeIndexToMorton index) blk'.chunked_ndtree)
            blk'.root_scale_coefficient (k * m)
          = pathValue T (nodeIndexToMorton index) (k * m)
              (pathData k (k * m) (nodeIndexToMorton index) blk.chunked_ndtree)
              blk.root_scale_coefficient (k * m) + updates.sum := by
  intro updates
  induction updates with
  | nil =>
    intro blk _ hfit h
    rcases h with h | ⟨h1, h2⟩
    · exact absurd rfl h
    · exact ⟨blk, rfl, rfl, rfl, rfl, h1, hfit, h2, by simp⟩
  | cons u us ih =>
    intro blk hn hfit _
    obtain ⟨b1, e1, e2, e3, e4, e5, e6, e7, e8⟩ :=
      addToCellValue_spec T hT k m hk hm blk hn hfit index h0 u
    obtain ⟨b2, f1, f2, f3, f4, f5, f6, f7, f8⟩ := ih b1 (by rw [e2, hn]) e6 (Or.inr ⟨e5, e7⟩)
    refine ⟨b2, ?_, by rw [f2, e2], by rw [f3, e3], by rw [f4, e4], f5, f6, f7, ?_⟩
    · simp only [HashedChunkedWaveletOctreeBlock.addToCellValueAll, e1]
      exact f1
    · rw [f8, e8, List.sum_cons]
      ring

/-- For a block whose chunks on the path to a height-0 cell are allocated,
the value reconstructed for the cell is the value decompressed along the
path. -/
theorem reconstruct_eq_pathValue (T : HaarTransform) (k m : Nat) (hk : 0 < k) (hm : 0 < m)
    (blk : HashedChunkedWaveletOctreeBlock) (hn : blk.tree_height = k * m) (index : OctreeIndex)
    (h0 : index.height = 0)
    (ha : ChainAllocated k (k * m) (nodeIndexToMorton index) blk.chunked_ndtree (m - 1)) :
    blk.reconstruct T k index
      = pathValue T (nodeIndexToMorton index) (k * m)
          (pathData k (k * m) (nodeIndexToMorton index) blk.chunked_ndtree)
          blk.root_scale_coefficient (k * m) := by
  have h := reconstructChunk_eq_pathValue T k m (nodeIndexToMorton index) hk blk.chunked_ndtree
    blk.root_scale_coefficient ha m 0 blk.chunked_ndtree (by omega) hm
    (by rw [chunkPtr_zero, Chunk.deref_nil])
  simp only [Nat.zero_mul, Nat.sub_zero, pathValue] at h
  simp only [HashedChunkedWaveletOctreeBlock.reconstruct, hn, h0]
  exact h
theorem pathData_allocChain (k n M : Nat) (t : Chunk) (j : Nat) :
    pathData k n M (allocChain k n M t j) = pathData k n M t := by
  funext h
  simp only [pathData]
  rw [allocChain_chunkDataAt]

/-- The descent of `setCellValue` for a height-0 cell, when the chunk height
is at least 2 or the block has a single chunk level: it allocates the chunks
on the path, caches the pointers to them and decompresses the value of the
cell along the path. -/
theorem setCellValueDescent_eq (T : HaarTransform) (k m M : Nat) (hk : 0 < k)
    (hchunk : 2 ≤ k ∨ m = 1) (t : Chunk) (root : ℚ) :
    ∀ r d fuel, r + d = m → 1 ≤ r → r ≤ fuel →
      setCellValueDescent T k (k * m) 0 M fuel (k * m - d * k)
          { tree := allocChain k (k * m) M t d, chunk_ptrs := chainPtrs k (k * m) M d,
            current_value := pathValue T M (k * m) (pathData k (k * m) M t) root (d * k) }
        = some { tree := allocChain k (k * m) M t (m - 1),
                 chunk_ptrs := chainPtrs k (k * m) M (m - 1),
                 current_value := pathValue T M (k * m) (pathData k (k * m) M t) root (k * m) } := by
  intro r
  induction r with
  | zero => intro d fuel _ h; omega
  | succ r ih =>
    intro d fuel hrd hr hfuel
    obtain ⟨fuel', rfl⟩ : ∃ f, fuel = f + 1 := ⟨fuel - 1, by omega⟩
    have hm : k * m = d * k + (r + 1) * k := by
      rw [← hrd]
      ring
    have hrk : (r + 1) * k = r * k + k := by ring
    have hpos : 0 < k * m - d * k := by omega
    have hdepth : (k * m - (k * m - d * k)) / k = d := by
      have : k * m - (k * m - d * k) = d * k := by omega
      rw [this, Nat.mul_div_cancel _ hk]
    have ha := allocChain_allocated k (k * m) M t d d (le_refl _)
    rw [Option.isSome_iff_exists] at ha
    obtain ⟨c, hc⟩ := ha
    have hdl := decompressLevels_eq_pathValue T k (k * m) M (allocChain k (k * m) M t d) root d c
      hc k (d * k)
      (by
        intro i hi
        constructor
        · exact pathDepth_eq k (k * m) _ d i hi (by omega)
        · omega)
    rw [pathData_allocChain] at hdl
    have hp : chainPtrs k (k * m) M d d = some (chunkPtr k (k * m) M d) := by
      simp [chainPtrs]
    simp only [setCellValueDescent]
    rw [if_pos hpos, hdepth, hp]
    simp only [hc, hdl]
    by_cases hr1 : r = 0
    · subst hr1
      have hend : d * k + k = k * m := by omega
      have hd : d = m - 1 := by omega
      rw [if_pos (by omega), hend, hd]
    · have hrpos : 0 < r * k := Nat.mul_pos (by omega) hk
      have hk2 : 2 ≤ k := by
        rcases hchunk with h | h
        · exact h
        · omega
      have hrk2 : k ≤ r * k := Nat.le_mul_of_pos_left k (by omega)
      rw [if_neg (by omega)]
      have hslot : computeLevelTraversalDistance M (k * m - d * k) (k * m - d * k - k)
          = pathSlot k (k * m) M d := by
        simp only [pathSlot]
        have : k * m - d * k - k = k * m - (d + 1) * k := by
          rw [Nat.succ_mul]
          omega
        rw [this]
      rw [hslot, allocChain_step k (k * m) M t d c hc, chainPtrs_succ]
      have e1 : k * m - d * k - k = k * m - (d + 1) * k := by
        rw [Nat.succ_mul]
        omega
      have e2 : d * k + k = (d + 1) * k := by rw [Nat.succ_mul]
      rw [e1, e2]
      exact ih (d + 1) fuel' (by omega) (by omega) (by omega)

/-- What `setCellValue` does for a height-0 cell, when the chunk height is at
least 2 or the block has a single chunk level: it never dereferences a null
pointer, it leaves the chunks on the path to the cell allocated, and the
value decompressed along the path becomes the new value. -/
theorem setCellValue_spec (T : HaarTransform) (hT : HaarLaws T) (k m : Nat) (hk : 0 < k)
    (hm : 0 < m) (hchunk : 2 ≤ k ∨ m = 1) (blk : HashedChunkedWaveletOctreeBlock)
    (hn : blk.tree_height = k * m) (index : OctreeIndex) (h0 : index.height = 0) (v : ℚ) :
    ∃ blk', blk.setCellValue T k index v = some blk'
      ∧ blk'.tree_height = blk.tree_height
      ∧ blk'.min_log_odds = blk.min_log_odds
      ∧ blk'.max_log_odds = blk.max_log_odds
      ∧ blk'.needs_thresholding = true
      ∧ blk'.needs_pruning = true
      ∧ (blk.chunked_ndtree.fitsHeight m → blk'.chunked_ndtree.fitsHeight m)
      ∧ ChainAllocated k (k * m) (nodeIndexToMorton index) blk'.chunked_ndtree (m - 1)
      ∧ pathValue T (nodeIndexToMorton index) (k * m)
          (pathData k (k * m) (nodeIndexToMorton index) blk'.chunked_ndtree)
          blk'.root_scale_coefficient (k * m) = v := by
  have hkm : 0 < k * m := Nat.mul_pos hk hm
  have hkle : m ≤ k * m := Nat.le_mul_of_pos_left m hk
  have hdesc := setCellValueDescent_eq T k m (nodeIndexToMorton index) hk hchunk
    blk.chunked_ndtree blk.root_scale_coefficient m 0 (k * m + 1) (by omega) hm (by omega)
  simp only [Nat.zero_mul, Nat.sub_zero, allocChain, pathValue] at hdesc
  rw [← initialChunkPtrs_eq] at hdesc
  obtain ⟨tree', h1, h2, h3⟩ := ascend_spec T k (k * m) (nodeIndexToMorton index) (m - 1) (k * m)
    1 (v - pathValue T (nodeIndexToMorton index) (k * m)
      (pathData k (k * m) (nodeIndexToMorton index) blk.chunked_ndtree)
      blk.root_scale_coefficient (k * m), 0)
    (allocChain k (k * m) (nodeIndexToMorton index) blk.chunked_ndtree (m - 1))
    (allocChain_allocated k (k * m) _ _ (m - 1))
    (by simp only [pathDepth]; rw [mul_sub_one_div k m hk hm]) (by omega)
  refine ⟨HashedChunkedWaveletOctreeBlock.mk blk.tree_height blk.min_log_odds blk.max_log_odds
      (blk.root_scale_coefficient
        + (ascendCoefficients T (nodeIndexToMorton index) (k * m) 1
            (v - pathValue T (nodeIndexToMorton index) (k * m)
              (pathData k (k * m) (nodeIndexToMorton index) blk.chunked_ndtree)
              blk.root_scale_coefficient (k * m), 0)).1)
      tree' true true (blk.last_updated_stamp + 1),
    ?_, rfl, rfl, rfl, rfl, rfl, ?_, h2, ?_⟩
  · simp only [HashedChunkedWaveletOctreeBlock.setCellValue, hn, h0, Nat.sub_zero,
      hdesc, Nat.zero_add, h1]
  · intro hfit
    exact ascend_fitsHeight T k (k * m) _ _ m _ _ _ _ _
      (allocChain_fitsHeight k (k * m) _ _ m hfit (m - 1) (by omega)) h1
  · have hv := pathValue_add T hT (nodeIndexToMorton index) (k * m)
      (pathData k (k * m) (nodeIndexToMorton index) blk.chunked_ndtree)
      (pathData k (k * m) (nodeIndexToMorton index) tree') blk.root_scale_coefficient 0
      (v - pathValue T (nodeIndexToMorton index) (k * m)
        (pathData k (k * m) (nodeIndexToMorton index) blk.chunked_ndtree)
        blk.root_scale_coefficient (k * m))
      (by
        intro h hh1 hh2
        rw [h3 h hh2, if_pos (by omega)]
        simp only [pathData]
        rw [allocChain_chunkDataAt]
        have : h - 1 + 1 = h - 0 := by omega
        rw [this])
      (k * m) (by omega)
    simp only [Nat.sub_zero, Nat.sub_self, Nat.zero_add] at hv
    rw [hv]
    simp only [ascendCoefficients]
    ring
/-! ## Writing zero to a fresh block, and pruning -/

theorem Chunk.allZero_nodeData (c : Chunk) (h : c.allZero) (j : Nat) : c.nodeData j = 0 := by
  cases c with
  | leafChunk d f => exact h j
  | innerChunk d f p cs => exact h.1 j

theorem backward_of_constant (T : HaarTransform) (hT : HaarLaws T) (hconst : ForwardOfConstant T)
    (c : ℚ) : T.backward (c, 0) = fun _ => c := by
  rw [← hconst c, hT.backward_forward]

theorem forEachLeafStep_fold (T : HaarTransform) (k term : Nat) (top : StackElement) :
    ∀ (l : List (Fin 8)) (stack : List StackElement) (visited : List (OctreeIndex × ℚ)),
      l.foldl (fun (st : List StackElement × List (OctreeIndex × ℚ)) child_idx =>
          match top.node.getChild k child_idx with
          | some child_node =>
            if term < (top.node_index.computeChildIndex child_idx).height then
              ({ node_index := top.node_index.computeChildIndex child_idx, node := child_node,
                 scale_coefficient :=
                   T.backward (top.scale_coefficient, top.node.data) child_idx } :: st.1, st.2)
            else (st.1, st.2 ++ [(top.node_index.computeChildIndex child_idx,
              T.backward (top.scale_coefficient, top.node.data) child_idx)])
          | none => (st.1, st.2 ++ [(top.node_index.computeChildIndex child_idx,
              T.backward (top.scale_coefficient, top.node.data) child_idx)]))
          (stack, visited)
        = ((l.filterMap (pushedChild T k term top)).reverse ++ stack,
           visited ++ l.filterMap (emittedChild T k term top)) := by
  intro l
  induction l with
  | nil => intro stack visited; simp
  | cons c l ih =>
    intro stack visited
    simp only [List.foldl_cons]
    cases hg : top.node.getChild k c with
    | none =>
      simp only [hg]
      rw [ih]
      simp [pushedChild, emittedChild, hg]
    | some child_node =>
      simp only [hg]
      by_cases ht : term < (top.node_index.computeChildIndex c).height
      · simp only [ht, if_true]
        rw [ih]
        simp [pushedChild, emittedChild, hg, ht]
      · simp only [ht, if_false]
        rw [ih]
        simp [pushedChild, emittedChild, hg, ht]

theorem forEachLeafStep_eq (T : HaarTransform) (k term : Nat) (top : StackElement)
    (stack : List StackElement) (visited : List (OctreeIndex × ℚ)) :
    forEachLeafStep T k term top stack visited
      = (((List.finRange 8).filterMap (pushedChild T k term top)).reverse ++ stack,
         visited ++ (List.finRange 8).filterMap (emittedChild T k term top)) :=
  forEachLeafStep_fold T k term top (List.finRange 8) stack visited

theorem pushedChild_index (T : HaarTransform) (k term : Nat) (top : StackElement) (c : Fin 8)
    (e : StackElement) (h : pushedChild T k term top c = some e) :
    e.node_index = top.node_index.computeChildIndex c
      ∧ term < (top.node_index.computeChildIndex c).height
      ∧ e.scale_coefficient = T.backward (top.scale_coefficient, top.node.data) c
      ∧ top.node.getChild k c = some e.node := by
  simp only [pushedChild] at h
  cases hg : top.node.getChild k c with
  | none => simp [hg] at h
  | some n =>
    simp only [hg] at h
    by_cases ht : term < (top.node_index.computeChildIndex c).height
    · simp only [ht, if_true, Option.some.injEq] at h
      subst h
      exact ⟨rfl, ht, rfl, rfl⟩
    · simp [ht] at h

theorem emittedChild_index (T : HaarTransform) (k term : Nat) (top : StackElement) (c : Fin 8)
    (v : OctreeIndex × ℚ) (h : emittedChild T k term top c = some v) :
    v.1 = top.node_index.computeChildIndex c
      ∧ v.2 = T.backward (top.scale_coefficient, top.node.data) c := by
  simp only [emittedChild] at h
  cases hg : top.node.getChild k c with
  | none =>
    simp only [hg, Option.some.injEq] at h
    subst h
    exact ⟨rfl, rfl⟩
  | some n =>
    simp only [hg] at h
    by_cases ht : term < (top.node_index.computeChildIndex c).height
    · simp [ht] at h
    · simp only [ht, if_false, Option.some.injEq] at h
      subst h
      exact ⟨rfl, rfl⟩

/-- Each child of the popped node is either pushed or passed to the visitor. -/
theorem pushed_or_emitted (T : HaarTransform) (k term : Nat) (top : StackElement) (c : Fin 8) :
    (∃ e, pushedChild T k term top c = some e ∧ emittedChild T k term top c = none)
      ∨ (∃ v, emittedChild T k term top c = some v ∧ pushedChild T k term top c = none) := by
  simp only [pushedChild, emittedChild]
  cases hg : top.node.getChild k c with
  | none => simp
  | some n =>
    by_cases ht : term < (top.node_index.computeChildIndex c).height
    · simp [ht]
    · simp [ht]

theorem stackMeasure_append (a b : List StackElement) :
    stackMeasure (a ++ b) = stackMeasure a + stackMeasure b := by
  induction a with
  | nil => simp [stackMeasure]
  | cons e a ih =>
    rw [List.cons_append]
    simp only [stackMeasure]
    rw [ih]
    omega

theorem stackMeasure_reverse (a : List StackElement) :
    stackMeasure a.reverse = stackMeasure a := by
  induction a with
  | nil => rfl
  | cons e a ih =>
    simp only [List.reverse_cons, stackMeasure_append, ih, stackMeasure]
    omega

theorem stackMeasure_pushed (T : HaarTransform) (k term : Nat) (top : StackElement) :
    ∀ l : List (Fin 8), stackMeasure (l.filterMap (pushedChild T k term top))
      ≤ l.length * tree_size top.node_index.height := by
  intro l
  induction l with
  | nil => simp [stackMeasure]
  | cons c l ih =>
    simp only [List.filterMap_cons, List.length_cons]
    cases hp : pushedChild T k term top c with
    | none =>
      simp only [hp]
      have : l.length * tree_size top.node_index.height
          ≤ (l.length + 1) * tree_size top.node_index.height :=
        Nat.mul_le_mul_right _ (by omega)
      omega
    | some e =>
      simp only [hp, stackMeasure]
      obtain ⟨h1, h2, _, _⟩ := pushedChild_index T k term top c e hp
      have hh : e.node_index.height + 1 = top.node_index.height := by
        rw [h1]
        simp only [OctreeIndex.computeChildIndex] at h2 ⊢
        omega
      rw [hh, Nat.succ_mul]
      omega

/-- Every iteration of the loop of `forEachLeaf` lowers the bound on the
number of iterations left. -/
theorem stackMeasure_step (T : HaarTransform) (k term : Nat) (top : StackElement)
    (stack : List StackElement) (visited : List (OctreeIndex × ℚ)) :
    stackMeasure (forEachLeafStep T k term top stack visited).1 + 1
      ≤ stackMeasure (top :: stack) := by
  rw [forEachLeafStep_eq]
  simp only [stackMeasure_append, stackMeasure_reverse, stackMeasure]
  have h := stackMeasure_pushed T k term top (List.finRange 8)
  simp only [List.length_finRange] at h
  rw [tree_size_succ_mul]
  omega

/-- The loop of `forEachLeaf` ends before the fuel runs out, and every
property of the stack and the visitor's calls that an iteration preserves
holds for the calls it returns. -/
theorem forEachLeafLoop_invariant (T : HaarTransform) (k term : Nat)
    (I : List StackElement → List (OctreeIndex × ℚ) → Prop)
    (hstep : ∀ top stack visited, I (top :: stack) visited →
      I (forEachLeafStep T k term top stack visited).1
        (forEachLeafStep T k term top stack visited).2) :
    ∀ fuel stack visited, stackMeasure stack ≤ fuel → I stack visited →
      ∃ visits, forEachLeafLoop T k term fuel stack visited = some visits ∧ I [] visits := by
  intro fuel
  induction fuel with
  | zero =>
    intro stack visited hm hI
    cases stack with
    | nil => exact ⟨visited, rfl, hI⟩
    | cons e stack =>
      simp only [stackMeasure] at hm
      have := tree_size_succ e.node_index.height
      have h8 : 0 < 8 ^ e.node_index.height := Nat.pos_pow_of_pos _ (by decide)
      omega
  | succ fuel ih =>
    intro stack visited hm hI
    cases stack with
    | nil => exact ⟨visited, rfl, hI⟩
    | cons e stack =>
      have hs := stackMeasure_step T k term e stack visited
      obtain ⟨visits, h1, h2⟩ := ih _ _ (by omega) (hstep e stack visited hI)
      exact ⟨visits, h1, h2⟩
theorem countP_children (T : HaarTransform) (k term : Nat) (top : StackElement)
    (P : OctreeIndex → Bool) :
    ∀ l : List (Fin 8),
      ((l.filterMap (pushedChild T k term top)).map (fun e => e.node_index)).countP P
        + ((l.filterMap (emittedChild T k term top)).map Prod.fst).countP P
      = l.countP (fun c => P (top.node_index.computeChildIndex c)) := by
  intro l
  induction l with
  | nil => simp
  | cons c l ih =>
    rcases pushed_or_emitted T k term top c with ⟨e, h1, h2⟩ | ⟨v, h1, h2⟩
    · have hi := (pushedChild_index T k term top c e h1).1
      simp only [List.filterMap_cons, h1, h2, List.map_cons, List.countP_cons, hi]
      omega
    · have hi := (emittedChild_index T k term top c v h1).1
      simp only [List.filterMap_cons, h1, h2, List.map_cons, List.countP_cons, hi]
      omega

theorem finRange_eight : List.finRange 8 = [0, 1, 2, 3, 4, 5, 6, 7] := by
  decide

theorem countP_covers_children (q : Nat) (a : OctreeIndex) (ha : 1 ≤ a.height) :
    (List.finRange 8).countP (fun c => OctreeIndex.covers q (a.computeChildIndex c))
      = if OctreeIndex.covers q a = true then 1 else 0 := by
  have hdiv : q / 8 ^ a.height = q / 8 ^ (a.height - 1) / 8 := by
    rw [Nat.div_div_eq_div_mul, ← pow_succ]
    congr 2
    omega
  simp only [OctreeIndex.covers, OctreeIndex.computeChildIndex, decide_eq_true_eq, hdiv,
    finRange_eight, List.countP_cons, List.countP_nil]
  generalize q / 8 ^ (a.height - 1) = x
  have hx := Nat.div_add_mod x 8
  have hlt := Nat.mod_lt x (show 0 < 8 by decide)
  have e0 : ((0 : Fin 8) : Nat) = 0 := rfl
  have e1 : ((1 : Fin 8) : Nat) = 1 := rfl
  have e2 : ((2 : Fin 8) : Nat) = 2 := rfl
  have e3 : ((3 : Fin 8) : Nat) = 3 := rfl
  have e4 : ((4 : Fin 8) : Nat) = 4 := rfl
  have e5 : ((5 : Fin 8) : Nat) = 5 := rfl
  have e6 : ((6 : Fin 8) : Nat) = 6 := rfl
  have e7 : ((7 : Fin 8) : Nat) = 7 := rfl
  simp only [e0, e1, e2, e3, e4, e5, e6, e7]
  by_cases hc : x / 8 = a.position
  · rw [if_pos hc]
    have h8 : x % 8 = 0 ∨ x % 8 = 1 ∨ x % 8 = 2 ∨ x % 8 = 3 ∨ x % 8 = 4 ∨ x % 8 = 5
        ∨ x % 8 = 6 ∨ x % 8 = 7 := by omega
    rcases h8 with h | h | h | h | h | h | h | h
    all_goals
      have hxe : x = 8 * a.position + x % 8 := by omega
      rw [h] at hxe
      subst hxe
      simp
  · rw [if_neg hc]
    have hne : ∀ j, j < 8 → ¬ (x = 8 * a.position + j) := by
      intro j hj he
      apply hc
      omega
    have h0 : ¬ (x = 8 * a.position) := fun he => hne 0 (by omega) (by omega)
    simp [h0, hne 1 (by omega), hne 2 (by omega), hne 3 (by omega),
      hne 4 (by omega), hne 5 (by omega), hne 6 (by omega), hne 7 (by omega)]
theorem insideBlock_child (n B : Nat) (a : OctreeIndex) (c : Fin 8) (ha : 1 ≤ a.height)
    (h : a.insideBlock n B) : (a.computeChildIndex c).insideBlock n B := by
  obtain ⟨h1, h2⟩ := h
  refine ⟨by simp only [OctreeIndex.computeChildIndex]; omega, ?_⟩
  simp only [OctreeIndex.computeChildIndex]
  have e : n - (a.height - 1) = (n - a.height) + 1 := by omega
  rw [e, pow_succ, Nat.mul_comm (8 ^ (n - a.height)) 8, ← Nat.div_div_eq_div_mul]
  have : (8 * a.position + c.val) / 8 = a.position := by
    have := c.isLt
    omega
  rw [this, h2]

theorem leafCover_step (T : HaarTransform) (k term n B : Nat) (top : StackElement)
    (stack : List StackElement) (visited : List (OctreeIndex × ℚ))
    (h : LeafCover n B (top :: stack) visited) :
    LeafCover n B (forEachLeafStep T k term top stack visited).1
      (forEachLeafStep T k term top stack visited).2 := by
  obtain ⟨h1, h2, h3, h4⟩ := h
  have htop : 1 ≤ top.node_index.height := h1 top (List.mem_cons_self _ _)
  have htopin : top.node_index.insideBlock n B := h2 top (List.mem_cons_self _ _)
  rw [forEachLeafStep_eq]
  refine ⟨?_, ?_, ?_, ?_⟩
  · intro e he
    simp only [List.mem_append, List.mem_reverse, List.mem_filterMap] at he
    rcases he with ⟨c, _, hc⟩ | he
    · obtain ⟨e1, e2, _, _⟩ := pushedChild_index T k term top c e hc
      rw [e1]
      omega
    · exact h1 e (List.mem_cons_of_mem _ he)
  · intro e he
    simp only [List.mem_append, List.mem_reverse, List.mem_filterMap] at he
    rcases he with ⟨c, _, hc⟩ | he
    · obtain ⟨e1, _, _, _⟩ := pushedChild_index T k term top c e hc
      rw [e1]
      exact insideBlock_child n B _ c htop htopin
    · exact h2 e (List.mem_cons_of_mem _ he)
  · intro v hv
    simp only [List.mem_append, List.mem_filterMap] at hv
    rcases hv with hv | ⟨c, _, hc⟩
    · exact h3 v hv
    · obtain ⟨e1, _⟩ := emittedChild_index T k term top c v hc
      rw [e1]
      exact insideBlock_child n B _ c htop htopin
  · intro q hq
    have hcount := h4 q hq
    simp only [List.map_cons, List.countP_cons] at hcount
    have hch := countP_children T k term top (OctreeIndex.covers q) (List.finRange 8)
    rw [countP_covers_children q top.node_index htop] at hch
    simp only [List.map_append, List.countP_append, List.map_reverse, List.countP_reverse]
    omega

theorem mul_pow_div_pow (x j e : Nat) : x * 8 ^ j / 8 ^ (j + e) = x / 8 ^ e := by
  rw [pow_add, Nat.mul_comm (8 ^ j) (8 ^ e)]
  exact Nat.mul_div_mul_right _ _ (Nat.pos_pow_of_pos _ (by decide))

theorem covers_of_isAncestorOrSelf (a b : OctreeIndex) (h : a.isAncestorOrSelf b) :
    OctreeIndex.covers (b.position * 8 ^ b.height) a = true := by
  obtain ⟨h1, h2⟩ := h
  simp only [OctreeIndex.covers, decide_eq_true_eq]
  have e : a.height = b.height + (a.height - b.height) := by omega
  rw [e, mul_pow_div_pow]
  have e2 : b.height + (a.height - b.height) - b.height = a.height - b.height := by omega
  rw [← h2]

theorem isAncestorOrSelf_refl (a : OctreeIndex) : a.isAncestorOrSelf a := by
  refine ⟨le_refl _, ?_⟩
  simp

theorem cell_insideBlock (n B : Nat) (b : OctreeIndex) (h : b.insideBlock n B) :
    b.position * 8 ^ b.height / 8 ^ n = B := by
  obtain ⟨h1, h2⟩ := h
  have e : n = b.height + (n - b.height) := by omega
  rw [e, mul_pow_div_pow]
  have e2 : b.height + (n - b.height) - b.height = n - b.height := by omega
  rw [← h2]

/-- Nodes that cover every cell of the block at most once are pairwise
distinct, and none of them is an ancestor of another. -/
theorem pairwise_of_countP_le_one (n B : Nat) :
    ∀ vs : List OctreeIndex, (∀ a, a ∈ vs → a.insideBlock n B) →
      (∀ q, q / 8 ^ n = B → vs.countP (OctreeIndex.covers q) ≤ 1) →
      vs.Pairwise (fun a b => a ≠ b ∧ ¬ a.isAncestorOrSelf b ∧ ¬ b.isAncestorOrSelf a) := by
  intro vs
  induction vs with
  | nil => intro _ _; exact List.Pairwise.nil
  | cons a rest ih =>
    intro hin hcount
    have hno : ∀ b, b ∈ rest → ∀ q, q / 8 ^ n = B → OctreeIndex.covers q a = true →
        OctreeIndex.covers q b = true → False := by
      intro b hb q hq ha hb'
      have h1 := hcount q hq
      rw [List.countP_cons, if_pos ha] at h1
      have h2 : 0 < rest.countP (OctreeIndex.covers q) :=
        List.countP_pos_iff.mpr ⟨b, hb, hb'⟩
      omega
    refine List.Pairwise.cons ?_ (ih (fun b hb => hin b (List.mem_cons_of_mem _ hb)) ?_)
    · intro b hb
      have hbin := hin b (List.mem_cons_of_mem _ hb)
      have hain := hin a (List.mem_cons_self _ _)
      have hab : ¬ a.isAncestorOrSelf b := by
        intro h
        exact hno b hb _ (cell_insideBlock n B b hbin) (covers_of_isAncestorOrSelf a b h)
          (covers_of_isAncestorOrSelf b b (isAncestorOrSelf_refl b))
      have hba : ¬ b.isAncestorOrSelf a := by
        intro h
        exact hno b hb _ (cell_insideBlock n B a hain)
          (covers_of_isAncestorOrSelf a a (isAncestorOrSelf_refl a))
          (covers_of_isAncestorOrSelf b a h)
      refine ⟨?_, hab, hba⟩
      intro he
      subst he
      exact hab (isAncestorOrSelf_refl a)
    · intro q hq
      have h1 := hcount q hq
      rw [List.countP_cons] at h1
      omega

/-! ## Values passed to the visitor after thresholding -/

theorem Chunk.valuesInRange_values (T : HaarTransform) (k : Nat) (lo hi : ℚ) (c : Chunk) (s : ℚ)
    (h : c.valuesInRange T k lo hi s) :
    ∀ l r, l ≤ k → r < 8 ^ l →
      lo ≤ nodeValue T c.nodeData s l r ∧ nodeValue T c.nodeData s l r ≤ hi := by
  cases c with
  | leafChunk d f => exact h
  | innerChunk d f p cs => exact h.1

theorem Chunk.valuesInRange_scale (T : HaarTransform) (k : Nat) (lo hi : ℚ) (c : Chunk) (s : ℚ)
    (h : c.valuesInRange T k lo hi s) : lo ≤ s ∧ s ≤ hi := by
  have := Chunk.valuesInRange_values T k lo hi c s h 0 0 (Nat.zero_le _) (by simp)
  simpa [nodeValue] using this

theorem average_mem (x : CoefficientsArray) (lo hi : ℚ) (h : ∀ i, lo ≤ x i ∧ x i ≤ hi) :
    lo ≤ (∑ i, x i) / 8 ∧ (∑ i, x i) / 8 ≤ hi := by
  rw [Fin.sum_univ_eight]
  have h0 := h 0
  have h1 := h 1
  have h2 := h 2
  have h3 := h 3
  have h4 := h 4
  have h5 := h 5
  have h6 := h 6
  have h7 := h 7
  constructor
  · rw [le_div_iff₀ (by norm_num : (0 : ℚ) < 8)]
    linarith
  · rw [div_le_iff₀ (by norm_num : (0 : ℚ) < 8)]
    linarith

/-- Compressing boundary values that lie in `[lo, hi]` gives scale
coefficients in `[lo, hi]` at every node, when the scale is the average of
the children. -/
theorem compressed_inRange (T : HaarTransform) (havg : ScaleIsAverage T) (k : Nat)
    (st cs : CompressState) (hc : Compressed T k st cs) (lo hi : ℚ)
    (hs : ∀ j, tree_size k ≤ j → j < tree_size (k + 1) →
      lo ≤ st.chunk_scale_coefficients j ∧ st.chunk_scale_coefficients j ≤ hi) :
    ∀ m j, j < tree_size (k + 1) → tree_size (k + 1) - j ≤ m →
      lo ≤ cs.chunk_scale_coefficients j ∧ cs.chunk_scale_coefficients j ≤ hi := by
  intro m
  induction m with
  | zero => intro j h1 h2; omega
  | succ m ih =>
    intro j h1 h2
    have hts := tree_size_succ_mul k
    by_cases hj : j < tree_size k
    · have a := congrArg Prod.fst (hc.coefficients j hj)
      simp only at a
      rw [a, havg]
      apply average_mem
      intro i
      exact ih (8 * j + 1 + i.val) (by have := i.isLt; omega) (by have := i.isLt; omega)
    · rw [hc.scale_outside j (by omega)]
      exact hs j (by omega) h1

/-- After `recursiveThreshold`, every node value of the chunk tree lies in
`[min_log_odds, max_log_odds]`. -/
theorem recursiveThreshold_valuesInRange (T : HaarTransform) (hT : HaarLaws T)
    (havg : ScaleIsAverage T) (k : Nat) (lo hi : ℚ) (hle : lo ≤ hi) :
    ∀ (c : Chunk) (s : ℚ),
      (recursiveThreshold T k lo hi c s).1.valuesInRange T k lo hi
        (recursiveThreshold T k lo hi c s).2.scale := by
  intro c
  induction c with
  | leafChunk d f =>
    intro s
    have hc := thresholdBody_compressed T k lo hi d f (fun _ => false) (fun _ => Chunk.fresh)
      (fun _ s => (Chunk.fresh, { scale := s, is_nonzero_child := false })) s
    have h8 : 0 < 8 ^ k := Nat.pos_pow_of_pos k (show 0 < 8 by decide)
    have hts := tree_size_succ k
    have hin := compressed_inRange T havg k _ _ hc lo hi
      (by
        intro j h1 h2
        obtain ⟨i, rfl⟩ : ∃ i, j = tree_size k + i := ⟨j - tree_size k, by omega⟩
        simp only
        rw [thresholdLoop_boundary T k lo hi _ _ _ _ _ _ i (by omega)]
        simp only [Bool.false_eq_true, if_false]
        exact clamp_mem _ _ _ hle)
    simp only [recursiveThreshold]
    intro l r hl hr
    rw [nodeValue_compressed T hT k _ _ hc l r hl hr]
    have hlt : tree_size l + r < tree_size (k + 1) := by
      have := tree_size_mono (Nat.add_le_add_right hl 1)
      rw [tree_size_succ l] at this
      omega
    exact hin (tree_size (k + 1)) _ hlt (by omega)
  | innerChunk d f p cs ih =>
    intro s
    have hc := thresholdBody_compressed T k lo hi d f p cs
      (fun child_idx s => recursiveThreshold T k lo hi (cs child_idx) s) s
    have h8 : 0 < 8 ^ k := Nat.pos_pow_of_pos k (show 0 < 8 by decide)
    have hts := tree_size_succ k
    have hin := compressed_inRange T havg k _ _ hc lo hi
      (by
        intro j h1 h2
        obtain ⟨i, rfl⟩ : ∃ i, j = tree_size k + i := ⟨j - tree_size k, by omega⟩
        simp only
        rw [thresholdLoop_boundary T k lo hi _ _ _ _ _ _ i (by omega)]
        by_cases hp : p i = true
        · rw [if_pos hp]
          exact Chunk.valuesInRange_scale T k lo hi _ _ (ih i _)
        · rw [if_neg hp]
          exact clamp_mem _ _ _ hle)
    simp only [recursiveThreshold]
    refine ⟨?_, ?_⟩
    · intro l r hl hr
      rw [nodeValue_compressed T hT k _ _ hc l r hl hr]
      have hlt : tree_size l + r < tree_size (k + 1) := by
        have := tree_size_mono (Nat.add_le_add_right hl 1)
        rw [tree_size_succ l] at this
        omega
      exact hin (tree_size (k + 1)) _ hlt (by omega)
    · intro i hi' hp
      rw [thresholdBody_child, if_pos hi', if_pos hp,
        thresholdBody_boundary T hT k lo hi d f p cs _ s i hi', if_pos hp]
      exact ih i _

theorem Chunk.valuesInRange_child (T : HaarTransform) (k : Nat) (lo hi : ℚ) (c : Chunk) (s : ℚ)
    (h : c.valuesInRange T k lo hi s) (i : Nat) (hi' : i < 8 ^ k) (child : Chunk)
    (hg : c.getChild i = some child) :
    child.valuesInRange T k lo hi (nodeValue T c.nodeData s k i) := by
  cases c with
  | leafChunk d f => simp [Chunk.getChild] at hg
  | innerChunk d f p cs =>
    simp only [Chunk.getChild] at hg
    by_cases hp : p i = true
    · rw [if_pos hp] at hg
      simp only [Option.some.injEq] at hg
      subst hg
      exact h.2 i hi' hp
    · rw [if_neg hp] at hg
      simp at hg

/-- The value the loop body of `forEachLeaf` computes for a child of the
popped node is the value of that child node. -/
theorem inRange_child_value (T : HaarTransform) (top : StackElement)
    (s : ℚ) (hs : top.scale_coefficient
        = nodeValue T top.node.chunk.nodeData s top.node.relative_node_depth
            top.node.level_traversal_distance) (c : Fin 8) :
    T.backward (top.scale_coefficient, top.node.data) c
      = nodeValue T top.node.chunk.nodeData s (top.node.relative_node_depth + 1)
          (8 * top.node.level_traversal_distance + c.val) := by
  have hc := c.isLt
  have hdiv : (8 * top.node.level_traversal_distance + c.val) / 8
      = top.node.level_traversal_distance := by omega
  have hmod : (8 * top.node.level_traversal_distance + c.val) % 8 = c.val := by omega
  simp only [nodeValue, NodeRef.data, NodeRef.computeRelativeNodeIndex]
  rw [hs]
  simp only [hdiv, hmod]

theorem inRange_child_bounds (T : HaarTransform) (k : Nat) (lo hi : ℚ) (top : StackElement)
    (h : top.inRange T k lo hi) (c : Fin 8) :
    lo ≤ T.backward (top.scale_coefficient, top.node.data) c
      ∧ T.backward (top.scale_coefficient, top.node.data) c ≤ hi := by
  obtain ⟨s, hv, hd, hr, hs⟩ := h
  rw [inRange_child_value T top s hs c]
  have hc := c.isLt
  exact Chunk.valuesInRange_values T k lo hi _ s hv _ _ hd
    (by rw [pow_succ]; omega)

theorem inRange_pushed (T : HaarTransform) (k term : Nat) (lo hi : ℚ) (top : StackElement)
    (h : top.inRange T k lo hi) (c : Fin 8) (e : StackElement)
    (hp : pushedChild T k term top c = some e) : e.inRange T k lo hi := by
  obtain ⟨_, _, hscale, hget⟩ := pushedChild_index T k term top c e hp
  have hval := inRange_child_bounds T k lo hi top h c
  obtain ⟨s, hv, hd, hr, hs⟩ := h
  have hc := c.isLt
  have hlt : 8 * top.node.level_traversal_distance + c.val
      < 8 ^ (top.node.relative_node_depth + 1) := by rw [pow_succ]; omega
  rw [inRange_child_value T top s hs c] at hscale
  simp only [NodeRef.getChild] at hget
  by_cases hf : top.node.hasAtLeastOneChild = true
  · rw [if_pos hf] at hget
    by_cases hm : (top.node.relative_node_depth + 1) % k = 0
    · rw [if_pos hm] at hget
      have hk : top.node.relative_node_depth + 1 = k := by
        rcases Nat.lt_or_ge (top.node.relative_node_depth + 1) k with h1 | h1
        · rw [Nat.mod_eq_of_lt h1] at hm
          omega
        · omega
      cases hg : top.node.chunk.getChild (8 * top.node.level_traversal_distance + c.val) with
      | none =>
        rw [hg] at hget
        simp at hget
      | some child =>
        rw [hg] at hget
        simp only [Option.some.injEq] at hget
        rw [hk] at hlt hscale
        have hchild := Chunk.valuesInRange_child T k lo hi _ s hv _ hlt child hg
        refine ⟨nodeValue T top.node.chunk.nodeData s k
          (8 * top.node.level_traversal_distance + c.val), ?_, ?_, ?_, ?_⟩
        · rw [← hget]
          exact hchild
        · rw [← hget]
          show 0 < k
          omega
        · rw [← hget]
          simp
        · rw [hscale, ← hget]
          simp [nodeValue]
    · rw [if_neg hm] at hget
      simp only [Option.some.injEq] at hget
      have hk : top.node.relative_node_depth + 1 < k := by
        rcases Nat.lt_or_ge (top.node.relative_node_depth + 1) k with h1 | h1
        · exact h1
        · have : top.node.relative_node_depth + 1 = k := by omega
          rw [this, Nat.mod_self] at hm
          exact absurd rfl hm
      refine ⟨s, ?_, ?_, ?_, ?_⟩
      · rw [← hget]
        exact hv
      · rw [← hget]
        exact hk
      · rw [← hget]
        exact hlt
      · rw [hscale, ← hget]
  · rw [if_neg hf] at hget
    simp at hget

/-- The loop body of `forEachLeaf` keeps the values on the stack and the
values passed to the visitor within `[lo, hi]`. -/
theorem inRange_step (T : HaarTransform) (k term : Nat) (lo hi : ℚ) (top : StackElement)
    (stack : List StackElement) (visited : List (OctreeIndex × ℚ))
    (h : (∀ e ∈ top :: stack, e.inRange T k lo hi) ∧ ∀ v ∈ visited, lo ≤ v.2 ∧ v.2 ≤ hi) :
    (∀ e ∈ (forEachLeafStep T k term top stack visited).1, e.inRange T k lo hi)
      ∧ ∀ v ∈ (forEachLeafStep T k term top stack visited).2, lo ≤ v.2 ∧ v.2 ≤ hi := by
  rw [forEachLeafStep_eq]
  have htop := h.1 top (List.mem_cons_self _ _)
  refine ⟨?_, ?_⟩
  · intro e he
    simp only [List.mem_append, List.mem_reverse, List.mem_filterMap] at he
    rcases he with ⟨c, _, hc⟩ | he
    · exact inRange_pushed T k term lo hi top htop c e hc
    · exact h.1 e (List.mem_cons_of_mem _ he)
  · intro v hv
    simp only [List.mem_append, List.mem_filterMap] at hv
    rcases hv with hv | ⟨c, _, hc⟩
    · exact h.2 v hv
    · rw [(emittedChild_index T k term top c v hc).2]
      exact inRange_child_bounds T k lo hi top htop c

/-! ## The heights of the visited nodes -/

theorem getNode_child (k : Nat) (blk : HashedChunkedWaveletOctreeBlock) (a : OctreeIndex)
    (c : Fin 8) (node : NodeRef) (h1 : 1 ≤ a.height) (h2 : a.height ≤ blk.tree_height)
    (hn : blk.getNode k a = some node) :
    blk.getNode k (a.computeChildIndex c) = node.getChild k c := by
  have hc := c.isLt
  have hd : blk.tree_height - (a.height - 1) = (blk.tree_height - a.height) + 1 := by omega
  have hdiv : (8 * a.position + c.val) / 8 = a.position := by omega
  have hmod : (8 * a.position + c.val) % 8 = c.val := by omega
  simp only [HashedChunkedWaveletOctreeBlock.getNode] at hn
  simp only [HashedChunkedWaveletOctreeBlock.getNode, OctreeIndex.computeChildIndex, hd,
    NodeRef.findNode, hdiv, hn, hmod]

theorem visitedHeights_step (T : HaarTransform) (k term : Nat)
    (blk : HashedChunkedWaveletOctreeBlock) (top : StackElement)
    (stack : List StackElement) (visited : List (OctreeIndex × ℚ))
    (h : VisitedHeights k term blk (top :: stack) visited) :
    VisitedHeights k term blk (forEachLeafStep T k term top stack visited).1
      (forEachLeafStep T k term top stack visited).2 := by
  obtain ⟨h1, h2⟩ := h
  obtain ⟨t1, t2, t3⟩ := h1 top (List.mem_cons_self _ _)
  have hheight : ∀ c : Fin 8, (top.node_index.computeChildIndex c).height
      = top.node_index.height - 1 := fun c => rfl
  rw [forEachLeafStep_eq]
  refine ⟨?_, ?_⟩
  · intro e he
    simp only [List.mem_append, List.mem_reverse, List.mem_filterMap] at he
    rcases he with ⟨c, _, hc⟩ | he
    · obtain ⟨e1, e2, _, e4⟩ := pushedChild_index T k term top c e hc
      rw [e1]
      refine ⟨e2, ?_, ?_⟩
      · rw [hheight]
        omega
      · rw [getNode_child k blk _ c top.node (by omega) t2 t3]
        exact e4
    · exact h1 e (List.mem_cons_of_mem _ he)
  · intro v hv
    simp only [List.mem_append, List.mem_filterMap] at hv
    rcases hv with hv | ⟨c, _, hc⟩
    · exact h2 v hv
    · obtain ⟨e1, _⟩ := emittedChild_index T k term top c v hc
      rw [e1]
      refine ⟨?_, ?_, ?_⟩
      · rw [hheight]
        omega
      · rw [hheight]
        omega
      · intro hlt
        rw [getNode_child k blk _ c top.node (by omega) t2 t3]
        simp only [emittedChild] at hc
        cases hg : top.node.getChild k c with
        | none => rfl
        | some n =>
          rw [hg] at hc
          simp only [hlt, if_true] at hc
          exact absurd hc (by simp)

/-! ## Writes to one block commute -/

theorem Chunk.addDetails_eq_mapData (idx : Nat) (det : Details) :
    Chunk.addDetails idx det
      = Chunk.mapData (fun d => Function.update d idx (d idx + det))
          (fun fl => Function.update fl idx true) := by
  funext c
  cases c <;> rfl

theorem Chunk.mapData_modifyAlloc (u : (Nat → Details) → (Nat → Details))
    (v : (Nat → Bool) → (Nat → Bool)) (f : Chunk → Chunk) (t : Chunk) (b : Nat) (q : List Nat) :
    Chunk.mapData u v (t.modifyAlloc f (b :: q)) = (Chunk.mapData u v t).modifyAlloc f (b :: q) := by
  cases t with
  | leafChunk d fl => simp [Chunk.modifyAlloc, Chunk.mapData]
  | innerChunk d fl p cs =>
    by_cases hp : p b = true
    · simp [Chunk.modifyAlloc, Chunk.mapData, hp]
    · simp [Chunk.modifyAlloc, Chunk.mapData, hp]

theorem Chunk.mapData_comm (u1 u2 : (Nat → Details) → (Nat → Details))
    (v1 v2 : (Nat → Bool) → (Nat → Bool)) (hu : ∀ d, u1 (u2 d) = u2 (u1 d))
    (hv : ∀ fl, v1 (v2 fl) = v2 (v1 fl)) (t : Chunk) :
    Chunk.mapData u1 v1 (Chunk.mapData u2 v2 t) = Chunk.mapData u2 v2 (Chunk.mapData u1 v1 t) := by
  cases t <;> simp [Chunk.mapData, hu, hv]

/-- Two writes that change only node data and flags, each at the end of its
pointer, commute whatever the pointers are. -/
theorem Chunk.modifyAlloc_comm (u1 u2 : (Nat → Details) → (Nat → Details))
    (v1 v2 : (Nat → Bool) → (Nat → Bool)) (hu : ∀ d, u1 (u2 d) = u2 (u1 d))
    (hv : ∀ fl, v1 (v2 fl) = v2 (v1 fl)) :
    ∀ (p q : List Nat) (t : Chunk),
      (t.modifyAlloc (Chunk.mapData u2 v2) q).modifyAlloc (Chunk.mapData u1 v1) p
        = (t.modifyAlloc (Chunk.mapData u1 v1) p).modifyAlloc (Chunk.mapData u2 v2) q := by
  intro p
  induction p with
  | nil =>
    intro q t
    cases q with
    | nil =>
      simp only [Chunk.modifyAlloc]
      exact Chunk.mapData_comm u1 u2 v1 v2 hu hv t
    | cons b q =>
      simp only [Chunk.modifyAlloc]
      exact Chunk.mapData_modifyAlloc u1 v1 _ t b q
  | cons a p ih =>
    intro q t
    cases q with
    | nil =>
      simp only [Chunk.modifyAlloc]
      exact (Chunk.mapData_modifyAlloc u2 v2 _ t a p).symm
    | cons b q =>
      cases t with
      | leafChunk d fl =>
        by_cases hab : a = b
        · subst hab
          simp only [Chunk.modifyAlloc, decide_True, if_true, Function.update_same,
            Function.update_idem]
          rw [ih]
        · have hba : ¬ b = a := fun h => hab h.symm
          simp only [Chunk.modifyAlloc, hab, hba, decide_False, Bool.false_eq_true, if_false]
          congr 1
          · funext j
            by_cases h1 : j = a
            · subst h1
              simp [hab]
            · by_cases h2 : j = b
              · subst h2
                simp [hba]
              · simp [Function.update_noteq, h1, h2]
          · rw [Function.update_comm hab]
      | innerChunk d fl pr cs =>
        by_cases hab : a = b
        · subst hab
          by_cases hp : pr a = true
          · simp only [Chunk.modifyAlloc, hp, if_true, Function.update_same, Function.update_idem]
            rw [ih]
          · simp only [Chunk.modifyAlloc, hp, Bool.false_eq_true, if_false, Function.update_same,
              if_true, Function.update_idem]
            rw [ih]
        · have hba : ¬ b = a := fun h => hab h.symm
          by_cases hpa : pr a = true <;> by_cases hpb : pr b = true
          · simp only [Chunk.modifyAlloc, hpa, hpb, if_true, Function.update_noteq hab,
              Function.update_noteq hba]
            rw [Function.update_comm hab]
          · simp only [Chunk.modifyAlloc, hpa, hpb, if_true, Bool.false_eq_true, if_false,
              Function.update_noteq hab, Function.update_noteq hba]
            rw [Function.update_comm hab]
          · simp only [Chunk.modifyAlloc, hpa, hpb, if_true, Bool.false_eq_true, if_false,
              Function.update_noteq hab, Function.update_noteq hba]
            rw [Function.update_comm hab]
          · simp only [Chunk.modifyAlloc, hpa, hpb, if_true, Bool.false_eq_true, if_false,
              Function.update_noteq hab, Function.update_noteq hba]
            congr 1
            · exact Function.update_comm hba _ _ _
            · exact Function.update_comm hba _ _ _

theorem Chunk.modify_eq_modifyAlloc (f : Chunk → Chunk) :
    ∀ (p : List Nat) (t : Chunk), (t.deref p).isSome = true → t.modify f p = t.modifyAlloc f p := by
  intro p
  induction p with
  | nil => intro t _; cases t <;> rfl
  | cons a p ih =>
    intro t h
    cases t with
    | leafChunk d fl => simp [Chunk.deref] at h
    | innerChunk d fl pr cs =>
      simp only [Chunk.deref] at h
      by_cases hp : pr a = true
      · rw [if_pos hp] at h
        simp only [Chunk.modify, Chunk.modifyAlloc, hp, if_true]
        rw [ih (cs a) h]
      · rw [if_neg hp] at h
        simp at h

theorem Chunk.modifyAlloc_append (f : Chunk → Chunk) :
    ∀ (p q : List Nat) (t : Chunk),
      t.modifyAlloc f (p ++ q) = t.modifyAlloc (fun c => c.modifyAlloc f q) p := by
  intro p
  induction p with
  | nil => intro q t; cases t <;> simp [Chunk.modifyAlloc]
  | cons a p ih =>
    intro q t
    cases t with
    | leafChunk d fl => simp only [List.cons_append, Chunk.modifyAlloc, List.append_eq, ih]
    | innerChunk d fl pr cs => simp only [List.cons_append, Chunk.modifyAlloc, List.append_eq, ih]

theorem Chunk.getOrAllocateChild_eq_modifyAlloc (c : Chunk) (a : Nat) :
    c.getOrAllocateChild a = c.modifyAlloc id [a] := by
  cases c with
  | leafChunk d fl =>
    simp only [Chunk.getOrAllocateChild, Chunk.modifyAlloc, id]
    congr 1
    funext j
    by_cases h : j = a
    · subst h
      simp only [Function.update_same]
      rfl
    · simp [Function.update_noteq h]
  | innerChunk d fl pr cs =>
    by_cases hp : pr a = true
    · simp only [Chunk.getOrAllocateChild, Chunk.modifyAlloc, hp, if_true, id,
        Function.update_eq_self]
    · simp only [Chunk.getOrAllocateChild, Chunk.modifyAlloc, hp, Bool.false_eq_true, if_false,
        id]
      rfl

theorem applyWrites_append (l1 l2 : List (Chunk → Chunk)) (t : Chunk) :
    applyWrites (l1 ++ l2) t = applyWrites l2 (applyWrites l1 t) := by
  simp [applyWrites, List.foldl_append]

/-- The chunk tree after the descent of `addToCellValue`, as a list of
allocating writes. -/
theorem allocChain_eq_applyWrites (k n M : Nat) (t : Chunk) :
    ∀ L, allocChain k n M t L = applyWrites (allocWrites k n M L) t := by
  intro L
  induction L with
  | zero => rfl
  | succ L ih =>
    have ha := allocChain_allocated k n M t L L (le_refl _)
    simp only [allocChain, allocWrites]
    rw [applyWrites_append, ← ih, Chunk.modify_eq_modifyAlloc _ _ _ ha, chunkPtr_succ]
    simp only [applyWrites, List.foldl_cons, List.foldl_nil]
    rw [Chunk.modifyAlloc_append]
    congr 1
    funext c
    exact Chunk.getOrAllocateChild_eq_modifyAlloc c _

/-- The ascent returns the coefficients it carries and the tree in closed
form, when the chunks of the path are allocated. -/
theorem ascend_eq_ascendTree (T : HaarTransform) (k n M L : Nat) :
    ∀ cnt ph co tree, ChainAllocated k n M tree L → pathDepth k n ph ≤ L →
      ascend T k n M (chainPtrs k n M L) cnt ph co tree
        = some (ascendCoefficients T M cnt ph co, ascendTree T k n M cnt ph co tree) := by
  intro cnt
  induction cnt with
  | zero => intro ph co tree _ _; rfl
  | succ cnt ih =>
    intro ph co tree ha hd
    have hp : chainPtrs k n M L ((n - ph) / k) = some (chunkPtr k n M (pathDepth k n ph)) := by
      simp only [chainPtrs, pathDepth] at hd ⊢
      rw [if_pos hd]
    have hs' := ha _ hd
    rw [Option.isSome_iff_exists] at hs'
    obtain ⟨c, hc⟩ := hs'
    have hd' : pathDepth k n (ph + 1) ≤ L := by
      have : pathDepth k n (ph + 1) ≤ pathDepth k n ph := by
        simp only [pathDepth]
        exact Nat.div_le_div_right (by omega)
      omega
    have h1 := ih (ph + 1) (T.forwardSingleChild co.1 (computeRelativeChildIndex M ph))
      (tree.modify (Chunk.addDetails (pathNodeIndex k n M ph)
        (T.forwardSingleChild co.1 (computeRelativeChildIndex M ph)).2)
        (chunkPtr k n M (pathDepth k n ph)))
      (chainAllocated_modify_addDetails k n M tree _ _ _ L ha) hd'
    simp only [ascend]
    rw [hp]
    simp only [hc]
    exact h1

/-- The tree after the ascent, as a list of writes. -/
theorem ascendTree_eq_applyWrites (T : HaarTransform) (k n M L : Nat) :
    ∀ cnt ph co tree, ChainAllocated k n M tree L → pathDepth k n ph ≤ L →
      ascendTree T k n M cnt ph co tree = applyWrites (ascendWrites T k n M cnt ph co) tree := by
  intro cnt
  induction cnt with
  | zero => intro ph co tree _ _; rfl
  | succ cnt ih =>
    intro ph co tree ha hd
    have hd' : pathDepth k n (ph + 1) ≤ L := by
      have : pathDepth k n (ph + 1) ≤ pathDepth k n ph := by
        simp only [pathDepth]
        exact Nat.div_le_div_right (by omega)
      omega
    simp only [ascendTree, ascendWrites, applyWrites, List.foldl_cons]
    rw [← Chunk.modify_eq_modifyAlloc _ _ _ (ha _ hd)]
    exact ih (ph + 1) _ _ (chainAllocated_modify_addDetails k n M tree _ _ _ L ha) hd'

theorem isPathWrite_alloc (ptr : List Nat) : IsPathWrite (fun t => t.modifyAlloc id ptr) := by
  refine ⟨0, 0, false, ptr, ?_⟩
  have h : (id : Chunk → Chunk)
      = Chunk.mapData (fun d => Function.update d 0 (d 0 + 0))
          (fun fl => if false = true then Function.update fl 0 true else fl) := by
    funext c
    cases c <;> simp [Chunk.mapData]
  rw [← h]

theorem isPathWrite_addDetails (idx : Nat) (det : Details) (ptr : List Nat) :
    IsPathWrite (fun t => t.modifyAlloc (Chunk.addDetails idx det) ptr) := by
  refine ⟨idx, det, true, ptr, ?_⟩
  rw [Chunk.addDetails_eq_mapData]
  simp

theorem isPathWrite_allocWrites (k n M : Nat) :
    ∀ L w, w ∈ allocWrites k n M L → IsPathWrite w := by
  intro L
  induction L with
  | zero => intro w hw; simp [allocWrites] at hw
  | succ L ih =>
    intro w hw
    simp only [allocWrites, List.mem_append, List.mem_singleton] at hw
    rcases hw with hw | hw
    · exact ih w hw
    · rw [hw]
      exact isPathWrite_alloc _

theorem isPathWrite_ascendWrites (T : HaarTransform) (k n M : Nat) :
    ∀ cnt ph co w, w ∈ ascendWrites T k n M cnt ph co → IsPathWrite w := by
  intro cnt
  induction cnt with
  | zero => intro ph co w hw; simp [ascendWrites] at hw
  | succ cnt ih =>
    intro ph co w hw
    simp only [ascendWrites, List.mem_cons] at hw
    rcases hw with hw | hw
    · rw [hw]
      exact isPathWrite_addDetails _ _ _
    · exact ih _ _ w hw

/-- Two writes along paths commute. -/
theorem isPathWrite_comm (f g : Chunk → Chunk) (hf : IsPathWrite f) (hg : IsPathWrite g)
    (t : Chunk) : f (g t) = g (f t) := by
  obtain ⟨i1, e1, s1, p1, rfl⟩ := hf
  obtain ⟨i2, e2, s2, p2, rfl⟩ := hg
  apply Chunk.modifyAlloc_comm
  · intro d
    by_cases h : i1 = i2
    · subst h
      simp only [Function.update_same, Function.update_idem]
      rw [add_right_comm]
    · have h' : ¬ i2 = i1 := fun e => h e.symm
      rw [Function.update_noteq h, Function.update_noteq h', Function.update_comm h]
  · intro fl
    cases s1 <;> cases s2
    · rfl
    · rfl
    · rfl
    · simp only [if_true]
      by_cases h : i1 = i2
      · subst h
        rfl
      · rw [Function.update_comm h]

theorem applyWrites_cons (w : Chunk → Chunk) (l : List (Chunk → Chunk)) (t : Chunk) :
    applyWrites (w :: l) t = applyWrites l (w t) := rfl

theorem applyWrites_comm_one (g : Chunk → Chunk) :
    ∀ (l : List (Chunk → Chunk)), (∀ f, f ∈ l → ∀ t, f (g t) = g (f t)) →
      ∀ t, g (applyWrites l t) = applyWrites l (g t) := by
  intro l
  induction l with
  | nil => intro _ t; rfl
  | cons f l ih =>
    intro h t
    rw [applyWrites_cons, applyWrites_cons,
      ih (fun f' hf' => h f' (List.mem_cons_of_mem _ hf')) (f t), h f (List.mem_cons_self _ _) t]

/-- Two lists of writes that commute pairwise commute as a whole. -/
theorem applyWrites_comm (l1 : List (Chunk → Chunk)) :
    ∀ (l2 : List (Chunk → Chunk)), (∀ f, f ∈ l1 → ∀ g, g ∈ l2 → ∀ t, f (g t) = g (f t)) →
      ∀ t, applyWrites l1 (applyWrites l2 t) = applyWrites l2 (applyWrites l1 t) := by
  intro l2
  induction l2 with
  | nil => intro _ t; rfl
  | cons g l2 ih =>
    intro h t
    rw [applyWrites_cons, applyWrites_cons,
      ih (fun f hf g' hg' => h f hf g' (List.mem_cons_of_mem _ hg')) (g t),
      applyWrites_comm_one g l1 (fun f hf => h f hf g (List.mem_cons_self _ _)) t]

/-- The writes of one `addToCellValue` call: the allocations of the descent,
then the updates of the ascent. -/
theorem addToCellValue_eq (T : HaarTransform) (k : Nat) (blk : HashedChunkedWaveletOctreeBlock)
    (index : OctreeIndex) (u : ℚ) :
    blk.addToCellValue T k index u
      = some (HashedChunkedWaveletOctreeBlock.mk blk.tree_height blk.min_log_odds
          blk.max_log_odds
          (blk.root_scale_coefficient
            + (ascendCoefficients T (nodeIndexToMorton index) (blk.tree_height - index.height)
                (index.height + 1) (u, 0)).1)
          (applyWrites
            (allocWrites k blk.tree_height (nodeIndexToMorton index)
                ((blk.tree_height - index.height - 1) / k)
              ++ ascendWrites T k blk.tree_height (nodeIndexToMorton index)
                  (blk.tree_height - index.height) (index.height + 1) (u, 0))
            blk.chunked_ndtree)
          true true (blk.last_updated_stamp + 1)) := by
  have hdesc := addToCellValueDescent_eq k blk.tree_height (nodeIndexToMorton index)
    blk.chunked_ndtree ((blk.tree_height - index.height - 1) / k) 0
  rw [← initialChunkPtrs_eq] at hdesc
  simp only [Nat.zero_add, allocChain] at hdesc
  have hd : pathDepth k blk.tree_height (index.height + 1)
      ≤ (blk.tree_height - index.height - 1) / k := by
    simp only [pathDepth]
    exact Nat.div_le_div_right (by omega)
  have ha := allocChain_allocated k blk.tree_height (nodeIndexToMorton index)
    blk.chunked_ndtree ((blk.tree_height - index.height - 1) / k)
  have hasc := ascend_eq_ascendTree T k blk.tree_height (nodeIndexToMorton index)
    ((blk.tree_height - index.height - 1) / k) (blk.tree_height - index.height)
    (index.height + 1) (u, 0) _ ha hd
  simp only [HashedChunkedWaveletOctreeBlock.addToCellValue, hdesc, hasc]
  rw [ascendTree_eq_applyWrites T k _ _ _ _ _ _ _ ha hd, allocChain_eq_applyWrites,
    applyWrites_append]

/-! ## The dirty flags -/

theorem setCellValue_flags (T : HaarTransform) (k : Nat) (blk blk' : HashedChunkedWaveletOctreeBlock)
    (index : OctreeIndex) (v : ℚ) (h : blk.setCellValue T k index v = some blk') :
    blk'.needs_thresholding = true ∧ blk'.needs_pruning = true := by
  simp only [HashedChunkedWaveletOctreeBlock.setCellValue] at h
  split at h
  · exact absurd h (by simp)
  · split at h
    · exact absurd h (by simp)
    · simp only [Option.some.injEq] at h
      subst h
      exact ⟨rfl, rfl⟩

theorem addToCellValue_flags (T : HaarTransform) (k : Nat)
    (blk blk' : HashedChunkedWaveletOctreeBlock) (index : OctreeIndex) (u : ℚ)
    (h : blk.addToCellValue T k index u = some blk') :
    blk'.needs_thresholding = true ∧ blk'.needs_pruning = true := by
  rw [addToCellValue_eq] at h
  simp only [Option.some.injEq] at h
  subst h
  exact ⟨rfl, rfl⟩

theorem threshold_flags (T : HaarTransform) (k : Nat) (blk : HashedChunkedWaveletOctreeBlock) :
    (blk.threshold T k).needs_thresholding = false
      ∧ (blk.threshold T k).needs_pruning = blk.needs_pruning := by
  simp only [HashedChunkedWaveletOctreeBlock.threshold]
  cases h : blk.needs_thresholding
  · simp [h]
  · simp

theorem prune_flags (T : HaarTransform) (k : Nat) (blk : HashedChunkedWaveletOctreeBlock) :
    (blk.prune T k).needs_pruning = false
      ∧ (blk.prune T k).needs_thresholding = (!blk.needs_pruning && blk.needs_thresholding) := by
  simp only [HashedChunkedWaveletOctreeBlock.prune]
  cases h : blk.needs_pruning
  · simp [h]
  · simp [(threshold_flags T k blk).1]

/-- Every operation keeps the invariant that a block that needs thresholding
needs pruning. -/
theorem apply_flags (T : HaarTransform) (k : Nat) (blk blk' : HashedChunkedWaveletOctreeBlock)
    (op : BlockOperation) (hI : blk.needs_thresholding = true → blk.needs_pruning = true)
    (h : blk.apply T k op = some blk') :
    blk'.needs_thresholding = true → blk'.needs_pruning = true := by
  cases op with
  | setCellValue index v =>
    intro _
    exact (setCellValue_flags T k blk blk' index v h).2
  | addToCellValue index u =>
    intro _
    exact (addToCellValue_flags T k blk blk' index u h).2
  | threshold =>
    simp only [HashedChunkedWaveletOctreeBlock.apply, Option.some.injEq] at h
    subst h
    intro h1
    rw [(threshold_flags T k blk).1] at h1
    exact absurd h1 (by simp)
  | prune =>
    simp only [HashedChunkedWaveletOctreeBlock.apply, Option.some.injEq] at h
    subst h
    intro h1
    rw [(prune_flags T k blk).2] at h1
    cases hp : blk.needs_pruning
    · cases ht : blk.needs_thresholding
      · rw [hp, ht] at h1
        exact absurd h1 (by simp)
      · rw [hI ht] at hp
        exact absurd hp (by simp)
    · rw [hp] at h1
      exact absurd h1 (by simp)
  | clear =>
    simp only [HashedChunkedWaveletOctreeBlock.apply, Option.some.injEq] at h
    subst h
    exact hI

theorem applyAll_flags (T : HaarTransform) (k : Nat) :
    ∀ (ops : List BlockOperation) (blk blk' : HashedChunkedWaveletOctreeBlock),
      (blk.needs_thresholding = true → blk.needs_pruning = true) →
      HashedChunkedWaveletOctreeBlock.applyAll T k ops blk = some blk' →
      (blk'.needs_thresholding = true → blk'.needs_pruning = true) := by
  intro ops
  induction ops with
  | nil =>
    intro blk blk' hI h
    simp only [HashedChunkedWaveletOctreeBlock.applyAll, Option.some.injEq] at h
    subst h
    exact hI
  | cons op ops ih =>
    intro blk blk' hI h
    simp only [HashedChunkedWaveletOctreeBlock.applyAll] at h
    cases h1 : blk.apply T k op with
    | none =>
      rw [h1] at h
      exact absurd h (by simp)
    | some b =>
      rw [h1] at h
      exact ih b blk' (apply_flags T k blk b op hI h1) h

/-! ## Clearing a block -/

theorem decompressLevels_fresh (T : HaarTransform) (hT : HaarLaws T)
    (morton chunk_top_height index_height : Nat) :
    ∀ n parent_height,
      decompressLevels T Chunk.fresh morton chunk_top_height index_height n parent_height 0
        = 0 := by
  have hz : ∀ c : Fin 8, T.backwardSingleChild (0, (0 : Details)) c = 0 := by
    intro c
    rw [hT.backwardSingleChild_eq]
    have h0 : ((0 : ℚ), (0 : Details)) = (0 : Parent) := rfl
    rw [h0, hT.backward_zero]
    rfl
  have hd : ∀ i, Chunk.fresh.nodeData i = 0 := fun i => rfl
  intro n
  induction n with
  | zero => intro ph; rfl
  | succ n ih =>
    intro ph
    simp only [decompressLevels, hd, hz]
    by_cases h : ph = index_height + 1
    · rw [if_pos h]
    · rw [if_neg h]
      exact ih (ph - 1)

/-! ## The range image -/

theorem computeRangeImageStep_window {P : Type} (G : PointGeometry P) (img : RangeImage) (p : P) :
    (computeRangeImageStep G img p).min_angle = img.min_angle
      ∧ (computeRangeImageStep G img p).max_angle = img.max_angle
      ∧ (computeRangeImageStep G img p).num_beams = img.num_beams := by
  simp only [computeRangeImageStep]
  split
  · exact ⟨rfl, rfl, rfl⟩
  · split
    · exact ⟨rfl, rfl, rfl⟩
    · exact ⟨rfl, rfl, rfl⟩

theorem computeRangeImage_window {P : Type} (G : PointGeometry P) (img : RangeImage) :
    ∀ (points : List P),
      (points.foldl (computeRangeImageStep G) img).min_angle = img.min_angle
        ∧ (points.foldl (computeRangeImageStep G) img).max_angle = img.max_angle
        ∧ (points.foldl (computeRangeImageStep G) img).num_beams = img.num_beams := by
  intro points
  induction points using List.reverseRecOn with
  | nil => exact ⟨rfl, rfl, rfl⟩
  | append_singleton l p ih =>
    rw [List.foldl_append, List.foldl_cons, List.foldl_nil]
    obtain ⟨h1, h2, h3⟩ := computeRangeImageStep_window G (l.foldl (computeRangeImageStep G) img) p
    rw [h1, h2, h3]
    exact ih

theorem computeRangeImageStep_of_rejected {P : Type} (G : PointGeometry P) (img : RangeImage)
    (p : P) (h : G.accepts p = false) : computeRangeImageStep G img p = img := by
  simp only [PointGeometry.accepts, Bool.and_eq_false_iff, Bool.not_eq_false',
    decide_eq_true_eq] at h
  simp only [computeRangeImageStep]
  rcases h with h | h
  · rw [if_pos h]
  · by_cases hn : G.hasNaN p = true
    · rw [if_pos hn]
    · rw [if_neg hn, if_pos h]

theorem computeRangeImageStep_of_accepted {P : Type} (G : PointGeometry P) (img : RangeImage)
    (p : P) (h : G.accepts p = true) :
    computeRangeImageStep G img p
      = img.set (G.bearingToNearestIndex img.min_angle img.max_angle img.num_beams p)
          (G.norm p) := by
  simp only [PointGeometry.accepts, Bool.and_eq_true, Bool.not_eq_true', decide_eq_false_iff_not]
    at h
  simp only [computeRangeImageStep]
  rw [if_neg (by simp [h.1]), if_neg h.2]

theorem foldl_computeRangeImageStep_filter {P : Type} (G : PointGeometry P) :
    ∀ (points : List P) (img : RangeImage),
      points.foldl (computeRangeImageStep G) img
        = (points.filter G.accepts).foldl (computeRangeImageStep G) img := by
  intro points
  induction points with
  | nil => intro img; rfl
  | cons p points ih =>
    intro img
    cases h : G.accepts p
    · rw [List.filter_cons_of_neg (by simp [h]), List.foldl_cons,
        computeRangeImageStep_of_rejected G img p h]
      exact ih img
    · rw [List.filter_cons_of_pos h, List.foldl_cons, List.foldl_cons]
      exact ih _

/-- What `computeRangeImage` leaves in a cell: the range of the last accepted
point, in the order of the cloud, whose nearest beam is that cell. -/
theorem foldl_computeRangeImageStep_data {P : Type} (G : PointGeometry P)
    (min_angle max_angle : ℚ) (num_beams : Nat) (i : Nat) :
    ∀ (points : List P),
      (points.foldl (computeRangeImageStep G) (RangeImage.new min_angle max_angle num_beams)).data i
        = ((points.filter (fun p => G.accepts p
            && decide (G.bearingToNearestIndex min_angle max_angle num_beams p = i))).getLast?).map
            G.norm := by
  intro points
  induction points using List.reverseRecOn with
  | nil => rfl
  | append_singleton l p ih =>
    rw [List.foldl_append, List.foldl_cons, List.foldl_nil, List.filter_append]
    obtain ⟨h1', h2', h3'⟩ := computeRangeImage_window G
      (RangeImage.new min_angle max_angle num_beams) l
    have h1 : (l.foldl (computeRangeImageStep G)
        (RangeImage.new min_angle max_angle num_beams)).min_angle = min_angle := h1'
    have h2 : (l.foldl (computeRangeImageStep G)
        (RangeImage.new min_angle max_angle num_beams)).max_angle = max_angle := h2'
    have h3 : (l.foldl (computeRangeImageStep G)
        (RangeImage.new min_angle max_angle num_beams)).num_beams = num_beams := h3'
    cases h : G.accepts p
    · rw [computeRangeImageStep_of_rejected G _ p h, ih]
      simp [h]
    · rw [computeRangeImageStep_of_accepted G _ p h, h1, h2, h3]
      simp only [RangeImage.set]
      by_cases hi : G.bearingToNearestIndex min_angle max_angle num_beams p = i
      · subst hi
        simp [h]
      · rw [Function.update_noteq (fun e => hi e.symm), ih]
        simp [h, hi]

/-! ## The coarse-to-fine integrator -/

theorem integrateStep_eq {P Pose AABB : Type} (I : CoarseToFineIntegrator P Pose AABB)
    (pointcloud : PosedPointcloud P Pose) (range_image : RangeImage) (min_cell_width : ℚ)
    (node : QuadtreeIndex) (stack : List QuadtreeIndex) (occupancy_map : VolumetricQuadtree) :
    integrateStep I pointcloud range_image min_cell_width node stack occupancy_map
      = if I.intersectionTypeOf pointcloud range_image min_cell_width node
            = IntersectionType.kFullyUnknown then (stack, occupancy_map)
        else if I.updatesNode pointcloud range_image min_cell_width node then
          (stack, occupancy_map.addToCellValue node
            (I.sampleOf pointcloud range_image min_cell_width node))
        else
          (node.computeChildIndex 3 :: node.computeChildIndex 2 :: node.computeChildIndex 1
            :: node.computeChildIndex 0 :: stack, occupancy_map) := by
  have h4 : List.finRange QuadtreeIndex.kNumChildren = [0, 1, 2, 3] := by decide
  simp only [integrateStep, CoarseToFineIntegrator.intersectionTypeOf,
    CoarseToFineIntegrator.updatesNode, CoarseToFineIntegrator.sampleOf, h4, List.foldl_cons,
    List.foldl_nil]

theorem quadtreeSize_spec (m : Nat) : 3 * ((4 ^ (m + 1) - 1) / 3) + 1 = 4 ^ (m + 1) := by
  induction m with
  | zero => decide
  | succ m ih =>
    have e : 4 ^ (m + 1 + 1) = 4 * 4 ^ (m + 1) := by rw [pow_succ]; ring
    rw [e]
    omega

theorem quadtreeSize_pos (h : Int) : 1 ≤ quadtreeSize h := by
  have := quadtreeSize_spec h.toNat
  have h4 : 1 ≤ 4 ^ h.toNat := Nat.one_le_pow _ _ (by decide)
  have e : 4 ^ (h.toNat + 1) = 4 * 4 ^ h.toNat := by rw [pow_succ]; ring
  simp only [quadtreeSize]
  omega

theorem quadtreeSize_succ (h : Int) (hh : 1 ≤ h) :
    quadtreeSize h = 4 * quadtreeSize (h - 1) + 1 := by
  have e0 : h.toNat = (h - 1).toNat + 1 := by omega
  have h1 := quadtreeSize_spec ((h - 1).toNat + 1)
  have h2 := quadtreeSize_spec (h - 1).toNat
  have e : 4 ^ ((h - 1).toNat + 1 + 1) = 4 * 4 ^ ((h - 1).toNat + 1) := by rw [pow_succ]; ring
  simp only [quadtreeSize, e0]
  omega

/-- The work-stack loop makes the updates of the algorithm of the spec: for a
stack of nodes of nonnegative height and enough fuel it returns the map with
those updates appended. -/
theorem integrateLoop_eq_expected {P Pose AABB : Type} (I : CoarseToFineIntegrator P Pose AABB)
    (pointcloud : PosedPointcloud P Pose) (range_image : RangeImage) (min_cell_width : ℚ) :
    ∀ (fuel : Nat) (stack : List QuadtreeIndex) (occupancy_map : VolumetricQuadtree),
      (∀ s, s ∈ stack → 0 ≤ s.height) →
      (stack.map (fun node_index => quadtreeSize node_index.height)).sum ≤ fuel →
      integrateLoop I pointcloud range_image min_cell_width fuel stack occupancy_map
        = some { occupancy_map with
            updates := occupancy_map.updates
              ++ expectedUpdatesOfStack I pointcloud range_image min_cell_width stack } := by
  intro fuel
  induction fuel with
  | zero =>
    intro stack m hh hf
    cases stack with
    | nil => simp [integrateLoop, expectedUpdatesOfStack]
    | cons node stack =>
      have := quadtreeSize_pos node.height
      simp only [List.map_cons, List.sum_cons] at hf
      omega
  | succ fuel ih =>
    intro stack m hh hf
    cases stack with
    | nil => simp [integrateLoop, expectedUpdatesOfStack]
    | cons node stack =>
      have hnode : 0 ≤ node.height := hh node (List.mem_cons_self _ _)
      have hrest : ∀ s, s ∈ stack → 0 ≤ s.height := fun s hs => hh s (List.mem_cons_of_mem _ hs)
      have hpos := quadtreeSize_pos node.height
      simp only [List.map_cons, List.sum_cons] at hf
      simp only [integrateLoop]
      rw [integrateStep_eq]
      by_cases hu : I.intersectionTypeOf pointcloud range_image min_cell_width node
          = IntersectionType.kFullyUnknown
      · rw [if_pos hu]
        simp only
        rw [ih stack m hrest (by omega)]
        have e : expectedUpdates I pointcloud range_image min_cell_width node.height.toNat node
            = [] := by
          cases node.height.toNat <;> simp [expectedUpdates, hu]
        simp only [expectedUpdatesOfStack, e, List.nil_append]
      · rw [if_neg hu]
        by_cases hs : I.updatesNode pointcloud range_image min_cell_width node
        · rw [if_pos hs]
          simp only
          rw [ih stack _ hrest (by omega)]
          have e : expectedUpdates I pointcloud range_image min_cell_width node.height.toNat node
              = [(node, I.sampleOf pointcloud range_image min_cell_width node)] := by
            cases node.height.toNat <;> simp [expectedUpdates, hu, hs]
          simp only [expectedUpdatesOfStack, e, VolumetricQuadtree.addToCellValue,
            List.append_assoc]
        · rw [if_neg hs]
          simp only
          have hne : node.height ≠ 0 := fun h0 => hs (Or.inl h0)
          have h1 : 1 ≤ node.height := by omega
          have hsize := quadtreeSize_succ node.height h1
          have hch : ∀ c : Fin QuadtreeIndex.kNumChildren,
              (node.computeChildIndex c).height = node.height - 1 := fun c => rfl
          rw [ih _ m
            (by
              intro s hs'
              simp only [List.mem_cons] at hs'
              rcases hs' with rfl | rfl | rfl | rfl | hs'
              · rw [hch]; omega
              · rw [hch]; omega
              · rw [hch]; omega
              · rw [hch]; omega
              · exact hrest s hs')
            (by
              simp only [List.map_cons, List.sum_cons, hch]
              omega)]
          obtain ⟨d, hd⟩ : ∃ d, node.height.toNat = d + 1 := ⟨node.height.toNat - 1, by omega⟩
          have hd' : (node.height - 1).toNat = d := by omega
          have e : expectedUpdates I pointcloud range_image min_cell_width node.height.toNat node
              = expectedUpdates I pointcloud range_image min_cell_width d (node.computeChildIndex 3)
                ++ expectedUpdates I pointcloud range_image min_cell_width d
                    (node.computeChildIndex 2)
                ++ expectedUpdates I pointcloud range_image min_cell_width d
                    (node.computeChildIndex 1)
                ++ expectedUpdates I pointcloud range_image min_cell_width d
                    (node.computeChildIndex 0) := by
            rw [hd]
            simp [expectedUpdates, hu, hs]
          simp only [expectedUpdatesOfStack, e, hch, hd', List.append_assoc]

theorem quadtree_isAncestorOrSelf_refl (a : QuadtreeIndex) : a.isAncestorOrSelf a := by
  refine ⟨le_refl _, ?_⟩
  simp

theorem quadtree_isAncestorOrSelf_trans (a b c : QuadtreeIndex)
    (h1 : a.isAncestorOrSelf b) (h2 : b.isAncestorOrSelf c) : a.isAncestorOrSelf c := by
  obtain ⟨h1a, h1b⟩ := h1
  obtain ⟨h2a, h2b⟩ := h2
  refine ⟨le_trans h2a h1a, ?_⟩
  have e : (a.height - c.height).toNat = (b.height - c.height).toNat + (a.height - b.height).toNat := by
    omega
  rw [e, pow_add, ← Nat.div_div_eq_div_mul, h2b, h1b]

/-- The ancestors of a node form a chain. -/
theorem quadtree_isAncestorOrSelf_chain (a b c : QuadtreeIndex)
    (h1 : a.isAncestorOrSelf c) (h2 : b.isAncestorOrSelf c) (h : b.height ≤ a.height) :
    a.isAncestorOrSelf b := by
  obtain ⟨h1a, h1b⟩ := h1
  obtain ⟨h2a, h2b⟩ := h2
  refine ⟨h, ?_⟩
  have e : (a.height - c.height).toNat = (b.height - c.height).toNat + (a.height - b.height).toNat := by
    omega
  rw [← h2b, Nat.div_div_eq_div_mul, ← pow_add, ← e, h1b]

theorem quadtree_isAncestorOrSelf_antisymm (a b : QuadtreeIndex)
    (h1 : a.isAncestorOrSelf b) (h2 : b.isAncestorOrSelf a) : a = b := by
  obtain ⟨h1a, h1b⟩ := h1
  obtain ⟨h2a, _⟩ := h2
  have hh : a.height = b.height := le_antisymm h2a h1a
  have e : (a.height - b.height).toNat = 0 := by omega
  rw [e, pow_zero, Nat.div_one] at h1b
  cases a
  cases b
  simp only at hh h1b
  rw [hh, h1b]

theorem quadtree_isAncestorOrSelf_child (a : QuadtreeIndex)
    (c : Fin QuadtreeIndex.kNumChildren) : a.isAncestorOrSelf (a.computeChildIndex c) := by
  have hc : c.val < 4 := c.isLt
  refine ⟨by simp [QuadtreeIndex.computeChildIndex], ?_⟩
  have e : (a.height - (a.computeChildIndex c).height).toNat = 1 := by
    simp only [QuadtreeIndex.computeChildIndex]
    omega
  rw [e, pow_one]
  simp only [QuadtreeIndex.computeChildIndex]
  omega

/-- Every node that the algorithm updates below a node is a descendant of it
that has no fully unknown node on the path down to it. -/
theorem expectedUpdates_path {P Pose AABB : Type} (I : CoarseToFineIntegrator P Pose AABB)
    (pointcloud : PosedPointcloud P Pose) (range_image : RangeImage) (min_cell_width : ℚ) :
    ∀ (d : Nat) (node : QuadtreeIndex) (u : QuadtreeIndex × ℚ),
      u ∈ expectedUpdates I pointcloud range_image min_cell_width d node →
      node.isAncestorOrSelf u.1
        ∧ ∀ n : QuadtreeIndex, node.isAncestorOrSelf n → n.isAncestorOrSelf u.1 →
            I.intersectionTypeOf pointcloud range_image min_cell_width n
              ≠ IntersectionType.kFullyUnknown := by
  have hleaf : ∀ (node : QuadtreeIndex) (u : QuadtreeIndex × ℚ),
      I.intersectionTypeOf pointcloud range_image min_cell_width node
        ≠ IntersectionType.kFullyUnknown →
      u ∈ [(node, I.sampleOf pointcloud range_image min_cell_width node)] →
      node.isAncestorOrSelf u.1
        ∧ ∀ n : QuadtreeIndex, node.isAncestorOrSelf n → n.isAncestorOrSelf u.1 →
            I.intersectionTypeOf pointcloud range_image min_cell_width n
              ≠ IntersectionType.kFullyUnknown := by
    intro node u hu hmem
    simp only [List.mem_singleton] at hmem
    subst hmem
    refine ⟨quadtree_isAncestorOrSelf_refl _, ?_⟩
    intro n h1 h2
    have := quadtree_isAncestorOrSelf_antisymm node n h1 h2
    rw [← this]
    exact hu
  intro d
  induction d with
  | zero =>
    intro node u hmem
    simp only [expectedUpdates] at hmem
    by_cases hu : I.intersectionTypeOf pointcloud range_image min_cell_width node
        = IntersectionType.kFullyUnknown
    · rw [if_pos hu] at hmem
      simp at hmem
    · rw [if_neg hu] at hmem
      by_cases hs : I.updatesNode pointcloud range_image min_cell_width node
      · rw [if_pos hs] at hmem
        exact hleaf node u hu hmem
      · rw [if_neg hs] at hmem
        simp at hmem
  | succ d ih =>
    intro node u hmem
    simp only [expectedUpdates] at hmem
    by_cases hu : I.intersectionTypeOf pointcloud range_image min_cell_width node
        = IntersectionType.kFullyUnknown
    · rw [if_pos hu] at hmem
      simp at hmem
    · rw [if_neg hu] at hmem
      by_cases hs : I.updatesNode pointcloud range_image min_cell_width node
      · rw [if_pos hs] at hmem
        exact hleaf node u hu hmem
      · rw [if_neg hs] at hmem
        have hchild : ∀ c : Fin QuadtreeIndex.kNumChildren,
            u ∈ expectedUpdates I pointcloud range_image min_cell_width d
              (node.computeChildIndex c) →
            node.isAncestorOrSelf u.1
              ∧ ∀ n : QuadtreeIndex, node.isAncestorOrSelf n → n.isAncestorOrSelf u.1 →
                  I.intersectionTypeOf pointcloud range_image min_cell_width n
                    ≠ IntersectionType.kFullyUnknown := by
          intro c hc
          obtain ⟨h1, h2⟩ := ih (node.computeChildIndex c) u hc
          have hnc := quadtree_isAncestorOrSelf_child node c
          refine ⟨quadtree_isAncestorOrSelf_trans _ _ _ hnc h1, ?_⟩
          intro n hn1 hn2
          by_cases hh : n.height = node.height
          · have : node = n := by
              obtain ⟨_, hp⟩ := hn1
              have e : (node.height - n.height).toNat = 0 := by omega
              rw [e, pow_zero, Nat.div_one] at hp
              cases node
              cases n
              simp only at hh hp
              rw [hh, hp]
            rw [← this]
            exact hu
          · have hle : n.height ≤ (node.computeChildIndex c).height := by
              have := hn1.1
              simp only [QuadtreeIndex.computeChildIndex]
              omega
            exact h2 n (quadtree_isAncestorOrSelf_chain _ _ _ h1 hn2 hle) hn2
        simp only [List.mem_append] at hmem
        rcases hmem with ((hmem | hmem) | hmem) | hmem
        · exact hchild 3 hmem
        · exact hchild 2 hmem
        · exact hchild 1 hmem
        · exact hchild 0 hmem

theorem mem_expectedUpdatesOfStack {P Pose AABB : Type} (I : CoarseToFineIntegrator P Pose AABB)
    (pointcloud : PosedPointcloud P Pose) (range_image : RangeImage) (min_cell_width : ℚ)
    (u : QuadtreeIndex × ℚ) :
    ∀ (stack : List QuadtreeIndex),
      u ∈ expectedUpdatesOfStack I pointcloud range_image min_cell_width stack →
      ∃ s, s ∈ stack
        ∧ u ∈ expectedUpdates I pointcloud range_image min_cell_width s.height.toNat s := by
  intro stack
  induction stack with
  | nil => intro h; simp [expectedUpdatesOfStack] at h
  | cons node stack ih =>
    intro h
    simp only [expectedUpdatesOfStack, List.mem_append] at h
    rcases h with h | h
    · exact ⟨node, List.mem_cons_self _ _, h⟩
    · obtain ⟨s, hs, hu⟩ := ih h
      exact ⟨s, List.mem_cons_of_mem _ hs, hu⟩

theorem foldl_push_eq_reverse (l : List QuadtreeIndex) :
    ∀ acc : List QuadtreeIndex,
      l.foldl (fun (stack : List QuadtreeIndex) node_index => node_index :: stack) acc
        = l.reverse ++ acc := by
  induction l with
  | nil => intro acc; rfl
  | cons a l ih =>
    intro acc
    rw [List.foldl_cons, ih, List.reverse_cons, List.append_assoc]
    rfl

/-- For a valid pointcloud and start indices of nonnegative height,
`integratePointcloud` returns the map with the updates of the algorithm of
the spec appended. -/
theorem integratePointcloud_eq_expected {P Pose AABB : Type}
    (I : CoarseToFineIntegrator P Pose AABB) (kHalfPi : ℚ) (pointcloud : PosedPointcloud P Pose)
    (occupancy_map : VolumetricQuadtree) (hvalid : I.isPointcloudValid pointcloud = true)
    (hh : ∀ s, s ∈ occupancy_map.first_child_indices → 0 ≤ s.height) :
    integratePointcloud I kHalfPi pointcloud occupancy_map
      = some { occupancy_map with
          updates := occupancy_map.updates
            ++ expectedUpdatesOfStack I pointcloud
                (computeRangeImage I.geometry pointcloud (-kHalfPi) kHalfPi pointcloud.size)
                occupancy_map.min_cell_width occupancy_map.first_child_indices.reverse } := by
  simp only [integratePointcloud, hvalid, Bool.not_true, Bool.false_eq_true, if_false]
  rw [foldl_push_eq_reverse, List.append_nil]
  exact integrateLoop_eq_expected I pointcloud _ _ _ _ occupancy_map
    (fun s hs => hh s (List.mem_reverse.mp hs)) (le_refl _)

/-! ## Termination of the work-stack loop and disjointness of the updates -/

theorem expectedUpdates_height {P Pose AABB : Type} (I : CoarseToFineIntegrator P Pose AABB)
    (pointcloud : PosedPointcloud P Pose) (range_image : RangeImage) (min_cell_width : ℚ) :
    ∀ (d : Nat) (node : QuadtreeIndex) (u : QuadtreeIndex × ℚ),
      u ∈ expectedUpdates I pointcloud range_image min_cell_width d node →
      node.height - d ≤ u.1.height := by
  intro d
  induction d with
  | zero =>
    intro node u hmem
    simp only [expectedUpdates] at hmem
    split at hmem
    · simp at hmem
    · split at hmem
      · simp only [List.mem_singleton] at hmem
        subst hmem
        simp
      · simp at hmem
  | succ d ih =>
    intro node u hmem
    simp only [expectedUpdates] at hmem
    split at hmem
    · simp at hmem
    · split at hmem
      · simp only [List.mem_singleton] at hmem
        subst hmem
        simp only [Nat.cast_add, Nat.cast_one]
        omega
      · have hchild : ∀ c : Fin QuadtreeIndex.kNumChildren,
            u ∈ expectedUpdates I pointcloud range_image min_cell_width d
              (node.computeChildIndex c) → node.height - (d + 1 : Nat) ≤ u.1.height := by
          intro c hc
          have := ih (node.computeChildIndex c) u hc
          simp only [QuadtreeIndex.computeChildIndex] at this
          simp only [Nat.cast_add, Nat.cast_one]
          omega
        simp only [List.mem_append] at hmem
        rcases hmem with ((hmem | hmem) | hmem) | hmem
        · exact hchild 3 hmem
        · exact hchild 2 hmem
        · exact hchild 1 hmem
        · exact hchild 0 hmem

/-- The loop body keeps the heights of the stack nonnegative, and leaves the
stack without the popped node when that node has height 0. -/
theorem integrateStep_heights {P Pose AABB : Type} (I : CoarseToFineIntegrator P Pose AABB)
    (pointcloud : PosedPointcloud P Pose) (range_image : RangeImage) (min_cell_width : ℚ)
    (node : QuadtreeIndex) (stack : List QuadtreeIndex) (m : VolumetricQuadtree)
    (hh : ∀ s, s ∈ node :: stack → 0 ≤ s.height) :
    (∀ s, s ∈ (integrateStep I pointcloud range_image min_cell_width node stack m).1 →
        0 ≤ s.height)
      ∧ (node.height = 0 →
          (integrateStep I pointcloud range_image min_cell_width node stack m).1 = stack) := by
  have hrest : ∀ s, s ∈ stack → 0 ≤ s.height := fun s hs => hh s (List.mem_cons_of_mem _ hs)
  have hnode : 0 ≤ node.height := hh node (List.mem_cons_self _ _)
  rw [integrateStep_eq]
  by_cases hu : I.intersectionTypeOf pointcloud range_image min_cell_width node
      = IntersectionType.kFullyUnknown
  · rw [if_pos hu]
    exact ⟨hrest, fun _ => rfl⟩
  · rw [if_neg hu]
    by_cases hs : I.updatesNode pointcloud range_image min_cell_width node
    · rw [if_pos hs]
      exact ⟨hrest, fun _ => rfl⟩
    · rw [if_neg hs]
      have hne : node.height ≠ 0 := fun h0 => hs (Or.inl h0)
      refine ⟨?_, fun h0 => absurd h0 hne⟩
      intro s hs'
      simp only [List.mem_cons] at hs'
      have hch : ∀ c : Fin QuadtreeIndex.kNumChildren,
          0 ≤ (node.computeChildIndex c).height := by
        intro c
        simp only [QuadtreeIndex.computeChildIndex]
        omega
      rcases hs' with rfl | rfl | rfl | rfl | hs'
      · exact hch 3
      · exact hch 2
      · exact hch 1
      · exact hch 0
      · exact hrest s hs'

theorem quadtree_overlaps_symm {a b : QuadtreeIndex} (h : ¬ a.overlaps b) : ¬ b.overlaps a :=
  fun h' => h (Or.symm h')

theorem quadtree_not_overlaps_child (node x : QuadtreeIndex)
    (c : Fin QuadtreeIndex.kNumChildren) (h : ¬ node.overlaps x) :
    ¬ (node.computeChildIndex c).overlaps x := by
  intro ho
  have hnc := quadtree_isAncestorOrSelf_child node c
  rcases ho with ho | ho
  · exact h (Or.inl (quadtree_isAncestorOrSelf_trans _ _ _ hnc ho))
  · by_cases hle : node.height ≤ x.height
    · exact h (Or.inr (quadtree_isAncestorOrSelf_chain _ _ _ ho hnc hle))
    · have hxh : x.height = (node.computeChildIndex c).height := by
        have := ho.1
        simp only [QuadtreeIndex.computeChildIndex] at this ⊢
        omega
      have hx : x = node.computeChildIndex c := by
        apply quadtree_isAncestorOrSelf_antisymm _ _ ho
        refine ⟨le_of_eq hxh, ?_⟩
        obtain ⟨_, hp⟩ := ho
        have e : (x.height - (node.computeChildIndex c).height).toNat = 0 := by omega
        have e' : ((node.computeChildIndex c).height - x.height).toNat = 0 := by omega
        rw [e, pow_zero, Nat.div_one] at hp
        rw [e', pow_zero, Nat.div_one, hp]
      rw [hx] at h
      exact h (Or.inl hnc)

theorem quadtree_children_not_overlap (node : QuadtreeIndex)
    (c c' : Fin QuadtreeIndex.kNumChildren) (h : c ≠ c') :
    ¬ (node.computeChildIndex c).overlaps (node.computeChildIndex c') := by
  have hc : c.val < 4 := c.isLt
  have hc' : c'.val < 4 := c'.isLt
  have hv : c.val ≠ c'.val := fun e => h (Fin.ext e)
  intro ho
  rcases ho with ⟨_, hp⟩ | ⟨_, hp⟩
  · simp only [QuadtreeIndex.computeChildIndex, sub_self, Int.toNat_zero, pow_zero,
      Nat.div_one] at hp
    omega
  · simp only [QuadtreeIndex.computeChildIndex, sub_self, Int.toNat_zero, pow_zero,
      Nat.div_one] at hp
    omega

/-- Replacing a node by its four children keeps a list of nodes pairwise
non-overlapping. -/
theorem quadtree_pairwise_children (node : QuadtreeIndex) (rest : List QuadtreeIndex)
    (h : (node :: rest).Pairwise (fun a b => ¬ a.overlaps b)) :
    (node.computeChildIndex 3 :: node.computeChildIndex 2 :: node.computeChildIndex 1
      :: node.computeChildIndex 0 :: rest).Pairwise (fun a b => ¬ a.overlaps b) := by
  rw [List.pairwise_cons] at h
  obtain ⟨h1, h2⟩ := h
  have hrest : ∀ c : Fin QuadtreeIndex.kNumChildren, ∀ x, x ∈ rest →
      ¬ (node.computeChildIndex c).overlaps x :=
    fun c x hx => quadtree_not_overlaps_child node x c (h1 x hx)
  simp only [List.pairwise_cons, List.mem_cons]
  refine ⟨?_, ?_, ?_, ?_, h2⟩
  · intro x hx
    rcases hx with rfl | rfl | rfl | hx
    · exact quadtree_children_not_overlap node 3 2 (by decide)
    · exact quadtree_children_not_overlap node 3 1 (by decide)
    · exact quadtree_children_not_overlap node 3 0 (by decide)
    · exact hrest 3 x hx
  · intro x hx
    rcases hx with rfl | rfl | hx
    · exact quadtree_children_not_overlap node 2 1 (by decide)
    · exact quadtree_children_not_overlap node 2 0 (by decide)
    · exact hrest 2 x hx
  · intro x hx
    rcases hx with rfl | hx
    · exact quadtree_children_not_overlap node 1 0 (by decide)
    · exact hrest 1 x hx
  · intro x hx
    exact hrest 0 x hx

/-- The invariant of the work-stack loop: the nodes on the stack and the
nodes updated so far are pairwise non-overlapping. -/
theorem integrateLoop_disjoint {P Pose AABB : Type} (I : CoarseToFineIntegrator P Pose AABB)
    (pointcloud : PosedPointcloud P Pose) (range_image : RangeImage) (min_cell_width : ℚ) :
    ∀ (fuel : Nat) (stack : List QuadtreeIndex) (m m' : VolumetricQuadtree),
      integrateLoop I pointcloud range_image min_cell_width fuel stack m = some m' →
      ∀ (old new : List (QuadtreeIndex × ℚ)), m.updates = old ++ new →
        (stack ++ new.map Prod.fst).Pairwise (fun a b => ¬ a.overlaps b) →
        ∃ new', m'.updates = old ++ new'
          ∧ (new'.map Prod.fst).Pairwise (fun a b => ¬ a.overlaps b) := by
  intro fuel
  induction fuel with
  | zero =>
    intro stack m m' h old new hm hp
    cases stack with
    | nil =>
      simp only [integrateLoop, Option.some.injEq] at h
      subst h
      exact ⟨new, hm, by simpa using hp⟩
    | cons node stack => simp [integrateLoop] at h
  | succ fuel ih =>
    intro stack m m' h old new hm hp
    cases stack with
    | nil =>
      simp only [integrateLoop, Option.some.injEq] at h
      subst h
      exact ⟨new, hm, by simpa using hp⟩
    | cons node stack =>
      simp only [integrateLoop] at h
      rw [integrateStep_eq] at h
      by_cases hu : I.intersectionTypeOf pointcloud range_image min_cell_width node
          = IntersectionType.kFullyUnknown
      · rw [if_pos hu] at h
        exact ih stack m m' h old new hm (List.Pairwise.of_cons hp)
      · rw [if_neg hu] at h
        by_cases hs : I.updatesNode pointcloud range_image min_cell_width node
        · rw [if_pos hs] at h
          refine ih stack _ m' h old
            (new ++ [(node, I.sampleOf pointcloud range_image min_cell_width node)]) ?_ ?_
          · simp only [VolumetricQuadtree.addToCellValue, hm, List.append_assoc]
          · have hperm : List.Perm (node :: (stack ++ new.map Prod.fst))
                (stack ++ (new ++ [(node,
                  I.sampleOf pointcloud range_image min_cell_width node)]).map Prod.fst) := by
              simp only [List.map_append, List.map_cons, List.map_nil, ← List.append_assoc]
              exact (List.perm_append_singleton node _).symm
            exact (List.Perm.pairwise_iff (fun hxy => quadtree_overlaps_symm hxy) hperm).mp hp
        · rw [if_neg hs] at h
          exact ih _ m m' h old new hm (quadtree_pairwise_children node _ hp)

/-- In a list of pairwise non-overlapping nodes at most one covers a given
height-0 cell. -/
theorem quadtree_countP_coversCell_le_one (q : Nat) :
    ∀ (l : List QuadtreeIndex), l.Pairwise (fun a b => ¬ a.overlaps b) →
      l.countP (QuadtreeIndex.coversCell q) ≤ 1 := by
  have hcov : ∀ a : QuadtreeIndex, QuadtreeIndex.coversCell q a = true →
      a.isAncestorOrSelf (QuadtreeIndex.mk 0 q) := by
    intro a ha
    simp only [QuadtreeIndex.coversCell, decide_eq_true_eq] at ha
    exact ⟨ha.1, by simpa using ha.2⟩
  intro l
  induction l with
  | nil => intro _; simp
  | cons a l ih =>
    intro hp
    rw [List.pairwise_cons] at hp
    obtain ⟨h1, h2⟩ := hp
    rw [List.countP_cons]
    by_cases ha : QuadtreeIndex.coversCell q a = true
    · have hzero : l.countP (QuadtreeIndex.coversCell q) = 0 := by
        rw [List.countP_eq_zero]
        intro b hb hcb
        have hab := h1 b hb
        rcases le_total b.height a.height with hle | hle
        · exact hab (Or.inl (quadtree_isAncestorOrSelf_chain _ _ _ (hcov a ha) (hcov b hcb) hle))
        · exact hab (Or.inr (quadtree_isAncestorOrSelf_chain _ _ _ (hcov b hcb) (hcov a ha) hle))
      rw [hzero, if_pos ha]
    · rw [if_neg ha]
      have := ih h2
      omega

/-! ## The array accesses of `recursiveThreshold` are in bounds -/

theorem tree_size_pos_succ (k : Nat) : 0 < tree_size (k + 1) := by
  have := tree_size_succ k
  have h8 : 0 < 8 ^ k := Nat.pos_pow_of_pos k (by decide)
  omega

theorem level_node_bounds (k level_idx relative_idx : Nat) (hl : level_idx < k)
    (hr : relative_idx < level_size (level_idx + 1)) :
    tree_size level_idx + relative_idx < tree_size k
      ∧ ∀ j, j < 8 → tree_size (level_idx + 1) + 8 * relative_idx + j < tree_size (k + 1) := by
  rw [level_size_succ] at hr
  have h1 := tree_size_succ level_idx
  have h2 := tree_size_succ (level_idx + 1)
  have h3 : tree_size (level_idx + 1) ≤ tree_size k := tree_size_mono (by omega)
  have h4 : tree_size (level_idx + 1 + 1) ≤ tree_size (k + 1) := tree_size_mono (by omega)
  have h5 : 8 ^ (level_idx + 1) = 8 * 8 ^ level_idx := by rw [pow_succ]; ring
  refine ⟨by omega, ?_⟩
  intro j hj
  omega

theorem decompressAccesses_inBounds (k : Nat) (a : ArrayAccess)
    (ha : a ∈ decompressAccesses k) : a.inBounds k := by
  simp only [decompressAccesses, List.mem_flatMap, List.mem_range, List.mem_append,
    List.mem_cons, List.mem_singleton, List.not_mem_nil, or_false, List.mem_map] at ha
  obtain ⟨level_idx, hl, relative_idx, hr, h⟩ := ha
  obtain ⟨h1, h2⟩ := level_node_bounds k level_idx relative_idx hl hr
  have h3 : tree_size k ≤ tree_size (k + 1) := tree_size_mono (Nat.le_succ k)
  rcases h with (rfl | rfl) | ⟨j, hj, rfl⟩
  · show _ < tree_size (k + 1)
    omega
  · exact h1
  · exact h2 j hj

theorem thresholdAccesses_inBounds (k : Nat) (a : ArrayAccess)
    (ha : a ∈ thresholdAccesses k) : a.inBounds k := by
  simp only [thresholdAccesses, List.mem_flatMap, List.mem_range, List.mem_cons,
    List.mem_singleton, List.not_mem_nil, or_false] at ha
  obtain ⟨child_idx, hc, h⟩ := ha
  have h1 := tree_size_succ k
  have h2 := kNumChildren_eq k
  rcases h with rfl | rfl | rfl
  · exact hc
  · show _ < tree_size (k + 1)
    omega
  · show _ < tree_size (k + 1)
    omega

theorem compressAccesses_inBounds (k : Nat) (a : ArrayAccess)
    (ha : a ∈ compressAccesses k) : a.inBounds k := by
  simp only [compressAccesses, List.mem_flatMap, List.mem_reverse, List.mem_range,
    List.mem_append, List.mem_cons, List.mem_singleton, List.not_mem_nil, or_false,
    List.mem_map] at ha
  obtain ⟨level_idx, hl, relative_idx, hr, h⟩ := ha
  obtain ⟨h1, h2⟩ := level_node_bounds k level_idx relative_idx hl hr
  have h3 : tree_size k ≤ tree_size (k + 1) := tree_size_mono (Nat.le_succ k)
  rcases h with (⟨j, hj, rfl⟩ | ⟨j, hj, rfl⟩) | rfl | rfl | rfl | rfl
  · exact h2 j hj
  · exact h2 j hj
  · show _ < tree_size (k + 1)
    omega
  · exact h1
  · exact h1
  · show _ < tree_size (k + 1)
    omega

/-! ## The `hasAtLeastOneChild` flags after thresholding -/

theorem div_pow_succ_eight (x e : Nat) : x / 8 ^ (e + 1) = x / 8 ^ e / 8 := by
  rw [Nat.div_div_eq_div_mul, pow_succ]

/-- Inside a chunk after the compression loops: the `is_nonzero_child` bit of
a node tells whether the node or one of its descendants has nonzero details,
and the flag of a node tells whether a strict descendant has, when the bits of
the boundary positions are as `B` says. -/
theorem compressed_bits (T : HaarTransform) (k : Nat) (st cs : CompressState)
    (hc : Compressed T k st cs) (B : Nat → Prop)
    (hB : ∀ i, i < 8 ^ k → (st.is_nonzero_child (tree_size k + i) = true ↔ B i)) :
    ∀ n l r, l + n = k → r < 8 ^ l →
      (cs.is_nonzero_child (tree_size l + r) = true
        ↔ ((∃ l' r', l ≤ l' ∧ l' < k ∧ r' < 8 ^ l' ∧ r' / 8 ^ (l' - l) = r
              ∧ is_nonzero (cs.node_data (tree_size l' + r')) = true)
            ∨ ∃ i, i < 8 ^ k ∧ i / 8 ^ (k - l) = r ∧ B i))
      ∧ (l < k →
          (cs.node_has_at_least_one_child (tree_size l + r) = true
            ↔ ((∃ l' r', l < l' ∧ l' < k ∧ r' < 8 ^ l' ∧ r' / 8 ^ (l' - l) = r
                  ∧ is_nonzero (cs.node_data (tree_size l' + r')) = true)
                ∨ ∃ i, i < 8 ^ k ∧ i / 8 ^ (k - l) = r ∧ B i))) := by
  intro n
  induction n with
  | zero =>
    intro l r hl hr
    have hlk : l = k := by omega
    subst hlk
    refine ⟨?_, fun h => absurd h (lt_irrefl _)⟩
    rw [hc.nonzero_outside _ (by omega), hB r hr]
    constructor
    · intro hb
      exact Or.inr ⟨r, hr, by simp, hb⟩
    · rintro (⟨l', r', h1, h2, _⟩ | ⟨i, _, h2, h3⟩)
      · omega
      · simp only [Nat.sub_self, pow_zero, Nat.div_one] at h2
        rw [← h2]
        exact h3
  | succ n ih =>
    intro l r hl hr
    have hlk : l < k := by omega
    have h8 : 0 < 8 ^ l := Nat.pos_pow_of_pos l (by decide)
    have hts := tree_size_succ l
    have htm := tree_size_succ_mul l
    have hmono : tree_size (l + 1) ≤ tree_size k := tree_size_mono (by omega)
    have hj : tree_size l + r < tree_size k := by omega
    have hflag : cs.node_has_at_least_one_child (tree_size l + r) = true
        ↔ ((∃ l' r', l < l' ∧ l' < k ∧ r' < 8 ^ l' ∧ r' / 8 ^ (l' - l) = r
              ∧ is_nonzero (cs.node_data (tree_size l' + r')) = true)
            ∨ ∃ i, i < 8 ^ k ∧ i / 8 ^ (k - l) = r ∧ B i) := by
      rw [hc.flag _ hj, orEight_eq_true]
      constructor
      · rintro ⟨c, hc8, hbit⟩
        have e : 8 * (tree_size l + r) + 1 + c = tree_size (l + 1) + (8 * r + c) := by omega
        rw [e] at hbit
        have hr' : 8 * r + c < 8 ^ (l + 1) := by rw [pow_succ]; omega
        rcases ((ih (l + 1) (8 * r + c) (by omega) hr').1).mp hbit with
          ⟨l', r', h1, h2, h3, h4, h5⟩ | ⟨i, h1, h2, h3⟩
        · refine Or.inl ⟨l', r', by omega, h2, h3, ?_, h5⟩
          have e2 : l' - l = (l' - (l + 1)) + 1 := by omega
          rw [e2, div_pow_succ_eight, h4]
          omega
        · refine Or.inr ⟨i, h1, ?_, h3⟩
          have e2 : k - l = (k - (l + 1)) + 1 := by omega
          rw [e2, div_pow_succ_eight, h2]
          omega
      · rintro (⟨l', r', h1, h2, h3, h4, h5⟩ | ⟨i, h1, h2, h3⟩)
        · have e2 : l' - l = (l' - (l + 1)) + 1 := by omega
          rw [e2, div_pow_succ_eight] at h4
          refine ⟨r' / 8 ^ (l' - (l + 1)) % 8, Nat.mod_lt _ (by decide), ?_⟩
          have e : 8 * (tree_size l + r) + 1 + r' / 8 ^ (l' - (l + 1)) % 8
              = tree_size (l + 1) + r' / 8 ^ (l' - (l + 1)) := by omega
          rw [e]
          have hr' : r' / 8 ^ (l' - (l + 1)) < 8 ^ (l + 1) := by rw [pow_succ]; omega
          exact ((ih (l + 1) _ (by omega) hr').1).mpr
            (Or.inl ⟨l', r', by omega, h2, h3, rfl, h5⟩)
        · have e2 : k - l = (k - (l + 1)) + 1 := by omega
          rw [e2, div_pow_succ_eight] at h2
          refine ⟨i / 8 ^ (k - (l + 1)) % 8, Nat.mod_lt _ (by decide), ?_⟩
          have e : 8 * (tree_size l + r) + 1 + i / 8 ^ (k - (l + 1)) % 8
              = tree_size (l + 1) + i / 8 ^ (k - (l + 1)) := by omega
          rw [e]
          have hr' : i / 8 ^ (k - (l + 1)) < 8 ^ (l + 1) := by rw [pow_succ]; omega
          exact ((ih (l + 1) _ (by omega) hr').1).mpr (Or.inr ⟨i, h1, rfl, h3⟩)
    refine ⟨?_, fun _ => hflag⟩
    rw [hc.nonzero _ hj, Bool.or_eq_true, hflag]
    constructor
    · rintro ((⟨l', r', h1, h2, h3, h4, h5⟩ | h) | h)
      · exact Or.inl ⟨l', r', by omega, h2, h3, h4, h5⟩
      · exact Or.inr h
      · exact Or.inl ⟨l, r, le_refl _, hlk, hr, by simp, h⟩
    · rintro (⟨l', r', h1, h2, h3, h4, h5⟩ | h)
      · by_cases hl' : l' = l
        · subst hl'
          simp only [Nat.sub_self, pow_zero, Nat.div_one] at h4
          subst h4
          exact Or.inr h5
        · exact Or.inl (Or.inl ⟨l', r', by omega, h2, h3, h4, h5⟩)
      · exact Or.inl (Or.inr h)

/-- Every node index of a chunk is the index of a node at some depth and
offset. -/
theorem tree_size_decompose : ∀ (k j : Nat), j < tree_size k →
    ∃ l r, l < k ∧ r < 8 ^ l ∧ j = tree_size l + r := by
  intro k
  induction k with
  | zero => intro j hj; simp [tree_size_zero] at hj
  | succ k ih =>
    intro j hj
    rw [tree_size_succ] at hj
    by_cases h : j < tree_size k
    · obtain ⟨l, r, h1, h2, h3⟩ := ih j h
      exact ⟨l, r, by omega, h2, h3⟩
    · exact ⟨k, j - tree_size k, by omega, by omega, by omega⟩

/-- The bits and flags that the body of `recursiveThreshold` leaves in a
chunk, when the bit returned by each recursive call tells whether the child
chunk has nonzero details. -/
theorem thresholdBody_bits (T : HaarTransform) (k : Nat) (lo hi : ℚ)
    (d : Nat → Details) (f : Nat → Bool) (p : Nat → Bool) (cs : Nat → Chunk)
    (recurse : Nat → ℚ → Chunk × RecursiveThresholdReturnValue) (s : ℚ)
    (hrec : ∀ i, i < 8 ^ k → p i = true →
      ((recurse i (nodeValue T d s k i)).2.is_nonzero_child = true
        ↔ (recurse i (nodeValue T d s k i)).1.hasNonzeroBelow k)) :
    ∀ l r, l ≤ k → r < 8 ^ l →
      ((thresholdBody T k lo hi d f p cs recurse s).1.is_nonzero_child (tree_size l + r) = true
        ↔ ((∃ l' r', l ≤ l' ∧ l' < k ∧ r' < 8 ^ l' ∧ r' / 8 ^ (l' - l) = r
              ∧ is_nonzero ((thresholdBody T k lo hi d f p cs recurse s).1.node_data
                  (tree_size l' + r')) = true)
            ∨ ∃ i, i < 8 ^ k ∧ i / 8 ^ (k - l) = r ∧ p i = true
                ∧ ((thresholdBody T k lo hi d f p cs recurse s).2 i).hasNonzeroBelow k))
      ∧ (l < k →
          ((thresholdBody T k lo hi d f p cs recurse s).1.node_has_at_least_one_child
              (tree_size l + r) = true
            ↔ ((∃ l' r', l < l' ∧ l' < k ∧ r' < 8 ^ l' ∧ r' / 8 ^ (l' - l) = r
                  ∧ is_nonzero ((thresholdBody T k lo hi d f p cs recurse s).1.node_data
                      (tree_size l' + r')) = true)
                ∨ ∃ i, i < 8 ^ k ∧ i / 8 ^ (k - l) = r ∧ p i = true
                    ∧ ((thresholdBody T k lo hi d f p cs recurse s).2 i).hasNonzeroBelow k))) := by
  intro l r hl hr
  have hc := thresholdBody_compressed T k lo hi d f p cs recurse s
  exact compressed_bits T k _ _ hc
    (fun i => p i = true
      ∧ ((thresholdBody T k lo hi d f p cs recurse s).2 i).hasNonzeroBelow k)
    (by
      intro i hi'
      simp only
      rw [thresholdLoop_nonzero T k lo hi p recurse d s _ cs i hi', thresholdBody_child,
        if_pos hi']
      by_cases hp : p i = true
      · rw [if_pos hp, if_pos hp, hrec i hi' hp]
        simp [hp]
      · rw [if_neg hp, if_neg hp]
        simp [hp])
    (k - l) l r (by omega) hr

theorem hasNonzeroBelow_iff_root (k : Nat) (data : Nat → Details) (B : Nat → Prop) :
    ((∃ l' r', 0 ≤ l' ∧ l' < k ∧ r' < 8 ^ l' ∧ r' / 8 ^ (l' - 0) = 0
          ∧ is_nonzero (data (tree_size l' + r')) = true)
        ∨ ∃ i, i < 8 ^ k ∧ i / 8 ^ (k - 0) = 0 ∧ B i)
      ↔ ((∃ j, j < kNumInnerNodes k ∧ is_nonzero (data j) = true)
          ∨ ∃ i, i < kNumChildren k ∧ B i) := by
  rw [kNumChildren_eq]
  simp only [kNumInnerNodes]
  constructor
  · rintro (⟨l', r', _, h2, h3, _, h5⟩ | ⟨i, h1, _, h3⟩)
    · refine Or.inl ⟨tree_size l' + r', ?_, h5⟩
      have h6 := tree_size_succ l'
      have h7 : tree_size (l' + 1) ≤ tree_size k := tree_size_mono (by omega)
      omega
    · exact Or.inr ⟨i, h1, h3⟩
  · rintro (⟨j, h1, h2⟩ | ⟨i, h1, h3⟩)
    · obtain ⟨l', r', h3, h4, h5⟩ := tree_size_decompose k j h1
      refine Or.inl ⟨l', r', Nat.zero_le _, h3, h4, ?_, ?_⟩
      · exact Nat.div_eq_of_lt (by simpa using h4)
      · rw [← h5]
        exact h2
    · exact Or.inr ⟨i, h1, Nat.div_eq_of_lt (by simpa using h1), h3⟩

/-- After `recursiveThreshold`, the flags of the chunk and of the chunks below
it are consistent, and the returned bit tells whether the chunk has nonzero
details. -/
theorem recursiveThreshold_flagsConsistent (T : HaarTransform) (k : Nat) (lo hi : ℚ) :
    ∀ (c : Chunk) (s : ℚ),
      (recursiveThreshold T k lo hi c s).1.flagsConsistent k
        ∧ ((recursiveThreshold T k lo hi c s).2.is_nonzero_child = true
          ↔ (recursiveThreshold T k lo hi c s).1.hasNonzeroBelow k) := by
  intro c
  induction c with
  | leafChunk d f =>
    intro s
    have hb := thresholdBody_bits T k lo hi d f (fun _ => false) (fun _ => Chunk.fresh)
      (fun _ s => (Chunk.fresh, { scale := s, is_nonzero_child := false })) s
      (by intro i _ hp; simp at hp)
    simp only [recursiveThreshold]
    refine ⟨?_, ?_⟩
    · simp only [Chunk.flagsConsistent, Chunk.strictDescendantNonzero, Chunk.getChild,
        Chunk.nodeData_leafChunk]
      intro l r hl hr
      rw [((hb l r (le_of_lt hl) hr).2 hl)]
      simp
    · have h0 := (hb 0 0 (Nat.zero_le _) (by simp)).1
      simp only [tree_size_zero, Nat.zero_add] at h0
      rw [h0, hasNonzeroBelow_iff_root]
      simp [Chunk.hasNonzeroBelow]
  | innerChunk d f p cs ih =>
    intro s
    have hb := thresholdBody_bits T k lo hi d f p cs
      (fun child_idx s => recursiveThreshold T k lo hi (cs child_idx) s) s
      (by intro i _ _; exact (ih i _).2)
    simp only [recursiveThreshold]
    refine ⟨⟨?_, ?_⟩, ?_⟩
    · simp only [Chunk.strictDescendantNonzero, Chunk.getChild, Chunk.nodeData_innerChunk]
      intro l r hl hr
      rw [((hb l r (le_of_lt hl) hr).2 hl)]
      constructor
      · rintro (h | ⟨i, h1, h2, h3, h4⟩)
        · exact Or.inl h
        · exact Or.inr ⟨i, _, h1, h2, by rw [if_pos h3], h4⟩
      · rintro (h | ⟨i, child, h1, h2, h3, h4⟩)
        · exact Or.inl h
        · by_cases hp : p i = true
          · rw [if_pos hp] at h3
            simp only [Option.some.injEq] at h3
            subst h3
            exact Or.inr ⟨i, h1, h2, hp, h4⟩
          · rw [if_neg hp] at h3
            simp at h3
    · intro i hi' hp
      rw [thresholdBody_child, if_pos hi', if_pos hp]
      exact (ih i _).1
    · have h0 := (hb 0 0 (Nat.zero_le _) (by simp)).1
      simp only [tree_size_zero, Nat.zero_add] at h0
      rw [h0, hasNonzeroBelow_iff_root k _
        (fun i => p i = true ∧ ((thresholdBody T k lo hi d f p cs
          (fun child_idx s => recursiveThreshold T k lo hi (cs child_idx) s) s).2 i).hasNonzeroBelow
            k)]
      simp only [Chunk.hasNonzeroBelow]

/-- The flags of every chunk of a consistent chunk tree are consistent. -/
theorem flagsConsistent_deref (k : Nat) :
    ∀ (ptr : List Nat) (t c : Chunk), t.flagsConsistent k → (∀ i, i ∈ ptr → i < 8 ^ k) →
      t.deref ptr = some c →
      ∀ l r, l < k → r < 8 ^ l →
        (c.nodeHasAtLeastOneChild (tree_size l + r) = true ↔ c.strictDescendantNonzero k l r) := by
  intro ptr
  induction ptr with
  | nil =>
    intro t c ht _ hd
    simp only [Chunk.deref_nil, Option.some.injEq] at hd
    subst hd
    cases t with
    | leafChunk d f => exact ht
    | innerChunk d f p cs => exact ht.1
  | cons a ptr ih =>
    intro t c ht hs hd
    cases t with
    | leafChunk d f => simp [Chunk.deref] at hd
    | innerChunk d f p cs =>
      simp only [Chunk.deref] at hd
      by_cases hp : p a = true
      · rw [if_pos hp] at hd
        exact ih (cs a) c (ht.2 a (hs a (List.mem_cons_self _ _)) hp)
          (fun i hi' => hs i (List.mem_cons_of_mem _ hi')) hd
      · rw [if_neg hp] at hd
        simp at hd
/-! ## The effect of a write on the other cells -/

theorem Chunk.dataAt_fresh (q : List Nat) : Chunk.fresh.dataAt q = fun _ => 0 := by
  cases q with
  | nil =>
    simp only [Chunk.dataAt, Chunk.deref_nil]
    rfl
  | cons a q => simp [Chunk.dataAt, Chunk.fresh, Chunk.deref]

theorem Chunk.dataAt_nil (t : Chunk) : t.dataAt [] = t.nodeData := by
  simp [Chunk.dataAt, Chunk.deref_nil]

theorem Chunk.dataAt_mapData_cons (u : (Nat → Details) → (Nat → Details))
    (v : (Nat → Bool) → (Nat → Bool)) (t : Chunk) (b : Nat) (q : List Nat) :
    (Chunk.mapData u v t).dataAt (b :: q) = t.dataAt (b :: q) := by
  cases t with
  | leafChunk d fl => simp [Chunk.dataAt, Chunk.mapData, Chunk.deref]
  | innerChunk d fl p cs => simp [Chunk.dataAt, Chunk.mapData, Chunk.deref]

theorem Chunk.dataAt_innerChunk_cons (d : Nat → Details) (fl p : Nat → Bool) (cs : Nat → Chunk)
    (b : Nat) (q : List Nat) :
    (Chunk.innerChunk d fl p cs).dataAt (b :: q)
      = if p b = true then (cs b).dataAt q else fun _ => 0 := by
  simp only [Chunk.dataAt, Chunk.deref]
  by_cases h : p b = true
  · simp [h]
  · simp [h]

theorem Chunk.dataAt_leafChunk_cons (d : Nat → Details) (fl : Nat → Bool)
    (b : Nat) (q : List Nat) :
    (Chunk.leafChunk d fl).dataAt (b :: q) = fun _ => 0 := by
  simp [Chunk.dataAt, Chunk.deref]

/-- The node data that a pointer reaches after a write along a pointer: the
write changes the node data at the end of its pointer only, and the chunks it
allocates hold zeros. -/
theorem Chunk.dataAt_modifyAlloc (u : (Nat → Details) → (Nat → Details))
    (v : (Nat → Bool) → (Nat → Bool)) :
    ∀ (p : List Nat) (t : Chunk) (q : List Nat),
      (t.modifyAlloc (Chunk.mapData u v) p).dataAt q
        = if q = p then u (t.dataAt p) else t.dataAt q := by
  intro p
  induction p with
  | nil =>
    intro t q
    cases q with
    | nil =>
      simp only [Chunk.modifyAlloc, if_true, Chunk.dataAt_nil]
      cases t <;> rfl
    | cons b q =>
      simp only [Chunk.modifyAlloc]
      rw [if_neg (by simp), Chunk.dataAt_mapData_cons]
  | cons a p ih =>
    intro t q
    cases q with
    | nil =>
      rw [if_neg (by simp)]
      cases t with
      | leafChunk d fl =>
        simp only [Chunk.modifyAlloc, Chunk.dataAt_nil]
        rfl
      | innerChunk d fl pr cs =>
        by_cases hp : pr a = true
        · simp only [Chunk.modifyAlloc, Chunk.dataAt_nil, hp, if_true]
          rfl
        · simp only [Chunk.modifyAlloc, Chunk.dataAt_nil, hp, Bool.false_eq_true, if_false]
          rfl
    | cons b q =>
      cases t with
      | leafChunk d fl =>
        simp only [Chunk.modifyAlloc, Chunk.dataAt_innerChunk_cons, Chunk.dataAt_leafChunk_cons,
          decide_eq_true_eq]
        by_cases hab : b = a
        · subst hab
          simp only [if_true, Function.update_same, ih, Chunk.dataAt_fresh, List.cons.injEq,
            true_and]
        · rw [if_neg hab, if_neg (by simp [hab])]
      | innerChunk d fl pr cs =>
        by_cases hab : b = a
        · subst hab
          by_cases hp : pr b = true
          · simp only [Chunk.modifyAlloc, hp, if_true, Chunk.dataAt_innerChunk_cons,
              Function.update_same, ih, List.cons.injEq, true_and]
          · simp only [Chunk.modifyAlloc, hp, Bool.false_eq_true, if_false,
              Chunk.dataAt_innerChunk_cons, Function.update_same, if_true, ih,
              Chunk.dataAt_fresh, List.cons.injEq, true_and]
        · have hba : a ≠ b := fun e => hab e.symm
          rw [if_neg (by simp [hab])]
          by_cases hp : pr a = true
          · simp only [Chunk.modifyAlloc, hp, if_true, Chunk.dataAt_innerChunk_cons,
              Function.update_noteq hab]
          · simp only [Chunk.modifyAlloc, hp, Bool.false_eq_true, if_false,
              Chunk.dataAt_innerChunk_cons, Function.update_noteq hab]
/-! ## Nodes shared by two paths -/

theorem mod_pow_div_mod (a N s w : Nat) (h : s + w ≤ N) :
    (a % 8 ^ N / 8 ^ s) % 8 ^ w = (a / 8 ^ s) % 8 ^ w := by
  have e : 8 ^ N = 8 ^ s * 8 ^ (N - s) := by rw [← pow_add]; congr 1; omega
  rw [e, Nat.mod_mul_right_div_self]
  exact Nat.mod_mod_of_dvd _ (pow_dvd_pow 8 (by omega))

theorem div_pow_add (x a b : Nat) : x / 8 ^ (a + b) = x / 8 ^ a / 8 ^ b := by
  rw [Nat.div_div_eq_div_mul, pow_add]

/-- Two paths that share their node at height `h` have the same octal digits
from height `h` up to the height of the block. -/
theorem sameAncestor_digits (n h a b : Nat) (hs : sameAncestor n h a b) (e w : Nat)
    (he : h ≤ e) (hw : e + w ≤ n) :
    (a / 8 ^ e) % 8 ^ w = (b / 8 ^ e) % 8 ^ w := by
  have e1 : e = h + (e - h) := by omega
  have ha := mod_pow_div_mod (a / 8 ^ h) (n - h) (e - h) w (by omega)
  have hb := mod_pow_div_mod (b / 8 ^ h) (n - h) (e - h) w (by omega)
  rw [← div_pow_add, ← e1] at ha hb
  rw [← ha, ← hb]
  simp only [sameAncestor] at hs
  rw [hs]

theorem sameAncestor_mono (n h a b : Nat) (hs : sameAncestor n h a b) (e : Nat)
    (he : h ≤ e) (hn : e ≤ n) : sameAncestor n e a b :=
  sameAncestor_digits n h a b hs e (n - e) he (by omega)

theorem sameAncestor_refl (n h a : Nat) : sameAncestor n h a a := rfl

theorem sameAncestor_of_div_eq (n h a b : Nat) (hd : a / 8 ^ h = b / 8 ^ h) :
    sameAncestor n h a b := by
  simp only [sameAncestor, hd]

/-- Two paths share their node at height `e - 1` exactly when they share their
node at height `e` and take the same child of it. -/
theorem sameAncestor_pred (n e a b : Nat) (h1 : 1 ≤ e) (hn : e ≤ n) :
    sameAncestor n (e - 1) a b
      ↔ (sameAncestor n e a b
          ∧ computeRelativeChildIndex a e = computeRelativeChildIndex b e) := by
  have e1 : e = (e - 1) + 1 := by omega
  have e2 : n - (e - 1) = (n - e) + 1 := by omega
  have ha : a / 8 ^ e = a / 8 ^ (e - 1) / 8 := by
    conv_lhs => rw [e1]
    exact div_pow_succ_eight _ _
  have hb : b / 8 ^ e = b / 8 ^ (e - 1) / 8 := by
    conv_lhs => rw [e1]
    exact div_pow_succ_eight _ _
  have hp : (8 : Nat) ^ ((n - e) + 1) = 8 * 8 ^ (n - e) := by rw [pow_succ]; ring
  simp only [sameAncestor, computeRelativeChildIndex, Fin.mk.injEq, e2, hp, ha, hb]
  rw [Nat.mod_mul (x := a / 8 ^ (e - 1)), Nat.mod_mul (x := b / 8 ^ (e - 1))]
  have h8a : a / 8 ^ (e - 1) % 8 < 8 := Nat.mod_lt _ (by decide)
  have h8b : b / 8 ^ (e - 1) % 8 < 8 := Nat.mod_lt _ (by decide)
  omega

theorem pathSlot_eq (k n M i : Nat) (h : (i + 1) * k ≤ n) :
    pathSlot k n M i = (M / 8 ^ (n - (i + 1) * k)) % 8 ^ k := by
  simp only [pathSlot, computeLevelTraversalDistance]
  congr 2
  have : (i + 1) * k = i * k + k := by ring
  omega

theorem pathDepth_mul_le' (k n h : Nat) : pathDepth k n h * k ≤ n - h :=
  Nat.div_mul_le_self _ _

theorem pathNodeIndex_eq (k n M h : Nat) :
    pathNodeIndex k n M h
      = tree_size (n - pathDepth k n h * k - h)
        + (M / 8 ^ h) % 8 ^ (n - pathDepth k n h * k - h) := rfl

/-- Two paths that share their node at height `h` reach it through the same
chunks and at the same index of its chunk. -/
theorem sameNode_of_sameAncestor (k n Q M h : Nat) (hn : h ≤ n)
    (hs : sameAncestor n h Q M) :
    chunkPtr k n Q (pathDepth k n h) = chunkPtr k n M (pathDepth k n h)
      ∧ pathNodeIndex k n Q h = pathNodeIndex k n M h := by
  have hd := pathDepth_mul_le' k n h
  refine ⟨?_, ?_⟩
  · simp only [chunkPtr, List.map_inj_left, List.mem_range]
    intro i hi'
    have hle : (i + 1) * k ≤ pathDepth k n h * k := Nat.mul_le_mul_right k hi'
    have hk1 : k ≤ (i + 1) * k := Nat.le_mul_of_pos_left k (Nat.succ_pos i)
    rw [pathSlot_eq k n Q i (by omega), pathSlot_eq k n M i (by omega)]
    exact sameAncestor_digits n h Q M hs _ _ (by omega) (by omega)
  · rw [pathNodeIndex_eq, pathNodeIndex_eq]
    congr 1
    exact sameAncestor_digits n h Q M hs _ _ (le_refl _) (by omega)

/-- Two paths that reach a node of height `h` through the same chunks and at
the same index share that node. -/
theorem sameAncestor_of_sameNode (k n Q M h : Nat) (hk : 0 < k) (hn : h ≤ n)
    (hp : chunkPtr k n Q (pathDepth k n h) = chunkPtr k n M (pathDepth k n h))
    (hi : pathNodeIndex k n Q h = pathNodeIndex k n M h) : sameAncestor n h Q M := by
  have hd := pathDepth_mul_le' k n h
  rw [pathNodeIndex_eq, pathNodeIndex_eq] at hi
  have hltd : (Q / 8 ^ h) % 8 ^ (n - pathDepth k n h * k - h)
      = (M / 8 ^ h) % 8 ^ (n - pathDepth k n h * k - h) := by omega
  simp only [chunkPtr, List.map_inj_left, List.mem_range] at hp
  have hstep : ∀ j, j ≤ pathDepth k n h →
      (Q / 8 ^ h) % 8 ^ (n - pathDepth k n h * k - h + j * k)
        = (M / 8 ^ h) % 8 ^ (n - pathDepth k n h * k - h + j * k) := by
    intro j
    induction j with
    | zero => intro _; simpa using hltd
    | succ j ih =>
      intro hj
      have hjk : (j + 1) * k ≤ pathDepth k n h * k := Nat.mul_le_mul_right k hj
      have hjk' : (j + 1) * k = j * k + k := by ring
      have hi' : pathDepth k n h - 1 - j < pathDepth k n h := by omega
      have hmul : (pathDepth k n h - 1 - j + 1) * k = pathDepth k n h * k - j * k := by
        have : pathDepth k n h - 1 - j + 1 = pathDepth k n h - j := by omega
        rw [this, Nat.sub_mul]
      have hslot := hp (pathDepth k n h - 1 - j) hi'
      rw [pathSlot_eq k n Q _ (by rw [hmul]; omega),
        pathSlot_eq k n M _ (by rw [hmul]; omega), hmul] at hslot
      have hexp : n - (pathDepth k n h * k - j * k)
          = h + (n - pathDepth k n h * k - h + j * k) := by omega
      rw [hexp, div_pow_add Q h, div_pow_add M h] at hslot
      have hpow : (8 : Nat) ^ (n - pathDepth k n h * k - h + (j + 1) * k)
          = 8 ^ (n - pathDepth k n h * k - h + j * k) * 8 ^ k := by
        rw [← pow_add]
        congr 1
        omega
      rw [hpow, Nat.mod_mul (x := Q / 8 ^ h), Nat.mod_mul (x := M / 8 ^ h), ih (by omega), hslot]
  have hfin := hstep (pathDepth k n h) (le_refl _)
  have hexp : n - pathDepth k n h * k - h + pathDepth k n h * k = n - h := by omega
  rw [hexp] at hfin
  exact hfin

theorem tree_size_lt_succ (a : Nat) : tree_size a < tree_size (a + 1) := by
  have := tree_size_succ a
  have h8 : 0 < 8 ^ a := Nat.pos_pow_of_pos a (by decide)
  omega

/-- Nodes of two paths that are stored at the same index of the same chunk
have the same height. -/
theorem pathNodeIndex_height (k n Q M h h' : Nat) (hn : h ≤ n) (hn' : h' ≤ n)
    (hd : pathDepth k n h' = pathDepth k n h)
    (hi : pathNodeIndex k n Q h' = pathNodeIndex k n M h) : h' = h := by
  have b1 := pathNodeIndex_bounds k n Q h'
  have b2 := pathNodeIndex_bounds k n M h
  have d1 := pathDepth_mul_le' k n h
  have d2 := pathDepth_mul_le' k n h'
  rw [hd] at b1 d2
  rw [hi] at b1
  have hlev : n - pathDepth k n h * k - h' = n - pathDepth k n h * k - h := by
    rcases Nat.lt_trichotomy (n - pathDepth k n h * k - h') (n - pathDepth k n h * k - h)
      with hlt | heq | hgt
    · have := tree_size_mono (show n - pathDepth k n h * k - h' + 1
        ≤ n - pathDepth k n h * k - h by omega)
      omega
    · exact heq
    · have := tree_size_mono (show n - pathDepth k n h * k - h + 1
        ≤ n - pathDepth k n h * k - h' by omega)
      omega
  omega
theorem pathData_eq_dataAt (k n Q : Nat) (t : Chunk) (h : Nat) :
    pathData k n Q t h
      = t.dataAt (chunkPtr k n Q (pathDepth k n h)) (pathNodeIndex k n Q h) := rfl

/-- The node data on a path are the same for every path that shares the
node. -/
theorem pathData_congr (k n Q M : Nat) (t : Chunk) (h : Nat) (hn : h ≤ n)
    (hs : sameAncestor n h Q M) : pathData k n Q t h = pathData k n M t h := by
  obtain ⟨h1, h2⟩ := sameNode_of_sameAncestor k n Q M h hn hs
  rw [pathData_eq_dataAt, pathData_eq_dataAt, h1, h2]

/-- The node data on the path to a cell after one update of the ascent of a
write to the node with Morton code `M`: the update shows on the path exactly
when the path passes through the updated node. -/
theorem pathData_modifyAlloc_addDetails (k n Q M : Nat) (hk : 0 < k) (t : Chunk)
    (ph : Nat) (det : Details) (h' : Nat) (hn : ph ≤ n) (hn' : h' ≤ n) :
    pathData k n Q (t.modifyAlloc (Chunk.addDetails (pathNodeIndex k n M ph) det)
        (chunkPtr k n M (pathDepth k n ph))) h'
      = pathData k n Q t h'
        + (if h' = ph ∧ sameAncestor n h' Q M then det else 0) := by
  rw [pathData_eq_dataAt, pathData_eq_dataAt, Chunk.addDetails_eq_mapData,
    Chunk.dataAt_modifyAlloc]
  by_cases hp : chunkPtr k n Q (pathDepth k n h') = chunkPtr k n M (pathDepth k n ph)
  · have hlen : pathDepth k n h' = pathDepth k n ph := by
      have := congrArg List.length hp
      rwa [chunkPtr_length, chunkPtr_length] at this
    rw [if_pos hp]
    by_cases hi : pathNodeIndex k n Q h' = pathNodeIndex k n M ph
    · have hh : h' = ph := pathNodeIndex_height k n Q M ph h' hn hn' hlen hi
      subst hh
      have hs : sameAncestor n h' Q M := sameAncestor_of_sameNode k n Q M h' hk hn' hp hi
      rw [if_pos ⟨rfl, hs⟩, hi, Function.update_same, hp]
    · rw [Function.update_noteq hi, hp]
      rw [if_neg]
      · simp
      · rintro ⟨hh, hs⟩
        subst hh
        exact hi (sameNode_of_sameAncestor k n Q M h' hn' hs).2
  · rw [if_neg hp, if_neg]
    · simp
    · rintro ⟨hh, hs⟩
      subst hh
      exact hp (sameNode_of_sameAncestor k n Q M h' hn' hs).1

theorem pathData_modifyAlloc_id (k n Q : Nat) (t : Chunk) (ptr : List Nat) (h' : Nat) :
    pathData k n Q (t.modifyAlloc id ptr) h' = pathData k n Q t h' := by
  have h : (id : Chunk → Chunk) = Chunk.mapData id id := by
    funext c
    cases c <;> rfl
  rw [pathData_eq_dataAt, pathData_eq_dataAt, h, Chunk.dataAt_modifyAlloc]
  by_cases hp : chunkPtr k n Q (pathDepth k n h') = ptr
  · rw [if_pos hp, hp]
    rfl
  · rw [if_neg hp]

theorem pathData_allocWrites (k n Q M : Nat) (h' : Nat) :
    ∀ (L : Nat) (t : Chunk),
      pathData k n Q (applyWrites (allocWrites k n M L) t) h' = pathData k n Q t h' := by
  intro L
  induction L with
  | zero => intro t; rfl
  | succ L ih =>
    intro t
    simp only [allocWrites]
    rw [applyWrites_append]
    simp only [applyWrites, List.foldl_cons, List.foldl_nil]
    rw [pathData_modifyAlloc_id]
    exact ih t

/-- The node data on the path to a cell after the ascent of a write to the
node with Morton code `M`. -/
theorem pathData_ascendWrites (T : HaarTransform) (k n Q M : Nat) (hk : 0 < k) (h' : Nat)
    (hn' : h' ≤ n) :
    ∀ (cnt ph : Nat) (co : Parent) (t : Chunk), ph + cnt ≤ n + 1 →
      pathData k n Q (applyWrites (ascendWrites T k n M cnt ph co) t) h'
        = pathData k n Q t h'
          + (if ph ≤ h' ∧ h' < ph + cnt ∧ sameAncestor n h' Q M
              then (ascendCoefficients T M (h' - ph + 1) ph co).2 else 0) := by
  intro cnt
  induction cnt with
  | zero =>
    intro ph co t _
    rw [if_neg (by omega)]
    simp [ascendWrites, applyWrites]
  | succ cnt ih =>
    intro ph co t hle
    simp only [ascendWrites, applyWrites_cons]
    rw [ih (ph + 1) _ _ (by omega),
      pathData_modifyAlloc_addDetails k n Q M hk t ph _ h' (by omega) hn']
    by_cases hs : sameAncestor n h' Q M
    · by_cases e1 : h' = ph
      · subst e1
        rw [if_pos ⟨rfl, hs⟩, if_neg (by omega), if_pos ⟨le_refl _, by omega, hs⟩]
        simp [ascendCoefficients]
      · rw [if_neg (by tauto)]
        by_cases e2 : ph + 1 ≤ h' ∧ h' < ph + 1 + cnt
        · rw [if_pos ⟨e2.1, e2.2, hs⟩, if_pos ⟨by omega, by omega, hs⟩]
          have e3 : h' - ph + 1 = (h' - (ph + 1) + 1) + 1 := by omega
          rw [e3, add_zero]
          rfl
        · rw [if_neg (by tauto), if_neg (by omega)]
          simp
    · rw [if_neg (by tauto), if_neg (by tauto), if_neg (by tauto)]
      simp
/-- The value on the path to a cell, at the heights from the top of the block
down to the height of the written node, after a write of `u` to the node with
Morton code `M` and height `ih`: the value grows by the scale that the ascent
carries at that height when the path passes through the ancestor of the
written node, and is unchanged otherwise. -/
theorem pathValue_write_above (T : HaarTransform) (hT : HaarLaws T) (Q M n : Nat)
    (D D' : Nat → Details) (root : ℚ) (ih : Nat) (u : ℚ)
    (hD : ∀ e, 1 ≤ e → e ≤ n →
      D' e = D e + (if ih + 1 ≤ e ∧ sameAncestor n e Q M
        then (ascendCoefficients T M (e - ih) (ih + 1) (u, 0)).2 else 0)) :
    ∀ j, j ≤ n - ih →
      pathValue T Q n D' (root + (ascendCoefficients T M (n - ih) (ih + 1) (u, 0)).1) j
        = pathValue T Q n D root j
          + (if sameAncestor n (n - j) Q M
              then (ascendCoefficients T M (n - j - ih) (ih + 1) (u, 0)).1 else 0) := by
  intro j
  induction j with
  | zero =>
    intro _
    have : sameAncestor n (n - 0) Q M := by
      simp only [sameAncestor, Nat.sub_zero, Nat.sub_self, pow_zero, Nat.mod_one]
    rw [if_pos this]
    rfl
  | succ j ih' =>
    intro hj
    simp only [pathValue]
    rw [ih' (by omega), hD (n - j) (by omega) (by omega)]
    have hpred := sameAncestor_pred n (n - j) Q M (by omega) (by omega)
    have e0 : n - j - 1 = n - (j + 1) := by omega
    rw [e0] at hpred
    have hz : T.backward ((0 : ℚ), (0 : Details)) = 0 := by
      have h0 : ((0 : ℚ), (0 : Details)) = (0 : Parent) := rfl
      rw [h0, hT.backward_zero]
    by_cases hs : sameAncestor n (n - j) Q M
    · rw [if_pos hs, if_pos ⟨by omega, hs⟩]
      have e1 : n - j - ih = (n - (j + 1) - ih) + 1 := by omega
      rw [e1, ascendCoefficients_succ]
      have e2 : ih + 1 + (n - (j + 1) - ih) = n - j := by omega
      rw [e2]
      have e3 : (pathValue T Q n D root j
            + (T.forwardSingleChild (ascendCoefficients T M (n - (j + 1) - ih) (ih + 1) (u, 0)).1
                (computeRelativeChildIndex M (n - j))).1,
          D (n - j) + (T.forwardSingleChild
              (ascendCoefficients T M (n - (j + 1) - ih) (ih + 1) (u, 0)).1
                (computeRelativeChildIndex M (n - j))).2)
          = (pathValue T Q n D root j, D (n - j))
            + T.forwardSingleChild (ascendCoefficients T M (n - (j + 1) - ih) (ih + 1) (u, 0)).1
                (computeRelativeChildIndex M (n - j)) := rfl
      rw [e3, hT.backwardSingleChild_eq, hT.backward_add, hT.backward_forwardSingleChild,
        hT.backwardSingleChild_eq]
      simp only [Pi.add_apply]
      by_cases hdig : computeRelativeChildIndex Q (n - j) = computeRelativeChildIndex M (n - j)
      · rw [if_pos (hpred.mpr ⟨hs, hdig⟩), hdig]
        simp
      · rw [if_neg (fun h => hdig (hpred.mp h).2)]
        simp [Pi.single_apply, hdig]
    · rw [if_neg hs, if_neg (by tauto), if_neg (fun h => hs (hpred.mp h).1)]
      simp

/-- The value on the path to a cell, at the heights from the height of the
written node down to 0, after a write of `u`: it grows by `u` for a cell below
the written node and is unchanged for the other cells. -/
theorem pathValue_write_below (T : HaarTransform) (hT : HaarLaws T)
    (hconst : ForwardOfConstant T) (Q M n : Nat)
    (D D' : Nat → Details) (root : ℚ) (ih : Nat) (hih : ih ≤ n) (u : ℚ)
    (hD : ∀ e, 1 ≤ e → e ≤ n →
      D' e = D e + (if ih + 1 ≤ e ∧ sameAncestor n e Q M
        then (ascendCoefficients T M (e - ih) (ih + 1) (u, 0)).2 else 0)) :
    ∀ i, n - ih + i ≤ n →
      pathValue T Q n D' (root + (ascendCoefficients T M (n - ih) (ih + 1) (u, 0)).1)
          (n - ih + i)
        = pathValue T Q n D root (n - ih + i)
          + (if sameAncestor n ih Q M then u else 0) := by
  intro i
  induction i with
  | zero =>
    intro _
    have h := pathValue_write_above T hT Q M n D D' root ih u hD (n - ih) (le_refl _)
    have e1 : n - (n - ih) = ih := by omega
    rw [e1, Nat.sub_self] at h
    simpa [ascendCoefficients] using h
  | succ i ih' =>
    intro hi
    have e : n - ih + (i + 1) = (n - ih + i) + 1 := by omega
    rw [e]
    simp only [pathValue]
    have hneg : ¬ (ih + 1 ≤ n - (n - ih + i) ∧ sameAncestor n (n - (n - ih + i)) Q M) :=
      fun hc => absurd hc.1 (by omega)
    rw [ih' (by omega), hD (n - (n - ih + i)) (by omega) (by omega), if_neg hneg, add_zero]
    have e3 : (pathValue T Q n D root (n - ih + i) + (if sameAncestor n ih Q M then u else 0),
          D (n - (n - ih + i)))
        = (pathValue T Q n D root (n - ih + i), D (n - (n - ih + i)))
          + ((if sameAncestor n ih Q M then u else 0), (0 : Details)) := by
      ext <;> simp
    rw [e3, hT.backwardSingleChild_eq, hT.backward_add, backward_of_constant T hT hconst,
      hT.backwardSingleChild_eq]
    rfl
/-- Once the detail coefficients below a height are all zero, the value on
the path no longer changes. -/
theorem pathValue_tail_const (T : HaarTransform) (hT : HaarLaws T)
    (hconst : ForwardOfConstant T) (Q n : Nat) (D : Nat → Details) (root : ℚ) (j : Nat)
    (hD : ∀ e, 1 ≤ e → e ≤ n - j → D e = 0) :
    ∀ i, j + i ≤ n → pathValue T Q n D root (j + i) = pathValue T Q n D root j := by
  intro i
  induction i with
  | zero => intro _; rfl
  | succ i ih =>
    intro hi
    have e : j + (i + 1) = (j + i) + 1 := by omega
    rw [e]
    simp only [pathValue]
    rw [ih (by omega), hD (n - (j + i)) (by omega) (by omega), hT.backwardSingleChild_eq,
      backward_of_constant T hT hconst]

/-- Below a chunk that is not allocated, the path has no detail
coefficients. -/
theorem pathData_of_deref_none (k n M : Nat) (t : Chunk) (d : Nat)
    (hd : t.deref (chunkPtr k n M d) = none) (e : Nat) (he : d ≤ pathDepth k n e) :
    pathData k n M t e = 0 := by
  simp only [pathData, chunkDataAt]
  obtain ⟨x, hx⟩ : ∃ x, pathDepth k n e = d + x := ⟨pathDepth k n e - d, by omega⟩
  rw [hx, chunkPtr_add, Chunk.deref_append, hd]
  rfl

/-- The value reconstructed for a height-0 cell is the value decompressed
along the path to the cell, with zero detail coefficients where the chunks of
the path are not allocated. -/
theorem reconstructChunk_eq_pathValue_any (T : HaarTransform) (hT : HaarLaws T)
    (hconst : ForwardOfConstant T) (k m M : Nat) (hk : 0 < k) (t : Chunk) (root : ℚ) :
    ∀ r d c, r + d = m → 1 ≤ r → t.deref (chunkPtr k (k * m) M d) = some c →
      reconstructChunk T k M 0 c (k * m - d * k)
          (pathValue T M (k * m) (pathData k (k * m) M t) root (d * k))
        = pathValue T M (k * m) (pathData k (k * m) M t) root (k * m) := by
  intro r
  induction r with
  | zero => intro d c _ h; omega
  | succ r ih =>
    intro d c hrd hr hc
    have hm : k * m = d * k + (r + 1) * k := by
      rw [← hrd]
      ring
    have hrk : (r + 1) * k = r * k + k := by ring
    have htop : k * m - d * k = r * k + k := by omega
    have hdl := decompressLevels_eq_pathValue T k (k * m) M t root d c hc k (d * k)
      (by
        intro i hi
        constructor
        · exact pathDepth_eq k (k * m) _ d i hi (by omega)
        · omega)
    have hpos : 0 < k * m - d * k := by omega
    have hval : decompressLevels T c M (k * m - d * k) 0 k (k * m - d * k)
        (pathValue T M (k * m) (pathData k (k * m) M t) root (d * k))
        = pathValue T M (k * m) (pathData k (k * m) M t) root (d * k + k) := hdl
    have hslot : computeLevelTraversalDistance M (k * m - d * k) (k * m - d * k - k)
        = pathSlot k (k * m) M d := by
      simp only [pathSlot]
      have : k * m - d * k - k = k * m - (d + 1) * k := by
        rw [Nat.succ_mul]
        omega
      rw [this]
    have hd1 : (d + 1) * k = d * k + k := by ring
    have hstop : t.deref (chunkPtr k (k * m) M (d + 1)) = none →
        pathValue T M (k * m) (pathData k (k * m) M t) root (d * k + k)
          = pathValue T M (k * m) (pathData k (k * m) M t) root (k * m) := by
      intro hnone
      have h := pathValue_tail_const T hT hconst M (k * m) (pathData k (k * m) M t) root
        (d * k + k)
        (by
          intro e he1 he2
          apply pathData_of_deref_none k (k * m) M t (d + 1) hnone
          simp only [pathDepth]
          rw [Nat.le_div_iff_mul_le hk]
          omega)
        (r * k) (by omega)
      have e : d * k + k + r * k = k * m := by omega
      rw [e] at h
      exact h.symm
    by_cases hr1 : r = 0
    · subst hr1
      have hend : d * k + k = k * m := by omega
      cases c with
      | leafChunk dt fl =>
        simp only [reconstructChunk]
        rw [if_pos hpos, hval, hend]
      | innerChunk dt fl pr cs =>
        simp only [reconstructChunk]
        rw [if_pos hpos, hval, hend, if_pos (by omega)]
    · have hrpos : 0 < r * k := Nat.mul_pos (by omega) hk
      cases c with
      | leafChunk dt fl =>
        simp only [reconstructChunk]
        rw [if_pos hpos, hval]
        apply hstop
        rw [chunkPtr_succ, Chunk.deref_append, hc]
        rfl
      | innerChunk dt fl pr cs =>
        simp only [reconstructChunk]
        rw [if_pos hpos, hval, if_neg (by omega), hslot]
        by_cases hpr : pr (pathSlot k (k * m) M d) = true
        · rw [if_pos hpr]
          have hcn : t.deref (chunkPtr k (k * m) M (d + 1))
              = some (cs (pathSlot k (k * m) M d)) := by
            rw [chunkPtr_succ, Chunk.deref_append, hc]
            simp [Chunk.deref, hpr]
          have hnext := ih (d + 1) (cs (pathSlot k (k * m) M d)) (by omega) (by omega) hcn
          have e1 : k * m - d * k - k = k * m - (d + 1) * k := by omega
          rw [e1, ← hd1]
          exact hnext
        · rw [if_neg hpr]
          apply hstop
          rw [chunkPtr_succ, Chunk.deref_append, hc]
          simp [Chunk.deref, hpr]

/-- The value that a block reconstructs for a height-0 cell is the value
decompressed along the path to the cell. -/
theorem reconstruct_eq_pathValue_any (T : HaarTransform) (hT : HaarLaws T)
    (hconst : ForwardOfConstant T) (k m : Nat) (hk : 0 < k) (hm : 0 < m)
    (blk : HashedChunkedWaveletOctreeBlock) (hn : blk.tree_height = k * m) (index : OctreeIndex)
    (h0 : index.height = 0) :
    blk.reconstruct T k index
      = pathValue T (nodeIndexToMorton index) (k * m)
          (pathData k (k * m) (nodeIndexToMorton index) blk.chunked_ndtree)
          blk.root_scale_coefficient (k * m) := by
  have h := reconstructChunk_eq_pathValue_any T hT hconst k m (nodeIndexToMorton index) hk
    blk.chunked_ndtree blk.root_scale_coefficient m 0 blk.chunked_ndtree (by omega) hm
    (by rw [chunkPtr_zero, Chunk.deref_nil])
  simp only [Nat.zero_mul, Nat.sub_zero, pathValue] at h
  simp only [HashedChunkedWaveletOctreeBlock.reconstruct, hn, h0]
  exact h
/-- Without rounding, the rounded Haar transform is the Haar transform. -/
theorem haarRounded_id : haarRounded id = haar := by
  have hf : haarForwardRounded id = haarForward := by
    funext x
    simp only [haarForwardRounded, haarForward, roundedSum, List.foldl, id]
    refine Prod.ext rfl ?_
    funext i
    fin_cases i <;> simp [sub_eq_add_neg]
  have hb : haarBackwardRounded id = haarBackward := by
    funext p i
    fin_cases i <;> simp [haarBackwardRounded, haarBackward, roundedSum, sub_eq_add_neg]
  simp only [haarRounded, haar, hf, hb]

/-- Without rounding, the rounded ascent is the ascent. -/
theorem ascendRounded_id (T : HaarTransform) (k n M : Nat) (ptrs : Nat → Option (List Nat)) :
    ∀ cnt ph co tree, ascendRounded id T k n M ptrs cnt ph co tree
      = ascend T k n M ptrs cnt ph co tree := by
  intro cnt
  induction cnt with
  | zero => intro ph co tree; rfl
  | succ cnt ih =>
    intro ph co tree
    simp only [ascendRounded, ascend, ih]
    rfl

/-- Without rounding, the rounded `addToCellValue` is `addToCellValue`. -/
theorem addToCellValueRounded_id (T : HaarTransform) (k : Nat)
    (blk : HashedChunkedWaveletOctreeBlock) (index : OctreeIndex) (u : ℚ) :
    blk.addToCellValueRounded id T k index u = blk.addToCellValue T k index u := by
  simp only [HashedChunkedWaveletOctreeBlock.addToCellValueRounded,
    HashedChunkedWaveletOctreeBlock.addToCellValue, ascendRounded_id, id]
/-- The rounding to `float` at some values: `0.1f`, ties to even at
`1 + 2^-24` (down) and `1 + 3 * 2^-24` (up), a negative value, a value with
more than 24 bits, a subnormal tie, and values that are `float`s already. -/
theorem roundFloat32_examples :
    roundFloat32 (1 / 10) = 13421773 / 134217728
      ∧ roundFloat32 (1 + 1 / 16777216) = 1
      ∧ roundFloat32 (1 + 3 / 16777216) = 4194305 / 4194304
      ∧ roundFloat32 (-7 / 5) = -11744051 / 8388608
      ∧ roundFloat32 123456789 = 123456792
      ∧ roundFloat32 (3 / 2 ^ 150) = 1 / 2 ^ 148
      ∧ roundFloat32 (13421773 / 134217728) = 13421773 / 134217728
      ∧ roundFloat32 10 = 10 := by
  refine ⟨by decide!, by decide!, by decide!, by decide!, by decide!, by decide!, by decide!,
    by decide!⟩

theorem haar_backward_forward (x : CoefficientsArray) : haarBackward (haarForward x) = x := by
  funext i
  fin_cases i <;> simp [haarBackward, haarForward] <;> ring

theorem haar_forward_backward (p : Parent) : haarForward (haarBackward p) = p := by
  apply Prod.ext
  · simp [haarBackward, haarForward]
    ring
  · funext i
    fin_cases i <;> simp [haarBackward, haarForward] <;> ring

theorem haar_forward_add (x y : CoefficientsArray) :
    haarForward (x + y) = haarForward x + haarForward y := by
  apply Prod.ext
  · simp [haarForward]
    ring
  · funext i
    fin_cases i <;> simp [haarForward] <;> ring

theorem haar_laws : HaarLaws haar where
  backward_forward := haar_backward_forward
  forward_backward := haar_forward_backward
  forward_add := haar_forward_add
  backwardSingleChild_eq := fun _ _ => rfl
  backward_forwardSingleChild := fun delta i => haar_backward_forward (Pi.single i delta)

theorem haar_scaleIsAverage : ScaleIsAverage haar := by
  intro x
  simp [haar, haarForward, Fin.sum_univ_eight]

theorem haar_forwardOfConstant : ForwardOfConstant haar := by
  intro c
  apply Prod.ext
  · simp [haar, haarForward]
    ring
  · funext i
    fin_cases i <;> simp [haar, haarForward]

/-! ## The claims -/

theorem saturatedBlock_wellFormed : saturatedBlock.WellFormed 1 :=
  ⟨by decide, 1, by decide, rfl, trivial⟩

theorem inRangeBlock_wellFormed : inRangeBlock.WellFormed 1 :=
  ⟨by decide, 1, by decide, rfl, trivial⟩

theorem inRangeBlock_reconstruct : inRangeBlock.reconstruct haar 1 ⟨0, 0⟩ = 3 := by
  simp [HashedChunkedWaveletOctreeBlock.reconstruct, inRangeBlock, Chunk.fresh, reconstructChunk,
    decompressLevels, haar, haarBackward, computeRelativeChildIndex, nodeIndexToMorton,
    Chunk.nodeData]

/-- C3, as stated, fails in `float` arithmetic, where the re-encoding of
`threshold()` rounds.  The block `roundedBlock` (height 1, bounds `[-2, 4]`)
holds the `float` coefficients that `addToCellValue` leaves after the updates
10 to cell 0, `0.1f` to cell 1 and `float(1/3)` to cell 2 of a new block; it
is well formed and needs thresholding.  After `threshold()` the value
reconstructed for cell 0 is `8388609/2097152 = 4 + 2^-21`, above
`max_log_odds = 4`. -/
theorem threshold_rounded_cell_above_max :
    (((HashedChunkedWaveletOctreeBlock.fresh 1 (-2) 4).addToCellValueRounded roundFloat32
            haarFloat32 1 (OctreeIndex.mk 0 0) 10).bind
          (fun b => (b.addToCellValueRounded roundFloat32 haarFloat32 1 (OctreeIndex.mk 0 1)
            (13421773 / 134217728)).bind
          (fun b => b.addToCellValueRounded roundFloat32 haarFloat32 1 (OctreeIndex.mk 0 2)
            (11184811 / 33554432)))).map
        (fun b => (b.root_scale_coefficient, (List.finRange 7).map (b.chunked_ndtree.nodeData 0),
          b.needs_thresholding))
      = some (roundedBlock.root_scale_coefficient,
          (List.finRange 7).map (roundedBlock.chunked_ndtree.nodeData 0), true)
      ∧ roundedBlock.WellFormed 1
      ∧ roundedBlock.needs_thresholding = true
      ∧ roundedBlock.min_log_odds ≤ roundedBlock.max_log_odds
      ∧ (roundedBlock.threshold haarFloat32 1).reconstruct haarFloat32 1 (OctreeIndex.mk 0 0)
          = 8388609 / 2097152
      ∧ roundedBlock.max_log_odds
          < (roundedBlock.threshold haarFloat32 1).reconstruct haarFloat32 1
              (OctreeIndex.mk 0 0) := by
  refine ⟨by decide!, ⟨by decide, 1, by decide, rfl, trivial⟩, rfl, by decide!, by decide!,
    by decide!⟩

/-- C3 (amended): in exact arithmetic, for every well-formed block that needs
thresholding, with `min_log_odds ≤ max_log_odds`, after `threshold()` the
value reconstructed for every height-0 cell of the block lies in
`[min_log_odds, max_log_odds]`. -/
theorem threshold_saturates_cells (T : HaarTransform) (hT : HaarLaws T) (kChunkHeight : Nat)
    (blk : HashedChunkedWaveletOctreeBlock) (hwf : blk.WellFormed kChunkHeight)
    (hflag : blk.needs_thresholding = true) (hle : blk.min_log_odds ≤ blk.max_log_odds)
    (index : OctreeIndex) (h0 : index.height = 0) :
    blk.min_log_odds ≤ (blk.threshold T kChunkHeight).reconstruct T kChunkHeight index
      ∧ (blk.threshold T kChunkHeight).reconstruct T kChunkHeight index ≤ blk.max_log_odds := by
  rw [reconstruct_threshold T hT kChunkHeight blk hwf hflag index h0]
  exact clamp_mem _ _ _ hle

theorem threshold_saturates_cells_witness :
    HaarLaws haar ∧ saturatedBlock.WellFormed 1 ∧ saturatedBlock.needs_thresholding = true
      ∧ saturatedBlock.min_log_odds ≤ saturatedBlock.max_log_odds
      ∧ (saturatedBlock.min_log_odds ≤ (saturatedBlock.threshold haar 1).reconstruct haar 1 ⟨0, 0⟩
        ∧ (saturatedBlock.threshold haar 1).reconstruct haar 1 ⟨0, 0⟩
            ≤ saturatedBlock.max_log_odds) :=
  ⟨haar_laws, saturatedBlock_wellFormed, rfl, by norm_num [saturatedBlock],
    threshold_saturates_cells haar haar_laws 1 saturatedBlock saturatedBlock_wellFormed rfl
      (by norm_num [saturatedBlock]) ⟨0, 0⟩ rfl⟩

/-- C4: for every well-formed block and every height-0 cell whose reconstructed
value before `threshold()` lies in `[min_log_odds, max_log_odds]`, the value
reconstructed after `threshold()` is the same as before. -/
theorem threshold_keeps_in_range_cells (T : HaarTransform) (hT : HaarLaws T) (kChunkHeight : Nat)
    (blk : HashedChunkedWaveletOctreeBlock) (hwf : blk.WellFormed kChunkHeight)
    (index : OctreeIndex) (h0 : index.height = 0)
    (hlo : blk.min_log_odds ≤ blk.reconstruct T kChunkHeight index)
    (hhi : blk.reconstruct T kChunkHeight index ≤ blk.max_log_odds) :
    (blk.threshold T kChunkHeight).reconstruct T kChunkHeight index
      = blk.reconstruct T kChunkHeight index := by
  by_cases hflag : blk.needs_thresholding = true
  · rw [reconstruct_threshold T hT kChunkHeight blk hwf hflag index h0]
    exact clamp_of_mem _ _ _ hlo hhi
  · simp [HashedChunkedWaveletOctreeBlock.threshold, hflag]

theorem threshold_keeps_in_range_cells_witness :
    HaarLaws haar ∧ inRangeBlock.WellFormed 1
      ∧ inRangeBlock.min_log_odds ≤ inRangeBlock.reconstruct haar 1 ⟨0, 0⟩
      ∧ inRangeBlock.reconstruct haar 1 ⟨0, 0⟩ ≤ inRangeBlock.max_log_odds
      ∧ (inRangeBlock.threshold haar 1).reconstruct haar 1 ⟨0, 0⟩
          = inRangeBlock.reconstruct haar 1 ⟨0, 0⟩ :=
  ⟨haar_laws, inRangeBlock_wellFormed,
    by rw [inRangeBlock_reconstruct]; norm_num [inRangeBlock],
    by rw [inRangeBlock_reconstruct]; norm_num [inRangeBlock],
    threshold_keeps_in_range_cells haar haar_laws 1 inRangeBlock inRangeBlock_wellFormed ⟨0, 0⟩ rfl
      (by rw [inRangeBlock_reconstruct]; norm_num [inRangeBlock])
      (by rw [inRangeBlock_reconstruct]; norm_num [inRangeBlock])⟩

/-- C5: thresholding is idempotent as a recompaction.  With
`min_log_odds ≤ max_log_odds`, if `recursiveThreshold` on a chunk tree and an
incoming scale returns the scale `s'` and the bit `b` and leaves the tree
`T'`, then `recursiveThreshold` on `T'` and `s'` returns `s'` and `b` again
and leaves `T'` unchanged. -/
theorem recursiveThreshold_idempotent (T : HaarTransform) (hT : HaarLaws T) (kChunkHeight : Nat)
    (min_log_odds max_log_odds : ℚ) (hle : min_log_odds ≤ max_log_odds) (chunk : Chunk)
    (scale_coefficient : ℚ) :
    (recursiveThreshold T kChunkHeight min_log_odds max_log_odds
        (recursiveThreshold T kChunkHeight min_log_odds max_log_odds chunk scale_coefficient).1
        (recursiveThreshold T kChunkHeight min_log_odds max_log_odds chunk
          scale_coefficient).2.scale).1
      = (recursiveThreshold T kChunkHeight min_log_odds max_log_odds chunk scale_coefficient).1
    ∧ (recursiveThreshold T kChunkHeight min_log_odds max_log_odds
        (recursiveThreshold T kChunkHeight min_log_odds max_log_odds chunk scale_coefficient).1
        (recursiveThreshold T kChunkHeight min_log_odds max_log_odds chunk
          scale_coefficient).2.scale).2.scale
      = (recursiveThreshold T kChunkHeight min_log_odds max_log_odds chunk
          scale_coefficient).2.scale
    ∧ (recursiveThreshold T kChunkHeight min_log_odds max_log_odds
        (recursiveThreshold T kChunkHeight min_log_odds max_log_odds chunk scale_coefficient).1
        (recursiveThreshold T kChunkHeight min_log_odds max_log_odds chunk
          scale_coefficient).2.scale).2.is_nonzero_child
      = (recursiveThreshold T kChunkHeight min_log_odds max_log_odds chunk
          scale_coefficient).2.is_nonzero_child := by
  rw [recursiveThreshold_twice T hT kChunkHeight min_log_odds max_log_odds hle chunk
    scale_coefficient]
  exact ⟨rfl, rfl, rfl⟩

theorem recursiveThreshold_idempotent_witness :
    HaarLaws haar ∧ (-2 : ℚ) ≤ 4
      ∧ ((recursiveThreshold haar 1 (-2) 4 (recursiveThreshold haar 1 (-2) 4 Chunk.fresh 10).1
            (recursiveThreshold haar 1 (-2) 4 Chunk.fresh 10).2.scale).1
          = (recursiveThreshold haar 1 (-2) 4 Chunk.fresh 10).1
        ∧ (recursiveThreshold haar 1 (-2) 4 (recursiveThreshold haar 1 (-2) 4 Chunk.fresh 10).1
            (recursiveThreshold haar 1 (-2) 4 Chunk.fresh 10).2.scale).2.scale
          = (recursiveThreshold haar 1 (-2) 4 Chunk.fresh 10).2.scale
        ∧ (recursiveThreshold haar 1 (-2) 4 (recursiveThreshold haar 1 (-2) 4 Chunk.fresh 10).1
            (recursiveThreshold haar 1 (-2) 4 Chunk.fresh 10).2.scale).2.is_nonzero_child
          = (recursiveThreshold haar 1 (-2) 4 Chunk.fresh 10).2.is_nonzero_child) :=
  ⟨haar_laws, by norm_num,
    recursiveThreshold_idempotent haar haar_laws 1 (-2) 4 (by norm_num) Chunk.fresh 10⟩
theorem fresh_not_keptByPrune : ¬ Chunk.fresh.keptByPrune 1 := by
  rintro (⟨i, _, h⟩ | h)
  · simp [Chunk.fresh, Chunk.hasChild] at h
  · simp [Chunk.fresh, Chunk.hasNonzeroData, Chunk.nodeData, is_nonzero_thr,
      kNonzeroCoefficientThreshold] at h

/-- C6, as stated, fails for the root chunk: pruning a block whose root chunk
is empty leaves the root chunk in the tree, childless and with all detail
coefficients zero. -/
theorem prune_keeps_empty_root :
    emptyDirtyBlock.needs_pruning = true
      ∧ (emptyDirtyBlock.prune haar 1).chunked_ndtree.deref [] = some Chunk.fresh
      ∧ ¬ Chunk.fresh.keptByPrune 1 := by
  refine ⟨rfl, ?_, fresh_not_keptByPrune⟩
  simp [HashedChunkedWaveletOctreeBlock.prune, HashedChunkedWaveletOctreeBlock.threshold,
    emptyDirtyBlock, Chunk.fresh, recursivePrune, Chunk.deref]

/-- C6, amended: after `prune()` on a block that needs pruning, every chunk
of the block's chunk tree other than the root chunk (every chunk reached from
the root through a non-empty path of allocated child slots) has at least one
child chunk or a detail coefficient that `hasNonzeroData(1e-3)` counts as
nonzero. -/
theorem prune_survivors_not_empty (T : HaarTransform) (kChunkHeight : Nat)
    (blk : HashedChunkedWaveletOctreeBlock) (hflag : blk.needs_pruning = true)
    (path : List Nat) (hne : path ≠ []) (hvalid : ∀ i, i ∈ path → i < kNumChildren kChunkHeight)
    (c : Chunk) (hc : (blk.prune T kChunkHeight).chunked_ndtree.deref path = some c) :
    c.keptByPrune kChunkHeight := by
  simp only [HashedChunkedWaveletOctreeBlock.prune, hflag, if_true] at hc
  exact recursivePrune_survivors kChunkHeight _ path c hne hvalid hc

theorem oneChildBlock_prune :
    (oneChildBlock.prune haar 1).chunked_ndtree.deref [0]
      = some (Chunk.leafChunk (fun _ _ => 1) (fun _ => false)) := by
  have he : erasedByPrune 1 (Chunk.leafChunk (fun _ _ => 1) (fun _ => false)) = false := by
    simp only [erasedByPrune, Chunk.hasChildrenArray, Bool.not_false, Bool.true_and,
      Bool.not_eq_false']
    simp only [Chunk.hasNonzeroData, decide_eq_true_eq]
    refine ⟨0, by decide, ?_⟩
    simp only [is_nonzero_thr, Chunk.nodeData, decide_eq_true_eq]
    exact ⟨0, by norm_num [kNonzeroCoefficientThreshold]⟩
  have hflag : (pruneLoopSpec 1 (fun i => decide (i = 0))
      (fun i => recursivePrune 1 (Chunk.leafChunk (fun _ _ => 1) (fun _ => false)))
      { present := fun i => decide (i = 0),
        child_chunks := fun _ => Chunk.leafChunk (fun _ _ => 1) (fun _ => false),
        has_at_least_one_child := false } (kNumChildren 1)).has_at_least_one_child = true := by
    simp only [pruneLoopSpec, Bool.false_or, decide_eq_true_eq]
    exact ⟨0, by decide, by simp, by simpa [recursivePrune] using he⟩
  simp only [HashedChunkedWaveletOctreeBlock.prune, HashedChunkedWaveletOctreeBlock.threshold,
    oneChildBlock, if_true, Bool.false_eq_true, if_false]
  rw [recursivePrune_innerChunk]
  simp only [hflag, Bool.not_true, Bool.false_eq_true, if_false, Chunk.deref]
  simp only [pruneLoopSpec, recursivePrune, he]
  simp [kNumChildren, level_size]

theorem prune_survivors_not_empty_witness :
    oneChildBlock.needs_pruning = true ∧ ([0] : List Nat) ≠ []
      ∧ (∀ i, i ∈ ([0] : List Nat) → i < kNumChildren 1)
      ∧ (oneChildBlock.prune haar 1).chunked_ndtree.deref [0]
          = some (Chunk.leafChunk (fun _ _ => 1) (fun _ => false))
      ∧ (Chunk.leafChunk (fun _ _ => 1) (fun _ => false)).keptByPrune 1 :=
  ⟨rfl, by simp, by simp [kNumChildren, level_size], oneChildBlock_prune,
    prune_survivors_not_empty haar 1 oneChildBlock rfl [0] (by simp)
      (by simp [kNumChildren, level_size]) _ oneChildBlock_prune⟩

/-- C8: `prune` is idempotent: for every block state, two `prune()` calls in a
row leave the block (root scale, chunk tree, dirty flags and stamp) as a
single call leaves it. -/
theorem prune_idempotent (T : HaarTransform) (kChunkHeight : Nat)
    (blk : HashedChunkedWaveletOctreeBlock) :
    (blk.prune T kChunkHeight).prune T kChunkHeight = blk.prune T kChunkHeight := by
  by_cases h : blk.needs_pruning = true
  · simp [HashedChunkedWaveletOctreeBlock.prune, h]
  · simp [HashedChunkedWaveletOctreeBlock.prune, h]
/-- C2, as stated, fails in two ways.  Without any update, `threshold()`
does nothing (`needs_thresholding` is clear): in a fresh block with bounds
`[1, 4]` the leaf keeps the value 0, while `clamp(0, 1, 4) = 1`.  In `float`
arithmetic the sums of `addToCellValue` round: after ten updates of `0.1f`
(the `float` nearest to 1/10) to one leaf of a fresh block with bounds
`[-2, 4]`, the leaf holds `8388609/8388608` (after `threshold()` in a block of
height 1 with chunks of height 1, and already before it in a block of height
6 with chunks of height 3), while the sum of the ten updates is
`67108865/67108864`. -/
theorem addToCellValue_threshold_sum_fails :
    (((HashedChunkedWaveletOctreeBlock.fresh (3 * 2) 1 4).addToCellValueAll haar 3
            (OctreeIndex.mk 0 5) []).map
          (fun blk => (blk.threshold haar 3).reconstruct haar 3 (OctreeIndex.mk 0 5)) = some 0
        ∧ clamp ([] : List ℚ).sum 1 4 = 1)
      ∧ (roundFloat32 (1 / 10) = 13421773 / 134217728
        ∧ ((HashedChunkedWaveletOctreeBlock.fresh (1 * 1) (-2) 4).addToCellValueAllRounded
              roundFloat32 haarFloat32 1 (OctreeIndex.mk 0 0)
              (List.replicate 10 (13421773 / 134217728))).map
            (fun blk => (blk.threshold haarFloat32 1).reconstruct haarFloat32 1
              (OctreeIndex.mk 0 0))
          = some (8388609 / 8388608)
        ∧ ((HashedChunkedWaveletOctreeBlock.fresh (3 * 2) (-2) 4).addToCellValueAllRounded
              roundFloat32 haarFloat32 3 (OctreeIndex.mk 0 5)
              (List.replicate 10 (13421773 / 134217728))).map
            (fun blk => blk.reconstruct haarFloat32 3 (OctreeIndex.mk 0 5))
          = some (8388609 / 8388608)
        ∧ clamp (List.replicate 10 (13421773 / 134217728 : ℚ)).sum (-2) 4
          = 67108865 / 67108864) := by
  refine ⟨⟨by decide!, by decide!⟩, by decide!, by decide!, by decide!, by decide!⟩

/-- C2 (amended): in exact arithmetic, in a fresh block (root scale 0, no
chunks), for every leaf index and every non-empty sequence of updates
`D_1, ..., D_n`, with `min_log_odds ≤ max_log_odds`: the calls
`addToCellValue(index, D_k)` all return, and after `threshold()` the value
reconstructed for the leaf is
`clamp(D_1 + ... + D_n, min_log_odds, max_log_odds)`. -/
theorem addToCellValue_threshold_clamps_sum (T : HaarTransform) (hT : HaarLaws T)
    (kChunkHeight levels : Nat) (hk : 0 < kChunkHeight) (hl : 0 < levels)
    (min_log_odds max_log_odds : ℚ) (_hle : min_log_odds ≤ max_log_odds)
    (index : OctreeIndex) (h0 : index.height = 0) (updates : List ℚ) (hne : updates ≠ []) :
    ∃ blk, (HashedChunkedWaveletOctreeBlock.fresh (kChunkHeight * levels) min_log_odds
          max_log_odds).addToCellValueAll T kChunkHeight index updates = some blk
      ∧ (blk.threshold T kChunkHeight).reconstruct T kChunkHeight index
          = clamp updates.sum min_log_odds max_log_odds := by
  obtain ⟨blk, f1, f2, f3, f4, f5, f6, f7, f8⟩ :=
    addToCellValueAll_spec T hT kChunkHeight levels hk hl index h0 updates
      (HashedChunkedWaveletOctreeBlock.fresh (kChunkHeight * levels) min_log_odds max_log_odds)
      rfl trivial (Or.inl hne)
  refine ⟨blk, f1, ?_⟩
  have hn : blk.tree_height = kChunkHeight * levels := f2
  have hwf : blk.WellFormed kChunkHeight := ⟨hk, levels, hl, hn, f6⟩
  rw [reconstruct_threshold T hT kChunkHeight blk hwf f5 index h0,
    reconstruct_eq_pathValue T kChunkHeight levels hk hl blk hn index h0 f7, f8, f3, f4]
  have hz : pathData kChunkHeight (kChunkHeight * levels) (nodeIndexToMorton index)
      (HashedChunkedWaveletOctreeBlock.fresh (kChunkHeight * levels) min_log_odds
        max_log_odds).chunked_ndtree = fun _ => 0 := by
    funext h
    exact pathData_fresh _ _ _ h
  rw [hz]
  have hr : (HashedChunkedWaveletOctreeBlock.fresh (kChunkHeight * levels) min_log_odds
      max_log_odds).root_scale_coefficient = 0 := rfl
  rw [hr, pathValue_zero T hT, zero_add]
  rfl

theorem addToCellValue_threshold_clamps_sum_witness :
    HaarLaws haar ∧ 0 < 3 ∧ 0 < 2 ∧ (-2 : ℚ) ≤ 4 ∧ (OctreeIndex.mk 0 5).height = 0
      ∧ List.replicate 100 (10 : ℚ) ≠ []
      ∧ ∃ blk, (HashedChunkedWaveletOctreeBlock.fresh (3 * 2) (-2) 4).addToCellValueAll haar 3
            (OctreeIndex.mk 0 5) (List.replicate 100 10) = some blk
          ∧ (blk.threshold haar 3).reconstruct haar 3 (OctreeIndex.mk 0 5)
              = clamp (List.replicate 100 (10 : ℚ)).sum (-2) 4 :=
  ⟨haar_laws, by decide, by decide, by norm_num, rfl, by simp,
    addToCellValue_threshold_clamps_sum haar haar_laws 3 2 (by decide) (by decide) (-2) 4
      (by norm_num) (OctreeIndex.mk 0 5) rfl (List.replicate 100 10) (by simp)⟩
/-- With chunks of height 1 in a block of height 2, `setCellValue` on a
height-0 cell dereferences a null chunk pointer: the descent stops one chunk
too early and the ascent finds `chunk_ptrs[1]` unset. -/
theorem setCellValue_null_pointer_example :
    (HashedChunkedWaveletOctreeBlock.fresh 2 (-2) 4).setCellValue haar 1 (OctreeIndex.mk 0 0) 1
      = none := by
  rfl

/-- C1: for every block state whose tree height is a positive multiple of the
chunk height (of at least 2, or with a single chunk level), every height-0
index and every value `v`, with a transform that obeys the laws:
`setCellValue(index, v)` returns, and the value reconstructed at `index` from
`root_scale_coefficient` and the detail coefficients of its ancestors is then
`v`. -/
theorem setCellValue_reconstructs (T : HaarTransform) (hT : HaarLaws T)
    (kChunkHeight levels : Nat) (hk : 0 < kChunkHeight) (hl : 0 < levels)
    (hchunk : 2 ≤ kChunkHeight ∨ levels = 1) (blk : HashedChunkedWaveletOctreeBlock)
    (hn : blk.tree_height = kChunkHeight * levels) (index : OctreeIndex)
    (h0 : index.height = 0) (v : ℚ) :
    ∃ blk', blk.setCellValue T kChunkHeight index v = some blk'
      ∧ blk'.reconstruct T kChunkHeight index = v := by
  obtain ⟨blk', e1, e2, _, _, _, _, _, e7, e8⟩ :=
    setCellValue_spec T hT kChunkHeight levels hk hl hchunk blk hn index h0 v
  refine ⟨blk', e1, ?_⟩
  rw [reconstruct_eq_pathValue T kChunkHeight levels hk hl blk' (by rw [e2, hn]) index h0 e7]
  exact e8

theorem setCellValue_reconstructs_witness :
    HaarLaws haar ∧ 0 < 3 ∧ 0 < 2 ∧ (2 ≤ 3 ∨ 2 = 1)
      ∧ saturatedDeepBlock.tree_height = 3 * 2 ∧ (OctreeIndex.mk 0 5).height = 0
      ∧ ∃ blk', saturatedDeepBlock.setCellValue haar 3 (OctreeIndex.mk 0 5) 7 = some blk'
          ∧ blk'.reconstruct haar 3 (OctreeIndex.mk 0 5) = 7 :=
  ⟨haar_laws, by decide, by decide, Or.inl (by decide), rfl, rfl,
    setCellValue_reconstructs haar haar_laws 3 2 (by decide) (by decide) (Or.inl (by decide))
      saturatedDeepBlock rfl (OctreeIndex.mk 0 5) rfl 7⟩
/-- C9: for every non-empty block (of positive height) and every
`termination_height ≥ 0`, `forEachLeaf` returns and passes each leaf to the
visitor exactly once: the visited node indices are pairwise distinct, none is
an ancestor of another, and every height-0 cell of the block is covered by
exactly one visited node. -/
theorem forEachLeaf_visits_each_leaf_once (T : HaarTransform) (kChunkHeight : Nat)
    (blk : HashedChunkedWaveletOctreeBlock) (block_index termination_height : Nat)
    (hne : blk.empty kChunkHeight = false) (hpos : 0 < blk.tree_height) :
    ∃ visits, blk.forEachLeaf T kChunkHeight block_index termination_height = some visits
      ∧ (visits.map Prod.fst).Pairwise
          (fun a b => a ≠ b ∧ ¬ a.isAncestorOrSelf b ∧ ¬ b.isAncestorOrSelf a)
      ∧ ∀ q, q / 8 ^ blk.tree_height = block_index →
          (visits.map Prod.fst).countP (OctreeIndex.covers q) = 1 := by
  have hinit : LeafCover blk.tree_height block_index
      [{ node_index := { height := blk.tree_height, position := block_index },
         node := { chunk := blk.chunked_ndtree, relative_node_depth := 0,
                   level_traversal_distance := 0 },
         scale_coefficient := blk.root_scale_coefficient }] [] := by
    refine ⟨?_, ?_, ?_, ?_⟩
    · intro e he
      simp only [List.mem_singleton] at he
      subst he
      exact hpos
    · intro e he
      simp only [List.mem_singleton] at he
      subst he
      exact ⟨le_refl _, by simp [OctreeIndex.insideBlock]⟩
    · intro v hv
      simp at hv
    · intro q hq
      simp [OctreeIndex.covers, hq]
  obtain ⟨visits, h1, h2⟩ := forEachLeafLoop_invariant T kChunkHeight termination_height
    (LeafCover blk.tree_height block_index)
    (fun top stack visited h =>
      leafCover_step T kChunkHeight termination_height _ _ top stack visited h)
    (tree_size (blk.tree_height + 1)) _ [] (by simp [stackMeasure]) hinit
  obtain ⟨_, _, h3, h4⟩ := h2
  have hcount : ∀ q, q / 8 ^ blk.tree_height = block_index →
      (visits.map Prod.fst).countP (OctreeIndex.covers q) = 1 := by
    intro q hq
    have := h4 q hq
    simpa using this
  refine ⟨visits, ?_, ?_, hcount⟩
  · simp only [HashedChunkedWaveletOctreeBlock.forEachLeaf, hne]
    exact h1
  · apply pairwise_of_countP_le_one blk.tree_height block_index
    · intro a ha
      simp only [List.mem_map] at ha
      obtain ⟨v, hv, rfl⟩ := ha
      exact h3 v hv
    · intro q hq
      rw [hcount q hq]

theorem forEachLeaf_visits_each_leaf_once_witness :
    oneChildBlock.empty 1 = false ∧ 0 < oneChildBlock.tree_height
      ∧ ∃ visits, oneChildBlock.forEachLeaf haar 1 0 0 = some visits
        ∧ (visits.map Prod.fst).Pairwise
            (fun a b => a ≠ b ∧ ¬ a.isAncestorOrSelf b ∧ ¬ b.isAncestorOrSelf a)
        ∧ ∀ q, q / 8 ^ oneChildBlock.tree_height = 0 →
            (visits.map Prod.fst).countP (OctreeIndex.covers q) = 1 :=
  ⟨rfl, by decide, forEachLeaf_visits_each_leaf_once haar 1 oneChildBlock 0 0 rfl (by decide)⟩

theorem overflowBlock_reached :
    (HashedChunkedWaveletOctreeBlock.fresh 1 (-2) 4).addToCellValue haar 1 (OctreeIndex.mk 0 0) 10
      = some overflowBlock := by
  rfl

theorem overflowBlock_not_empty : overflowBlock.empty 1 = false := by
  simp only [HashedChunkedWaveletOctreeBlock.empty, Chunk.empty, overflowBlock,
    Chunk.hasChildrenArray, Bool.not_false, Bool.true_and, Bool.not_eq_false',
    Chunk.hasNonzeroDataExact, decide_eq_true_eq]
  refine ⟨0, by decide, ?_⟩
  simp only [is_nonzero, Chunk.nodeData, Function.update_same, decide_eq_true_eq]
  refine ⟨0, ?_⟩
  simp [haar, haarForward]

theorem overflowBlock_emitted (c : Fin 8) :
    emittedChild haar 1 0
        { node_index := { height := 1, position := 0 },
          node := { chunk := overflowBlock.chunked_ndtree, relative_node_depth := 0,
                    level_traversal_distance := 0 },
          scale_coefficient := overflowBlock.root_scale_coefficient } c
      = some (OctreeIndex.mk 0 c.val, (Pi.single 0 10 : CoefficientsArray) c) := by
  have hdata : (NodeRef.mk overflowBlock.chunked_ndtree 0 0).data
      = 0 + (haar.forwardSingleChild 10 0).2 := by
    simp [NodeRef.data, NodeRef.computeRelativeNodeIndex, tree_size_zero, overflowBlock,
      Chunk.nodeData]
  have hchild : (NodeRef.mk overflowBlock.chunked_ndtree 0 0).getChild 1 c = none := by
    simp [NodeRef.getChild, overflowBlock, Chunk.getChild]
  have hback : haar.backward (overflowBlock.root_scale_coefficient,
      0 + (haar.forwardSingleChild 10 0).2) = Pi.single 0 10 := by
    have : (overflowBlock.root_scale_coefficient, 0 + (haar.forwardSingleChild 10 0).2)
        = haar.forwardSingleChild 10 0 := by
      simp [overflowBlock]
    rw [this]
    exact haar_laws.backward_forwardSingleChild 10 0
  simp only [emittedChild, hchild, hdata, hback, OctreeIndex.computeChildIndex]
  simp

theorem overflowBlock_pushed (c : Fin 8) :
    pushedChild haar 1 0
        { node_index := { height := 1, position := 0 },
          node := { chunk := overflowBlock.chunked_ndtree, relative_node_depth := 0,
                    level_traversal_distance := 0 },
          scale_coefficient := overflowBlock.root_scale_coefficient } c
      = none := by
  have hchild : (NodeRef.mk overflowBlock.chunked_ndtree 0 0).getChild 1 c = none := by
    simp [NodeRef.getChild, overflowBlock, Chunk.getChild]
  simp only [pushedChild, hchild]

theorem overflowBlock_forEachLeaf :
    overflowBlock.forEachLeaf haar 1 0 0
      = some ((List.finRange 8).map
          (fun c => (OctreeIndex.mk 0 c.val, (Pi.single 0 10 : CoefficientsArray) c))) := by
  have hts : tree_size (overflowBlock.tree_height + 1) = 8 + 1 := by
    have htree : overflowBlock.tree_height = 1 := rfl
    rw [htree, tree_size_succ_mul, tree_size_succ_mul, tree_size_zero]
  have hpush : (List.finRange 8).filterMap (pushedChild haar 1 0
      { node_index := { height := 1, position := 0 },
        node := { chunk := overflowBlock.chunked_ndtree, relative_node_depth := 0,
                  level_traversal_distance := 0 },
        scale_coefficient := overflowBlock.root_scale_coefficient }) = [] := by
    rw [List.filterMap_eq_nil_iff]
    intro c _
    exact overflowBlock_pushed c
  have hemit : (List.finRange 8).filterMap (emittedChild haar 1 0
      { node_index := { height := 1, position := 0 },
        node := { chunk := overflowBlock.chunked_ndtree, relative_node_depth := 0,
                  level_traversal_distance := 0 },
        scale_coefficient := overflowBlock.root_scale_coefficient })
      = (List.finRange 8).map
          (fun c => (OctreeIndex.mk 0 c.val, (Pi.single 0 10 : CoefficientsArray) c)) := by
    rw [← List.filterMap_eq_map]
    congr 1
    funext c
    exact overflowBlock_emitted c
  simp only [HashedChunkedWaveletOctreeBlock.forEachLeaf, overflowBlock_not_empty, hts]
  have htree : overflowBlock.tree_height = 1 := rfl
  rw [htree]
  simp only [forEachLeafLoop, forEachLeafStep_eq, hpush, hemit, Bool.false_eq_true, if_false,
    List.reverse_nil, List.nil_append]

/-- C10, as stated, fails: directly after `addToCellValue` added 10 to a cell
of a fresh block with `max_log_odds = 4`, with `needs_thresholding` still set,
`forEachLeaf` passes the value 10 to the visitor. -/
theorem forEachLeaf_passes_unsaturated_value :
    (HashedChunkedWaveletOctreeBlock.fresh 1 (-2) 4).addToCellValue haar 1 (OctreeIndex.mk 0 0) 10
        = some overflowBlock
      ∧ overflowBlock.needs_thresholding = true
      ∧ ∃ visits, overflowBlock.forEachLeaf haar 1 0 0 = some visits
        ∧ (OctreeIndex.mk 0 0, (10 : ℚ)) ∈ visits
        ∧ overflowBlock.max_log_odds < 10 := by
  refine ⟨overflowBlock_reached, rfl, _, overflowBlock_forEachLeaf, ?_, ?_⟩
  · rw [List.mem_map]
    exact ⟨0, List.mem_finRange 0, by simp⟩
  · norm_num [overflowBlock]

/-- C10 (amended): saturation is applied by `threshold()`, not at readout.
In exact arithmetic, for every block whose `needs_thresholding` flag is set,
after `threshold()` the traversal `forEachLeaf` returns and every value it
passes to the visitor lies in `[min_log_odds, max_log_odds]` (for a transform
whose scale coefficient is the average of the eight child values). -/
theorem forEachLeaf_after_threshold_in_range (T : HaarTransform) (hT : HaarLaws T)
    (havg : ScaleIsAverage T) (kChunkHeight : Nat) (hk : 0 < kChunkHeight)
    (blk : HashedChunkedWaveletOctreeBlock) (hflag : blk.needs_thresholding = true)
    (hle : blk.min_log_odds ≤ blk.max_log_odds) (block_index termination_height : Nat) :
    ∃ visits, (blk.threshold T kChunkHeight).forEachLeaf T kChunkHeight block_index
          termination_height = some visits
      ∧ ∀ v ∈ visits, blk.min_log_odds ≤ v.2 ∧ v.2 ≤ blk.max_log_odds := by
  by_cases hempty : (blk.threshold T kChunkHeight).empty kChunkHeight = true
  · refine ⟨[], ?_, ?_⟩
    · simp only [HashedChunkedWaveletOctreeBlock.forEachLeaf, hempty, if_true]
    · intro v hv
      simp at hv
  · have hrange := recursiveThreshold_valuesInRange T hT havg kChunkHeight blk.min_log_odds
      blk.max_log_odds hle blk.chunked_ndtree blk.root_scale_coefficient
    have hthr : blk.threshold T kChunkHeight
        = { blk with
            root_scale_coefficient := (recursiveThreshold T kChunkHeight blk.min_log_odds
              blk.max_log_odds blk.chunked_ndtree blk.root_scale_coefficient).2.scale,
            chunked_ndtree := (recursiveThreshold T kChunkHeight blk.min_log_odds
              blk.max_log_odds blk.chunked_ndtree blk.root_scale_coefficient).1,
            needs_thresholding := false } := by
      simp only [HashedChunkedWaveletOctreeBlock.threshold, hflag, if_true]
    obtain ⟨visits, h1, h2⟩ := forEachLeafLoop_invariant T kChunkHeight termination_height
      (fun stack visited =>
        (∀ e ∈ stack, e.inRange T kChunkHeight blk.min_log_odds blk.max_log_odds)
          ∧ ∀ v ∈ visited, blk.min_log_odds ≤ v.2 ∧ v.2 ≤ blk.max_log_odds)
      (fun top stack visited h =>
        inRange_step T kChunkHeight termination_height _ _ top stack visited h)
      (tree_size ((blk.threshold T kChunkHeight).tree_height + 1))
      [{ node_index := { height := (blk.threshold T kChunkHeight).tree_height,
                         position := block_index },
         node := { chunk := (blk.threshold T kChunkHeight).chunked_ndtree,
                   relative_node_depth := 0, level_traversal_distance := 0 },
         scale_coefficient := (blk.threshold T kChunkHeight).root_scale_coefficient }] []
      (by simp [stackMeasure])
      (by
        refine ⟨?_, ?_⟩
        · intro e he
          simp only [List.mem_singleton] at he
          subst he
          refine ⟨(blk.threshold T kChunkHeight).root_scale_coefficient, ?_, hk, ?_, ?_⟩
          · rw [hthr]
            exact hrange
          · simp
          · simp [nodeValue]
        · intro v hv
          simp at hv)
    refine ⟨visits, ?_, h2.2⟩
    simp only [HashedChunkedWaveletOctreeBlock.forEachLeaf, hempty]
    exact h1

theorem forEachLeaf_after_threshold_in_range_witness :
    0 < 1 ∧ overflowBlock.needs_thresholding = true
      ∧ overflowBlock.min_log_odds ≤ overflowBlock.max_log_odds
      ∧ ∃ visits, (overflowBlock.threshold haar 1).forEachLeaf haar 1 0 0 = some visits
        ∧ ∀ v ∈ visits, overflowBlock.min_log_odds ≤ v.2 ∧ v.2 ≤ overflowBlock.max_log_odds :=
  ⟨by decide, rfl, by norm_num [overflowBlock],
    forEachLeaf_after_threshold_in_range haar haar_laws haar_scaleIsAverage 1 (by decide)
      overflowBlock rfl (by norm_num [overflowBlock]) 0 0⟩

/-- C11: for every non-empty block and every `termination_height` below the
block's `tree_height`, `forEachLeaf` returns, every node index it passes to
the visitor has a height `h` with `termination_height ≤ h < tree_height`, and
a visited index with `h > termination_height` is one for which the tree holds
no node. -/
theorem forEachLeaf_visited_heights (T : HaarTransform) (kChunkHeight : Nat)
    (blk : HashedChunkedWaveletOctreeBlock) (block_index termination_height : Nat)
    (hne : blk.empty kChunkHeight = false) (hth : termination_height < blk.tree_height) :
    ∃ visits, blk.forEachLeaf T kChunkHeight block_index termination_height = some visits
      ∧ ∀ v, v ∈ visits →
          termination_height ≤ v.1.height ∧ v.1.height < blk.tree_height
            ∧ (termination_height < v.1.height → blk.getNode kChunkHeight v.1 = none) := by
  obtain ⟨visits, h1, h2⟩ := forEachLeafLoop_invariant T kChunkHeight termination_height
    (VisitedHeights kChunkHeight termination_height blk)
    (fun top stack visited h =>
      visitedHeights_step T kChunkHeight termination_height blk top stack visited h)
    (tree_size (blk.tree_height + 1))
    [{ node_index := { height := blk.tree_height, position := block_index },
       node := { chunk := blk.chunked_ndtree, relative_node_depth := 0,
                 level_traversal_distance := 0 },
       scale_coefficient := blk.root_scale_coefficient }] []
    (by simp [stackMeasure])
    (by
      refine ⟨?_, ?_⟩
      · intro e he
        simp only [List.mem_singleton] at he
        subst he
        refine ⟨hth, le_refl _, ?_⟩
        simp [HashedChunkedWaveletOctreeBlock.getNode, NodeRef.findNode]
      · intro v hv
        simp at hv)
  refine ⟨visits, ?_, h2.2⟩
  simp only [HashedChunkedWaveletOctreeBlock.forEachLeaf, hne]
  exact h1

theorem forEachLeaf_visited_heights_witness :
    oneChildBlock.empty 1 = false ∧ 0 < oneChildBlock.tree_height
      ∧ ∃ visits, oneChildBlock.forEachLeaf haar 1 0 0 = some visits
        ∧ ∀ v, v ∈ visits →
            0 ≤ v.1.height ∧ v.1.height < oneChildBlock.tree_height
              ∧ (0 < v.1.height → oneChildBlock.getNode 1 v.1 = none) :=
  ⟨rfl, by decide, forEachLeaf_visited_heights haar 1 oneChildBlock 0 0 rfl (by decide)⟩

/-- C12 (defect of the code): in a new block of height 6 with chunks of height
3, the descent of `setCellValue` for the node of height 2 at position 0 stops
one chunk early: it returns with `chunk_ptrs[1]` still null, so that the
ascent dereferences a null pointer, while `addToCellValue` for the same node
allocates that chunk and succeeds. -/
theorem setCellValue_null_chunk_at_chunk_top :
    (setCellValueDescent haar 3 6 2 (nodeIndexToMorton (OctreeIndex.mk 2 0)) 7 6
        { tree := Chunk.fresh, chunk_ptrs := initialChunkPtrs, current_value := 0 }).map
        (fun st => st.chunk_ptrs 1) = some none
      ∧ (HashedChunkedWaveletOctreeBlock.fresh 6 (-2) 4).setCellValue haar 3
          (OctreeIndex.mk 2 0) 1 = none
      ∧ ((HashedChunkedWaveletOctreeBlock.fresh 6 (-2) 4).addToCellValue haar 3
          (OctreeIndex.mk 2 0) (1 - 0)).isSome = true := by
  refine ⟨?_, ?_, ?_⟩
  · rfl
  · rfl
  · rfl

/-- C13: writes to one block commute: for every block state, all indices `i`
and `j` and all updates `a` and `b`, `addToCellValue(i, a)` followed by
`addToCellValue(j, b)` succeeds and yields the same block state (root scale,
detail coefficients, `hasAtLeastOneChild` flags, allocated chunks, dirty
flags and stamp) as the two calls in the opposite order. -/
theorem addToCellValue_commute (T : HaarTransform) (kChunkHeight : Nat)
    (blk : HashedChunkedWaveletOctreeBlock) (i j : OctreeIndex) (a b : ℚ) :
    ∃ r, (blk.addToCellValue T kChunkHeight i a).bind
            (fun blk1 => blk1.addToCellValue T kChunkHeight j b) = some r
      ∧ (blk.addToCellValue T kChunkHeight j b).bind
            (fun blk2 => blk2.addToCellValue T kChunkHeight i a) = some r := by
  have hcomm := applyWrites_comm
    (allocWrites kChunkHeight blk.tree_height (nodeIndexToMorton j)
        ((blk.tree_height - j.height - 1) / kChunkHeight)
      ++ ascendWrites T kChunkHeight blk.tree_height (nodeIndexToMorton j)
          (blk.tree_height - j.height) (j.height + 1) (b, 0))
    (allocWrites kChunkHeight blk.tree_height (nodeIndexToMorton i)
        ((blk.tree_height - i.height - 1) / kChunkHeight)
      ++ ascendWrites T kChunkHeight blk.tree_height (nodeIndexToMorton i)
          (blk.tree_height - i.height) (i.height + 1) (a, 0))
    (by
      intro f hf g hg t
      apply isPathWrite_comm
      · rcases List.mem_append.mp hf with h | h
        · exact isPathWrite_allocWrites _ _ _ _ f h
        · exact isPathWrite_ascendWrites T _ _ _ _ _ _ f h
      · rcases List.mem_append.mp hg with h | h
        · exact isPathWrite_allocWrites _ _ _ _ g h
        · exact isPathWrite_ascendWrites T _ _ _ _ _ _ g h)
    blk.chunked_ndtree
  have h1 : ∃ r, (blk.addToCellValue T kChunkHeight i a).bind
      (fun blk1 => blk1.addToCellValue T kChunkHeight j b) = some r := by
    simp only [addToCellValue_eq, Option.some_bind]
    exact ⟨_, rfl⟩
  have h2 : (blk.addToCellValue T kChunkHeight j b).bind
        (fun blk2 => blk2.addToCellValue T kChunkHeight i a)
      = (blk.addToCellValue T kChunkHeight i a).bind
        (fun blk1 => blk1.addToCellValue T kChunkHeight j b) := by
    simp only [addToCellValue_eq, Option.some_bind, Option.some.injEq]
    rw [hcomm, add_right_comm]
  obtain ⟨r, hr⟩ := h1
  exact ⟨r, hr, h2.trans hr⟩

/-- C18: in every block state reached from a new block (both dirty flags
clear) through `setCellValue`, `addToCellValue`, `threshold`, `prune` and
`clear`, `needs_thresholding` implies `needs_pruning`; after a `prune()` call
in such a state both flags are clear, and after a write both are set. -/
theorem dirty_flags_invariant (T : HaarTransform) (kChunkHeight tree_height : Nat)
    (min_log_odds max_log_odds : ℚ) (ops : List BlockOperation)
    (blk : HashedChunkedWaveletOctreeBlock)
    (h : HashedChunkedWaveletOctreeBlock.applyAll T kChunkHeight ops
      (HashedChunkedWaveletOctreeBlock.fresh tree_height min_log_odds max_log_odds) = some blk) :
    (blk.needs_thresholding = true → blk.needs_pruning = true)
      ∧ ((blk.prune T kChunkHeight).needs_pruning = false
          ∧ (blk.prune T kChunkHeight).needs_thresholding = false)
      ∧ (∀ index v blk', blk.setCellValue T kChunkHeight index v = some blk' →
          blk'.needs_thresholding = true ∧ blk'.needs_pruning = true)
      ∧ ∀ index u, ∃ blk', blk.addToCellValue T kChunkHeight index u = some blk'
          ∧ blk'.needs_thresholding = true ∧ blk'.needs_pruning = true := by
  have hI := applyAll_flags T kChunkHeight ops _ blk (by simp [HashedChunkedWaveletOctreeBlock.fresh]) h
  refine ⟨hI, ⟨(prune_flags T kChunkHeight blk).1, ?_⟩, ?_, ?_⟩
  · rw [(prune_flags T kChunkHeight blk).2]
    cases hp : blk.needs_pruning
    · cases ht : blk.needs_thresholding
      · rfl
      · rw [hI ht] at hp
        exact absurd hp (by simp)
    · rfl
  · intro index v blk' h'
    exact setCellValue_flags T kChunkHeight blk blk' index v h'
  · intro index u
    rw [addToCellValue_eq]
    exact ⟨_, rfl, rfl, rfl⟩

theorem dirty_flags_invariant_witness :
    ∃ blk, HashedChunkedWaveletOctreeBlock.applyAll haar 1
        [BlockOperation.addToCellValue (OctreeIndex.mk 0 0) 10, BlockOperation.threshold,
          BlockOperation.setCellValue (OctreeIndex.mk 0 1) 3, BlockOperation.clear]
        (HashedChunkedWaveletOctreeBlock.fresh 1 (-2) 4) = some blk
      ∧ (blk.needs_thresholding = true → blk.needs_pruning = true)
      ∧ ((blk.prune haar 1).needs_pruning = false
          ∧ (blk.prune haar 1).needs_thresholding = false)
      ∧ (∀ index v blk', blk.setCellValue haar 1 index v = some blk' →
          blk'.needs_thresholding = true ∧ blk'.needs_pruning = true)
      ∧ ∀ index u, ∃ blk', blk.addToCellValue haar 1 index u = some blk'
          ∧ blk'.needs_thresholding = true ∧ blk'.needs_pruning = true :=
  (Option.isSome_iff_exists.mp (rfl : (HashedChunkedWaveletOctreeBlock.applyAll haar 1
        [BlockOperation.addToCellValue (OctreeIndex.mk 0 0) 10, BlockOperation.threshold,
          BlockOperation.setCellValue (OctreeIndex.mk 0 1) 3, BlockOperation.clear]
        (HashedChunkedWaveletOctreeBlock.fresh 1 (-2) 4)).isSome = true)).elim
    (fun blk hblk => ⟨blk, hblk, dirty_flags_invariant haar 1 1 (-2) 4 _ blk hblk⟩)

/-- C19: for every block state, after `clear()` the root scale coefficient is
0, the root chunk has no children array (the chunk tree holds no child chunk)
and no nonzero detail coefficient, and the value reconstructed at every node
of the block is 0. -/
theorem clear_resets_block (T : HaarTransform) (hT : HaarLaws T) (kChunkHeight : Nat)
    (blk : HashedChunkedWaveletOctreeBlock) :
    blk.clear.root_scale_coefficient = 0
      ∧ blk.clear.chunked_ndtree.hasChildrenArray = false
      ∧ (∀ i, blk.clear.chunked_ndtree.hasChild i = false)
      ∧ (∀ i, blk.clear.chunked_ndtree.nodeData i = 0)
      ∧ ∀ index : OctreeIndex, blk.clear.reconstruct T kChunkHeight index = 0 := by
  refine ⟨rfl, rfl, fun _ => rfl, fun _ => rfl, ?_⟩
  intro index
  simp only [HashedChunkedWaveletOctreeBlock.reconstruct, HashedChunkedWaveletOctreeBlock.clear,
    Chunk.clear, Chunk.fresh, reconstructChunk]
  by_cases h : index.height < blk.tree_height
  · rw [if_pos h]
    exact decompressLevels_fresh T hT _ _ _ _ _
  · rw [if_neg h]

theorem clear_resets_block_witness :
    overflowBlock.clear.root_scale_coefficient = 0
      ∧ overflowBlock.clear.chunked_ndtree.hasChildrenArray = false
      ∧ (∀ i, overflowBlock.clear.chunked_ndtree.hasChild i = false)
      ∧ (∀ i, overflowBlock.clear.chunked_ndtree.nodeData i = 0)
      ∧ ∀ index : OctreeIndex, overflowBlock.clear.reconstruct haar 1 index = 0 :=
  clear_resets_block haar haar_laws 1 overflowBlock

/-- C14 (counterexample): for the scan of the two points `(1, 0)` and `(2, 0)`,
both accepted and both nearest to beam 0, the cell of `computeRangeImage`
holds 2, the range of the later point, while the smallest range is 1; with
the two points in the opposite order the cell holds 1. -/
theorem computeRangeImage_keeps_later_range :
    (computeRangeImage beamGeometry twoPointsOnOneBeam (-2) 2 2).data 0 = some 2
      ∧ closestSurfaceRange beamGeometry twoPointsOnOneBeam.points_local (-2) 2 2 0 = some 1
      ∧ (computeRangeImage beamGeometry
          { twoPointsOnOneBeam with points_local := twoPointsOnOneBeam.points_local.reverse }
          (-2) 2 2).data 0 = some 1 := by
  refine ⟨?_, ?_, ?_⟩
  · rw [computeRangeImage, foldl_computeRangeImageStep_data]
    norm_num [twoPointsOnOneBeam, beamGeometry, PointGeometry.accepts, List.filter]
  · norm_num [closestSurfaceRange, twoPointsOnOneBeam, beamGeometry, PointGeometry.accepts,
      List.filter]
  · rw [computeRangeImage, foldl_computeRangeImageStep_data]
    norm_num [twoPointsOnOneBeam, beamGeometry, PointGeometry.accepts, List.filter]

/-- C14 (amended): for every pointcloud and every range-image cell, after
`computeRangeImage` the cell holds the range of the last accepted point (no
NaN, range at most `1e3`), in the order of the cloud, whose nearest bearing
index is that cell, and the sentinel when there is no such point. -/
theorem computeRangeImage_cell_holds_last_accepted {P Pose : Type} (G : PointGeometry P)
    (pointcloud : PosedPointcloud P Pose) (min_angle max_angle : ℚ) (num_beams : Nat)
    (range_image_index : Nat) :
    (computeRangeImage G pointcloud min_angle max_angle num_beams).data range_image_index
      = ((pointcloud.points_local.filter (fun p => G.accepts p
            && decide (G.bearingToNearestIndex min_angle max_angle num_beams p
                = range_image_index))).getLast?).map G.norm :=
  foldl_computeRangeImageStep_data G min_angle max_angle num_beams range_image_index
    pointcloud.points_local

/-- C20: `computeRangeImage` ignores rejected points: the range image it
returns equals the one returned for the cloud with every point that has a NaN
coordinate or a norm strictly greater than `1e3` removed; a point without NaN
whose norm is exactly `1e3` is not rejected: its range is written to its
cell. -/
theorem computeRangeImage_ignores_rejected {P Pose : Type} (G : PointGeometry P)
    (pointcloud : PosedPointcloud P Pose) (min_angle max_angle : ℚ) (num_beams : Nat) :
    computeRangeImage G pointcloud min_angle max_angle num_beams
        = computeRangeImage G
            { pointcloud with
              points_local := pointcloud.points_local.filter
                (fun p => !(G.hasNaN p || decide (1000 < G.norm p))) }
            min_angle max_angle num_beams
      ∧ ∀ (range_image : RangeImage) (C_point : P), G.hasNaN C_point = false →
          G.norm C_point = 1000 →
          computeRangeImageStep G range_image C_point
            = range_image.set (G.bearingToNearestIndex range_image.min_angle
                range_image.max_angle range_image.num_beams C_point) 1000 := by
  refine ⟨?_, ?_⟩
  · have hf : (fun p => !(G.hasNaN p || decide (1000 < G.norm p))) = G.accepts := by
      funext p
      simp [PointGeometry.accepts]
    simp only [computeRangeImage, hf]
    rw [foldl_computeRangeImageStep_filter G pointcloud.points_local]
  · intro range_image C_point h1 h2
    rw [computeRangeImageStep_of_accepted G range_image C_point
      (by simp [PointGeometry.accepts, h1, h2]), h2]

theorem computeRangeImage_ignores_rejected_witness :
    computeRangeImage beamGeometry scanWithRejectedPoints (-2) 2 3
        = computeRangeImage beamGeometry
            { scanWithRejectedPoints with
              points_local := scanWithRejectedPoints.points_local.filter
                (fun p => !(beamGeometry.hasNaN p || decide (1000 < beamGeometry.norm p))) }
            (-2) 2 3
      ∧ ∀ (range_image : RangeImage) (C_point : BeamPoint), beamGeometry.hasNaN C_point = false →
          beamGeometry.norm C_point = 1000 →
          computeRangeImageStep beamGeometry range_image C_point
            = range_image.set (beamGeometry.bearingToNearestIndex range_image.min_angle
                range_image.max_angle range_image.num_beams C_point) 1000 :=
  computeRangeImage_ignores_rejected beamGeometry scanWithRejectedPoints (-2) 2 3

/-- C15: for every pointcloud that `isPointcloudValid` rejects,
`integratePointcloud` returns the map it was given: no `addToCellValue` call
is made on it. -/
theorem integratePointcloud_rejects_invalid {P Pose AABB : Type}
    (I : CoarseToFineIntegrator P Pose AABB) (kHalfPi : ℚ) (pointcloud : PosedPointcloud P Pose)
    (occupancy_map : VolumetricQuadtree) (h : I.isPointcloudValid pointcloud = false) :
    integratePointcloud I kHalfPi pointcloud occupancy_map = some occupancy_map := by
  simp only [integratePointcloud, h, Bool.not_false, if_true]

theorem integratePointcloud_rejects_invalid_witness :
    beamIntegrator.isPointcloudValid emptyScan = false
      ∧ integratePointcloud beamIntegrator 2 emptyScan twoRootsMap = some twoRootsMap :=
  ⟨rfl, integratePointcloud_rejects_invalid beamIntegrator 2 emptyScan twoRootsMap rfl⟩

/-- C16: a node that `determineIntersectionType` classifies as fully unknown
is skipped: the loop body leaves the stack without the node and the map as
they are.  Hence, for a valid pointcloud and start indices of nonnegative
height, `integratePointcloud` returns, and every node it updates descends
from a start index by a path on which no node is fully unknown. -/
theorem integratePointcloud_skips_fully_unknown {P Pose AABB : Type}
    (I : CoarseToFineIntegrator P Pose AABB) (kHalfPi : ℚ) (pointcloud : PosedPointcloud P Pose)
    (occupancy_map : VolumetricQuadtree) (hvalid : I.isPointcloudValid pointcloud = true)
    (hh : ∀ s, s ∈ occupancy_map.first_child_indices → 0 ≤ s.height) :
    (∀ (range_image : RangeImage) (min_cell_width : ℚ) (node : QuadtreeIndex)
        (stack : List QuadtreeIndex) (m : VolumetricQuadtree),
        I.intersectionTypeOf pointcloud range_image min_cell_width node
          = IntersectionType.kFullyUnknown →
        integrateStep I pointcloud range_image min_cell_width node stack m = (stack, m))
      ∧ ∃ new_updates, integratePointcloud I kHalfPi pointcloud occupancy_map
            = some { occupancy_map with updates := occupancy_map.updates ++ new_updates }
          ∧ ∀ u, u ∈ new_updates → ∃ s, s ∈ occupancy_map.first_child_indices
              ∧ s.isAncestorOrSelf u.1
              ∧ ∀ n : QuadtreeIndex, s.isAncestorOrSelf n → n.isAncestorOrSelf u.1 →
                  I.intersectionTypeOf pointcloud
                    (computeRangeImage I.geometry pointcloud (-kHalfPi) kHalfPi pointcloud.size)
                    occupancy_map.min_cell_width n ≠ IntersectionType.kFullyUnknown := by
  refine ⟨?_, ?_⟩
  · intro range_image min_cell_width node stack m hu
    rw [integrateStep_eq, if_pos hu]
  · refine ⟨_, integratePointcloud_eq_expected I kHalfPi pointcloud occupancy_map hvalid hh, ?_⟩
    intro u hu
    obtain ⟨s, hs, hmem⟩ := mem_expectedUpdatesOfStack I pointcloud _ _ u _ hu
    obtain ⟨h1, h2⟩ := expectedUpdates_path I pointcloud _ _ _ s u hmem
    exact ⟨s, List.mem_reverse.mp hs, h1, h2⟩

theorem integratePointcloud_skips_fully_unknown_witness :
    beamIntegrator.isPointcloudValid twoPointsOnOneBeam = true
      ∧ (∀ s, s ∈ twoRootsMap.first_child_indices → 0 ≤ s.height)
      ∧ (∀ (range_image : RangeImage) (min_cell_width : ℚ) (node : QuadtreeIndex)
          (stack : List QuadtreeIndex) (m : VolumetricQuadtree),
          beamIntegrator.intersectionTypeOf twoPointsOnOneBeam range_image min_cell_width node
            = IntersectionType.kFullyUnknown →
          integrateStep beamIntegrator twoPointsOnOneBeam range_image min_cell_width node stack m
            = (stack, m))
      ∧ ∃ new_updates, integratePointcloud beamIntegrator 2 twoPointsOnOneBeam twoRootsMap
            = some { twoRootsMap with updates := twoRootsMap.updates ++ new_updates }
          ∧ ∀ u, u ∈ new_updates → ∃ s, s ∈ twoRootsMap.first_child_indices
              ∧ s.isAncestorOrSelf u.1
              ∧ ∀ n : QuadtreeIndex, s.isAncestorOrSelf n → n.isAncestorOrSelf u.1 →
                  beamIntegrator.intersectionTypeOf twoPointsOnOneBeam
                    (computeRangeImage beamIntegrator.geometry twoPointsOnOneBeam (-2) 2
                      twoPointsOnOneBeam.size)
                    twoRootsMap.min_cell_width n ≠ IntersectionType.kFullyUnknown :=
  have hh : ∀ s, s ∈ twoRootsMap.first_child_indices → 0 ≤ s.height := by
    intro s hs
    simp only [twoRootsMap, List.mem_cons, List.mem_singleton, List.not_mem_nil, or_false] at hs
    rcases hs with rfl | rfl <;> decide
  ⟨rfl, hh, integratePointcloud_skips_fully_unknown beamIntegrator 2 twoPointsOnOneBeam
    twoRootsMap rfl hh⟩

/-- C17: in the loop body of `integratePointcloud`, for a popped node that is
not fully unknown: if its height is 0 or its approximation error is
acceptable, exactly one `addToCellValue(node, computeUpdateForCell(...))` is
applied and no child is pushed; otherwise the map is left as it is and exactly
the four children `computeChildIndex(0..3)` of the node are pushed. -/
theorem integrateStep_updates_or_expands {P Pose AABB : Type}
    (I : CoarseToFineIntegrator P Pose AABB) (pointcloud : PosedPointcloud P Pose)
    (range_image : RangeImage) (min_cell_width : ℚ) (node : QuadtreeIndex)
    (stack : List QuadtreeIndex) (occupancy_map : VolumetricQuadtree)
    (hknown : I.intersectionTypeOf pointcloud range_image min_cell_width node
      ≠ IntersectionType.kFullyUnknown) :
    (I.updatesNode pointcloud range_image min_cell_width node →
        integrateStep I pointcloud range_image min_cell_width node stack occupancy_map
            = (stack, occupancy_map.addToCellValue node
                (I.sampleOf pointcloud range_image min_cell_width node))
          ∧ (integrateStep I pointcloud range_image min_cell_width node stack
                occupancy_map).2.updates
              = occupancy_map.updates
                ++ [(node, I.computeUpdateForCell range_image
                    (I.nodeCenterDistance pointcloud.pose (I.nodeIndexToAABB node min_cell_width))
                    (I.nodeCenterAngle pointcloud.pose
                      (I.nodeIndexToAABB node min_cell_width)))])
      ∧ (¬ I.updatesNode pointcloud range_image min_cell_width node →
        integrateStep I pointcloud range_image min_cell_width node stack occupancy_map
          = (node.computeChildIndex 3 :: node.computeChildIndex 2 :: node.computeChildIndex 1
              :: node.computeChildIndex 0 :: stack, occupancy_map)) := by
  refine ⟨?_, ?_⟩
  · intro hs
    rw [integrateStep_eq, if_neg hknown, if_pos hs]
    exact ⟨rfl, rfl⟩
  · intro hs
    rw [integrateStep_eq, if_neg hknown, if_neg hs]

theorem integrateStep_updates_or_expands_witness :
    beamIntegrator.intersectionTypeOf twoPointsOnOneBeam oneReturnImage (1 / 10)
        (QuadtreeIndex.mk 2 0) ≠ IntersectionType.kFullyUnknown
      ∧ (beamIntegrator.updatesNode twoPointsOnOneBeam oneReturnImage (1 / 10)
            (QuadtreeIndex.mk 2 0) →
          integrateStep beamIntegrator twoPointsOnOneBeam oneReturnImage (1 / 10)
              (QuadtreeIndex.mk 2 0) [] twoRootsMap
              = ([], twoRootsMap.addToCellValue (QuadtreeIndex.mk 2 0)
                  (beamIntegrator.sampleOf twoPointsOnOneBeam oneReturnImage (1 / 10)
                    (QuadtreeIndex.mk 2 0)))
            ∧ (integrateStep beamIntegrator twoPointsOnOneBeam oneReturnImage (1 / 10)
                (QuadtreeIndex.mk 2 0) [] twoRootsMap).2.updates
                = twoRootsMap.updates
                  ++ [(QuadtreeIndex.mk 2 0, beamIntegrator.computeUpdateForCell oneReturnImage
                      (beamIntegrator.nodeCenterDistance twoPointsOnOneBeam.pose
                        (beamIntegrator.nodeIndexToAABB (QuadtreeIndex.mk 2 0) (1 / 10)))
                      (beamIntegrator.nodeCenterAngle twoPointsOnOneBeam.pose
                        (beamIntegrator.nodeIndexToAABB (QuadtreeIndex.mk 2 0) (1 / 10))))])
      ∧ (¬ beamIntegrator.updatesNode twoPointsOnOneBeam oneReturnImage (1 / 10)
            (QuadtreeIndex.mk 2 0) →
          integrateStep beamIntegrator twoPointsOnOneBeam oneReturnImage (1 / 10)
              (QuadtreeIndex.mk 2 0) [] twoRootsMap
            = ((QuadtreeIndex.mk 2 0).computeChildIndex 3
                :: (QuadtreeIndex.mk 2 0).computeChildIndex 2
                :: (QuadtreeIndex.mk 2 0).computeChildIndex 1
                :: (QuadtreeIndex.mk 2 0).computeChildIndex 0 :: [], twoRootsMap)) :=
  have hknown : beamIntegrator.intersectionTypeOf twoPointsOnOneBeam oneReturnImage (1 / 10)
      (QuadtreeIndex.mk 2 0) ≠ IntersectionType.kFullyUnknown := by
    simp [CoarseToFineIntegrator.intersectionTypeOf, beamIntegrator, oneReturnImage,
      RangeImage.set, RangeImage.new]
  ⟨hknown, integrateStep_updates_or_expands beamIntegrator twoPointsOnOneBeam oneReturnImage
    (1 / 10) (QuadtreeIndex.mk 2 0) [] twoRootsMap hknown⟩

/-- C25: within one `integratePointcloud` call, provided the indices returned
by `getFirstChildIndices` are pairwise non-overlapping, the nodes that receive
`addToCellValue` are pairwise non-overlapping too (no node is updated twice
and no updated node is an ancestor of another), so that every height-0 cell is
covered by at most one update of the call; the call returns when no start
index has a negative height. -/
theorem integratePointcloud_updates_disjoint {P Pose AABB : Type}
    (I : CoarseToFineIntegrator P Pose AABB) (kHalfPi : ℚ) (pointcloud : PosedPointcloud P Pose)
    (occupancy_map : VolumetricQuadtree)
    (hstarts : occupancy_map.first_child_indices.Pairwise (fun a b => ¬ a.overlaps b)) :
    (∀ map', integratePointcloud I kHalfPi pointcloud occupancy_map = some map' →
        ∃ new_updates, map'.updates = occupancy_map.updates ++ new_updates
          ∧ (new_updates.map Prod.fst).Pairwise (fun a b => ¬ a.overlaps b)
          ∧ ∀ q, (new_updates.map Prod.fst).countP (QuadtreeIndex.coversCell q) ≤ 1)
      ∧ ((∀ s, s ∈ occupancy_map.first_child_indices → 0 ≤ s.height) →
          ∃ map', integratePointcloud I kHalfPi pointcloud occupancy_map = some map') := by
  refine ⟨?_, ?_⟩
  · intro map' h
    by_cases hvalid : I.isPointcloudValid pointcloud = true
    · simp only [integratePointcloud, hvalid, Bool.not_true, Bool.false_eq_true, if_false] at h
      rw [foldl_push_eq_reverse, List.append_nil] at h
      obtain ⟨new_updates, h1, h2⟩ := integrateLoop_disjoint I pointcloud _ _ _ _ _ map' h
        occupancy_map.updates [] (by simp)
        (by
          simp only [List.map_nil, List.append_nil]
          rw [List.pairwise_reverse]
          exact hstarts.imp (fun hxy => quadtree_overlaps_symm hxy))
      exact ⟨new_updates, h1, h2, fun q => quadtree_countP_coversCell_le_one q _ h2⟩
    · simp only [integratePointcloud, hvalid, Bool.not_false, if_true,
        Option.some.injEq] at h
      subst h
      exact ⟨[], by simp, by simp, by simp⟩
  · intro hh
    by_cases hvalid : I.isPointcloudValid pointcloud = true
    · exact ⟨_, integratePointcloud_eq_expected I kHalfPi pointcloud occupancy_map hvalid hh⟩
    · exact ⟨occupancy_map, by simp [integratePointcloud, hvalid]⟩

theorem integratePointcloud_updates_disjoint_witness :
    twoRootsMap.first_child_indices.Pairwise (fun a b => ¬ a.overlaps b)
      ∧ (∀ map', integratePointcloud beamIntegrator 2 twoPointsOnOneBeam twoRootsMap = some map' →
          ∃ new_updates, map'.updates = twoRootsMap.updates ++ new_updates
            ∧ (new_updates.map Prod.fst).Pairwise (fun a b => ¬ a.overlaps b)
            ∧ ∀ q, (new_updates.map Prod.fst).countP (QuadtreeIndex.coversCell q) ≤ 1)
      ∧ ((∀ s, s ∈ twoRootsMap.first_child_indices → 0 ≤ s.height) →
          ∃ map', integratePointcloud beamIntegrator 2 twoPointsOnOneBeam twoRootsMap
            = some map') :=
  have hstarts : twoRootsMap.first_child_indices.Pairwise (fun a b => ¬ a.overlaps b) := by
    simp only [twoRootsMap, List.pairwise_cons, List.mem_singleton, List.not_mem_nil,
      forall_eq, false_implies, implies_true, List.Pairwise.nil, and_true]
    intro ho
    rcases ho with ⟨_, hp⟩ | ⟨_, hp⟩
    · simp at hp
    · simp at hp
  ⟨hstarts, integratePointcloud_updates_disjoint beamIntegrator 2 twoPointsOnOneBeam
    twoRootsMap hstarts⟩

/-- C26: the work-stack loop of `integratePointcloud` terminates for every
valid pointcloud and every list of start indices with heights `≥ 0`, whatever
the intersector and the error test answer: the call returns, no node of
negative height is updated, the loop body keeps the heights on the stack
nonnegative (a pushed child has its parent's height minus one) and never
expands a node of height 0. -/
theorem integratePointcloud_terminates {P Pose AABB : Type}
    (I : CoarseToFineIntegrator P Pose AABB) (kHalfPi : ℚ) (pointcloud : PosedPointcloud P Pose)
    (occupancy_map : VolumetricQuadtree) (hvalid : I.isPointcloudValid pointcloud = true)
    (hh : ∀ s, s ∈ occupancy_map.first_child_indices → 0 ≤ s.height) :
    (∃ new_updates, integratePointcloud I kHalfPi pointcloud occupancy_map
          = some { occupancy_map with updates := occupancy_map.updates ++ new_updates }
        ∧ ∀ u, u ∈ new_updates → 0 ≤ u.1.height)
      ∧ (∀ (node : QuadtreeIndex) (c : Fin QuadtreeIndex.kNumChildren),
          (node.computeChildIndex c).height = node.height - 1)
      ∧ ∀ (range_image : RangeImage) (min_cell_width : ℚ) (node : QuadtreeIndex)
          (stack : List QuadtreeIndex) (m : VolumetricQuadtree),
          (∀ s, s ∈ node :: stack → 0 ≤ s.height) →
          (∀ s, s ∈ (integrateStep I pointcloud range_image min_cell_width node stack m).1 →
              0 ≤ s.height)
            ∧ (node.height = 0 →
              (integrateStep I pointcloud range_image min_cell_width node stack m).1 = stack) := by
  refine ⟨⟨_, integratePointcloud_eq_expected I kHalfPi pointcloud occupancy_map hvalid hh, ?_⟩,
    fun _ _ => rfl, ?_⟩
  · intro u hu
    obtain ⟨s, hs, hmem⟩ := mem_expectedUpdatesOfStack I pointcloud _ _ u _ hu
    have h0 := hh s (List.mem_reverse.mp hs)
    have := expectedUpdates_height I pointcloud _ _ _ s u hmem
    omega
  · intro range_image min_cell_width node stack m hs
    exact integrateStep_heights I pointcloud range_image min_cell_width node stack m hs

theorem integratePointcloud_terminates_witness :
    beamIntegrator.isPointcloudValid twoPointsOnOneBeam = true
      ∧ (∀ s, s ∈ twoRootsMap.first_child_indices → 0 ≤ s.height)
      ∧ (∃ new_updates, integratePointcloud beamIntegrator 2 twoPointsOnOneBeam twoRootsMap
            = some { twoRootsMap with updates := twoRootsMap.updates ++ new_updates }
          ∧ ∀ u, u ∈ new_updates → 0 ≤ u.1.height)
      ∧ (∀ (node : QuadtreeIndex) (c : Fin QuadtreeIndex.kNumChildren),
          (node.computeChildIndex c).height = node.height - 1)
      ∧ ∀ (range_image : RangeImage) (min_cell_width : ℚ) (node : QuadtreeIndex)
          (stack : List QuadtreeIndex) (m : VolumetricQuadtree),
          (∀ s, s ∈ node :: stack → 0 ≤ s.height) →
          (∀ s, s ∈ (integrateStep beamIntegrator twoPointsOnOneBeam range_image min_cell_width
              node stack m).1 → 0 ≤ s.height)
            ∧ (node.height = 0 →
              (integrateStep beamIntegrator twoPointsOnOneBeam range_image min_cell_width node
                stack m).1 = stack) :=
  have hh : ∀ s, s ∈ twoRootsMap.first_child_indices → 0 ≤ s.height := by
    intro s hs
    simp only [twoRootsMap, List.mem_cons, List.mem_singleton, List.not_mem_nil, or_false] at hs
    rcases hs with rfl | rfl <;> decide
  ⟨rfl, hh, integratePointcloud_terminates beamIntegrator 2 twoPointsOnOneBeam twoRootsMap
    rfl hh⟩

/-- C24: every array access of `recursiveThreshold` is in bounds for every
`kChunkHeight`, with `tree_size(h) = (8^h - 1)/7` and
`level_size(h) = 8^(h-1)`: each index into the scratch array and into the
bitset `is_nonzero_child` is below `tree_size(kChunkHeight + 1)`, each index
into the chunk's node data and node flags is below `tree_size(kChunkHeight)`,
and the boundary indices `first_leaf_idx + child_idx` for
`child_idx < 8^kChunkHeight` are exactly the indices from
`tree_size(kChunkHeight)` up to `tree_size(kChunkHeight + 1)`. -/
theorem recursiveThreshold_accesses_in_bounds (kChunkHeight : Nat) :
    (∀ a, a ∈ recursiveThresholdAccesses kChunkHeight → a.inBounds kChunkHeight)
      ∧ (∀ h, tree_size h = (8 ^ h - 1) / 7 ∧ level_size h = 8 ^ (h - 1))
      ∧ kNumInnerNodes kChunkHeight = tree_size kChunkHeight
      ∧ kNumChildren kChunkHeight = 8 ^ kChunkHeight
      ∧ ∀ array_idx,
          (∃ child_idx, child_idx < 8 ^ kChunkHeight
              ∧ array_idx = tree_size kChunkHeight + child_idx)
            ↔ (tree_size kChunkHeight ≤ array_idx ∧ array_idx < tree_size (kChunkHeight + 1)) := by
  refine ⟨?_, fun h => ⟨rfl, rfl⟩, rfl, kNumChildren_eq kChunkHeight, ?_⟩
  · intro a ha
    have hpos := tree_size_pos_succ kChunkHeight
    simp only [recursiveThresholdAccesses, List.mem_append, List.mem_cons, List.mem_singleton,
      List.not_mem_nil, or_false] at ha
    rcases ha with (((rfl | ha) | ha) | ha) | rfl | rfl
    · exact hpos
    · exact decompressAccesses_inBounds kChunkHeight a ha
    · exact thresholdAccesses_inBounds kChunkHeight a ha
    · exact compressAccesses_inBounds kChunkHeight a ha
    · exact hpos
    · exact hpos
  · intro array_idx
    have h1 := tree_size_succ kChunkHeight
    constructor
    · rintro ⟨child_idx, hc, rfl⟩
      omega
    · rintro ⟨h2, h3⟩
      exact ⟨array_idx - tree_size kChunkHeight, by omega, by omega⟩

/-- C23: after `threshold()` on a block with `needs_thresholding` set, for
every node stored in any chunk of the block, its `hasAtLeastOneChild` flag is
true if and only if some strict descendant node (in the same chunk or in a
child chunk below it) has detail coefficients that `data::is_nonzero` reports
as nonzero; in particular the flag of a node whose children are chunk-boundary
positions without child chunks is false; and the bit returned by
`recursiveThreshold` is true if and only if some node of the chunk or of a
chunk below it has nonzero details. -/
theorem threshold_flags_consistent (T : HaarTransform) (kChunkHeight : Nat)
    (blk : HashedChunkedWaveletOctreeBlock) (hflag : blk.needs_thresholding = true) :
    (∀ (ptr : List Nat) (c : Chunk), (∀ i, i ∈ ptr → i < kNumChildren kChunkHeight) →
        (blk.threshold T kChunkHeight).chunked_ndtree.deref ptr = some c →
        ∀ l r, l < kChunkHeight → r < 8 ^ l →
          (c.nodeHasAtLeastOneChild (tree_size l + r) = true
              ↔ c.strictDescendantNonzero kChunkHeight l r)
            ∧ (l + 1 = kChunkHeight → (∀ j, j < 8 → c.hasChild (8 * r + j) = false) →
                c.nodeHasAtLeastOneChild (tree_size l + r) = false))
      ∧ ∀ (c : Chunk) (s : ℚ),
          ((recursiveThreshold T kChunkHeight blk.min_log_odds blk.max_log_odds c
              s).2.is_nonzero_child = true
            ↔ (recursiveThreshold T kChunkHeight blk.min_log_odds blk.max_log_odds c
                s).1.hasNonzeroBelow kChunkHeight) := by
  refine ⟨?_, fun c s => (recursiveThreshold_flagsConsistent T kChunkHeight _ _ c s).2⟩
  intro ptr c hptr hd l r hl hr
  have hthr : (blk.threshold T kChunkHeight).chunked_ndtree
      = (recursiveThreshold T kChunkHeight blk.min_log_odds blk.max_log_odds
          blk.chunked_ndtree blk.root_scale_coefficient).1 := by
    simp only [HashedChunkedWaveletOctreeBlock.threshold, hflag, if_true]
  rw [hthr] at hd
  have hiff := flagsConsistent_deref kChunkHeight ptr _ c
    (recursiveThreshold_flagsConsistent T kChunkHeight _ _ blk.chunked_ndtree
      blk.root_scale_coefficient).1
    (fun i hi' => by rw [← kNumChildren_eq]; exact hptr i hi') hd l r hl hr
  refine ⟨hiff, ?_⟩
  intro hlk hno
  cases hfl : c.nodeHasAtLeastOneChild (tree_size l + r) with
  | false => rfl
  | true =>
    exfalso
    rcases hiff.mp hfl with ⟨l', r', h1, h2, _⟩ | ⟨i, child, _, h2, h3, _⟩
    · omega
    · have e : kChunkHeight - l = 1 := by omega
      rw [e, pow_one] at h2
      have hi' : i = 8 * r + i % 8 := by omega
      have hc := hno (i % 8) (Nat.mod_lt _ (by decide))
      rw [← hi'] at hc
      cases c with
      | leafChunk d f => simp [Chunk.getChild] at h3
      | innerChunk d f p cs =>
        simp only [Chunk.hasChild] at hc
        simp [Chunk.getChild, hc] at h3

theorem threshold_flags_consistent_witness :
    oneChildBlockDirty.needs_thresholding = true
      ∧ (∀ (ptr : List Nat) (c : Chunk), (∀ i, i ∈ ptr → i < kNumChildren 1) →
          (oneChildBlockDirty.threshold haar 1).chunked_ndtree.deref ptr = some c →
          ∀ l r, l < 1 → r < 8 ^ l →
            (c.nodeHasAtLeastOneChild (tree_size l + r) = true
                ↔ c.strictDescendantNonzero 1 l r)
              ∧ (l + 1 = 1 → (∀ j, j < 8 → c.hasChild (8 * r + j) = false) →
                  c.nodeHasAtLeastOneChild (tree_size l + r) = false))
      ∧ ∀ (c : Chunk) (s : ℚ),
          ((recursiveThreshold haar 1 oneChildBlockDirty.min_log_odds
              oneChildBlockDirty.max_log_odds c s).2.is_nonzero_child = true
            ↔ (recursiveThreshold haar 1 oneChildBlockDirty.min_log_odds
                oneChildBlockDirty.max_log_odds c s).1.hasNonzeroBelow 1) :=
  ⟨rfl, threshold_flags_consistent haar 1 oneChildBlockDirty rfl⟩
/-- C21: for every block state whose tree height is a positive multiple of
the chunk height, every index with height at most the tree height and every
update `u`, under the transform laws and the law of a constant region,
`addToCellValue(index, u)` returns (it dereferences no null chunk pointer),
raises the reconstructed value of every height-0 cell below `index` by
exactly `u`, and leaves the reconstructed value of every other height-0 cell
unchanged. -/
theorem addToCellValue_raises_subtree (T : HaarTransform) (hT : HaarLaws T)
    (hconst : ForwardOfConstant T) (k m : Nat) (hk : 0 < k) (hm : 0 < m)
    (blk : HashedChunkedWaveletOctreeBlock) (hn : blk.tree_height = k * m)
    (index : OctreeIndex) (hi : index.height ≤ blk.tree_height) (u : ℚ) :
    ∃ blk', blk.addToCellValue T k index u = some blk'
      ∧ ∀ cell : OctreeIndex, cell.height = 0 →
          blk'.reconstruct T k cell
            = blk.reconstruct T k cell
              + (if sameAncestor blk.tree_height index.height (nodeIndexToMorton cell)
                    (nodeIndexToMorton index) then u else 0) := by
  refine ⟨_, addToCellValue_eq T k blk index u, ?_⟩
  intro cell hc
  have hn' : ∀ lo hi s t f p c,
      (HashedChunkedWaveletOctreeBlock.mk blk.tree_height lo hi s t f p c).tree_height
        = k * m := fun _ _ _ _ _ _ _ => hn
  rw [reconstruct_eq_pathValue_any T hT hconst k m hk hm blk hn cell hc,
    reconstruct_eq_pathValue_any T hT hconst k m hk hm _ (hn' _ _ _ _ _ _ _) cell hc]
  simp only [hn] at hi ⊢
  have hD : ∀ e, 1 ≤ e → e ≤ k * m →
      pathData k (k * m) (nodeIndexToMorton cell)
          (applyWrites
            (allocWrites k (k * m) (nodeIndexToMorton index) ((k * m - index.height - 1) / k)
              ++ ascendWrites T k (k * m) (nodeIndexToMorton index) (k * m - index.height)
                  (index.height + 1) (u, 0))
            blk.chunked_ndtree) e
        = pathData k (k * m) (nodeIndexToMorton cell) blk.chunked_ndtree e
          + (if index.height + 1 ≤ e
                ∧ sameAncestor (k * m) e (nodeIndexToMorton cell) (nodeIndexToMorton index)
              then (ascendCoefficients T (nodeIndexToMorton index) (e - index.height)
                (index.height + 1) (u, 0)).2 else 0) := by
    intro e he1 he2
    rw [applyWrites_append, pathData_ascendWrites T k (k * m) _ _ hk e he2 _ _ _ _ (by omega),
      pathData_allocWrites]
    by_cases hs : index.height + 1 ≤ e
      ∧ sameAncestor (k * m) e (nodeIndexToMorton cell) (nodeIndexToMorton index)
    · rw [if_pos hs, if_pos ⟨hs.1, by omega, hs.2⟩]
      have e1 : e - (index.height + 1) + 1 = e - index.height := by omega
      rw [e1]
    · rw [if_neg hs, if_neg (fun hc => hs ⟨hc.1, hc.2.2⟩)]
  have h := pathValue_write_below T hT hconst (nodeIndexToMorton cell) (nodeIndexToMorton index)
    (k * m) (pathData k (k * m) (nodeIndexToMorton cell) blk.chunked_ndtree) _
    blk.root_scale_coefficient index.height hi u hD index.height (by omega)
  have e2 : k * m - index.height + index.height = k * m := by omega
  rw [e2] at h
  exact h

/-- C21 at a concrete input: a new block of height 2 with chunk height 1 and
the Haar transform, an update of 5 to the node (1, 3). -/
theorem addToCellValue_raises_subtree_witness :
    (0 : Nat) < 1 ∧ (0 : Nat) < 2
      ∧ (HashedChunkedWaveletOctreeBlock.fresh 2 (-2) 4).tree_height = 1 * 2
      ∧ (⟨1, 3⟩ : OctreeIndex).height
          ≤ (HashedChunkedWaveletOctreeBlock.fresh 2 (-2) 4).tree_height
      ∧ ∃ blk', (HashedChunkedWaveletOctreeBlock.fresh 2 (-2) 4).addToCellValue haar 1 ⟨1, 3⟩ 5
            = some blk'
          ∧ ∀ cell : OctreeIndex, cell.height = 0 →
              blk'.reconstruct haar 1 cell
                = (HashedChunkedWaveletOctreeBlock.fresh 2 (-2) 4).reconstruct haar 1 cell
                  + (if sameAncestor (HashedChunkedWaveletOctreeBlock.fresh 2 (-2) 4).tree_height
                        (⟨1, 3⟩ : OctreeIndex).height (nodeIndexToMorton cell)
                        (nodeIndexToMorton ⟨1, 3⟩) then 5 else 0) :=
  ⟨by decide, by decide, rfl, by decide,
    addToCellValue_raises_subtree haar haar_laws haar_forwardOfConstant 1 2 (by decide)
      (by decide) (HashedChunkedWaveletOctreeBlock.fresh 2 (-2) 4) rfl ⟨1, 3⟩ (by decide) 5⟩
/-- C22 (defect of the code): in a block of height 6 with chunks of height 3,
after `addToCellValue` added 1 to the node of height 2 at position 0 of a new
block, `forEachLeaf` with termination height 2 passes that node to the
visitor with the value 1, which is the value decompressed along the path from
the root to the node; the descent of `setCellValue` for the same node stops
one level early and ends with `current_value = 1/8`, the value of the node's
parent. -/
theorem setCellValue_descent_value_at_chunk_top :
    (HashedChunkedWaveletOctreeBlock.fresh 6 (-2) 4).addToCellValue haar 3 (OctreeIndex.mk 2 0) 1
        = some chunkTopBlock
      ∧ (∃ visits, chunkTopBlock.forEachLeaf haar 3 0 2 = some visits
          ∧ (OctreeIndex.mk 2 0, (1 : ℚ)) ∈ visits)
      ∧ pathValue haar (nodeIndexToMorton (OctreeIndex.mk 2 0)) chunkTopBlock.tree_height
          (pathData 3 chunkTopBlock.tree_height (nodeIndexToMorton (OctreeIndex.mk 2 0))
            chunkTopBlock.chunked_ndtree)
          chunkTopBlock.root_scale_coefficient (chunkTopBlock.tree_height - 2) = 1
      ∧ (setCellValueDescent haar 3 chunkTopBlock.tree_height 2
          (nodeIndexToMorton (OctreeIndex.mk 2 0))
          (chunkTopBlock.tree_height + 1) chunkTopBlock.tree_height
          { tree := chunkTopBlock.chunked_ndtree, chunk_ptrs := initialChunkPtrs,
            current_value := chunkTopBlock.root_scale_coefficient }).map
          (fun st => st.current_value) = some (1 / 8) := by
  refine ⟨addToCellValue_eq haar 3 _ _ _, ?_, by decide!, by decide!⟩
  have h : (chunkTopBlock.forEachLeaf haar 3 0 2).map
      (fun vs => decide ((OctreeIndex.mk 2 0, (1 : ℚ)) ∈ vs)) = some true := by decide!
  cases hv : chunkTopBlock.forEachLeaf haar 3 0 2 with
  | none => simp [hv] at h
  | some visits =>
    rw [hv] at h
    simp only [Option.map_some', Option.some.injEq, decide_eq_true_eq] at h
    exact ⟨visits, rfl, h⟩

end wavemap
